import Mathlib

/-!
# GlobalISel match-table interpreter (`InstructionSelector::executeMatchTable`)

A shallow embedding of
`include/llvm/CodeGen/GlobalISel/InstructionSelectorImpl.h`.  The embeddings
of the loop predication pass, of `csv::__happens_before` and of the XRay
flight data recorder follow it, each in a namespace of its own; the theorems
on all of them come after the definitions.

Conventions of the embedding

* The interpreter is embedded with assertions enabled: a failing `assert`, an
  `llvm_unreachable`, and every use the C++ standard leaves undefined
  (out-of-bounds read of the table or of a vector, null or dangling
  instruction pointer) is the outcome `abort`, tagged with a `Halt` reason.
* An instruction pointer `MachineInstr *` is a natural number indexing the
  storage `MachineFunction.Insts`; a deleted instruction is `none` there.
* Each `case` of the `switch` is one definition `case_<opcode>`.  The value
  `Action.reject c` stands for the idiom
  `if (handleReject() == RejectAndGiveUp) return false; break;`
  executed in state `c`; `step` applies `handleReject` to it.
* Queries answered by collaborators outside this header (register info,
  register banks, complex-pattern callbacks, ...) are fields of `Env`.
-/

namespace GISel

/-! ## Opcode tags -/

/-- The opcode tags dispatched on by `executeMatchTable`, in the order of the
`case` labels of its `switch`. -/
inductive Opcode
  | GIM_Try
  | GIM_RecordInsn
  | GIM_CheckFeatures
  | GIM_CheckOpcode
  | GIM_CheckNumOperands
  | GIM_CheckImmPredicate
  | GIM_CheckType
  | GIM_CheckRegBankForClass
  | GIM_CheckComplexPattern
  | GIM_CheckConstantInt
  | GIM_CheckLiteralInt
  | GIM_CheckIntrinsicID
  | GIM_CheckIsMBB
  | GIM_CheckIsSafeToFold
  | GIM_Reject
  | GIR_MutateOpcode
  | GIR_BuildMI
  | GIR_Copy
  | GIR_CopySubReg
  | GIR_AddImplicitDef
  | GIR_AddImplicitUse
  | GIR_AddRegister
  | GIR_AddImm
  | GIR_ComplexRenderer
  | GIR_CopyConstantAsSImm
  | GIR_ConstrainOperandRC
  | GIR_ConstrainSelectedInstOperands
  | GIR_MergeMemOperands
  | GIR_EraseFromParent
  | GIR_Done
  deriving DecidableEq, Repr

/-- Modelled from the spec: the enumeration that numbers the opcode tags is
declared in `InstructionSelector.h`, a header that is not among the embedded
sources.
The tags are numbered consecutively from 0 in the order in which the `switch`
lists them; the development only relies on distinct tags being distinct. -/
def Opcode.tag : Opcode → Int
  | .GIM_Try => 0
  | .GIM_RecordInsn => 1
  | .GIM_CheckFeatures => 2
  | .GIM_CheckOpcode => 3
  | .GIM_CheckNumOperands => 4
  | .GIM_CheckImmPredicate => 5
  | .GIM_CheckType => 6
  | .GIM_CheckRegBankForClass => 7
  | .GIM_CheckComplexPattern => 8
  | .GIM_CheckConstantInt => 9
  | .GIM_CheckLiteralInt => 10
  | .GIM_CheckIntrinsicID => 11
  | .GIM_CheckIsMBB => 12
  | .GIM_CheckIsSafeToFold => 13
  | .GIM_Reject => 14
  | .GIR_MutateOpcode => 15
  | .GIR_BuildMI => 16
  | .GIR_Copy => 17
  | .GIR_CopySubReg => 18
  | .GIR_AddImplicitDef => 19
  | .GIR_AddImplicitUse => 20
  | .GIR_AddRegister => 21
  | .GIR_AddImm => 22
  | .GIR_ComplexRenderer => 23
  | .GIR_CopyConstantAsSImm => 24
  | .GIR_ConstrainOperandRC => 25
  | .GIR_ConstrainSelectedInstOperands => 26
  | .GIR_MergeMemOperands => 27
  | .GIR_EraseFromParent => 28
  | .GIR_Done => 29

/-- All opcode tags, in declaration order. -/
def Opcode.all : List Opcode :=
  [.GIM_Try, .GIM_RecordInsn, .GIM_CheckFeatures, .GIM_CheckOpcode,
   .GIM_CheckNumOperands, .GIM_CheckImmPredicate, .GIM_CheckType,
   .GIM_CheckRegBankForClass, .GIM_CheckComplexPattern, .GIM_CheckConstantInt,
   .GIM_CheckLiteralInt, .GIM_CheckIntrinsicID, .GIM_CheckIsMBB,
   .GIM_CheckIsSafeToFold, .GIM_Reject, .GIR_MutateOpcode, .GIR_BuildMI,
   .GIR_Copy, .GIR_CopySubReg, .GIR_AddImplicitDef, .GIR_AddImplicitUse,
   .GIR_AddRegister, .GIR_AddImm, .GIR_ComplexRenderer,
   .GIR_CopyConstantAsSImm, .GIR_ConstrainOperandRC,
   .GIR_ConstrainSelectedInstOperands, .GIR_MergeMemOperands,
   .GIR_EraseFromParent, .GIR_Done]

/-- The `switch` dispatch: the opcode whose `case` label equals the value read
from the table; `none` selects the `default:` label. -/
def decodeOpcode (v : Int) : Option Opcode :=
  Opcode.all.find? (fun o => o.tag == v)

/-- The sentinel `GIU_MergeMemOperands_EndOfList` that ends the list of
`GIR_MergeMemOperands`.  Modelled from the spec: it is declared in
`InstructionSelector.h` (not embedded) next to the opcode tags, as a value no
instruction ID can take. -/
def GIU_MergeMemOperands_EndOfList : Int := -1

/-- The constant `GIPFP_Invalid` of the header (first enumerator, value 0). -/
def GIPFP_Invalid : Int := 0

/-- The matching opcodes `GIM_*`. -/
def Opcode.isGIM : Opcode → Bool
  | .GIM_Try | .GIM_RecordInsn | .GIM_CheckFeatures | .GIM_CheckOpcode
  | .GIM_CheckNumOperands | .GIM_CheckImmPredicate | .GIM_CheckType
  | .GIM_CheckRegBankForClass | .GIM_CheckComplexPattern
  | .GIM_CheckConstantInt | .GIM_CheckLiteralInt | .GIM_CheckIntrinsicID
  | .GIM_CheckIsMBB | .GIM_CheckIsSafeToFold | .GIM_Reject => true
  | _ => false

/-- The opcodes that can invoke rejection handling: `GIM_RecordInsn`, the
`GIM_Check*` opcodes and `GIM_Reject`. -/
def Opcode.canReject (o : Opcode) : Bool :=
  o.isGIM && o != .GIM_Try

/-- The emission opcodes: every `GIR_*` opcode other than `GIR_Done`. -/
def Opcode.isEmission (o : Opcode) : Bool :=
  !o.isGIM && o != .GIR_Done

/-! ## Machine integers -/

/-- An `int64_t` value. -/
def IsInt64 (v : Int) : Prop := -2 ^ 63 ≤ v ∧ v < 2 ^ 63

instance (v : Int) : Decidable (IsInt64 v) := by
  unfold IsInt64; infer_instance

/-- The table is an array of `int64_t`. -/
def Int64Table (T : List Int) : Prop := ∀ v ∈ T, IsInt64 v

instance (T : List Int) : Decidable (Int64Table T) := by
  unfold Int64Table; infer_instance

/-- Conversion of an `int64_t` to `size_t` / `uint64_t`. -/
def toSizeT (v : Int) : Nat := (v % 2 ^ 64).toNat

/-- Conversion of an `int64_t` to `unsigned` (32 bits). -/
def toUnsigned (v : Int) : Nat := (v % 2 ^ 32).toNat

/-! ## Instructions and the instruction stream -/

/-- A machine operand.  Modelled from the spec: `MachineOperand.h` is not
embedded; the embedding keeps the operand kinds the interpreter distinguishes
(`isReg`, `isImm`, `isCImm`, `isMBB`, `isIntrinsicID`) and, for a register, the
flags the emission opcodes set (def/use, implicit, sub-register index).  A
`cimm` is a `ConstantInt` given by its bit width and its zero-extended
value. -/
inductive MachineOperand
  | reg (r : Nat) (isDef : Bool) (isImplicit : Bool) (subReg : Nat)
  | imm (v : Int)
  | cimm (bits : Nat) (val : Nat)
  | mbb (b : Nat)
  | intrinsicID (id : Nat)
  | other (k : Nat)
  deriving DecidableEq, Repr

/-- Modelled from the spec: `ConstantInt::getSExtValue`, the constant
sign-extended to 64 bits. -/
def getSExtValue (bits val : Nat) : Int :=
  if val < 2 ^ (bits - 1) then (val : Int) else (val : Int) - 2 ^ bits

/-- Modelled from the spec: `ConstantInt::equalsInt(uint64_t)`, equality of
the zero-extended constant with the argument converted to `uint64_t`. -/
def equalsInt (val : Nat) (V : Int) : Bool :=
  val == toSizeT V

/-- A complex renderer (`ComplexRendererFn`, a `std::function`).  Modelled
from the spec: the type is declared in `InstructionSelector.h` (not embedded);
a renderer is a deferred closure that appends operands to an output
instruction, so it is represented by the operands it appends; `none` is the
empty `std::function`, which tests false. -/
abbrev ComplexRendererFn := Option (List MachineOperand)

/-- A machine instruction: opcode (of its descriptor), operand list, memory
operands and debug location. -/
structure MachineInstr where
  Opcode : Nat
  Operands : List MachineOperand
  MemRefs : List Nat
  DebugLoc : Nat
  deriving DecidableEq, Repr

/-- The instruction stream.  `Insts` is the storage addressed by instruction
pointers (`none`: deleted), `Blocks` lists, for every basic block, the
pointers of its instructions in program order. -/
structure MachineFunction where
  Insts : List (Option MachineInstr)
  Blocks : List (List Nat)
  deriving DecidableEq, Repr

/-- `MachineInstr::getParent`: index of the basic block holding `p`. -/
def MachineFunction.getParent (mf : MachineFunction) (p : Nat) : Option Nat :=
  let i := mf.Blocks.findIdx (fun b => b.contains p)
  if i < mf.Blocks.length then some i else none

/-- Insert pointer `q` immediately before `p` in a block. -/
def insertBefore (q p : Nat) : List Nat → List Nat
  | [] => []
  | x :: xs => if x = p then q :: x :: xs else x :: insertBefore q p xs

/-- Overwrite the instruction stored at `p`. -/
def MachineFunction.setInst (mf : MachineFunction) (p : Nat) (mi : MachineInstr) :
    MachineFunction :=
  { mf with Insts := mf.Insts.set p (some mi) }

/-- Modelled from the spec: `BuildMI(MBB, I, DL, MCID)` of
`MachineInstrBuilder.h` (not embedded) creates an instruction with the given
opcode and no operands yet and inserts it in block `b` immediately before
`root`.  The new instruction gets the fresh pointer `mf.Insts.length`. -/
def MachineFunction.buildMI (mf : MachineFunction) (b root : Nat) (dl opc : Nat) :
    Nat × MachineFunction :=
  (mf.Insts.length,
   { Insts := mf.Insts ++ [some ⟨opc, [], [], dl⟩]
     Blocks := mf.Blocks.set b (insertBefore mf.Insts.length root (mf.Blocks.getD b [])) })

/-- Modelled from the spec: `MachineInstr::eraseFromParent` unlinks the
instruction from its block `b` and deletes it. -/
def MachineFunction.eraseFromParent (mf : MachineFunction) (b p : Nat) : MachineFunction :=
  { Insts := mf.Insts.set p none
    Blocks := mf.Blocks.set b ((mf.Blocks.getD b []).erase p) }

/-- The instructions of the stream in program order (all blocks). -/
def MachineFunction.stream (mf : MachineFunction) : List Nat :=
  mf.Blocks.flatten

/-! ## Interpreter state -/

/-- The struct `MatcherState`: captured renderers and matched instructions. -/
structure MatcherState where
  Renderers : List ComplexRendererFn
  MIs : List (Option Nat)
  deriving DecidableEq, Repr

/-- Everything `executeMatchTable` reads and writes: its locals `CurrentIdx`
and `OnFailResumeAt`, the reference parameters `State` and `OutMIs`, and the
instruction stream reachable through the instruction pointers. -/
structure Config where
  CurrentIdx : Nat
  OnFailResumeAt : List Nat
  State : MatcherState
  OutMIs : List (Option Nat)
  MF : MachineFunction
  deriving DecidableEq, Repr

/-- The read-only collaborators: `MatcherInfo`, `AvailableFeatures`, `TII`,
`MRI`, `TRI`, `RBI`, the target selector `ISel` and the helper functions
declared outside this header.  Queries that depend on the instruction stream
take it as an argument. -/
structure Env where
  /-- Feature bitsets `MatcherInfo.FeatureBitsets`, a bitset being the number
  whose binary digits are its bits. -/
  FeatureBitsets : List Nat
  AvailableFeatures : Nat
  /-- The table `MatcherInfo.TypeObjects`. -/
  TypeObjects : List Nat
  /-- The table `MatcherInfo.ImmPredicateFns`. -/
  ImmPredicateFns : List (Int → Bool)
  /-- The table `MatcherInfo.ComplexPredicates`, applied through `ISel`. -/
  ComplexPredicates : List (MachineFunction → MachineOperand → ComplexRendererFn)
  isPhysicalRegister : Nat → Bool
  getVRegDef : MachineFunction → Nat → Option Nat
  getType : MachineFunction → Nat → Nat
  /-- The query `TRI.getRegClass`; `none` when the enum value names no class. -/
  getRegClass : Nat → Option Nat
  getRegBankFromRegClass : Nat → Nat
  getRegBank : MachineFunction → Nat → Option Nat
  isOperandImmEqual : MachineFunction → MachineOperand → Int → Bool
  isObviouslySafeToFold : MachineFunction → Nat → Bool
  constrainOperandRegToRegClass : MachineFunction → Nat → Nat → Nat → MachineFunction
  constrainSelectedInstRegOperands : MachineFunction → Nat → MachineFunction
  /-- Number of opcodes of the target: `TII.get` asserts its argument is below it. -/
  NumOpcodes : Nat
  /-- The opcode `TargetOpcode::G_CONSTANT`. -/
  G_CONSTANT : Nat

/-- Why the interpreter stopped without returning. -/
inductive Halt
  /-- Assertion `Invalid MatchTable index`. -/
  | invalidIndex
  /-- Read past the end of the match table. -/
  | tableOverrun
  /-- Assertion `Refusing to modify MIs[0]`. -/
  | refusingToModifyRoot
  /-- Assertion `Expected to store MIs in order`. -/
  | storeOutOfOrder
  /-- Assertion `Used insn before defined`. -/
  | usedBeforeDefined
  /-- Index outside a vector or a table of `MatcherInfo`. -/
  | indexOutOfRange
  /-- Null instruction pointer dereferenced. -/
  | nullDeref
  /-- Pointer to a deleted instruction dereferenced. -/
  | danglingPointer
  /-- Operand index not below `getNumOperands()`. -/
  | noSuchOperand
  /-- Accessor `getReg()` on an operand that is not a register. -/
  | notARegister
  /-- Instruction that is in no basic block where a parent is needed. -/
  | noParent
  /-- Assertion `Expected G_CONSTANT`. -/
  | expectedGConstant
  /-- Assertion `Expected a valid predicate`. -/
  | invalidPredicate
  /-- Statement `llvm_unreachable("Expected Imm or CImm operand")`. -/
  | expectedImmOrCImm
  /-- Assertion `Attempted to add to undefined instruction`. -/
  | undefinedOutput
  /-- Assertion `Attempted to erase an undefined instruction`. -/
  | eraseUndefined
  /-- Assertion `Invalid opcode!` of `TII.get`. -/
  | invalidOpcode
  /-- Register class enum that names no class. -/
  | invalidRegClass
  /-- Call of an empty `std::function`. -/
  | emptyRenderer
  /-- Statement `llvm_unreachable("Unexpected command")`. -/
  | unexpectedCommand
  deriving DecidableEq, Repr

/-- What one `case` of the `switch` does: fall through to the next loop
iteration (`break`), invoke rejection handling, or `return true`. -/
inductive Action
  | next (c : Config)
  | reject (c : Config)
  | done (c : Config)
  deriving DecidableEq, Repr

/-- The enum `RejectAction`. -/
inductive RejectAction
  | RejectAndGiveUp
  | RejectAndResume
  deriving DecidableEq, Repr

/-! ## Accessors -/

/-- The read `MatchTable[CurrentIdx++]`. -/
def fetch (T : List Int) (c : Config) : Except Halt (Int × Config) :=
  match T[c.CurrentIdx]? with
  | some v => .ok (v, { c with CurrentIdx := c.CurrentIdx + 1 })
  | none => .error .tableOverrun

/-- Indexing of a `SmallVector` / `std::vector` by an `int64_t`, which is
converted to `size_t`. -/
def vectorAt {α : Type} (xs : List α) (i : Int) : Except Halt α :=
  match xs[toSizeT i]? with
  | some x => .ok x
  | none => .error .indexOutOfRange

/-- Indexing of a plain array (a table of `MatcherInfo`) by an `int64_t`. -/
def arrayAt {α : Type} (xs : List α) (i : Int) : Except Halt α :=
  if i < 0 then .error .indexOutOfRange
  else match xs[i.toNat]? with
    | some x => .ok x
    | none => .error .indexOutOfRange

/-- Dereference of a live, non-null instruction pointer. -/
def MachineFunction.deref (mf : MachineFunction) (p : Nat) : Except Halt MachineInstr :=
  match mf.Insts[p]? with
  | some (some mi) => .ok mi
  | _ => .error .danglingPointer

/-- The expression `State.MIs[InsnID]->...` without a preceding assertion: the
slot must exist and the pointer must be non-null. -/
def getMI (c : Config) (InsnID : Int) : Except Halt (Nat × MachineInstr) := do
  let p ← vectorAt c.State.MIs InsnID
  match p with
  | none => .error .nullDeref
  | some q =>
    let mi ← c.MF.deref q
    pure (q, mi)

/-- The expression `State.MIs[InsnID]` guarded by
`assert(State.MIs[InsnID] != nullptr && "Used insn before defined")`. -/
def getDefinedMI (c : Config) (InsnID : Int) : Except Halt (Nat × MachineInstr) := do
  let p ← vectorAt c.State.MIs InsnID
  match p with
  | none => .error .usedBeforeDefined
  | some q =>
    let mi ← c.MF.deref q
    pure (q, mi)

/-- The assertion
`assert(OutMIs[InsnID] && "Attempted to add to undefined instruction")`:
the builder exists and holds an instruction pointer, which is returned. -/
def assertOutMI (c : Config) (InsnID : Int) : Except Halt Nat := do
  let p ← vectorAt c.OutMIs InsnID
  match p with
  | none => .error .undefinedOutput
  | some q => pure q

/-- The asserted builder `OutMIs[InsnID]` together with the instruction it
points to, for the cases that go on to access that instruction. -/
def getOutMI (c : Config) (InsnID : Int) : Except Halt (Nat × MachineInstr) := do
  let q ← assertOutMI c InsnID
  let mi ← c.MF.deref q
  pure (q, mi)

/-- The call `MI.getOperand(OpIdx)`; the index is converted to `unsigned`. -/
def getOperand (mi : MachineInstr) (OpIdx : Int) : Except Halt MachineOperand :=
  match mi.Operands[toUnsigned OpIdx]? with
  | some mo => .ok mo
  | none => .error .noSuchOperand

/-- The call `MO.getReg()`. -/
def getReg : MachineOperand → Except Halt Nat
  | .reg r _ _ _ => .ok r
  | _ => .error .notARegister

/-- Modelled from the spec: the call `TII.get(Opcode)` of `TargetInstrInfo`
yields the descriptor of the opcode, which the embedding identifies with the
opcode number; it asserts that the opcode exists. -/
def TII_get (env : Env) (Opcode : Int) : Except Halt Nat :=
  if toUnsigned Opcode < env.NumOpcodes then .ok (toUnsigned Opcode)
  else .error .invalidOpcode

/-- Modelled from the spec: `MachineInstrBuilder::add` and its variants append
operands to the instruction the builder points to. -/
def addOperands (c : Config) (q : Nat) (mi : MachineInstr) (mos : List MachineOperand) :
    Config :=
  { c with MF := c.MF.setInst q { mi with Operands := mi.Operands ++ mos } }

/-! ## The rejection handler -/

/-- The lambda `handleReject`. -/
def handleReject (c : Config) : RejectAction × Config :=
  if c.OnFailResumeAt.isEmpty then (.RejectAndGiveUp, c)
  else
    (.RejectAndResume,
      { c with
        CurrentIdx := c.OnFailResumeAt.getLastD 0
        OnFailResumeAt := c.OnFailResumeAt.dropLast })

/-! ## The cases of the `switch`: matching opcodes -/

/-- The case `GIM_Try`: push the resume target. -/
def case_GIM_Try (T : List Int) (c : Config) : Except Halt Action := do
  let (target, c) ← fetch T c
  pure (.next { c with OnFailResumeAt := c.OnFailResumeAt ++ [toSizeT target] })

/-- The case `GIM_RecordInsn`. -/
def case_GIM_RecordInsn (env : Env) (T : List Int) (c : Config) : Except Halt Action := do
  let (NewInsnID, c) ← fetch T c
  let (InsnID, c) ← fetch T c
  let (OpIdx, c) ← fetch T c
  if NewInsnID = 0 then throw .refusingToModifyRoot
  let (_, mi) ← getMI c InsnID
  let MO ← getOperand mi OpIdx
  match MO with
  | .reg r _ _ _ =>
    if env.isPhysicalRegister r then pure (.reject c)
    else
      let NewMI := env.getVRegDef c.MF r
      if toSizeT NewInsnID < c.State.MIs.length then
        pure (.next { c with
          State := { c.State with MIs := c.State.MIs.set (toSizeT NewInsnID) NewMI } })
      else if toSizeT NewInsnID = c.State.MIs.length then
        pure (.next { c with State := { c.State with MIs := c.State.MIs ++ [NewMI] } })
      else throw .storeOutOfOrder
  | _ => pure (.reject c)

/-- The case `GIM_CheckFeatures`. -/
def case_GIM_CheckFeatures (env : Env) (T : List Int) (c : Config) : Except Halt Action := do
  let (ExpectedBitsetID, c) ← fetch T c
  let expected ← arrayAt env.FeatureBitsets ExpectedBitsetID
  if (env.AvailableFeatures &&& expected) ≠ expected then pure (.reject c)
  else pure (.next c)

/-- The case `GIM_CheckOpcode`. -/
def case_GIM_CheckOpcode (T : List Int) (c : Config) : Except Halt Action := do
  let (InsnID, c) ← fetch T c
  let (Expected, c) ← fetch T c
  let (_, mi) ← getMI c InsnID
  if (mi.Opcode : Int) ≠ Expected then pure (.reject c)
  else pure (.next c)

/-- The case `GIM_CheckNumOperands`. -/
def case_GIM_CheckNumOperands (T : List Int) (c : Config) : Except Halt Action := do
  let (InsnID, c) ← fetch T c
  let (Expected, c) ← fetch T c
  let (_, mi) ← getDefinedMI c InsnID
  if (mi.Operands.length : Int) ≠ Expected then pure (.reject c)
  else pure (.next c)

/-- The case `GIM_CheckImmPredicate`. -/
def case_GIM_CheckImmPredicate (env : Env) (T : List Int) (c : Config) :
    Except Halt Action := do
  let (InsnID, c) ← fetch T c
  let (Predicate, c) ← fetch T c
  let (_, mi) ← getDefinedMI c InsnID
  if mi.Opcode ≠ env.G_CONSTANT then throw .expectedGConstant
  if ¬ (Predicate > GIPFP_Invalid) then throw .invalidPredicate
  let MO ← getOperand mi 1
  let Value ← (match MO with
    | .cimm bits val => pure (getSExtValue bits val)
    | .imm v => pure v
    | _ => throw .expectedImmOrCImm : Except Halt Int)
  let pred ← arrayAt env.ImmPredicateFns Predicate
  if ¬ pred Value then pure (.reject c)
  else pure (.next c)

/-- The case `GIM_CheckType`. -/
def case_GIM_CheckType (env : Env) (T : List Int) (c : Config) : Except Halt Action := do
  let (InsnID, c) ← fetch T c
  let (OpIdx, c) ← fetch T c
  let (TypeID, c) ← fetch T c
  let (_, mi) ← getDefinedMI c InsnID
  let MO ← getOperand mi OpIdx
  let r ← getReg MO
  let ty ← arrayAt env.TypeObjects TypeID
  if env.getType c.MF r ≠ ty then pure (.reject c)
  else pure (.next c)

/-- The case `GIM_CheckRegBankForClass`. -/
def case_GIM_CheckRegBankForClass (env : Env) (T : List Int) (c : Config) :
    Except Halt Action := do
  let (InsnID, c) ← fetch T c
  let (OpIdx, c) ← fetch T c
  let (RCEnum, c) ← fetch T c
  let (_, mi) ← getDefinedMI c InsnID
  let rc ← (match env.getRegClass (toUnsigned RCEnum) with
    | some rc => pure rc
    | none => throw .invalidRegClass : Except Halt Nat)
  let MO ← getOperand mi OpIdx
  let r ← getReg MO
  if some (env.getRegBankFromRegClass rc) ≠ env.getRegBank c.MF r then pure (.reject c)
  else pure (.next c)

/-- The case `GIM_CheckComplexPattern`: the result of the callback is stored
in `State.Renderers[RendererID]` and then tested. -/
def case_GIM_CheckComplexPattern (env : Env) (T : List Int) (c : Config) :
    Except Halt Action := do
  let (InsnID, c) ← fetch T c
  let (OpIdx, c) ← fetch T c
  let (RendererID, c) ← fetch T c
  let (ComplexPredicateID, c) ← fetch T c
  let (_, mi) ← getDefinedMI c InsnID
  let callback ← arrayAt env.ComplexPredicates ComplexPredicateID
  let MO ← getOperand mi OpIdx
  let renderer := callback c.MF MO
  if ¬ (toSizeT RendererID < c.State.Renderers.length) then throw .indexOutOfRange
  let c := { c with
    State := { c.State with Renderers := c.State.Renderers.set (toSizeT RendererID) renderer } }
  if renderer.isNone then pure (.reject c)
  else pure (.next c)

/-- The case `GIM_CheckConstantInt`. -/
def case_GIM_CheckConstantInt (env : Env) (T : List Int) (c : Config) :
    Except Halt Action := do
  let (InsnID, c) ← fetch T c
  let (OpIdx, c) ← fetch T c
  let (Value, c) ← fetch T c
  let (_, mi) ← getDefinedMI c InsnID
  let MO ← getOperand mi OpIdx
  if ¬ env.isOperandImmEqual c.MF MO Value then pure (.reject c)
  else pure (.next c)

/-- The case `GIM_CheckLiteralInt`. -/
def case_GIM_CheckLiteralInt (T : List Int) (c : Config) : Except Halt Action := do
  let (InsnID, c) ← fetch T c
  let (OpIdx, c) ← fetch T c
  let (Value, c) ← fetch T c
  let (_, mi) ← getDefinedMI c InsnID
  let MO ← getOperand mi OpIdx
  match MO with
  | .cimm _ val => if ¬ equalsInt val Value then pure (.reject c) else pure (.next c)
  | _ => pure (.reject c)

/-- The case `GIM_CheckIntrinsicID`. -/
def case_GIM_CheckIntrinsicID (T : List Int) (c : Config) : Except Halt Action := do
  let (InsnID, c) ← fetch T c
  let (OpIdx, c) ← fetch T c
  let (Value, c) ← fetch T c
  let (_, mi) ← getDefinedMI c InsnID
  let MO ← getOperand mi OpIdx
  match MO with
  | .intrinsicID id => if (id : Int) ≠ Value then pure (.reject c) else pure (.next c)
  | _ => pure (.reject c)

/-- The case `GIM_CheckIsMBB`. -/
def case_GIM_CheckIsMBB (T : List Int) (c : Config) : Except Halt Action := do
  let (InsnID, c) ← fetch T c
  let (OpIdx, c) ← fetch T c
  let (_, mi) ← getDefinedMI c InsnID
  let MO ← getOperand mi OpIdx
  match MO with
  | .mbb _ => pure (.next c)
  | _ => pure (.reject c)

/-- The case `GIM_CheckIsSafeToFold`. -/
def case_GIM_CheckIsSafeToFold (env : Env) (T : List Int) (c : Config) :
    Except Halt Action := do
  let (InsnID, c) ← fetch T c
  let (q, _) ← getDefinedMI c InsnID
  if ¬ env.isObviouslySafeToFold c.MF q then pure (.reject c)
  else pure (.next c)

/-- The case `GIM_Reject`. -/
def case_GIM_Reject (c : Config) : Except Halt Action :=
  pure (.reject c)

/-! ## The cases of the `switch`: emission opcodes -/

/-- The case `GIR_MutateOpcode`. -/
def case_GIR_MutateOpcode (env : Env) (T : List Int) (c : Config) : Except Halt Action := do
  let (OldInsnID, c) ← fetch T c
  let (NewInsnID, c) ← fetch T c
  let (NewOpcode, c) ← fetch T c
  if toSizeT NewInsnID ≠ c.OutMIs.length then throw .storeOutOfOrder
  let (q, mi) ← getMI c OldInsnID
  if (c.MF.getParent q).isNone then throw .noParent
  let c := { c with OutMIs := c.OutMIs ++ [some q] }
  let desc ← TII_get env NewOpcode
  pure (.next { c with MF := c.MF.setInst q { mi with Opcode := desc } })

/-- The case `GIR_BuildMI`. -/
def case_GIR_BuildMI (env : Env) (T : List Int) (c : Config) : Except Halt Action := do
  let (InsnID, c) ← fetch T c
  let (Opcode, c) ← fetch T c
  if toSizeT InsnID ≠ c.OutMIs.length then throw .storeOutOfOrder
  let (root, mi) ← getMI c 0
  let b ← (match c.MF.getParent root with
    | some b => pure b
    | none => throw .noParent : Except Halt Nat)
  let desc ← TII_get env Opcode
  let (q, mf) := c.MF.buildMI b root mi.DebugLoc desc
  pure (.next { c with OutMIs := c.OutMIs ++ [some q], MF := mf })

/-- The case `GIR_Copy`. -/
def case_GIR_Copy (T : List Int) (c : Config) : Except Halt Action := do
  let (NewInsnID, c) ← fetch T c
  let (OldInsnID, c) ← fetch T c
  let (OpIdx, c) ← fetch T c
  let (q, out) ← getOutMI c NewInsnID
  let (_, mi) ← getMI c OldInsnID
  let MO ← getOperand mi OpIdx
  pure (.next (addOperands c q out [MO]))

/-- The case `GIR_CopySubReg`. -/
def case_GIR_CopySubReg (T : List Int) (c : Config) : Except Halt Action := do
  let (NewInsnID, c) ← fetch T c
  let (OldInsnID, c) ← fetch T c
  let (OpIdx, c) ← fetch T c
  let (SubRegIdx, c) ← fetch T c
  let (q, out) ← getOutMI c NewInsnID
  let (_, mi) ← getMI c OldInsnID
  let MO ← getOperand mi OpIdx
  let r ← getReg MO
  pure (.next (addOperands c q out [.reg r false false (toUnsigned SubRegIdx)]))

/-- The case `GIR_AddImplicitDef`. -/
def case_GIR_AddImplicitDef (T : List Int) (c : Config) : Except Halt Action := do
  let (InsnID, c) ← fetch T c
  let (RegNum, c) ← fetch T c
  let (q, out) ← getOutMI c InsnID
  pure (.next (addOperands c q out [.reg (toUnsigned RegNum) true true 0]))

/-- The case `GIR_AddImplicitUse`. -/
def case_GIR_AddImplicitUse (T : List Int) (c : Config) : Except Halt Action := do
  let (InsnID, c) ← fetch T c
  let (RegNum, c) ← fetch T c
  let (q, out) ← getOutMI c InsnID
  pure (.next (addOperands c q out [.reg (toUnsigned RegNum) false true 0]))

/-- The case `GIR_AddRegister`. -/
def case_GIR_AddRegister (T : List Int) (c : Config) : Except Halt Action := do
  let (InsnID, c) ← fetch T c
  let (RegNum, c) ← fetch T c
  let (q, out) ← getOutMI c InsnID
  pure (.next (addOperands c q out [.reg (toUnsigned RegNum) false false 0]))

/-- The case `GIR_AddImm`. -/
def case_GIR_AddImm (T : List Int) (c : Config) : Except Halt Action := do
  let (InsnID, c) ← fetch T c
  let (Imm, c) ← fetch T c
  let (q, out) ← getOutMI c InsnID
  pure (.next (addOperands c q out [.imm Imm]))

/-- The case `GIR_ComplexRenderer`. -/
def case_GIR_ComplexRenderer (T : List Int) (c : Config) : Except Halt Action := do
  let (InsnID, c) ← fetch T c
  let (RendererID, c) ← fetch T c
  let (q, out) ← getOutMI c InsnID
  let renderer ← vectorAt c.State.Renderers RendererID
  match renderer with
  | none => throw .emptyRenderer
  | some mos => pure (.next (addOperands c q out mos))

/-- The case `GIR_CopyConstantAsSImm`. -/
def case_GIR_CopyConstantAsSImm (env : Env) (T : List Int) (c : Config) :
    Except Halt Action := do
  let (NewInsnID, c) ← fetch T c
  let (OldInsnID, c) ← fetch T c
  let (q, out) ← getOutMI c NewInsnID
  let (_, mi) ← getMI c OldInsnID
  if mi.Opcode ≠ env.G_CONSTANT then throw .expectedGConstant
  let MO ← getOperand mi 1
  match MO with
  | .cimm bits val => pure (.next (addOperands c q out [.imm (getSExtValue bits val)]))
  | .imm v => pure (.next (addOperands c q out [.imm v]))
  | _ => throw .expectedImmOrCImm

/-- The case `GIR_ConstrainOperandRC`. -/
def case_GIR_ConstrainOperandRC (env : Env) (T : List Int) (c : Config) :
    Except Halt Action := do
  let (InsnID, c) ← fetch T c
  let (OpIdx, c) ← fetch T c
  let (RCEnum, c) ← fetch T c
  let (q, _) ← getOutMI c InsnID
  match env.getRegClass (toUnsigned RCEnum) with
  | none => throw .invalidRegClass
  | some rc =>
    pure (.next { c with
      MF := env.constrainOperandRegToRegClass c.MF q (toUnsigned OpIdx) rc })

/-- The case `GIR_ConstrainSelectedInstOperands`. -/
def case_GIR_ConstrainSelectedInstOperands (env : Env) (T : List Int) (c : Config) :
    Except Halt Action := do
  let (InsnID, c) ← fetch T c
  let (q, _) ← getOutMI c InsnID
  pure (.next { c with MF := env.constrainSelectedInstRegOperands c.MF q })

/-- The inner `while` loop of `GIR_MergeMemOperands`, run over the table
entries from `CurrentIdx` on: it stops after the sentinel and appends, for
every other entry, the memory operands of that matched instruction to the
output instruction `OutMIs[InsnID]`. -/
def mergeMemOperandsLoop (InsnID : Int) : List Int → Config → Except Halt Config
  | [], _ => .error .tableOverrun
  | MergeInsnID :: rest, c => do
    let c := { c with CurrentIdx := c.CurrentIdx + 1 }
    if MergeInsnID = GIU_MergeMemOperands_EndOfList then pure c
    else
      let (_, mi) ← getMI c MergeInsnID
      let (q, out) ← getOutMI c InsnID
      let c := { c with MF := c.MF.setInst q { out with MemRefs := out.MemRefs ++ mi.MemRefs } }
      mergeMemOperandsLoop InsnID rest c

/-- The case `GIR_MergeMemOperands`. -/
def case_GIR_MergeMemOperands (T : List Int) (c : Config) : Except Halt Action := do
  let (InsnID, c) ← fetch T c
  let _ ← assertOutMI c InsnID
  let c ← mergeMemOperandsLoop InsnID (T.drop c.CurrentIdx) c
  pure (.next c)

/-- The case `GIR_EraseFromParent`. -/
def case_GIR_EraseFromParent (T : List Int) (c : Config) : Except Halt Action := do
  let (InsnID, c) ← fetch T c
  let p ← vectorAt c.State.MIs InsnID
  match p with
  | none => throw .eraseUndefined
  | some q =>
    let _ ← c.MF.deref q
    match c.MF.getParent q with
    | none => throw .noParent
    | some b => pure (.next { c with MF := c.MF.eraseFromParent b q })

/-- The case `GIR_Done`. -/
def case_GIR_Done (c : Config) : Except Halt Action :=
  pure (.done c)

/-! ## The interpreter loop -/

/-- The body selected by the `switch` for a decoded opcode. -/
def execCase (env : Env) (T : List Int) : Opcode → Config → Except Halt Action
  | .GIM_Try, c => case_GIM_Try T c
  | .GIM_RecordInsn, c => case_GIM_RecordInsn env T c
  | .GIM_CheckFeatures, c => case_GIM_CheckFeatures env T c
  | .GIM_CheckOpcode, c => case_GIM_CheckOpcode T c
  | .GIM_CheckNumOperands, c => case_GIM_CheckNumOperands T c
  | .GIM_CheckImmPredicate, c => case_GIM_CheckImmPredicate env T c
  | .GIM_CheckType, c => case_GIM_CheckType env T c
  | .GIM_CheckRegBankForClass, c => case_GIM_CheckRegBankForClass env T c
  | .GIM_CheckComplexPattern, c => case_GIM_CheckComplexPattern env T c
  | .GIM_CheckConstantInt, c => case_GIM_CheckConstantInt env T c
  | .GIM_CheckLiteralInt, c => case_GIM_CheckLiteralInt T c
  | .GIM_CheckIntrinsicID, c => case_GIM_CheckIntrinsicID T c
  | .GIM_CheckIsMBB, c => case_GIM_CheckIsMBB T c
  | .GIM_CheckIsSafeToFold, c => case_GIM_CheckIsSafeToFold env T c
  | .GIM_Reject, c => case_GIM_Reject c
  | .GIR_MutateOpcode, c => case_GIR_MutateOpcode env T c
  | .GIR_BuildMI, c => case_GIR_BuildMI env T c
  | .GIR_Copy, c => case_GIR_Copy T c
  | .GIR_CopySubReg, c => case_GIR_CopySubReg T c
  | .GIR_AddImplicitDef, c => case_GIR_AddImplicitDef T c
  | .GIR_AddImplicitUse, c => case_GIR_AddImplicitUse T c
  | .GIR_AddRegister, c => case_GIR_AddRegister T c
  | .GIR_AddImm, c => case_GIR_AddImm T c
  | .GIR_ComplexRenderer, c => case_GIR_ComplexRenderer T c
  | .GIR_CopyConstantAsSImm, c => case_GIR_CopyConstantAsSImm env T c
  | .GIR_ConstrainOperandRC, c => case_GIR_ConstrainOperandRC env T c
  | .GIR_ConstrainSelectedInstOperands, c => case_GIR_ConstrainSelectedInstOperands env T c
  | .GIR_MergeMemOperands, c => case_GIR_MergeMemOperands T c
  | .GIR_EraseFromParent, c => case_GIR_EraseFromParent T c
  | .GIR_Done, c => case_GIR_Done c

/-- The opcode the `switch` dispatches on in configuration `c`: the decoded
value of `MatchTable[CurrentIdx]`. -/
def opcodeAt (T : List Int) (c : Config) : Option Opcode :=
  match T[c.CurrentIdx]? with
  | some v => decodeOpcode v
  | none => none

/-- One iteration of `while (true)` up to the end of the selected case:
the assertion on `CurrentIdx`, the read `MatchTable[CurrentIdx++]`, the
dispatch and the case body. -/
def execOpcode (env : Env) (T : List Int) (c : Config) : Except Halt Action := do
  if c.CurrentIdx = 4294967295 then throw .invalidIndex
  let (v, c) ← fetch T c
  match decodeOpcode v with
  | none => throw .unexpectedCommand
  | some op => execCase env T op c

/-- Result of one loop iteration. -/
inductive Outcome
  /-- The loop goes on in the given configuration (`break`). -/
  | next (c : Config)
  /-- The function returns the given value; the configuration is final. -/
  | ret (b : Bool) (c : Config)
  /-- The function halts without returning. -/
  | abort (h : Halt)
  deriving DecidableEq, Repr

/-- One iteration of the loop `while (true)`, rejection handling included. -/
def step (env : Env) (T : List Int) (c : Config) : Outcome :=
  match execOpcode env T c with
  | .error h => .abort h
  | .ok (.next c1) => .next c1
  | .ok (.done c1) => .ret true c1
  | .ok (.reject c1) =>
    match handleReject c1 with
    | (.RejectAndGiveUp, c2) => .ret false c2
    | (.RejectAndResume, c2) => .next c2

/-- How a call ends: it returns a value, or it halts. -/
inductive Result
  | returned (b : Bool) (c : Config)
  | aborted (h : Halt)
  deriving DecidableEq, Repr

/-- The loop `while (true)` run for at most `fuel` iterations; `none` when the
loop is still running after that many iterations. -/
def run (env : Env) (T : List Int) : Nat → Config → Option Result
  | 0, _ => none
  | fuel + 1, c =>
    match step env T c with
    | .next c1 => run env T fuel c1
    | .ret b c1 => some (.returned b c1)
    | .abort h => some (.aborted h)

/-- The configuration in which `executeMatchTable` enters its loop. -/
def initial (OutMIs : List (Option Nat)) (State : MatcherState) (MF : MachineFunction) :
    Config :=
  { CurrentIdx := 0, OnFailResumeAt := [], State := State, OutMIs := OutMIs, MF := MF }

/-- The function `InstructionSelector::executeMatchTable`, run for at most
`fuel` loop iterations. -/
def executeMatchTable (env : Env) (OutMIs : List (Option Nat)) (State : MatcherState)
    (T : List Int) (MF : MachineFunction) (fuel : Nat) : Option Result :=
  run env T fuel (initial OutMIs State MF)

/-- The configuration after `k` loop iterations that all went on (`none` if
the call ended earlier). -/
def after (env : Env) (T : List Int) : Nat → Config → Option Config
  | 0, c => some c
  | k + 1, c =>
    match step env T c with
    | .next c1 => after env T k c1
    | _ => none

/-! ## Vocabulary used to state properties of runs -/

/-- The configuration an action carries. -/
def Action.config : Action → Config
  | .next c => c
  | .reject c => c
  | .done c => c

/-- Number of table entries a case reads after the opcode tag (for
`GIR_MergeMemOperands`: before its sentinel-terminated list). -/
def Opcode.arity : Opcode → Nat
  | .GIM_Try => 1
  | .GIM_RecordInsn => 3
  | .GIM_CheckFeatures => 1
  | .GIM_CheckOpcode => 2
  | .GIM_CheckNumOperands => 2
  | .GIM_CheckImmPredicate => 2
  | .GIM_CheckType => 3
  | .GIM_CheckRegBankForClass => 3
  | .GIM_CheckComplexPattern => 4
  | .GIM_CheckConstantInt => 3
  | .GIM_CheckLiteralInt => 3
  | .GIM_CheckIntrinsicID => 3
  | .GIM_CheckIsMBB => 2
  | .GIM_CheckIsSafeToFold => 1
  | .GIM_Reject => 0
  | .GIR_MutateOpcode => 3
  | .GIR_BuildMI => 2
  | .GIR_Copy => 3
  | .GIR_CopySubReg => 4
  | .GIR_AddImplicitDef => 2
  | .GIR_AddImplicitUse => 2
  | .GIR_AddRegister => 2
  | .GIR_AddImm => 2
  | .GIR_ComplexRenderer => 2
  | .GIR_CopyConstantAsSImm => 2
  | .GIR_ConstrainOperandRC => 3
  | .GIR_ConstrainSelectedInstOperands => 1
  | .GIR_MergeMemOperands => 1
  | .GIR_EraseFromParent => 1
  | .GIR_Done => 0

/-- One encoded table instruction: an opcode with its operand words. -/
structure Insn where
  op : Opcode
  args : List Int
  deriving DecidableEq, Repr

/-- The table entries of one instruction: the tag, then the operand words. -/
def Insn.encode (i : Insn) : List Int := i.op.tag :: i.args

/-- The table that lists the given instructions one after the other. -/
def encodeAll (is : List Insn) : List Int := (is.map Insn.encode).flatten

/-- An instruction carries as many operand words as its case reads; the list
of `GIR_MergeMemOperands` ends at its first sentinel. -/
def Insn.WellFormed (i : Insn) : Prop :=
  if i.op = .GIR_MergeMemOperands then
    ∃ id ids, i.args = id :: (ids ++ [GIU_MergeMemOperands_EndOfList]) ∧
      GIU_MergeMemOperands_EndOfList ∉ ids
  else i.args.length = i.op.arity

/-- What a loop iteration does to the checkpoint stack, as seen from outside:
a `GIM_Try` pushed a target, a rejection resumed at a target, or a rejection
made the call return false. -/
inductive Event
  | push (target : Nat)
  | resume (target : Nat)
  | giveUp
  deriving DecidableEq, Repr

/-- The checkpoint events of the first `k` loop iterations from `c`, in order.
The target of a push is the operand of the `GIM_Try` converted to `uint64_t`;
the target of a resumption is the index at which the loop goes on. -/
def events (env : Env) (T : List Int) : Nat → Config → List Event
  | 0, _ => []
  | k + 1, c =>
    match execOpcode env T c with
    | .ok (.next c1) =>
      if opcodeAt T c = some .GIM_Try then
        .push (toSizeT (T.getD (c.CurrentIdx + 1) 0)) :: events env T k c1
      else events env T k c1
    | .ok (.reject _) =>
      match step env T c with
      | .next c2 => .resume c2.CurrentIdx :: events env T k c2
      | _ => [.giveUp]
    | _ => []

/-- The builders the emission opcode at `c` appends to `OutMIs`: the fresh
instruction for `GIR_BuildMI`, the matched instruction `MIs[OldInsnID]` for
`GIR_MutateOpcode`, none for any other opcode. -/
def builtAt (T : List Int) (c : Config) : List (Option Nat) :=
  match opcodeAt T c with
  | some .GIR_BuildMI => [some c.MF.Insts.length]
  | some .GIR_MutateOpcode =>
    [c.State.MIs.getD (toSizeT (T.getD (c.CurrentIdx + 1) 0)) none]
  | _ => []

/-- The builders appended by the loop iterations `start`, ..., `start + n - 1`
of the run from `c0`, in order. -/
def builtDuring (env : Env) (T : List Int) (c0 : Config) (start : Nat) : Nat → List (Option Nat)
  | 0 => []
  | n + 1 =>
    builtDuring env T c0 start n ++
      (match after env T (start + n) c0 with
       | some c => builtAt T c
       | none => [])

/-- The configuration right after the read of the opcode tag. -/
def afterTag (c : Config) : Config := { c with CurrentIdx := c.CurrentIdx + 1 }

/-- The frame facts every case of the `switch` satisfies. -/
def CaseFacts (op : Opcode) (c : Config) (a : Action) : Prop :=
  (op ≠ .GIM_Try → a.config.OnFailResumeAt = c.OnFailResumeAt) ∧
  (op.isGIM = true → a.config.MF = c.MF ∧ a.config.OutMIs = c.OutMIs) ∧
  (op ≠ .GIM_CheckComplexPattern → a.config.State.Renderers = c.State.Renderers) ∧
  (op ≠ .GIM_RecordInsn → a.config.State.MIs = c.State.MIs) ∧
  (op ≠ .GIR_MergeMemOperands → a.config.CurrentIdx = c.CurrentIdx + op.arity) ∧
  (op.canReject = false → op ≠ .GIR_Done → a = .next a.config) ∧
  (op = .GIR_Done → a = .done c) ∧
  (op.canReject = true → a = .next a.config ∨ a = .reject a.config)

/-! ## A sample target and candidate -/

/-- A sample target: one complex pattern that accepts register operands and
renders the operand itself, physical registers below 1000, operands that
already satisfy their register constraints. -/
def sampleEnv : Env :=
  { FeatureBitsets := [0, 5]
    AvailableFeatures := 7
    TypeObjects := [32, 64]
    ImmPredicateFns := [fun _ => false, fun v => decide (0 ≤ v)]
    ComplexPredicates := [fun _ mo =>
      match mo with
      | .reg _ _ _ _ => some [mo]
      | _ => none]
    isPhysicalRegister := fun r => decide (r < 1000)
    getVRegDef := fun _ r => if r = 5000 then some 0 else none
    getType := fun _ _ => 32
    getRegClass := fun rc => if rc < 4 then some rc else none
    getRegBankFromRegClass := fun _ => 0
    getRegBank := fun _ _ => some 0
    isOperandImmEqual := fun _ _ _ => false
    isObviouslySafeToFold := fun _ _ => true
    constrainOperandRegToRegClass := fun mf _ _ _ => mf
    constrainSelectedInstRegOperands := fun mf _ => mf
    NumOpcodes := 500
    G_CONSTANT := 40 }

/-- Opcode of the sample `ADD`. -/
def sampleADD : Nat := 100

/-- Opcode of the sample `INC`. -/
def sampleINC : Nat := 200

/-- A sample stream: one block holding a defining instruction and the
candidate `ADD vreg5000, k` whose second operand is the constant `k`. -/
def sampleMF (k : Nat) : MachineFunction :=
  { Insts := [some ⟨40, [.reg 5000 true false 0, .cimm 32 7], [], 0⟩,
              some ⟨sampleADD, [.reg 5000 false false 0, .cimm 32 k], [], 3⟩]
    Blocks := [[0, 1]] }

/-- The per-call state at entry: the root in slot 0, one empty renderer slot. -/
def sampleState : MatcherState := { Renderers := [none], MIs := [some 1] }

/-- The table: check-opcode(ADD), literal-constant check of operand 1 against
1, build INC, copy operand 0, constrain, erase the root, done. -/
def sampleTable : List Int :=
  [Opcode.GIM_CheckOpcode.tag, 0, 100,
   Opcode.GIM_CheckLiteralInt.tag, 0, 1, 1,
   Opcode.GIR_BuildMI.tag, 0, 200,
   Opcode.GIR_Copy.tag, 0, 0, 0,
   Opcode.GIR_ConstrainSelectedInstOperands.tag, 0,
   Opcode.GIR_EraseFromParent.tag, 0,
   Opcode.GIR_Done.tag]

/-- A table with a capture inside a try-block that is then abandoned:
`GIM_Try 8`, `GIM_CheckComplexPattern` on operand 0 of the root into renderer
slot 0, `GIM_Reject`, and at index 8 `GIR_Done`. -/
def captureTable : List Int :=
  [Opcode.GIM_Try.tag, 8,
   Opcode.GIM_CheckComplexPattern.tag, 0, 0, 0, 0,
   Opcode.GIM_Reject.tag,
   Opcode.GIR_Done.tag]

/-- The two checks of `sampleTable`. -/
def sampleChecks : List Insn :=
  [⟨.GIM_CheckOpcode, [0, 100]⟩, ⟨.GIM_CheckLiteralInt, [0, 1, 1]⟩]

/-- The four emission opcodes of `sampleTable`. -/
def sampleEmits : List Insn :=
  [⟨.GIR_BuildMI, [0, 200]⟩, ⟨.GIR_Copy, [0, 0, 0]⟩,
   ⟨.GIR_ConstrainSelectedInstOperands, [0]⟩, ⟨.GIR_EraseFromParent, [0]⟩]

/-- The sample table guarded by a try-block whose alternative, at index 21,
is a lone `GIR_Done`. -/
def tryTable : List Int :=
  [Opcode.GIM_Try.tag, 21] ++ sampleTable ++ [Opcode.GIR_Done.tag]

/-- The table of the concrete scenario for target opcodes `ADD` and `INC` and
the constant check `chk` (`GIM_CheckLiteralInt` or `GIM_CheckConstantInt`):
`GIM_CheckOpcode 0 ADD`, `chk 0 1 1` (operand 1 of the root is the constant 1),
`GIR_BuildMI 0 INC`, `GIR_Copy 0 0 0`, `GIR_ConstrainSelectedInstOperands 0`,
`GIR_EraseFromParent 0`, `GIR_Done`. -/
def incTable (chk : Opcode) (ADD INC : Nat) : List Int :=
  [Opcode.GIM_CheckOpcode.tag, 0, ADD,
   chk.tag, 0, 1, 1,
   Opcode.GIR_BuildMI.tag, 0, INC,
   Opcode.GIR_Copy.tag, 0, 0, 0,
   Opcode.GIR_ConstrainSelectedInstOperands.tag, 0,
   Opcode.GIR_EraseFromParent.tag, 0,
   Opcode.GIR_Done.tag]

/-- The opcodes that add operands to an output instruction or constrain it:
the cases guarded by the assertion `Attempted to add to undefined instruction`. -/
def Opcode.usesOutput : Opcode → Bool
  | .GIR_Copy | .GIR_CopySubReg | .GIR_AddImplicitDef | .GIR_AddImplicitUse
  | .GIR_AddRegister | .GIR_AddImm | .GIR_ComplexRenderer | .GIR_CopyConstantAsSImm
  | .GIR_ConstrainOperandRC | .GIR_ConstrainSelectedInstOperands
  | .GIR_MergeMemOperands => true
  | _ => false

/-- An allocated instruction that is linked in no block of the stream. -/
def MachineFunction.Unlinked (mf : MachineFunction) (q : Nat) : Prop :=
  q < mf.Insts.length ∧ q ∉ mf.stream

instance (mf : MachineFunction) (q : Nat) : Decidable (mf.Unlinked q) :=
  inferInstanceAs (Decidable (q < mf.Insts.length ∧ q ∉ mf.stream))

/-- Weight of a table index in a table of length `N`, for the termination
measure: an index weighs more than all the indices behind it together. -/
def weight (N i : Nat) : Nat := 2 ^ (N - i)

/-- Termination measure of a configuration: the weight of `CurrentIdx` plus the
weights of the resume targets on the checkpoint stack. -/
def runMeasure (N : Nat) (c : Config) : Nat :=
  weight N c.CurrentIdx + (c.OnFailResumeAt.map (weight N)).sum

/-- Two targets give equal answers: their tables are equal and every oracle
and callback answers every query alike. -/
def Env.SameAnswers (e1 e2 : Env) : Prop :=
  e1.FeatureBitsets = e2.FeatureBitsets ∧
  e1.AvailableFeatures = e2.AvailableFeatures ∧
  e1.TypeObjects = e2.TypeObjects ∧
  e1.ImmPredicateFns = e2.ImmPredicateFns ∧
  e1.ComplexPredicates = e2.ComplexPredicates ∧
  (∀ r, e1.isPhysicalRegister r = e2.isPhysicalRegister r) ∧
  (∀ mf r, e1.getVRegDef mf r = e2.getVRegDef mf r) ∧
  (∀ mf r, e1.getType mf r = e2.getType mf r) ∧
  (∀ rc, e1.getRegClass rc = e2.getRegClass rc) ∧
  (∀ rc, e1.getRegBankFromRegClass rc = e2.getRegBankFromRegClass rc) ∧
  (∀ mf r, e1.getRegBank mf r = e2.getRegBank mf r) ∧
  (∀ mf mo v, e1.isOperandImmEqual mf mo v = e2.isOperandImmEqual mf mo v) ∧
  (∀ mf p, e1.isObviouslySafeToFold mf p = e2.isObviouslySafeToFold mf p) ∧
  (∀ mf p i rc, e1.constrainOperandRegToRegClass mf p i rc =
    e2.constrainOperandRegToRegClass mf p i rc) ∧
  (∀ mf p, e1.constrainSelectedInstRegOperands mf p =
    e2.constrainSelectedInstRegOperands mf p) ∧
  e1.NumOpcodes = e2.NumOpcodes ∧
  e1.G_CONSTANT = e2.G_CONSTANT

/-- Follows the claim's words, not the source: the memory operands of the
matched instruction `MIs[id]` as they are in configuration `c` (no operands
when `MIs[id]` cannot be read). -/
def memOperandsOf (c : Config) (id : Int) : List Nat :=
  match getMI c id with
  | .ok (_, mi) => mi.MemRefs
  | .error _ => []

/-- Follows the claim's words, not the source: the list `prev` followed by the
memory operands of `MIs[id1]`, ..., `MIs[idk]`, all of them read in the one
configuration `c`. -/
def mergedAtEntry (c : Config) (prev : List Nat) (ids : List Int) : List Nat :=
  prev ++ (ids.map (memOperandsOf c)).flatten

/-- Follows the amended wording, not the source: as `mergedAtEntry`, except
that a source which is the output instruction `q` itself contributes the list
built so far; `cur` is that list. -/
def mergedInTurn (c : Config) (q : Nat) : List Nat → List Int → List Nat
  | cur, [] => cur
  | cur, id :: ids =>
    mergedInTurn c q
      (cur ++ (match getMI c id with
        | .ok (p, mi) => if p = q then cur else mi.MemRefs
        | .error _ => [])) ids

/-- The index of the first sentinel `GIU_MergeMemOperands_EndOfList` in a list
of table entries. -/
def sentinelIndex : List Int → Option Nat
  | [] => none
  | v :: vs =>
    if v = GIU_MergeMemOperands_EndOfList then some 0
    else (sentinelIndex vs).map (fun i => i + 1)

/-- The table indices at which the loop can go on once it has dispatched the
opcode at index `p`, whatever the state and the target answer: the index
behind the operands of the opcode (behind the first sentinel for
`GIR_MergeMemOperands`) and, for `GIM_Try`, its resume target as well. -/
def successors (T : List Int) (p : Nat) : List Nat :=
  match T[p]? with
  | none => []
  | some v =>
    match decodeOpcode v with
    | none => []
    | some .GIM_Try =>
      match T[p + 1]? with
      | some t => [p + 2, toSizeT t]
      | none => []
    | some .GIR_MergeMemOperands =>
      match sentinelIndex (T.drop (p + 2)) with
      | some i => [p + 2 + i + 1]
      | none => []
    | some op => [p + 1 + op.arity]

/-- The opcode positions of a table: index 0, where the loop starts, and every
index at which the loop can go on after an opcode position.  The operand
slots of the opcodes are no opcode positions, unless a resume target points
at them. -/
inductive OpcodeIndex (T : List Int) : Nat → Prop
  | entry : OpcodeIndex T 0
  | step {p q : Nat} : OpcodeIndex T p → q ∈ successors T p → OpcodeIndex T q

end GISel

/-!
# Loop predication (`lib/Transforms/Scalar/LoopPredication.cpp`)

A shallow embedding of the loop, the invariant `M` and the widened condition
that the file header of the pass reasons about, and of the condition built by
`widenICmpRangeCheck`.
-/

namespace LoopPredication

/-! ## Comparisons on `w`-bit integers

A `w`-bit value is a natural number below `2 ^ w`; the comparisons read their
arguments modulo `2 ^ w`. -/

/-- The value of a `w`-bit pattern read as a two's-complement signed integer. -/
def toSigned (w : Nat) (a : Nat) : Int :=
  if a % 2 ^ w < 2 ^ (w - 1) then (a % 2 ^ w : Nat) else (a % 2 ^ w : Nat) - 2 ^ w

/-- The comparison `a u< b` of the file header. -/
def ult (w a b : Nat) : Bool := decide (a % 2 ^ w < b % 2 ^ w)

/-- The comparison `a u<= b` of the file header. -/
def ule (w a b : Nat) : Bool := decide (a % 2 ^ w ≤ b % 2 ^ w)

/-- The comparison `a s< b` of the file header. -/
def slt (w a b : Nat) : Bool := decide (toSigned w a < toSigned w b)

/-- The comparison `a s<= b` of the file header. -/
def sle (w a b : Nat) : Bool := decide (toSigned w a ≤ toSigned w b)

/-- The sum `X + Step` of `w`-bit values, which may wrap. -/
def add (w X Step : Nat) : Nat := (X + Step) % 2 ^ w

/-! ## The loop of the file header -/

/-- The invariant `M` of the file header for a guard `G`, a backedge condition
`B` and a step: `forall X . (G(X) && B(X + Step)) => G(X + Step)`, `X` ranging
over the `w`-bit values. -/
def M (w : Nat) (G B : Nat → Bool) (Step : Nat) : Prop :=
  ∀ X, X < 2 ^ w → G X = true → B (add w X Step) = true → G (add w X Step) = true

instance (w : Nat) (G B : Nat → Bool) (Step : Nat) : Decidable (M w G B Step) :=
  inferInstanceAs (Decidable (∀ X, X < 2 ^ w → G X = true → B (add w X Step) = true →
    G (add w X Step) = true))

/-- The value `I = PHI(Start, I.INC)` of the induction variable in iteration
`n` of the loop of the file header, with `I.INC = I + Step`. -/
def I (w Start Step : Nat) : Nat → Nat
  | 0 => Start
  | n + 1 => add w (I w Start Step n) Step

/-- How a run of the loop of the file header ends. -/
inductive LoopResult
  /-- The entry test `B(Start)` failed: the loop was not entered. -/
  | skipped
  /-- The guard failed in the iteration with the given number (from 0). -/
  | deoptimized (iteration : Nat)
  /-- The backedge test failed after the given number of iterations. -/
  | exited (iterations : Nat)
  /-- The loop was still running when the fuel ran out. -/
  | running
  deriving DecidableEq, Repr

/-- The loop
`do { I = PHI(Start, I.INC); I.INC = I + Step; guard(Guard(I)); } while (B(I.INC))`
of the file header, from iteration `n` with value `i` of the induction variable,
for at most `fuel` iterations. -/
def doWhile (w : Nat) (Guard B : Nat → Bool) (Step : Nat) : Nat → Nat → Nat → LoopResult
  | 0, _, _ => .running
  | fuel + 1, i, n =>
    if Guard i then
      if B (add w i Step) then doWhile w Guard B Step fuel (add w i Step) (n + 1)
      else .exited (n + 1)
    else .deoptimized n

/-- The program of the file header: `if (B(Start)) { do ... while (B(I.INC)); }`
with the guard condition `Guard(I)`. -/
def program (w : Nat) (Guard B : Nat → Bool) (Start Step fuel : Nat) : LoopResult :=
  if B Start then doWhile w Guard B Step fuel Start 0 else .skipped

/-! ## The widened condition -/

/-- The `ICmpInst::Predicate` values of integer comparisons. -/
inductive Predicate
  | ICMP_EQ | ICMP_NE | ICMP_UGT | ICMP_UGE | ICMP_ULT | ICMP_ULE
  | ICMP_SGT | ICMP_SGE | ICMP_SLT | ICMP_SLE
  deriving DecidableEq, Repr

/-- Modelled from the spec: `ICmpInst::isSigned` of `InstrTypes.h` (not
embedded) holds of the four signed ordering predicates. -/
def Predicate.isSigned : Predicate → Bool
  | .ICMP_SGT | .ICMP_SGE | .ICMP_SLT | .ICMP_SLE => true
  | _ => false

/-- Modelled from the spec: the value an `icmp` instruction with the given
predicate computes on two `w`-bit operands. -/
def Predicate.eval (w : Nat) : Predicate → Nat → Nat → Bool
  | .ICMP_EQ, a, b => decide (a % 2 ^ w = b % 2 ^ w)
  | .ICMP_NE, a, b => decide (a % 2 ^ w ≠ b % 2 ^ w)
  | .ICMP_UGT, a, b => ult w b a
  | .ICMP_UGE, a, b => ule w b a
  | .ICMP_ULT, a, b => ult w a b
  | .ICMP_ULE, a, b => ule w a b
  | .ICMP_SGT, a, b => slt w b a
  | .ICMP_SGE, a, b => sle w b a
  | .ICMP_SLT, a, b => slt w a b
  | .ICMP_SLE, a, b => sle w a b

/-- The predicate `LimitCheckPred` chosen by `widenICmpRangeCheck` for the
comparison of the two limits. -/
def LimitCheckPred (LatchCheckPred : Predicate) : Predicate :=
  if LatchCheckPred.isSigned then .ICMP_SLE else .ICMP_ULE

/-- The value of the condition built at the end of `widenICmpRangeCheck`,
`FirstIterationCheck AND LimitCheck`, for the values `Start`, `LatchLimit` and
`GuardLimit` of the three expanded expressions: the range check predicate is
`ICMP_ULT` at that point. -/
def widenedCondition (w : Nat) (LatchCheckPred : Predicate)
    (Start LatchLimit GuardLimit : Nat) : Bool :=
  Predicate.eval w .ICMP_ULT Start GuardLimit &&
    Predicate.eval w (LimitCheckPred LatchCheckPred) LatchLimit GuardLimit

/-! ## The pass on the IR

The classes of the IR, of `ScalarEvolution` and of the builders are declared in
headers that are not embedded; they are modelled as far as the pass uses them. -/

/-- Modelled from the spec: `ICmpInst::getSwappedPredicate` of `InstrTypes.h`
(not embedded), the predicate of the comparison with its operands exchanged. -/
def getSwappedPredicate : Predicate → Predicate
  | .ICMP_EQ => .ICMP_EQ
  | .ICMP_NE => .ICMP_NE
  | .ICMP_UGT => .ICMP_ULT
  | .ICMP_UGE => .ICMP_ULE
  | .ICMP_ULT => .ICMP_UGT
  | .ICMP_ULE => .ICMP_UGE
  | .ICMP_SGT => .ICMP_SLT
  | .ICMP_SGE => .ICMP_SLE
  | .ICMP_SLT => .ICMP_SGT
  | .ICMP_SLE => .ICMP_SGE

/-- Modelled from the spec: a `Value *` as the pass sees it.  `id` is the
address of the value, so that two values are the same pointer exactly when
they are equal here; the pass tells apart `and` operators (matched by
`m_And`), `icmp` instructions (`dyn_cast<ICmpInst>`) and all other values. -/
inductive Value
  | Other (id : Nat)
  | ICmp (id : Nat) (Pred : Predicate) (Op0 Op1 : Value)
  | And (id : Nat) (LHS RHS : Value)
  deriving DecidableEq, Repr

/-- Modelled from the spec: a `const SCEV *`.  Expressions are uniqued, so
that pointer equality is equality of expressions.  The pass tells apart
`SCEVCouldNotCompute`, constants (for `isOne`), add recurrences
`{Start,+,Step}<L>` (`Step` is what `getStepRecurrence` returns, `L` the
address of the loop), and all other expressions. -/
inductive SCEV
  | CouldNotCompute
  | Constant (V : Int)
  | Unknown (V : Nat)
  | AddRecExpr (Start Step : SCEV) (L : Nat)
  deriving DecidableEq, Repr

/-- Modelled from the spec: a `const SCEVAddRecExpr *` with its accessors
`getStart`, `getStepRecurrence` and `getLoop`. -/
structure SCEVAddRecExpr where
  Start : SCEV
  Step : SCEV
  L : Nat
  deriving DecidableEq, Repr

/-- Modelled from the spec: `SCEV::isOne`. -/
def SCEV.isOne (S : SCEV) : Bool := decide (S = .Constant 1)

/-- Modelled from the spec: the queries of `ScalarEvolution.h` and
`ScalarEvolutionExpander.h` (not embedded) that the pass makes; their answers
are taken as given. -/
structure ScalarEvolution where
  /-- `SE->getSCEV(V)`. -/
  getSCEV : Value → SCEV
  /-- `SE->isLoopInvariant(S, L)`. -/
  isLoopInvariant : SCEV → Nat → Bool
  /-- `isSafeToExpand(S, *SE)`. -/
  isSafeToExpand : SCEV → Bool
  /-- `AR->getPostIncExpr(*SE)`. -/
  getPostIncExpr : SCEVAddRecExpr → SCEVAddRecExpr

/-- The struct `LoopICmp`: the induction variable check
`icmp Pred, <induction variable>, <loop invariant limit>`. -/
structure LoopICmp where
  Pred : Predicate
  IV : SCEVAddRecExpr
  Limit : SCEV
  deriving DecidableEq, Repr

/-- The members `SE`, `L` and `LatchCheck` of the class `LoopPredication`,
which the functions below read. -/
structure Pass where
  SE : ScalarEvolution
  L : Nat
  LatchCheck : LoopICmp

/-- An `ICmpInst *`: its predicate and its two operands. -/
structure ICmpInst where
  Pred : Predicate
  Op0 : Value
  Op1 : Value
  deriving DecidableEq, Repr

/-- Where a builder inserts: before the terminator of the loop preheader or
before the guard. -/
inductive InsertPoint
  | PreheaderTerminator
  | Guard
  deriving DecidableEq, Repr

/-- Modelled from the spec: the `SCEVExpander` of `ScalarEvolutionExpander.h`
(not embedded).  `expandCodeFor` answers with the value that holds an
expression; `Expanded` records the expressions it was asked to expand. -/
structure SCEVExpander where
  expandCodeFor : SCEV → Value
  Expanded : List SCEV

/-- Modelled from the spec: the `IRBuilder<>` of `IRBuilder.h` (not embedded).
`NextId` is the address the next created instruction gets, `Inserted` records
the created instructions with the place they were inserted at. -/
structure IRBuilder where
  InsertPt : InsertPoint
  NextId : Nat
  Inserted : List (InsertPoint × Value)
  deriving DecidableEq, Repr

/-- Modelled from the spec: `Builder.CreateICmp(Pred, LHS, RHS)` creates and
inserts an `icmp` instruction (no constant folding). -/
def IRBuilder.CreateICmp (Builder : IRBuilder) (Pred : Predicate) (LHS RHS : Value) :
    Value × IRBuilder :=
  (.ICmp Builder.NextId Pred LHS RHS,
   { Builder with
     NextId := Builder.NextId + 1
     Inserted := Builder.Inserted ++ [(Builder.InsertPt, .ICmp Builder.NextId Pred LHS RHS)] })

/-- Modelled from the spec: `Builder.CreateAnd(LHS, RHS)` creates and inserts
an `and` instruction (no constant folding). -/
def IRBuilder.CreateAnd (Builder : IRBuilder) (LHS RHS : Value) : Value × IRBuilder :=
  (.And Builder.NextId LHS RHS,
   { Builder with
     NextId := Builder.NextId + 1
     Inserted := Builder.Inserted ++ [(Builder.InsertPt, .And Builder.NextId LHS RHS)] })

/-- Modelled from the spec: the call `Expander.expandCodeFor(S, Ty, InsertAt)`,
for the one type and the one insertion point the pass uses. -/
def SCEVExpander.expand (Expander : SCEVExpander) (S : SCEV) : Value × SCEVExpander :=
  (Expander.expandCodeFor S, { Expander with Expanded := Expander.Expanded ++ [S] })

/-- How a function of the pass halts without returning. -/
inductive AssertionFailure
  /-- The assertion `RangeCheckIV->getStepRecurrence(*SE)->isOne()` failed. -/
  | mustBeOne
  /-- The guard would get a null condition operand. -/
  | nullOperand
  deriving DecidableEq, Repr

/-- The function `parseLoopICmp(Pred, LHS, RHS)`. -/
def parseLoopICmp (P : Pass) (Pred : Predicate) (LHS RHS : Value) : Option LoopICmp :=
  let LHSS := P.SE.getSCEV LHS
  if LHSS = .CouldNotCompute then none
  else
    let RHSS := P.SE.getSCEV RHS
    if RHSS = .CouldNotCompute then none
    else
      let (LHSS, RHSS, Pred) :=
        if P.SE.isLoopInvariant LHSS P.L then (RHSS, LHSS, getSwappedPredicate Pred)
        else (LHSS, RHSS, Pred)
      match LHSS with
      | .AddRecExpr Start Step L =>
        if L ≠ P.L then none else some ⟨Pred, ⟨Start, Step, L⟩, RHSS⟩
      | _ => none

/-- The function `expandCheck`.  Its assertion that both expressions have the
same type is not modelled: types are not. -/
def expandCheck (Expander : SCEVExpander) (Builder : IRBuilder) (Pred : Predicate)
    (LHS RHS : SCEV) : Value × SCEVExpander × IRBuilder :=
  let (LHSV, Expander) := Expander.expand LHS
  let (RHSV, Expander) := Expander.expand RHS
  let (V, Builder) := Builder.CreateICmp Pred LHSV RHSV
  (V, Expander, Builder)

/-- The lambda `CanExpand` of `widenICmpRangeCheck`. -/
def CanExpand (P : Pass) (S : SCEV) : Bool :=
  P.SE.isLoopInvariant S P.L && P.SE.isSafeToExpand S

/-- The function `widenICmpRangeCheck`; `Expander` and `Builder` are passed by
reference and returned. -/
def widenICmpRangeCheck (P : Pass) (ICI : ICmpInst) (Expander : SCEVExpander)
    (Builder : IRBuilder) :
    Except AssertionFailure (Option Value × SCEVExpander × IRBuilder) :=
  match parseLoopICmp P ICI.Pred ICI.Op0 ICI.Op1 with
  | none => .ok (none, Expander, Builder)
  | some RangeCheck =>
    if RangeCheck.Pred ≠ .ICMP_ULT then .ok (none, Expander, Builder)
    else
      let RangeCheckIV := RangeCheck.IV
      let PostIncRangeCheckIV := P.SE.getPostIncExpr RangeCheckIV
      if P.LatchCheck.IV ≠ PostIncRangeCheckIV then .ok (none, Expander, Builder)
      else if !RangeCheckIV.Step.isOne then .error .mustBeOne
      else
        let Start := RangeCheckIV.Start
        if !CanExpand P Start || !CanExpand P P.LatchCheck.Limit ||
            !CanExpand P RangeCheck.Limit then
          .ok (none, Expander, Builder)
        else
          let (FirstIterationCheck, Expander, Builder) :=
            expandCheck Expander Builder RangeCheck.Pred Start RangeCheck.Limit
          let (LimitCheck, Expander, Builder) :=
            expandCheck Expander Builder (LimitCheckPred P.LatchCheck.Pred)
              P.LatchCheck.Limit RangeCheck.Limit
          let (V, Builder) := Builder.CreateAnd FirstIterationCheck LimitCheck
          .ok (some V, Expander, Builder)

/-- Follows the claim's words, not the source: the range check `RC` is one
that `widenICmpRangeCheck` widens. -/
def Widenable (P : Pass) (RC : LoopICmp) : Prop :=
  RC.Pred = .ICMP_ULT ∧ P.SE.getPostIncExpr RC.IV = P.LatchCheck.IV ∧
    CanExpand P RC.IV.Start = true ∧ CanExpand P P.LatchCheck.Limit = true ∧
    CanExpand P RC.Limit = true

instance (P : Pass) (RC : LoopICmp) : Decidable (Widenable P RC) :=
  inferInstanceAs (Decidable (_ ∧ _))

/-- Follows the claim's words, not the source: the condition
`(start u< guardLimit) AND (latchLimit P guardLimit)` built from the values of
the three expanded expressions, the three instructions getting the addresses
`n`, `n + 1` and `n + 2`. -/
def widenedCheck (P : Pass) (Expander : SCEVExpander) (n : Nat) (RC : LoopICmp) : Value :=
  .And (n + 2)
    (.ICmp n .ICMP_ULT (Expander.expandCodeFor RC.IV.Start) (Expander.expandCodeFor RC.Limit))
    (.ICmp (n + 1) (if P.LatchCheck.Pred.isSigned then .ICMP_SLE else .ICMP_ULE)
      (Expander.expandCodeFor P.LatchCheck.Limit) (Expander.expandCodeFor RC.Limit))

/-- A sample analysis: value 1 is the induction variable `{0,+,1}<7>`, value 2
its increment `{1,+,1}<7>`, the values 3 and 4 are loop-invariant limits. -/
def sampleSE : ScalarEvolution :=
  { getSCEV := fun V =>
      match V with
      | .Other 1 => .AddRecExpr (.Constant 0) (.Constant 1) 7
      | .Other 2 => .AddRecExpr (.Constant 1) (.Constant 1) 7
      | .Other 3 => .Unknown 3
      | .Other 4 => .Unknown 4
      | _ => .CouldNotCompute
    isLoopInvariant := fun S _ =>
      match S with
      | .Constant _ => true
      | .Unknown _ => true
      | _ => false
    isSafeToExpand := fun _ => true
    getPostIncExpr := fun AR =>
      match AR.Start with
      | .Constant v => ⟨.Constant (v + 1), AR.Step, AR.L⟩
      | _ => ⟨.Unknown 0, AR.Step, AR.L⟩ }

/-- A sample pass on loop 7 with the latch check `++i s< %3`. -/
def samplePass : Pass :=
  { SE := sampleSE, L := 7
    LatchCheck := ⟨.ICMP_SLT, ⟨.Constant 1, .Constant 1, 7⟩, .Unknown 3⟩ }

/-- A sample expander: the constant `v` is held by value `100 + v`, the
unknown of value `v` by that value. -/
def sampleExpander : SCEVExpander :=
  { expandCodeFor := fun S =>
      match S with
      | .Constant v => .Other (100 + v.toNat)
      | .Unknown v => .Other v
      | _ => .Other 0
    Expanded := [] }

/-! ## Widening the conditions of a guard -/

/-- Modelled from the spec: the guard, an `IntrinsicInst *`, as far as the
pass uses it: `Operand0` is the condition that `getOperand(0)` reads and
`setOperand(0, ...)` writes. -/
structure IntrinsicInst where
  Operand0 : Value
  deriving DecidableEq, Repr

/-- The locals of `widenGuardConditions` that its loop changes, with the
expander and the builder it works on. -/
structure WidenState where
  Visited : List Value
  Checks : List Value
  NumWidened : Nat
  Expander : SCEVExpander
  Builder : IRBuilder

/-- The number of nodes of the tree of `and` operators that a condition
heads. -/
def Value.size : Value → Nat
  | .And _ LHS RHS => LHS.size + RHS.size + 1
  | _ => 1

/-- The body of the `do` loop of `widenGuardConditions` for the popped value
`Condition`: `Worklist` (top first) is the rest of the worklist.  It answers
with the worklist and the locals as they are when the loop test is reached.
`NumWidened` is an `unsigned`. -/
def widenGuardConditions.body (P : Pass) (Condition : Value) (Worklist : List Value)
    (st : WidenState) : Except AssertionFailure (List Value × WidenState) :=
  if Condition ∈ st.Visited then .ok (Worklist, st)
  else
    let st := { st with Visited := st.Visited ++ [Condition] }
    match Condition with
    | .And _ LHS RHS => .ok (RHS :: LHS :: Worklist, st)
    | .ICmp _ Pred Op0 Op1 =>
      match widenICmpRangeCheck P ⟨Pred, Op0, Op1⟩ st.Expander st.Builder with
      | .error e => .error e
      | .ok (some NewRangeCheck, Expander, Builder) =>
        .ok (Worklist,
          { st with
            Checks := st.Checks ++ [NewRangeCheck]
            NumWidened := (st.NumWidened + 1) % 2 ^ 32
            Expander := Expander
            Builder := Builder })
      | .ok (none, Expander, Builder) =>
        .ok (Worklist,
          { st with
            Checks := st.Checks ++ [Condition]
            Expander := Expander
            Builder := Builder })
    | .Other _ => .ok (Worklist, { st with Checks := st.Checks ++ [Condition] })

/-- The loop `do { ... } while (Worklist.size() != 0)` of
`widenGuardConditions`, entered with `Condition` on top of the worklist and
`Worklist` below it. -/
def widenGuardConditions.doWhile (P : Pass) (Condition : Value) (Worklist : List Value)
    (st : WidenState) : Except AssertionFailure WidenState :=
  match _h : widenGuardConditions.body P Condition Worklist st with
  | .error e => .error e
  | .ok ([], st1) => .ok st1
  | .ok (c :: w, st1) => widenGuardConditions.doWhile P c w st1
termination_by Condition.size + (Worklist.map Value.size).sum
decreasing_by
  have hpos : 0 < Condition.size := by
    cases Condition <;> simp [Value.size]
  have h := _h
  simp only [widenGuardConditions.body] at h
  split at h
  · simp only [Except.ok.injEq, Prod.mk.injEq] at h
    rw [h.1]
    simp only [List.map_cons, List.sum_cons]
    omega
  · split at h
    · simp only [Except.ok.injEq, Prod.mk.injEq, List.cons.injEq] at h
      obtain ⟨⟨h1, h2⟩, _⟩ := h
      subst h1
      rw [← h2]
      simp only [List.map_cons, List.sum_cons, Value.size]
      omega
    · split at h
      · cases h
      · simp only [Except.ok.injEq, Prod.mk.injEq] at h
        rw [h.1]
        simp only [List.map_cons, List.sum_cons]
        omega
      · simp only [Except.ok.injEq, Prod.mk.injEq] at h
        rw [h.1]
        simp only [List.map_cons, List.sum_cons]
        omega
    · simp only [Except.ok.injEq, Prod.mk.injEq] at h
      rw [h.1]
      simp only [List.map_cons, List.sum_cons]
      omega

/-- The test `Worklist.size() != 0` at the end of the loop body: the loop is
left with an empty worklist and goes on with its top otherwise. -/
def widenGuardConditions.loopTest (P : Pass) (Worklist : List Value) (st : WidenState) :
    Except AssertionFailure WidenState :=
  match Worklist with
  | [] => .ok st
  | c :: w => widenGuardConditions.doWhile P c w st

/-- The loop `for (auto *Check : Checks)` of `widenGuardConditions` that
builds the new condition, from the value `LastCheck` on. -/
def widenGuardConditions.conjoin (Builder : IRBuilder) :
    Option Value → List Value → Option Value × IRBuilder
  | LastCheck, [] => (LastCheck, Builder)
  | none, Check :: Checks => widenGuardConditions.conjoin Builder (some Check) Checks
  | some LastCheck, Check :: Checks =>
    widenGuardConditions.conjoin (Builder.CreateAnd LastCheck Check).2
      (some (Builder.CreateAnd LastCheck Check).1) Checks

/-- The function `widenGuardConditions`.  It answers with its return value,
the guard, the expander and its local builder, so that what was emitted can be
read; `NextId` is the address of the next instruction to be created. -/
def widenGuardConditions (P : Pass) (Guard : IntrinsicInst) (Expander : SCEVExpander)
    (NextId : Nat) (Inserted : List (InsertPoint × Value)) :
    Except AssertionFailure (Bool × IntrinsicInst × SCEVExpander × IRBuilder) :=
  let Builder : IRBuilder := ⟨.PreheaderTerminator, NextId, Inserted⟩
  match widenGuardConditions.doWhile P Guard.Operand0 []
      ⟨[], [], 0, Expander, Builder⟩ with
  | .error e => .error e
  | .ok st =>
    if st.NumWidened = 0 then .ok (false, Guard, st.Expander, st.Builder)
    else
      let Builder := { st.Builder with InsertPt := .Guard }
      match widenGuardConditions.conjoin Builder none st.Checks with
      | (none, _) => .error .nullOperand
      | (some LastCheck, Builder) =>
        .ok (true, { Guard with Operand0 := LastCheck }, st.Expander, Builder)

/-- Follows the claim's words, not the source: the non-AND leaves of the tree
of `and` operators that a condition heads, with repetitions. -/
def leaves : Value → List Value
  | .And _ LHS RHS => leaves RHS ++ leaves LHS
  | .ICmp id Pred Op0 Op1 => [.ICmp id Pred Op0 Op1]
  | .Other id => [.Other id]

/-- Follows the claim's words, not the source: the leaf is an `icmp` that
`widenICmpRangeCheck` widens. -/
def widens (P : Pass) : Value → Bool
  | .ICmp _ Pred Op0 Op1 =>
    match parseLoopICmp P Pred Op0 Op1 with
    | some RC => decide (Widenable P RC)
    | none => false
  | _ => false

/-- Follows the claim's words, not the source: the entry of a leaf, its
widened condition (built at address `n`) if it is widened and the leaf itself
otherwise. -/
def entry (P : Pass) (Expander : SCEVExpander) (n : Nat) : Value → Value
  | .ICmp id Pred Op0 Op1 =>
    match parseLoopICmp P Pred Op0 Op1 with
    | some RC =>
      if Widenable P RC then widenedCheck P Expander n RC else .ICmp id Pred Op0 Op1
    | none => .ICmp id Pred Op0 Op1
  | v => v

/-- Follows the claim's words, not the source: one entry per leaf of a list,
the widened conditions taking three addresses each from `n` on. -/
def entries (P : Pass) (Expander : SCEVExpander) : Nat → List Value → List Value
  | _, [] => []
  | n, v :: vs =>
    entry P Expander n v :: entries P Expander (if widens P v then n + 3 else n) vs

/-- Follows the claim's words, not the source: the conjunction of `acc` and
the values of a list, an `and` per value, the instructions taking the
addresses from `n` on. -/
def conjunctionFrom : Nat → Value → List Value → Value
  | _, acc, [] => acc
  | n, acc, v :: vs => conjunctionFrom (n + 1) (.And n acc v) vs

/-- Follows the claim's words, not the source: the conjunction of the values
of a list. -/
def conjunction (n : Nat) : List Value → Option Value
  | [] => none
  | v :: vs => some (conjunctionFrom n v vs)

/-- The values the loop of `widenGuardConditions` has inserted into `Visited`
when it has dealt with the worklist entry `v` and all it pushed for it, in the
order of insertion; `Vs` holds the values visited before. -/
def visitedAfter : Value → List Value → List Value
  | .And id LHS RHS, Vs =>
    if .And id LHS RHS ∈ Vs then Vs
    else visitedAfter LHS (visitedAfter RHS (Vs ++ [.And id LHS RHS]))
  | .ICmp id Pred Op0 Op1, Vs =>
    if .ICmp id Pred Op0 Op1 ∈ Vs then Vs else Vs ++ [.ICmp id Pred Op0 Op1]
  | .Other id, Vs => if .Other id ∈ Vs then Vs else Vs ++ [.Other id]

/-- Whether a value is an `and` operator. -/
def Value.isAnd : Value → Bool
  | .And _ _ _ => true
  | _ => false

/-- Follows the claim's words, not the source: the distinct non-AND leaves of
the tree of `and` operators that a condition heads, in the order in which the
loop meets them. -/
def distinctLeaves (Condition : Value) : List Value :=
  (visitedAfter Condition []).filter (fun v => !v.isAnd)

/-- The invariant of the loop of `widenGuardConditions` started with the
expander `Expander` and the next address `n`: the visited values are distinct,
`Checks` holds the entries of the visited leaves, and `NumWidened` and the next
address count the widened ones. -/
structure LoopInvariant (P : Pass) (Expander : SCEVExpander) (n : Nat)
    (Inserted : List (InsertPoint × Value)) (st : WidenState) : Prop where
  nodup : st.Visited.Nodup
  checks : st.Checks = entries P Expander n (st.Visited.filter (fun v => !v.isAnd))
  numWidened : st.NumWidened =
    ((st.Visited.filter (fun v => !v.isAnd)).countP (widens P)) % 2 ^ 32
  nextId : st.Builder.NextId =
    n + 3 * (st.Visited.filter (fun v => !v.isAnd)).countP (widens P)
  expandCodeFor : st.Expander.expandCodeFor = Expander.expandCodeFor
  insertPt : st.Builder.InsertPt = .PreheaderTerminator
  nothing : (st.Visited.filter (fun v => !v.isAnd)).countP (widens P) = 0 →
    st.Expander.Expanded = Expander.Expanded ∧ st.Builder.Inserted = Inserted

/-- A sample guard condition `(%c & %70) & (%70 & %c)` whose leaf `%c`, the
range check `i u< %4`, and leaf `%70` are shared by two `and` operators. -/
def sampleCondition : Value :=
  .And 50
    (.And 51 (.ICmp 60 .ICMP_ULT (.Other 1) (.Other 4)) (.Other 70))
    (.And 52 (.Other 70) (.ICmp 60 .ICMP_ULT (.Other 1) (.Other 4)))

end LoopPredication

/-!
# Happens-before on thread clocks (`compiler-rt/lib/tsan/rtl/tsan_csv.cc`)

A shallow embedding of `csv::__happens_before`.
-/

namespace csv

/-- Modelled from the spec: the class `__tsan::ThreadClock` of `tsan_clock.h`
(not embedded), as far as `__happens_before` reads it: `clk_` holds the clock
values of the thread ids below `size()`, and the entries of the underlying
array at or beyond `size()` are zero. -/
structure ThreadClock where
  /-- The clock values of the thread ids `0`, ..., `size() - 1`. -/
  clk_ : List Nat
  deriving DecidableEq, Repr

/-- Modelled from the spec: `ThreadClock::size()`. -/
def ThreadClock.size (c : ThreadClock) : Nat := c.clk_.length

/-- Modelled from the spec: `ThreadClock::get(tid)`, the clock value of thread
`tid`, zero beyond `size()`. -/
def ThreadClock.get (c : ThreadClock) (tid : Nat) : Nat := c.clk_.getD tid 0

/-- The loop over `i < max(a.size(), b.size())` with the body
`if (a.get(i) > b.get(i)) return false;`, followed by `return true;`, from
index `i` with `remaining` iterations to go. -/
def happens_before_loop (a b : ThreadClock) : Nat → Nat → Bool
  | _, 0 => true
  | i, remaining + 1 =>
    if a.get i > b.get i then false else happens_before_loop a b (i + 1) remaining

/-- The function `csv::__happens_before`. -/
def __happens_before (a b : ThreadClock) : Bool :=
  happens_before_loop a b 0 (max a.size b.size)

end csv

/-!
# XRay flight data recorder (`compiler-rt/lib/xray/xray_fdr_logging_impl.h`)

A shallow embedding of the record writers of the header, of
`writeCurrentCPUTSC` and of `endBufferIfFull`.
-/

namespace XRay

/-! ## Records and thread-local state -/

/-- The enumeration `XRayEntryType`, as far as the `switch` of
`writeFunctionRecord` lists it. -/
inductive XRayEntryType
  | ENTRY | EXIT | TAIL | LOG_ARGS_ENTRY | CUSTOM_EVENT
  deriving DecidableEq, Repr

/-- The enumeration `FunctionRecord::RecordKinds`. -/
inductive FunctionRecordKinds
  | FunctionEnter | FunctionExit | FunctionTailExit
  deriving DecidableEq, Repr

/-- A record in a buffer: a `MetadataRecord` of one of the kinds written by
this header, with the data copied into it, or a `FunctionRecord`. -/
inductive Record
  /-- Metadata `NewBuffer` with the thread id. -/
  | NewBuffer (Tid : Int)
  /-- Metadata `WalltimeMarker` with seconds and microseconds. -/
  | WalltimeMarker (Seconds Micros : Int)
  /-- Metadata `NewCPUId` with the CPU id and the full TSC. -/
  | NewCPUId (CPU TSC : Nat)
  /-- Metadata `EndOfBuffer`. -/
  | EndOfBuffer
  /-- Metadata `TSCWrap` with the full TSC. -/
  | TSCWrap (TSC : Nat)
  /-- Metadata `CallArgument` with the argument. -/
  | CallArgument (A : Nat)
  /-- A function record: kind, the 28-bit `FuncId` field (as a bit pattern)
  and the `TSCDelta` field. -/
  | Function (RecordKind : FunctionRecordKinds) (FuncId TSCDelta : Nat)
  deriving DecidableEq, Repr

/-- Modelled from the spec: `sizeof(MetadataRecord)`, 16 bytes
(`xray_fdr_log_records.h` is not embedded; the size is the one given in the
comments of `processFunctionHook`). -/
def MetadataRecSize : Nat := 16

/-- Modelled from the spec: `sizeof(FunctionRecord)`, 8 bytes. -/
def FunctionRecSize : Nat := 8

set_option linter.dupNamespace false

/-- The struct `BufferQueue::Buffer`: start address (0 for `nullptr`) and size
in bytes. -/
structure Buffer where
  Buffer : Nat
  Size : Nat
  deriving DecidableEq, Repr

/-- The struct `ThreadLocalData`; an address is a natural number, `nullptr`
is 0, and `LocalBQ` is `none` for a null `shared_ptr`. -/
structure ThreadLocalData where
  Buffer : Buffer
  RecordPtr : Nat
  NumConsecutiveFnEnters : Nat
  NumTailCalls : Nat
  CurrentCPU : Nat
  LastTSC : Nat
  LastFunctionEntryTSC : Nat
  LocalBQ : Option Nat
  deriving DecidableEq, Repr

/-- The state the functions of the header work on: the thread-local data
returned by `getThreadLocalData()` and the memory of the current buffer,
kept as the records copied to it, in address order; every write of the
embedded functions is a `memcpy` to `RecordPtr`, which then advances by the
size of the record. -/
structure FDRState where
  TLD : ThreadLocalData
  Memory : List Record
  deriving DecidableEq, Repr

/-- A `ThreadLocalData` as its default member initialisers leave it, for a
given buffer and write pointer. -/
def ThreadLocalData.fresh (B : XRay.Buffer) (RecordPtr : Nat) : ThreadLocalData :=
  { Buffer := B, RecordPtr := RecordPtr, NumConsecutiveFnEnters := 0, NumTailCalls := 0
    CurrentCPU := 65535, LastTSC := 0, LastFunctionEntryTSC := 0, LocalBQ := none }

/-- The struct `timespec`. -/
structure timespec where
  tv_sec : Int
  tv_nsec : Int
  deriving DecidableEq, Repr

/-- Conversion of an integer to `int32_t`. -/
def toInt32 (v : Int) : Int := (v + 2 ^ 31) % 2 ^ 32 - 2 ^ 31

/-! ## Writers

The parameter `MemPtr` of the writers is `TLD.RecordPtr` in every call of the
header, and is embedded as such. -/

/-- The function `writeNewBufferPreamble`. -/
def writeNewBufferPreamble (Tid : Int) (TS : timespec) (s : FDRState) : FDRState :=
  let Micros := toInt32 (TS.tv_nsec.tdiv 1000)
  let Seconds := TS.tv_sec
  { TLD := { s.TLD with
      RecordPtr := s.TLD.RecordPtr + MetadataRecSize * 2
      NumConsecutiveFnEnters := 0
      NumTailCalls := 0 }
    Memory := s.Memory ++ [.NewBuffer Tid, .WalltimeMarker Seconds Micros] }

/-- The function `writeNewCPUIdMetadata`, for `CPU` a `uint16_t` and `TSC` a
`uint64_t`. -/
def writeNewCPUIdMetadata (CPU TSC : Nat) (s : FDRState) : FDRState :=
  { TLD := { s.TLD with
      RecordPtr := s.TLD.RecordPtr + MetadataRecSize
      NumConsecutiveFnEnters := 0
      NumTailCalls := 0 }
    Memory := s.Memory ++ [.NewCPUId CPU TSC] }

/-- The function `writeEOBMetadata`. -/
def writeEOBMetadata (s : FDRState) : FDRState :=
  { TLD := { s.TLD with
      RecordPtr := s.TLD.RecordPtr + MetadataRecSize
      NumConsecutiveFnEnters := 0
      NumTailCalls := 0 }
    Memory := s.Memory ++ [.EndOfBuffer] }

/-- The function `writeTSCWrapMetadata`, for `TSC` a `uint64_t`. -/
def writeTSCWrapMetadata (TSC : Nat) (s : FDRState) : FDRState :=
  { TLD := { s.TLD with
      RecordPtr := s.TLD.RecordPtr + MetadataRecSize
      NumConsecutiveFnEnters := 0
      NumTailCalls := 0 }
    Memory := s.Memory ++ [.TSCWrap TSC] }

/-- The expression `FuncId & ~(0x0F << 28)` on the 32-bit two's-complement
pattern of the `int` `FuncId`, as stored in the 28-bit field. -/
def maskFuncId (FuncId : Int) : Nat :=
  ((FuncId % 2 ^ 32).toNat &&& ((2 ^ 32 - 1) ^^^ ((0x0F <<< 28) % 2 ^ 32))) % 2 ^ 28

/-- The function `writeFunctionRecord`, for `TSCDelta` a `uint32_t`; the
counters are `uint8_t`. -/
def writeFunctionRecord (FuncId : Int) (TSCDelta : Nat) (EntryType : XRayEntryType)
    (s : FDRState) : FDRState :=
  let write := fun (TLD : ThreadLocalData) (kind : FunctionRecordKinds) =>
    ({ TLD := { TLD with RecordPtr := TLD.RecordPtr + FunctionRecSize }
       Memory := s.Memory ++ [.Function kind (maskFuncId FuncId) TSCDelta] } : FDRState)
  match EntryType with
  | .ENTRY =>
    write { s.TLD with NumConsecutiveFnEnters := (s.TLD.NumConsecutiveFnEnters + 1) % 256 }
      .FunctionEnter
  | .LOG_ARGS_ENTRY =>
    write { s.TLD with NumConsecutiveFnEnters := 0, NumTailCalls := 0 } .FunctionEnter
  | .EXIT =>
    write { s.TLD with NumConsecutiveFnEnters := 0, NumTailCalls := 0 } .FunctionExit
  | .TAIL =>
    if s.TLD.NumConsecutiveFnEnters > 0 then
      write { s.TLD with
        NumTailCalls := (s.TLD.NumTailCalls + 1) % 256
        NumConsecutiveFnEnters := 0 } .FunctionTailExit
    else
      write { s.TLD with NumTailCalls := 0, NumConsecutiveFnEnters := 0 } .FunctionTailExit
  | .CUSTOM_EVENT => s

/-- The function `writeCurrentCPUTSC`, for `TSC` a `uint64_t` and `CPU` a
`uint8_t`; `TLD` is the thread-local data. It returns a `uint32_t`. -/
def writeCurrentCPUTSC (s : FDRState) (TSC CPU : Nat) : Nat × FDRState :=
  if CPU ≠ s.TLD.CurrentCPU then (0, writeNewCPUIdMetadata CPU TSC s)
  else
    let Delta := (TSC + 2 ^ 64 - s.TLD.LastTSC) % 2 ^ 64
    if Delta ≤ 4294967295 then (Delta % 2 ^ 32, s)
    else (0, writeTSCWrapMetadata TSC s)

/-- Modelled from the spec: `BufferQueue::releaseBuffer` of
`xray_buffer_queue.h` (not embedded) answers with an error code, here whether
it is `ErrorCode::Ok`, and may change the buffer handle it is given. -/
structure BufferQueue where
  releaseBuffer : Buffer → Bool × Buffer

/-- The function `releaseThreadLocalBuffer`. -/
def releaseThreadLocalBuffer (BQArg : BufferQueue) (s : FDRState) : Bool × FDRState :=
  let (ok, B) := BQArg.releaseBuffer s.TLD.Buffer
  (ok, { s with TLD := { s.TLD with Buffer := B } })

/-- The function `endBufferIfFull`; `queue` resolves the pointer `TLD.LocalBQ`.
The result is `none` when a null `TLD.LocalBQ` is dereferenced. The pointer
difference is compared as a `size_t`. -/
def endBufferIfFull (queue : Nat → BufferQueue) (s : FDRState) : Option FDRState :=
  let BufferStart := s.TLD.Buffer.Buffer
  if (((s.TLD.RecordPtr + MetadataRecSize : Nat) : Int) - BufferStart) % 2 ^ 64 =
      MetadataRecSize then
    let s := writeEOBMetadata s
    match s.TLD.LocalBQ with
    | none => none
    | some bq =>
      let (ok, s) := releaseThreadLocalBuffer (queue bq) s
      if !ok then some s
      else some { s with TLD := { s.TLD with RecordPtr := 0 } }
  else some s

/-! ## Sequences of writes -/

/-- A record-writing operation. -/
inductive WriteOp
  | writeFunctionRecord (FuncId : Int) (TSCDelta : Nat) (EntryType : XRayEntryType)
  | writeNewBufferPreamble (Tid : Int) (TS : timespec)
  | writeNewCPUIdMetadata (CPU TSC : Nat)
  | writeEOBMetadata
  | writeTSCWrapMetadata (TSC : Nat)
  deriving DecidableEq, Repr

/-- The effect of one record-writing operation. -/
def WriteOp.apply : WriteOp → FDRState → FDRState
  | .writeFunctionRecord FuncId TSCDelta EntryType, s =>
    XRay.writeFunctionRecord FuncId TSCDelta EntryType s
  | .writeNewBufferPreamble Tid TS, s => XRay.writeNewBufferPreamble Tid TS s
  | .writeNewCPUIdMetadata CPU TSC, s => XRay.writeNewCPUIdMetadata CPU TSC s
  | .writeEOBMetadata, s => XRay.writeEOBMetadata s
  | .writeTSCWrapMetadata TSC, s => XRay.writeTSCWrapMetadata TSC s

/-- The state after a sequence of record-writing operations. -/
def applyAll (ops : List WriteOp) (s : FDRState) : FDRState :=
  ops.foldl (fun s op => op.apply s) s

/-- Whether a record is a `FunctionEnter` function record. -/
def Record.isFunctionEnter : Record → Bool
  | .Function .FunctionEnter _ _ => true
  | _ => false

/-- The number of `FunctionEnter` records immediately preceding the write
pointer. -/
def trailingFunctionEnters (Memory : List Record) : Nat :=
  (Memory.reverse.takeWhile Record.isFunctionEnter).length

/-- The number of `writeFunctionRecord` calls with entry type `ENTRY` that
close a sequence of operations, the calls for `CUSTOM_EVENT`, which write
nothing, being passed over; the sequence is given latest operation first. -/
def trailingEntries : List WriteOp → Nat
  | .writeFunctionRecord _ _ .ENTRY :: ops => trailingEntries ops + 1
  | .writeFunctionRecord _ _ .CUSTOM_EVENT :: ops => trailingEntries ops
  | _ => 0

end XRay

namespace GISel

/-! # Theorems -/

/-! ## Basic facts on the embedding -/

theorem decodeOpcode_tag (o : Opcode) : decodeOpcode o.tag = some o := by
  cases o <;> rfl

theorem decodeOpcode_eq_some {v : Int} {o : Opcode} (h : decodeOpcode v = some o) :
    v = o.tag := by
  unfold decodeOpcode at h
  have := List.find?_some h
  have h2 : o.tag = v := by simpa using this
  exact h2.symm

theorem fetch_eq_ok {T : List Int} {c : Config} {v : Int × Config} :
    fetch T c = .ok v ↔
      T[c.CurrentIdx]? = some v.1 ∧ v.2 = { c with CurrentIdx := c.CurrentIdx + 1 } := by
  unfold fetch
  split
  · rename_i w hw
    rw [hw]
    constructor
    · intro h; cases h; exact ⟨rfl, rfl⟩
    · rintro ⟨h1, h2⟩
      cases v
      simp only [Option.some.injEq] at h1
      simp only at h2
      subst h1 h2
      rfl
  · rename_i hw
    rw [hw]
    constructor
    · intro h; cases h
    · rintro ⟨h1, _⟩; cases h1

theorem mergeLoop_frame (InsnID : Int) (L : List Int) (c c1 : Config)
    (h : mergeMemOperandsLoop InsnID L c = .ok c1) :
    c1.OnFailResumeAt = c.OnFailResumeAt ∧ c1.State = c.State ∧ c1.OutMIs = c.OutMIs := by
  induction L generalizing c with
  | nil => simp [mergeMemOperandsLoop] at h
  | cons v rest ih =>
    simp only [mergeMemOperandsLoop, bind, Except.bind, pure, Except.pure] at h
    repeat' split at h
    all_goals first
      | cases h
      | skip
    · exact ⟨rfl, rfl, rfl⟩
    · have := ih _ h
      simpa using this

theorem execCase_facts {env : Env} {T : List Int} {op : Opcode} {c : Config} {a : Action}
    (h : execCase env T op c = .ok a) : CaseFacts op c a := by
  unfold CaseFacts
  cases op
  case GIR_MergeMemOperands =>
    simp only [execCase, case_GIR_MergeMemOperands, bind, Except.bind, pure, Except.pure] at h
    repeat' split at h
    all_goals cases h
    rename_i h1 _ _ _ _ _ h2
    have := mergeLoop_frame _ _ _ _ h2
    simp_all [fetch_eq_ok, Action.config, Opcode.isGIM, Opcode.canReject]
  all_goals
    simp only [execCase, case_GIM_Try, case_GIM_RecordInsn, case_GIM_CheckFeatures,
        case_GIM_CheckOpcode, case_GIM_CheckNumOperands, case_GIM_CheckImmPredicate,
        case_GIM_CheckType, case_GIM_CheckRegBankForClass, case_GIM_CheckComplexPattern,
        case_GIM_CheckConstantInt, case_GIM_CheckLiteralInt, case_GIM_CheckIntrinsicID,
        case_GIM_CheckIsMBB, case_GIM_CheckIsSafeToFold, case_GIM_Reject,
        case_GIR_MutateOpcode, case_GIR_BuildMI, case_GIR_Copy, case_GIR_CopySubReg,
        case_GIR_AddImplicitDef, case_GIR_AddImplicitUse, case_GIR_AddRegister,
        case_GIR_AddImm, case_GIR_ComplexRenderer, case_GIR_CopyConstantAsSImm,
        case_GIR_ConstrainOperandRC, case_GIR_ConstrainSelectedInstOperands,
        case_GIR_EraseFromParent, case_GIR_Done, addOperands, MachineFunction.buildMI,
        bind, Except.bind, pure, Except.pure, throw, throwThe, MonadExceptOf.throw] at h
    repeat' split at h
    all_goals cases h
    all_goals simp_all [fetch_eq_ok, Action.config, Opcode.isGIM, Opcode.canReject, Opcode.arity]

theorem execOpcode_ok {env : Env} {T : List Int} {c : Config} {a : Action}
    (h : execOpcode env T c = .ok a) :
    ∃ op, opcodeAt T c = some op ∧ c.CurrentIdx ≠ 4294967295 ∧
      execCase env T op (afterTag c) = .ok a := by
  unfold execOpcode at h
  simp only [bind, Except.bind, pure, Except.pure, throw, throwThe, MonadExceptOf.throw] at h
  repeat' split at h
  all_goals first
    | cases h
    | skip
  rename_i hne _ v hf _ op hd
  rw [fetch_eq_ok] at hf
  refine ⟨op, ?_, hne, ?_⟩
  · unfold opcodeAt; rw [hf.1]; exact hd
  · rw [afterTag, ← hf.2]; exact h

theorem execOpcode_of_opcodeAt {env : Env} {T : List Int} {c : Config} {op : Opcode}
    (hop : opcodeAt T c = some op) (hne : c.CurrentIdx ≠ 4294967295) :
    execOpcode env T c = execCase env T op (afterTag c) := by
  unfold opcodeAt at hop
  split at hop
  · rename_i v hv
    unfold execOpcode
    simp only [bind, Except.bind, pure, Except.pure, throw, throwThe, MonadExceptOf.throw,
      if_neg hne, fetch, hv, hop]
    rfl
  · cases hop

theorem opcodeAt_eq {T : List Int} {c : Config} {op : Opcode} :
    opcodeAt T c = some op ↔ T[c.CurrentIdx]? = some op.tag := by
  unfold opcodeAt
  split
  · rename_i v hv
    rw [hv]
    constructor
    · intro h; rw [decodeOpcode_eq_some h]
    · intro h; cases h; exact decodeOpcode_tag op
  · rename_i hv
    rw [hv]; simp

/-- Facts of one loop iteration, lifted from the cases. -/
theorem execOpcode_facts {env : Env} {T : List Int} {c : Config} {a : Action}
    (h : execOpcode env T c = .ok a) :
    ∃ op, opcodeAt T c = some op ∧ CaseFacts op (afterTag c) a := by
  obtain ⟨op, hop, _, hc⟩ := execOpcode_ok h
  exact ⟨op, hop, execCase_facts hc⟩


/-! ## Facts on the loop -/

theorem handleReject_nil {c : Config} (h : c.OnFailResumeAt = []) :
    handleReject c = (.RejectAndGiveUp, c) := by
  simp [handleReject, h]

theorem handleReject_snoc {c : Config} {s : List Nat} {t : Nat}
    (h : c.OnFailResumeAt = s ++ [t]) :
    handleReject c =
      (.RejectAndResume, { c with CurrentIdx := t, OnFailResumeAt := s }) := by
  simp [handleReject, h, List.getLastD_concat]

theorem exists_snoc_of_ne_nil {s : List Nat} (h : s ≠ []) : ∃ s1 t, s = s1 ++ [t] :=
  ⟨s.dropLast, s.getLast h, (List.dropLast_append_getLast h).symm⟩

theorem step_of_next {env : Env} {T : List Int} {c c1 : Config}
    (h : execOpcode env T c = .ok (.next c1)) : step env T c = .next c1 := by
  simp [step, h]

theorem step_of_done {env : Env} {T : List Int} {c c1 : Config}
    (h : execOpcode env T c = .ok (.done c1)) : step env T c = .ret true c1 := by
  simp [step, h]

theorem step_of_error {env : Env} {T : List Int} {c : Config} {e : Halt}
    (h : execOpcode env T c = .error e) : step env T c = .abort e := by
  simp [step, h]

theorem step_of_reject_nil {env : Env} {T : List Int} {c c1 : Config}
    (h : execOpcode env T c = .ok (.reject c1)) (hs : c1.OnFailResumeAt = []) :
    step env T c = .ret false c1 := by
  simp [step, h, handleReject_nil hs]

theorem step_of_reject_snoc {env : Env} {T : List Int} {c c1 : Config} {s : List Nat} {t : Nat}
    (h : execOpcode env T c = .ok (.reject c1)) (hs : c1.OnFailResumeAt = s ++ [t]) :
    step env T c = .next { c1 with CurrentIdx := t, OnFailResumeAt := s } := by
  simp [step, h, handleReject_snoc hs]

/-- How an iteration can go on: by falling through, or by a rejection that
resumes at the top checkpoint. -/
theorem step_next_cases {env : Env} {T : List Int} {c c2 : Config}
    (h : step env T c = .next c2) :
    execOpcode env T c = .ok (.next c2) ∨
    ∃ c1 s t, execOpcode env T c = .ok (.reject c1) ∧ c1.OnFailResumeAt = s ++ [t] ∧
      c2 = { c1 with CurrentIdx := t, OnFailResumeAt := s } := by
  unfold step at h
  split at h
  · cases h
  · cases h; left; assumption
  · cases h
  · rename_i c1 hc
    right
    by_cases hs : c1.OnFailResumeAt = []
    · rw [handleReject_nil hs] at h; cases h
    · obtain ⟨s, t, hst⟩ := exists_snoc_of_ne_nil hs
      rw [handleReject_snoc hst] at h
      cases h
      exact ⟨c1, s, t, hc, hst, rfl⟩

/-- How an iteration can return: `true` at `GIR_Done`, `false` at a rejection
with an empty checkpoint stack. -/
theorem step_ret_cases {env : Env} {T : List Int} {c cf : Config} {b : Bool}
    (h : step env T c = .ret b cf) :
    (b = true ∧ execOpcode env T c = .ok (.done cf)) ∨
    (b = false ∧ execOpcode env T c = .ok (.reject cf) ∧ cf.OnFailResumeAt = []) := by
  unfold step at h
  split at h
  · cases h
  · cases h
  · cases h; left; exact ⟨rfl, by assumption⟩
  · rename_i c1 hc
    right
    by_cases hs : c1.OnFailResumeAt = []
    · rw [handleReject_nil hs] at h; cases h
      exact ⟨rfl, hc, hs⟩
    · obtain ⟨s, t, hst⟩ := exists_snoc_of_ne_nil hs
      rw [handleReject_snoc hst] at h
      cases h

theorem after_succ_iff {env : Env} {T : List Int} {k : Nat} {c0 c2 : Config} :
    after env T (k + 1) c0 = some c2 ↔
      ∃ c, after env T k c0 = some c ∧ step env T c = .next c2 := by
  induction k generalizing c0 with
  | zero =>
    simp only [after]
    constructor
    · intro h
      split at h
      · rename_i c1 hc; cases h; exact ⟨c0, rfl, hc⟩
      · cases h
    · rintro ⟨c, hc, hs⟩
      cases hc
      rw [hs]
  | succ k ih =>
    rw [after]
    split
    · rename_i c1 hc
      rw [ih]
      constructor
      · rintro ⟨c, h1, h2⟩
        exact ⟨c, by rw [after, hc]; exact h1, h2⟩
      · rintro ⟨c, h1, h2⟩
        rw [after, hc] at h1
        exact ⟨c, h1, h2⟩
    · rename_i hc
      constructor
      · intro h; cases h
      · rintro ⟨c, h1, _⟩
        rw [after] at h1
        split at h1
        · rename_i c1 hc1; exact absurd hc1 (hc c1)
        · cases h1

theorem run_of_after {env : Env} {T : List Int} {k : Nat} {c0 c : Config}
    (h : after env T k c0 = some c) (n : Nat) :
    run env T (k + n) c0 = run env T n c := by
  induction k generalizing c0 with
  | zero => cases h; simp
  | succ k ih =>
    rw [after] at h
    split at h
    · rename_i c1 hc
      rw [show k + 1 + n = (k + n) + 1 by omega, run, hc]
      exact ih h
    · cases h

/-- A call that returns does so in an iteration reached by iterations that
all went on. -/
theorem run_returned {env : Env} {T : List Int} {fuel : Nat} {c0 cf : Config} {b : Bool}
    (h : run env T fuel c0 = some (.returned b cf)) :
    ∃ k c, k < fuel ∧ after env T k c0 = some c ∧ step env T c = .ret b cf := by
  induction fuel generalizing c0 with
  | zero => cases h
  | succ n ih =>
    rw [run] at h
    split at h
    · rename_i c1 hc
      obtain ⟨k, c, hk, hak, hs⟩ := ih h
      exact ⟨k + 1, c, by omega, by rw [after, hc]; exact hak, hs⟩
    · rename_i b1 c1 hc
      cases h
      exact ⟨0, c0, by omega, rfl, hc⟩
    · cases h

/-- A property kept by every iteration that goes on holds after any number of
iterations. -/
theorem after_invariant {env : Env} {T : List Int} (P : Config → Prop)
    (hstep : ∀ c c1, P c → step env T c = .next c1 → P c1)
    {k : Nat} {c0 c : Config} (h0 : P c0) (h : after env T k c0 = some c) : P c := by
  induction k generalizing c with
  | zero => cases h; exact h0
  | succ k ih =>
    obtain ⟨c1, h1, h2⟩ := after_succ_iff.mp h
    exact hstep c1 c (ih h1) h2


/-! ## Facts on single cases -/

theorem toSizeT_ne_zero {v : Int} (hv : IsInt64 v) (h0 : v ≠ 0) : toSizeT v ≠ 0 := by
  unfold toSizeT
  unfold IsInt64 at hv
  omega

theorem toSizeT_of_nonneg {v : Int} (hv : IsInt64 v) (h0 : 0 ≤ v) : toSizeT v = v.toNat := by
  unfold toSizeT
  unfold IsInt64 at hv
  omega

theorem bind_eq_ok {α β : Type} {x : Except Halt α} {f : α → Except Halt β} {b : β} :
    (x >>= f) = .ok b ↔ ∃ a, x = .ok a ∧ f a = .ok b := by
  cases x with
  | error e => simp [bind, Except.bind]
  | ok a => simp [bind, Except.bind]

/-- A rejecting `GIM_RecordInsn` leaves the per-call state as it is. -/
theorem recordInsn_reject {env : Env} {T : List Int} {c c1 : Config}
    (h : case_GIM_RecordInsn env T c = .ok (.reject c1)) :
    c1.State = c.State := by
  simp only [case_GIM_RecordInsn, bind, Except.bind, pure, Except.pure, throw, throwThe,
    MonadExceptOf.throw] at h
  repeat' split at h
  all_goals cases h
  all_goals simp_all [fetch_eq_ok]

/-- The case `GIM_RecordInsn` never rebinds slot 0. -/
theorem recordInsn_root {env : Env} {T : List Int} (hT : Int64Table T) {c : Config} {a : Action}
    (h : case_GIM_RecordInsn env T c = .ok a) :
    a.config.State.MIs[0]? = c.State.MIs[0]? := by
  unfold case_GIM_RecordInsn at h
  obtain ⟨⟨v1, c1⟩, hf1, h⟩ := bind_eq_ok.mp h
  obtain ⟨⟨v2, c2⟩, hf2, h⟩ := bind_eq_ok.mp h
  obtain ⟨⟨v3, c3⟩, hf3, h⟩ := bind_eq_ok.mp h
  rw [fetch_eq_ok] at hf1 hf2 hf3
  have h64 : IsInt64 v1 := hT _ (List.getElem?_mem hf1.1)
  by_cases hne : v1 = 0
  · simp [hne, bind, Except.bind, throw, throwThe, MonadExceptOf.throw] at h
  · have hnz := toSizeT_ne_zero h64 hne
    clear h64 hT
    obtain ⟨_, rfl⟩ := hf1
    obtain ⟨_, rfl⟩ := hf2
    obtain ⟨_, rfl⟩ := hf3
    simp only [bind, Except.bind, pure, Except.pure, throw, throwThe,
      MonadExceptOf.throw, if_neg hne] at h
    repeat' split at h
    all_goals cases h
    all_goals simp only [Action.config]
    · rw [List.getElem?_set_ne hnz]
    · apply List.getElem?_append_left
      have hlen : toSizeT v1 = c.State.MIs.length := by assumption
      omega


theorem kind_of_done {op : Opcode} {c c1 : Config}
    (hf : CaseFacts op c (.done c1)) : op = .GIR_Done := by
  obtain ⟨_, _, _, _, _, h6, _, h8⟩ := hf
  by_contra hne
  cases hcr : op.canReject
  · have := h6 hcr hne
    cases this
  · rcases h8 hcr with h | h <;> cases h

theorem kind_of_reject {op : Opcode} {c c1 : Config}
    (hf : CaseFacts op c (.reject c1)) : op.canReject = true := by
  obtain ⟨_, _, _, _, _, h6, h7, _⟩ := hf
  cases hcr : op.canReject
  · by_cases hd : op = .GIR_Done
    · have := h7 hd; cases this
    · have := h6 hcr hd; cases this
  · rfl

theorem emission_not_reject {op : Opcode} (h : op.isEmission = true) :
    op.canReject = false ∧ op ≠ .GIR_Done ∧ op ≠ .GIM_Try ∧ op.isGIM = false := by
  cases op <;> first
    | (exact absurd h (by decide))
    | decide

/-- An emission opcode either halts or falls through, leaving the checkpoint
stack as it is. -/
theorem emission_step (env : Env) {T : List Int} {c : Config} {op : Opcode}
    (hop : opcodeAt T c = some op) (hem : op.isEmission = true) :
    (∃ e, step env T c = .abort e) ∨
    (∃ c1, execOpcode env T c = .ok (.next c1) ∧ step env T c = .next c1 ∧
      c1.OnFailResumeAt = c.OnFailResumeAt) := by
  cases hx : execOpcode env T c with
  | error e => left; exact ⟨e, step_of_error hx⟩
  | ok a =>
    right
    obtain ⟨op1, hop1, hf⟩ := execOpcode_facts hx
    rw [hop] at hop1
    cases hop1
    obtain ⟨hcr, hd, ht, _⟩ := emission_not_reject hem
    obtain ⟨h1, _, _, _, _, h6, _, _⟩ := hf
    have ha := h6 hcr hd
    rw [ha] at hx
    exact ⟨a.config, congrArg Except.ok ha, step_of_next hx, h1 ht⟩


/-- A rejection leaves the per-call state, the output builders and the stream
as they were before the rejecting opcode, except that
`GIM_CheckComplexPattern` has stored the callback result. -/
theorem reject_frame {env : Env} {T : List Int} {c c1 : Config}
    (h : execOpcode env T c = .ok (.reject c1)) :
    c1.OnFailResumeAt = c.OnFailResumeAt ∧ c1.State.MIs = c.State.MIs ∧
      c1.OutMIs = c.OutMIs ∧ c1.MF = c.MF ∧
      (opcodeAt T c ≠ some .GIM_CheckComplexPattern →
        c1.State.Renderers = c.State.Renderers) := by
  obtain ⟨op, hop, _, hc⟩ := execOpcode_ok h
  have hf := execCase_facts hc
  have hcr := kind_of_reject hf
  obtain ⟨h1, h2, h3, h4, _⟩ := hf
  have hgim : op.isGIM = true := by
    cases op <;> first
      | rfl
      | (exact absurd hcr (by decide))
  have htry : op ≠ .GIM_Try := by
    intro he; rw [he] at hcr; exact absurd hcr (by decide)
  have hmis : c1.State.MIs = c.State.MIs := by
    by_cases hr : op = .GIM_RecordInsn
    · subst hr
      have := recordInsn_reject hc
      rw [this]; rfl
    · exact h4 hr
  refine ⟨h1 htry, hmis, (h2 hgim).2, (h2 hgim).1, ?_⟩
  intro hne
  apply h3
  intro he
  rw [he] at hop
  exact hne hop

/-- A matching opcode leaves the stream and the output builders as they are,
however the iteration ends. -/
theorem gim_step_frame (env : Env) {T : List Int} {c : Config} {op : Opcode}
    (hop : opcodeAt T c = some op) (hgim : op.isGIM = true) :
    (∀ c1, step env T c = .next c1 → c1.MF = c.MF ∧ c1.OutMIs = c.OutMIs) ∧
    (∀ b c1, step env T c = .ret b c1 → c1.MF = c.MF ∧ c1.OutMIs = c.OutMIs) := by
  have key : ∀ a, execOpcode env T c = .ok a → a.config.MF = c.MF ∧ a.config.OutMIs = c.OutMIs := by
    intro a ha
    obtain ⟨op1, hop1, hf⟩ := execOpcode_facts ha
    rw [hop] at hop1; cases hop1
    exact hf.2.1 hgim
  constructor
  · intro c1 hs
    rcases step_next_cases hs with hx | ⟨c2, s, t, hx, _, rfl⟩
    · exact key _ hx
    · exact key _ hx
  · intro b c1 hs
    rcases step_ret_cases hs with ⟨_, hx⟩ | ⟨_, hx, _⟩
    · exact key _ hx
    · exact key _ hx

/-- Every iteration that goes on keeps slot 0 of `State.MIs`. -/
theorem step_root {env : Env} {T : List Int} (hT : Int64Table T) {c : Config} {a : Action}
    (h : execOpcode env T c = .ok a) : a.config.State.MIs[0]? = c.State.MIs[0]? := by
  obtain ⟨op, _, _, hc⟩ := execOpcode_ok h
  by_cases hr : op = .GIM_RecordInsn
  · subst hr
    have hroot := recordInsn_root hT (c := afterTag c) hc
    exact hroot
  · rw [(execCase_facts hc).2.2.2.1 hr]; rfl


/-- What `GIM_Try` does: it pushes its operand, converted to `uint64_t`. -/
theorem try_push {env : Env} {T : List Int} {c c1 : Config}
    (hop : opcodeAt T c = some .GIM_Try) (h : execOpcode env T c = .ok (.next c1)) :
    c1 = { c with
      CurrentIdx := c.CurrentIdx + 2
      OnFailResumeAt := c.OnFailResumeAt ++ [toSizeT (T.getD (c.CurrentIdx + 1) 0)] } := by
  obtain ⟨op, hop1, _, hc⟩ := execOpcode_ok h
  rw [hop] at hop1; cases hop1
  simp only [execCase, case_GIM_Try] at hc
  obtain ⟨⟨v, c2⟩, hf, hc⟩ := bind_eq_ok.mp hc
  rw [fetch_eq_ok] at hf
  obtain ⟨hv, rfl⟩ := hf
  simp only [pure, Except.pure, Except.ok.injEq, Action.next.injEq] at hc
  subst hc
  simp only [afterTag] at hv
  simp [afterTag, List.getD, hv]

theorem execOpcode_try_not_reject {env : Env} {T : List Int} {c c1 : Config}
    (hop : opcodeAt T c = some .GIM_Try) : execOpcode env T c ≠ .ok (.reject c1) := by
  intro h
  obtain ⟨op, hop1, hf⟩ := execOpcode_facts h
  rw [hop] at hop1; cases hop1
  have := kind_of_reject hf
  exact absurd this (by decide)

/-- Pushes only: after iterations none of which rejected, the stack is the
stack at the start followed by the pushed targets. -/
theorem stack_after_pushes {env : Env} {T : List Int} {k : Nat} {c c1 : Config}
    {ts : List Nat} (hk : after env T k c = some c1)
    (hev : events env T k c = ts.map Event.push) :
    c1.OnFailResumeAt = c.OnFailResumeAt ++ ts := by
  induction k generalizing c ts with
  | zero =>
    cases hk
    simp only [events] at hev
    cases ts with
    | nil => simp
    | cons t ts => cases hev
  | succ k ih =>
    rw [after] at hk
    rw [events] at hev
    split at hk
    · rename_i c2 hs
      cases hx : execOpcode env T c with
      | error e => rw [step_of_error hx] at hs; cases hs
      | ok a =>
        cases a with
        | next c3 =>
          rw [step_of_next hx] at hs
          cases hs
          rw [hx] at hev
          simp only at hev
          by_cases hop : opcodeAt T c = some .GIM_Try
          · rw [if_pos hop] at hev
            cases ts with
            | nil => cases hev
            | cons t ts =>
              simp only [List.map_cons, List.cons.injEq, Event.push.injEq] at hev
              have h3 := try_push hop hx
              have := ih hk hev.2
              rw [this, h3, ← hev.1]
              simp
          · rw [if_neg hop] at hev
            obtain ⟨op, hop1, hf⟩ := execOpcode_facts hx
            have hne : op ≠ .GIM_Try := by
              intro he; rw [he] at hop1; exact hop hop1
            have := ih hk hev
            rw [this]
            have h1 := hf.1 hne
            simp only [Action.config, afterTag] at h1
            rw [h1]
        | done c3 => rw [step_of_done hx] at hs; cases hs
        | reject c3 =>
          rw [hx] at hev
          simp only at hev
          rw [hs] at hev
          cases ts with
          | nil => cases hev
          | cons t ts => cases hev
    · cases hk

/-- Pops only: over iterations none of which is a `GIM_Try`, the rejections
resume at the stack entries from the top down, one entry each, and a
rejection gives up only once the stack is empty. -/
theorem events_without_push {env : Env} {T : List Int} {k : Nat} {c : Config}
    (hno : ∀ t, Event.push t ∉ events env T k c) :
    (∃ m, events env T k c =
      (c.OnFailResumeAt.reverse.map Event.resume ++ [Event.giveUp]).take m) ∧
    (∀ c2, after env T k c = some c2 →
      c2.OnFailResumeAt =
        c.OnFailResumeAt.take (c.OnFailResumeAt.length - (events env T k c).length)) := by
  induction k generalizing c with
  | zero =>
    refine ⟨⟨0, by simp [events]⟩, ?_⟩
    intro c2 h2
    cases h2
    simp [events]
  | succ k ih =>
    rw [events] at hno
    rw [events, after]
    cases hx : execOpcode env T c with
    | error e =>
      rw [step_of_error hx]
      exact ⟨⟨0, by simp⟩, fun c2 h2 => by cases h2⟩
    | ok a =>
      cases a with
      | done c3 =>
        rw [step_of_done hx]
        exact ⟨⟨0, by simp⟩, fun c2 h2 => by cases h2⟩
      | next c3 =>
        rw [hx] at hno
        simp only at hno ⊢
        rw [step_of_next hx]
        simp only
        by_cases hop : opcodeAt T c = some .GIM_Try
        · rw [if_pos hop] at hno
          exact absurd (List.mem_cons_self _ _) (hno _)
        · rw [if_neg hop] at hno ⊢
          obtain ⟨op, hop1, hf⟩ := execOpcode_facts hx
          have hne : op ≠ .GIM_Try := by
            intro he; rw [he] at hop1; exact hop hop1
          have h1 := hf.1 hne
          simp only [Action.config, afterTag] at h1
          have := ih hno
          rw [h1] at this
          exact this
      | reject c3 =>
        rw [hx] at hno
        simp only at hno ⊢
        have hst := (reject_frame hx).1
        by_cases hs : c3.OnFailResumeAt = []
        · have hstep := step_of_reject_nil hx hs
          rw [hstep]
          simp only
          refine ⟨⟨1, ?_⟩, fun c2 h2 => by cases h2⟩
          rw [← hst, hs]
          rfl
        · obtain ⟨s, t, hsn⟩ := exists_snoc_of_ne_nil hs
          have hstep := step_of_reject_snoc hx hsn
          rw [hstep] at hno ⊢
          simp only at hno ⊢
          have hno2 : ∀ t1, Event.push t1 ∉
              events env T k { c3 with CurrentIdx := t, OnFailResumeAt := s } := by
            intro t1 hm
            exact hno t1 (List.mem_cons_of_mem _ hm)
          obtain ⟨⟨m, hm⟩, h2⟩ := ih hno2
          simp only at hm h2
          rw [← hst, hsn]
          constructor
          · refine ⟨m + 1, ?_⟩
            rw [hm]
            simp
          · intro c2 hc2
            rw [h2 c2 hc2]
            simp only [List.length_cons, List.length_append, List.length_singleton,
              List.length_nil, Nat.zero_add, Nat.add_sub_add_right]
            rw [List.take_append_of_le_length (Nat.sub_le _ _)]

theorem take_eq_self_of_last_mem {α : Type} {R : List α} {g : α} {m : Nat}
    (hg : g ∉ R) (hm : g ∈ (R ++ [g]).take m) : (R ++ [g]).take m = R ++ [g] := by
  by_cases hle : m ≤ R.length
  · rw [List.take_append_of_le_length hle] at hm
    exact absurd (List.mem_of_mem_take hm) hg
  · apply List.take_of_length_le
    simp
    omega


/-- A successful `GIM_CheckComplexPattern` leaves a non-empty renderer in the
slot named by its third operand. -/
theorem complexPattern_capture {env : Env} {T : List Int} {c c1 : Config}
    (hop : opcodeAt T c = some .GIM_CheckComplexPattern)
    (h : execOpcode env T c = .ok (.next c1)) :
    ∃ r, c1.State.Renderers[toSizeT (T.getD (c.CurrentIdx + 3) 0)]? = some (some r) := by
  obtain ⟨op, hop1, _, hc⟩ := execOpcode_ok h
  rw [hop] at hop1; cases hop1
  simp only [execCase, case_GIM_CheckComplexPattern] at hc
  obtain ⟨⟨v1, d1⟩, hf1, hc⟩ := bind_eq_ok.mp hc
  rw [fetch_eq_ok] at hf1
  obtain ⟨_, rfl⟩ := hf1
  obtain ⟨⟨v2, d2⟩, hf2, hc⟩ := bind_eq_ok.mp hc
  rw [fetch_eq_ok] at hf2
  obtain ⟨_, rfl⟩ := hf2
  obtain ⟨⟨v3, d3⟩, hf3, hc⟩ := bind_eq_ok.mp hc
  rw [fetch_eq_ok] at hf3
  obtain ⟨hv3, rfl⟩ := hf3
  obtain ⟨⟨v4, d4⟩, hf4, hc⟩ := bind_eq_ok.mp hc
  rw [fetch_eq_ok] at hf4
  obtain ⟨_, rfl⟩ := hf4
  obtain ⟨⟨q, mi⟩, _, hc⟩ := bind_eq_ok.mp hc
  obtain ⟨cb, _, hc⟩ := bind_eq_ok.mp hc
  obtain ⟨MO, _, hc⟩ := bind_eq_ok.mp hc
  dsimp only [afterTag] at hv3 hc
  have hR : T.getD (c.CurrentIdx + 3) 0 = v3 := by
    simp [List.getD, show c.CurrentIdx + 3 = c.CurrentIdx + 1 + 1 + 1 by omega, hv3]
  rw [hR]
  generalize cb c.MF MO = res at hc
  simp only [bind, Except.bind, pure, Except.pure, throw, throwThe, MonadExceptOf.throw] at hc
  repeat' split at hc
  all_goals cases hc
  have hlt : toSizeT v3 < c.State.Renderers.length := by
    by_contra hcon
    exact absurd hcon ‹¬¬toSizeT v3 < c.State.Renderers.length›
  cases res with
  | none => exact absurd rfl ‹¬(none : ComplexRendererFn).isNone = true›
  | some r => exact ⟨r, List.getElem?_set_self hlt⟩

/-- An iteration whose opcode is not `GIM_CheckComplexPattern` keeps
`State.Renderers`, also when it rewinds. -/
theorem step_renderers {env : Env} {T : List Int} {c c1 : Config}
    (hop : opcodeAt T c ≠ some .GIM_CheckComplexPattern)
    (h : step env T c = .next c1) : c1.State.Renderers = c.State.Renderers := by
  rcases step_next_cases h with hx | ⟨c2, s, t, hx, _, rfl⟩
  · obtain ⟨op, hop1, hf⟩ := execOpcode_facts hx
    have hne : op ≠ .GIM_CheckComplexPattern := by
      intro he; rw [he] at hop1; exact hop hop1
    exact hf.2.2.1 hne
  · exact (reject_frame hx).2.2.2.2 hop


/-- The loop of `GIR_MergeMemOperands` stops right after the first sentinel. -/
theorem mergeLoop_width (InsnID : Int) (L : List Int) (c c1 : Config)
    (h : mergeMemOperandsLoop InsnID L c = .ok c1) :
    ∃ ids rest, L = ids ++ GIU_MergeMemOperands_EndOfList :: rest ∧
      GIU_MergeMemOperands_EndOfList ∉ ids ∧
      c1.CurrentIdx = c.CurrentIdx + ids.length + 1 := by
  induction L generalizing c with
  | nil => simp [mergeMemOperandsLoop] at h
  | cons v rest ih =>
    simp only [mergeMemOperandsLoop, bind, Except.bind, pure, Except.pure] at h
    by_cases hv : v = GIU_MergeMemOperands_EndOfList
    · rw [if_pos hv] at h
      cases h
      exact ⟨[], rest, by simp [hv], by simp, by simp⟩
    · rw [if_neg hv] at h
      repeat' split at h
      all_goals first
        | cases h
        | skip
      obtain ⟨ids, rest1, h1, h2, h3⟩ := ih _ h
      refine ⟨v :: ids, rest1, by simp [h1], ?_, ?_⟩
      · simp only [List.mem_cons, not_or]
        exact ⟨fun e => hv e.symm, h2⟩
      · simp only at h3
        rw [h3]
        simp only [List.length_cons]
        omega

/-- The first occurrence of an element splits a list in a unique way. -/
theorem first_occurrence_unique {α : Type} {e : α} {xs ys r s : List α}
    (hx : e ∉ xs) (hy : e ∉ ys) (h : xs ++ e :: r = ys ++ e :: s) : xs = ys := by
  induction xs generalizing ys with
  | nil =>
    cases ys with
    | nil => rfl
    | cons y ys =>
      simp only [List.nil_append, List.cons_append, List.cons.injEq] at h
      exact absurd (List.mem_cons_self _ _) (h.1 ▸ hy)
  | cons x xs ih =>
    cases ys with
    | nil =>
      simp only [List.nil_append, List.cons_append, List.cons.injEq] at h
      exact absurd (List.mem_cons_self _ _) (h.1 ▸ hx)
    | cons y ys =>
      simp only [List.cons_append, List.cons.injEq] at h
      rw [h.1, ih (fun hm => hx (List.mem_cons_of_mem _ hm))
        (fun hm => hy (List.mem_cons_of_mem _ hm)) h.2]

theorem getElem?_of_drop_eq {T : List Int} {n : Nat} {x : Int} {xs : List Int}
    (h : T.drop n = x :: xs) : T[n]? = some x := by
  have := congrArg (fun l => l[0]?) h
  simpa using this

theorem drop_add_of_drop_eq {T : List Int} {n : Nat} {xs ys : List Int}
    (h : T.drop n = xs ++ ys) : T.drop (n + xs.length) = ys := by
  rw [← List.drop_drop, h, List.drop_left]

/-- Executing a well-formed encoded instruction found at `CurrentIdx`
dispatches on its opcode and leaves `CurrentIdx` right behind it. -/
theorem exec_encoded {env : Env} {T : List Int} {c : Config} {i : Insn} {rest : List Int}
    {a : Action} (hT : T.drop c.CurrentIdx = i.encode ++ rest) (hwf : i.WellFormed)
    (h : execOpcode env T c = .ok a) :
    opcodeAt T c = some i.op ∧ CaseFacts i.op (afterTag c) a ∧
      T.drop a.config.CurrentIdx = rest := by
  have hop : opcodeAt T c = some i.op := by
    rw [opcodeAt_eq]
    exact getElem?_of_drop_eq hT
  obtain ⟨op, hop1, _, hc⟩ := execOpcode_ok h
  rw [hop] at hop1; cases hop1
  have hf := execCase_facts hc
  refine ⟨hop, hf, ?_⟩
  have hlen : a.config.CurrentIdx = c.CurrentIdx + i.encode.length := by
    by_cases hm : i.op = .GIR_MergeMemOperands
    · unfold Insn.WellFormed at hwf
      rw [if_pos hm] at hwf
      obtain ⟨id, ids, hargs, hnot⟩ := hwf
      rw [hm] at hc
      simp only [execCase, case_GIR_MergeMemOperands] at hc
      obtain ⟨⟨v, d⟩, hf1, hc⟩ := bind_eq_ok.mp hc
      rw [fetch_eq_ok] at hf1
      obtain ⟨_, rfl⟩ := hf1
      obtain ⟨q, _, hc⟩ := bind_eq_ok.mp hc
      obtain ⟨c2, hloop, hc⟩ := bind_eq_ok.mp hc
      simp only [pure, Except.pure, Except.ok.injEq] at hc
      subst hc
      obtain ⟨ids1, rest1, h1, h2, h3⟩ := mergeLoop_width _ _ _ _ hloop
      dsimp only [afterTag] at h1 h3
      have hd : T.drop (c.CurrentIdx + 1 + 1) =
          ids ++ GIU_MergeMemOperands_EndOfList :: rest := by
        have := @drop_add_of_drop_eq T c.CurrentIdx [i.op.tag, id]
          (ids ++ GIU_MergeMemOperands_EndOfList :: rest)
          (by rw [hT, Insn.encode, hargs]; simp)
        simpa [Nat.add_assoc] using this
      rw [hd] at h1
      have := first_occurrence_unique hnot h2 h1
      subst this
      simp only [Action.config, Insn.encode, hargs, List.length_cons, List.length_append,
        List.length_singleton, List.length_nil]
      rw [h3]
      omega
    · unfold Insn.WellFormed at hwf
      rw [if_neg hm] at hwf
      rw [hf.2.2.2.2.1 hm, Insn.encode, List.length_cons, hwf]
      simp only [afterTag]
      omega
  rw [hlen]
  exact drop_add_of_drop_eq hT


theorem getMI_ok {c : Config} {id : Int} {v : Nat × MachineInstr}
    (h : getMI c id = .ok v) :
    c.State.MIs[toSizeT id]? = some (some v.1) ∧ c.MF.Insts[v.1]? = some (some v.2) := by
  unfold getMI at h
  obtain ⟨p, hp, h⟩ := bind_eq_ok.mp h
  cases p with
  | none => cases h
  | some q =>
    obtain ⟨mi, hmi, h⟩ := bind_eq_ok.mp h
    cases h
    constructor
    · unfold vectorAt at hp
      split at hp
      · cases hp; assumption
      · cases hp
    · unfold MachineFunction.deref at hmi
      split at hmi
      · cases hmi; assumption
      · cases hmi

/-- How the cases write `OutMIs`: only `GIR_BuildMI` and `GIR_MutateOpcode`
do, each appending one builder. -/
theorem execCase_outMIs {env : Env} {T : List Int} {op : Opcode} {c : Config} {a : Action}
    (h : execCase env T op c = .ok a) :
    (op ≠ .GIR_BuildMI → op ≠ .GIR_MutateOpcode → a.config.OutMIs = c.OutMIs) ∧
    (op = .GIR_BuildMI → a.config.OutMIs = c.OutMIs ++ [some c.MF.Insts.length]) ∧
    (op = .GIR_MutateOpcode → a.config.OutMIs =
      c.OutMIs ++ [c.State.MIs.getD (toSizeT (T.getD c.CurrentIdx 0)) none]) := by
  cases op
  case GIR_MergeMemOperands =>
    simp only [execCase, case_GIR_MergeMemOperands, bind, Except.bind, pure, Except.pure] at h
    repeat' split at h
    all_goals cases h
    rename_i h1 _ _ _ _ _ h2
    have := mergeLoop_frame _ _ _ _ h2
    simp_all [fetch_eq_ok, Action.config]
  case GIR_MutateOpcode =>
    simp only [execCase, case_GIR_MutateOpcode, bind, Except.bind, pure, Except.pure, throw,
      throwThe, MonadExceptOf.throw] at h
    repeat' split at h
    all_goals cases h
    have hg := (getMI_ok ‹getMI _ _ = Except.ok _›).1
    simp_all [fetch_eq_ok, Action.config, List.getD]
  all_goals
    simp only [execCase, case_GIM_Try, case_GIM_RecordInsn, case_GIM_CheckFeatures,
        case_GIM_CheckOpcode, case_GIM_CheckNumOperands, case_GIM_CheckImmPredicate,
        case_GIM_CheckType, case_GIM_CheckRegBankForClass, case_GIM_CheckComplexPattern,
        case_GIM_CheckConstantInt, case_GIM_CheckLiteralInt, case_GIM_CheckIntrinsicID,
        case_GIM_CheckIsMBB, case_GIM_CheckIsSafeToFold, case_GIM_Reject,
        case_GIR_BuildMI, case_GIR_Copy, case_GIR_CopySubReg,
        case_GIR_AddImplicitDef, case_GIR_AddImplicitUse, case_GIR_AddRegister,
        case_GIR_AddImm, case_GIR_ComplexRenderer, case_GIR_CopyConstantAsSImm,
        case_GIR_ConstrainOperandRC, case_GIR_ConstrainSelectedInstOperands,
        case_GIR_EraseFromParent, case_GIR_Done, addOperands, MachineFunction.buildMI,
        bind, Except.bind, pure, Except.pure, throw, throwThe, MonadExceptOf.throw] at h
    repeat' split at h
    all_goals cases h
    all_goals simp_all [fetch_eq_ok, Action.config]

/-- Every iteration appends to `OutMIs` exactly the builders of `builtAt`. -/
theorem exec_outMIs {env : Env} {T : List Int} {c : Config} {a : Action}
    (h : execOpcode env T c = .ok a) : a.config.OutMIs = c.OutMIs ++ builtAt T c := by
  obtain ⟨op, hop, _, hc⟩ := execOpcode_ok h
  obtain ⟨h1, h2, h3⟩ := execCase_outMIs hc
  unfold builtAt
  rw [hop]
  by_cases hb : op = .GIR_BuildMI
  · subst hb; simpa [afterTag] using h2 rfl
  · by_cases hm : op = .GIR_MutateOpcode
    · subst hm; simpa [afterTag] using h3 rfl
    · have := h1 hb hm
      cases op <;> first
        | exact absurd rfl hb
        | exact absurd rfl hm
        | simpa [afterTag] using this


theorem encodeAll_cons (i : Insn) (is : List Insn) :
    encodeAll (i :: is) = i.encode ++ encodeAll is := by
  simp [encodeAll]

theorem canReject_ne_try {op : Opcode} (h : op.canReject = true) :
    op ≠ .GIM_Try ∧ op.isGIM = true := by
  cases op <;> first
    | (exact absurd h (by decide))
    | decide


/-- Straight-line code under any checkpoint stack: as long as every iteration
falls through, the encoded instructions are visited one after the other, the
stack stays as it is, and matching opcodes leave stream and `OutMIs` alone. -/
theorem straight_pass (env : Env) {T : List Int} (prog : List Insn) (rest : List Int)
    (c : Config) (hT : T.drop c.CurrentIdx = encodeAll prog ++ rest)
    (hwf : ∀ i ∈ prog, i.WellFormed ∧ i.op.canReject = true) :
    ∀ j c1, j ≤ prog.length → after env T j c = some c1 →
      (∀ i ci, i < j → after env T i c = some ci →
        ∃ cn, execOpcode env T ci = .ok (.next cn)) →
      T.drop c1.CurrentIdx = encodeAll (prog.drop j) ++ rest ∧
        c1.OnFailResumeAt = c.OnFailResumeAt ∧ c1.MF = c.MF ∧ c1.OutMIs = c.OutMIs := by
  intro j
  induction j with
  | zero =>
    intro c1 _ h1 _
    cases h1
    exact ⟨by simpa using hT, rfl, rfl, rfl⟩
  | succ j ih =>
    intro c1 hj h1 hpass
    obtain ⟨c2, h2, hstep⟩ := after_succ_iff.mp h1
    obtain ⟨hd, hst, hmf, hout⟩ := ih c2 (by omega) h2
      (fun i ci hi hci => hpass i ci (by omega) hci)
    have hlt : j < prog.length := by omega
    rw [List.drop_eq_getElem_cons hlt, encodeAll_cons, List.append_assoc] at hd
    have hi := hwf _ (List.getElem_mem hlt)
    obtain ⟨cn, hx⟩ := hpass j c2 (by omega) h2
    rw [step_of_next hx] at hstep
    cases hstep
    obtain ⟨_, hf, hdrop⟩ := exec_encoded hd hi.1 hx
    obtain ⟨hnt, hgim⟩ := canReject_ne_try hi.2
    have e1 := hf.1 hnt
    have e2 := hf.2.1 hgim
    simp only [Action.config, afterTag] at e1 e2
    exact ⟨hdrop, e1.trans hst, e2.1.trans hmf, e2.2.trans hout⟩

/-- Whatever the opcodes are, `OutMIs` after `k` iterations is `OutMIs` before
them followed by the builders the iterations created. -/
theorem outMIs_after (env : Env) {T : List Int} {k : Nat} {c c1 : Config}
    (h : after env T k c = some c1) :
    c1.OutMIs = c.OutMIs ++ builtDuring env T c 0 k := by
  induction k generalizing c1 with
  | zero => cases h; simp [builtDuring]
  | succ k ih =>
    obtain ⟨c2, h2, hstep⟩ := after_succ_iff.mp h
    have e := ih h2
    rw [builtDuring, Nat.zero_add, h2]
    rcases step_next_cases hstep with hx | ⟨c3, s, t, hx, hsn, rfl⟩
    · have := exec_outMIs hx
      simp only [Action.config] at this
      rw [this, e, List.append_assoc]
    · have := exec_outMIs hx
      simp only [Action.config] at this
      simp only
      rw [this, e, List.append_assoc]

theorem toSizeT_natCast {n : Nat} (h : n < 2 ^ 64) : toSizeT (n : Int) = n := by
  unfold toSizeT
  omega


theorem toSizeT_zero : toSizeT 0 = 0 := by decide
theorem toSizeT_one : toSizeT 1 = 1 := by decide
theorem toUnsigned_zero : toUnsigned 0 = 0 := by decide
theorem toUnsigned_one : toUnsigned 1 = 1 := by decide
theorem toUnsigned_natCast {n : Nat} (h : n < 2 ^ 32) : toUnsigned (n : Int) = n := by
  unfold toUnsigned
  omega

theorem exec_at {env : Env} {T : List Int} {c : Config} (op : Opcode)
    (hop : T[c.CurrentIdx]? = some op.tag) (hne : c.CurrentIdx ≠ 4294967295) :
    execOpcode env T c = execCase env T op (afterTag c) :=
  execOpcode_of_opcodeAt (opcodeAt_eq.mpr hop) hne

theorem findIdx_set_of_same {α : Type} (f : α → Bool) (l : List α) (b : Nat) (y : α)
    (h : ∀ x, l[b]? = some x → f y = f x) : (l.set b y).findIdx f = l.findIdx f := by
  induction l generalizing b with
  | nil => rfl
  | cons a t ih =>
    cases b with
    | zero =>
      have := h a (by simp)
      simp [List.findIdx_cons, this]
    | succ b =>
      have := ih b (fun x hx => h x (by simpa using hx))
      simp [List.findIdx_cons, this]

theorem contains_insertBefore (q r p : Nat) (hp : p ≠ q) (blk : List Nat) :
    (insertBefore q r blk).contains p = blk.contains p := by
  induction blk with
  | nil => rfl
  | cons x xs ih =>
    unfold insertBefore
    by_cases hx : x = r
    · simp [hx, hp]
    · simp only [if_neg hx, List.contains_cons, ih]

/-- The block of an instruction is not changed by inserting a new instruction
before some instruction of some block. -/
theorem getParent_buildMI (mf : MachineFunction) (b root dl opc p : Nat)
    (hp : p ≠ mf.Insts.length) :
    (mf.buildMI b root dl opc).2.getParent p = mf.getParent p := by
  unfold MachineFunction.buildMI MachineFunction.getParent
  simp only [List.length_set]
  rw [findIdx_set_of_same]
  intro x hx
  rw [contains_insertBefore _ _ _ hp]
  have : mf.Blocks.getD b [] = x := by
    simp [List.getD, hx]
  rw [this]


theorem getParent_setInst (mf : MachineFunction) (q p : Nat) (mi : MachineInstr) :
    (mf.setInst q mi).getParent p = mf.getParent p := rfl

/-- The scenario table once its constant check has rejected. -/
theorem incTable_failure (env : Env) (chk : Opcode) (ADD INC p : Nat) (MF : MachineFunction)
    (R : List ComplexRendererFn) (ms : List (Option Nat)) (op0 op1 : MachineOperand)
    (mem : List Nat) (dl : Nat)
    (hroot : MF.Insts[p]? = some (some ⟨ADD, [op0, op1], mem, dl⟩))
    (s2 : step env (incTable chk ADD INC) ⟨3, [], ⟨R, some p :: ms⟩, [], MF⟩ =
      .ret false ⟨7, [], ⟨R, some p :: ms⟩, [], MF⟩) :
    run env (incTable chk ADD INC) 2 ⟨0, [], ⟨R, some p :: ms⟩, [], MF⟩ =
      some (.returned false ⟨7, [], ⟨R, some p :: ms⟩, [], MF⟩) := by
  have s1 : step env (incTable chk ADD INC) ⟨0, [], ⟨R, some p :: ms⟩, [], MF⟩ =
      .next ⟨3, [], ⟨R, some p :: ms⟩, [], MF⟩ := by
    apply step_of_next
    rw [exec_at .GIM_CheckOpcode rfl (by simp)]
    simp [execCase, case_GIM_CheckOpcode, fetch, afterTag, incTable, getMI, vectorAt,
      MachineFunction.deref, toSizeT_zero, hroot, bind, Except.bind, pure, Except.pure]
  simp only [run, s1, s2]

/-- The constant check of the scenario table, for either constant-check
opcode: what the case does on operand 1 of the root. -/
theorem incTable_check (env : Env) (chk : Opcode) (ADD INC p : Nat) (MF : MachineFunction)
    (R : List ComplexRendererFn) (ms : List (Option Nat)) (op0 op1 : MachineOperand)
    (mem : List Nat) (dl : Nat)
    (hroot : MF.Insts[p]? = some (some ⟨ADD, [op0, op1], mem, dl⟩)) :
    (chk = .GIM_CheckLiteralInt → ∀ bits k, op1 = .cimm bits k →
      execOpcode env (incTable chk ADD INC) ⟨3, [], ⟨R, some p :: ms⟩, [], MF⟩ =
        .ok (if k = 1 then .next ⟨7, [], ⟨R, some p :: ms⟩, [], MF⟩
             else .reject ⟨7, [], ⟨R, some p :: ms⟩, [], MF⟩)) ∧
    (chk = .GIM_CheckConstantInt →
      execOpcode env (incTable chk ADD INC) ⟨3, [], ⟨R, some p :: ms⟩, [], MF⟩ =
        .ok (if env.isOperandImmEqual MF op1 1 = true
             then .next ⟨7, [], ⟨R, some p :: ms⟩, [], MF⟩
             else .reject ⟨7, [], ⟨R, some p :: ms⟩, [], MF⟩)) := by
  constructor
  · intro hc bits k hop
    subst hc hop
    rw [exec_at .GIM_CheckLiteralInt rfl (by simp)]
    by_cases hk : k = 1
    · simp [execCase, case_GIM_CheckLiteralInt, fetch, afterTag, incTable, getDefinedMI,
        vectorAt, MachineFunction.deref, toSizeT_zero, toSizeT_one, toUnsigned_one, getOperand,
        equalsInt, hroot, hk, bind, Except.bind, pure, Except.pure]
    · simp [execCase, case_GIM_CheckLiteralInt, fetch, afterTag, incTable, getDefinedMI,
        vectorAt, MachineFunction.deref, toSizeT_zero, toSizeT_one, toUnsigned_one, getOperand,
        equalsInt, hroot, hk, bind, Except.bind, pure, Except.pure]
  · intro hc
    subst hc
    rw [exec_at .GIM_CheckConstantInt rfl (by simp)]
    by_cases hk : env.isOperandImmEqual MF op1 1 = true
    · simp [execCase, case_GIM_CheckConstantInt, fetch, afterTag, incTable, getDefinedMI,
        vectorAt, MachineFunction.deref, toSizeT_zero, toUnsigned_one, getOperand,
        hroot, hk, bind, Except.bind, pure, Except.pure]
    · simp [execCase, case_GIM_CheckConstantInt, fetch, afterTag, incTable, getDefinedMI,
        vectorAt, MachineFunction.deref, toSizeT_zero, toUnsigned_one, getOperand,
        hroot, hk, bind, Except.bind, pure, Except.pure]

/-- The case `GIM_RecordInsn` once its three table entries are known. -/
theorem recordInsn_eq (env : Env) {T : List Int} {c : Config} {NewInsnID InsnID OpIdx : Int}
    (h1 : T[c.CurrentIdx + 1]? = some NewInsnID) (h2 : T[c.CurrentIdx + 2]? = some InsnID)
    (h3 : T[c.CurrentIdx + 3]? = some OpIdx) :
    case_GIM_RecordInsn env T (afterTag c) =
      if NewInsnID = 0 then .error .refusingToModifyRoot
      else
        match getMI c InsnID with
        | .error e => .error e
        | .ok (_, mi) =>
          match getOperand mi OpIdx with
          | .error e => .error e
          | .ok (.reg r _ _ _) =>
            if env.isPhysicalRegister r then
              .ok (.reject { c with CurrentIdx := c.CurrentIdx + 4 })
            else if toSizeT NewInsnID < c.State.MIs.length then
              .ok (.next { c with
                CurrentIdx := c.CurrentIdx + 4
                State := { c.State with
                  MIs := c.State.MIs.set (toSizeT NewInsnID) (env.getVRegDef c.MF r) } })
            else if toSizeT NewInsnID = c.State.MIs.length then
              .ok (.next { c with
                CurrentIdx := c.CurrentIdx + 4
                State := { c.State with MIs := c.State.MIs ++ [env.getVRegDef c.MF r] } })
            else .error .storeOutOfOrder
          | .ok _ => .ok (.reject { c with CurrentIdx := c.CurrentIdx + 4 }) := by
  have e2 : T[c.CurrentIdx + 1 + 1]? = some InsnID := h2
  have e3 : T[c.CurrentIdx + 1 + 1 + 1]? = some OpIdx := h3
  have hg : ∀ n, getMI { c with CurrentIdx := n } InsnID = getMI c InsnID := fun _ => rfl
  simp only [case_GIM_RecordInsn, fetch, afterTag, h1, e2, e3, bind, Except.bind, pure,
    Except.pure, throw, throwThe, MonadExceptOf.throw, hg]
  by_cases hz : NewInsnID = 0
  · simp [hz]
  · simp only [if_neg hz]
    cases getMI c InsnID with
    | error e => rfl
    | ok v =>
      obtain ⟨q, mi⟩ := v
      simp only
      cases getOperand mi OpIdx with
      | error e => rfl
      | ok MO =>
        cases MO <;> simp only []

theorem assertOutMI_ok {c : Config} {id : Int} {q : Nat} (h : assertOutMI c id = .ok q) :
    c.OutMIs[toSizeT id]? = some (some q) := by
  unfold assertOutMI at h
  obtain ⟨p, hp, h⟩ := bind_eq_ok.mp h
  unfold vectorAt at hp
  split at hp
  · cases hp
    cases p with
    | none => cases h
    | some q1 => cases h; assumption
  · cases hp

theorem getOutMI_ok {c : Config} {id : Int} {v : Nat × MachineInstr}
    (h : getOutMI c id = .ok v) : c.OutMIs[toSizeT id]? = some (some v.1) := by
  unfold getOutMI at h
  obtain ⟨q, hq, h⟩ := bind_eq_ok.mp h
  obtain ⟨mi, _, h⟩ := bind_eq_ok.mp h
  cases h
  exact assertOutMI_ok hq

/-- The output ID read by an emission case that does not halt: equal to
`|OutMIs|` for the two creating opcodes, a defined entry for the others. -/
theorem execCase_outID {env : Env} {T : List Int} {op : Opcode} {c : Config} {a : Action}
    (h : execCase env T op c = .ok a) :
    (op = .GIR_BuildMI → ∃ ID, T[c.CurrentIdx]? = some ID ∧ toSizeT ID = c.OutMIs.length) ∧
    (op = .GIR_MutateOpcode →
      ∃ ID, T[c.CurrentIdx + 1]? = some ID ∧ toSizeT ID = c.OutMIs.length) ∧
    (op.usesOutput = true →
      ∃ ID q, T[c.CurrentIdx]? = some ID ∧ c.OutMIs[toSizeT ID]? = some (some q)) := by
  cases op
  case GIR_MergeMemOperands =>
    simp only [execCase, case_GIR_MergeMemOperands, bind, Except.bind, pure, Except.pure] at h
    repeat' split at h
    all_goals cases h
    have h1 := assertOutMI_ok ‹assertOutMI _ _ = Except.ok _›
    simp_all [fetch_eq_ok, Opcode.usesOutput]
  all_goals
    simp only [execCase, case_GIM_Try, case_GIM_RecordInsn, case_GIM_CheckFeatures,
        case_GIM_CheckOpcode, case_GIM_CheckNumOperands, case_GIM_CheckImmPredicate,
        case_GIM_CheckType, case_GIM_CheckRegBankForClass, case_GIM_CheckComplexPattern,
        case_GIM_CheckConstantInt, case_GIM_CheckLiteralInt, case_GIM_CheckIntrinsicID,
        case_GIM_CheckIsMBB, case_GIM_CheckIsSafeToFold, case_GIM_Reject,
        case_GIR_MutateOpcode,
        case_GIR_BuildMI, case_GIR_Copy, case_GIR_CopySubReg,
        case_GIR_AddImplicitDef, case_GIR_AddImplicitUse, case_GIR_AddRegister,
        case_GIR_AddImm, case_GIR_ComplexRenderer, case_GIR_CopyConstantAsSImm,
        case_GIR_ConstrainOperandRC, case_GIR_ConstrainSelectedInstOperands,
        case_GIR_EraseFromParent, case_GIR_Done,
        bind, Except.bind, pure, Except.pure, throw, throwThe, MonadExceptOf.throw] at h
    repeat' split at h
    all_goals cases h
    all_goals first
      | (have h1 := getOutMI_ok ‹getOutMI _ _ = Except.ok _›
         simp_all [fetch_eq_ok, Opcode.usesOutput])
      | simp_all [fetch_eq_ok, Opcode.usesOutput]

theorem decodeOpcode_eq_none {v : Int} (h : ∀ op : Opcode, v ≠ op.tag) :
    decodeOpcode v = none := by
  cases hd : decodeOpcode v with
  | none => rfl
  | some op => exact absurd (decodeOpcode_eq_some hd) (h op)

/-- An iteration that halts ends the run. -/
theorem run_of_abort {env : Env} {T : List Int} {k : Nat} {c0 c : Config} {e : Halt}
    (h : after env T k c0 = some c) (hs : step env T c = .abort e) (n : Nat) :
    run env T (k + 1 + n) c0 = some (.aborted e) := by
  rw [show k + 1 + n = k + (n + 1) by omega, run_of_after h, run, hs]

/-- The iterations before a reached configuration all went on. -/
theorem after_of_le {env : Env} {T : List Int} {k : Nat} {c0 c2 : Config} (n : Nat)
    (h : after env T (k + n) c0 = some c2) : ∃ c, after env T k c0 = some c := by
  induction n generalizing c2 with
  | zero => exact ⟨c2, h⟩
  | succ n ih =>
    obtain ⟨c1, h1, _⟩ := after_succ_iff.mp (show after env T (k + n + 1) c0 = some c2 from h)
    exact ih h1

/-- A run in which an iteration halts returns for no amount of fuel. -/
theorem run_not_returned_of_abort {env : Env} {T : List Int} {k : Nat} {c0 c : Config}
    {e : Halt} (h : after env T k c0 = some c) (hs : step env T c = .abort e)
    (fuel : Nat) (b : Bool) (cf : Config) : run env T fuel c0 ≠ some (.returned b cf) := by
  intro hr
  obtain ⟨j, cj, _, hj, hsj⟩ := run_returned hr
  rcases Nat.lt_trichotomy j k with hlt | heq | hgt
  · obtain ⟨d, rfl⟩ : ∃ d, k = j + 1 + d := ⟨k - j - 1, by omega⟩
    obtain ⟨c1, h1⟩ := after_of_le d h
    obtain ⟨c2, h2, hn⟩ := after_succ_iff.mp h1
    rw [hj] at h2; cases h2
    rw [hsj] at hn; cases hn
  · subst heq
    rw [hj] at h; cases h
    rw [hsj] at hs; cases hs
  · obtain ⟨d, rfl⟩ : ∃ d, j = k + 1 + d := ⟨j - k - 1, by omega⟩
    obtain ⟨c1, h1⟩ := after_of_le d hj
    obtain ⟨c2, h2, hn⟩ := after_succ_iff.mp h1
    rw [h] at h2; cases h2
    rw [hs] at hn; cases hn

/-- The block found by `getParent` exists and holds the instruction. -/
theorem getParent_some {mf : MachineFunction} {p b : Nat} (h : mf.getParent p = some b) :
    ∃ blk, mf.Blocks[b]? = some blk ∧ p ∈ blk ∧ mf.Blocks.getD b [] = blk ∧
      b = mf.Blocks.findIdx (fun x => x.contains p) := by
  unfold MachineFunction.getParent at h
  simp only at h
  split at h
  · rename_i hlt
    cases h
    refine ⟨mf.Blocks[mf.Blocks.findIdx (fun x => x.contains p)], ?_, ?_, ?_, rfl⟩
    · exact List.getElem?_eq_getElem hlt
    · have := @List.findIdx_getElem _ (fun x => x.contains p) mf.Blocks hlt
      simpa using this
    · rw [List.getD_eq_getElem?_getD, List.getElem?_eq_getElem hlt]
      rfl
  · cases h

theorem insertBefore_split (q r : Nat) {blk : List Nat} (h : r ∈ blk) :
    ∃ pre post, blk = pre ++ r :: post ∧ r ∉ pre ∧
      insertBefore q r blk = pre ++ q :: r :: post := by
  induction blk with
  | nil => cases h
  | cons x xs ih =>
    by_cases hx : x = r
    · subst hx
      exact ⟨[], xs, rfl, by simp, by simp [insertBefore]⟩
    · have hr : r ∈ xs := by
        rcases List.mem_cons.mp h with h1 | h1
        · exact absurd h1.symm hx
        · exact h1
      obtain ⟨pre, post, e1, e2, e3⟩ := ih hr
      refine ⟨x :: pre, post, by rw [e1]; rfl, ?_, ?_⟩
      · simp only [List.mem_cons, not_or]
        exact ⟨fun h => hx h.symm, e2⟩
      · simp only [insertBefore, if_neg hx, e3, List.cons_append]

/-- Replacing one block changes the stream only inside that block. -/
theorem flatten_set {L : List (List Nat)} {b : Nat} {blk : List Nat} (y : List Nat)
    (h : L[b]? = some blk) :
    L.flatten = (L.take b).flatten ++ blk ++ (L.drop (b + 1)).flatten ∧
    (L.set b y).flatten = (L.take b).flatten ++ y ++ (L.drop (b + 1)).flatten := by
  induction L generalizing b with
  | nil => simp at h
  | cons a t ih =>
    cases b with
    | zero =>
      simp only [List.getElem?_cons_zero, Option.some.injEq] at h
      subst h
      simp
    | succ b =>
      have h1 : t[b]? = some blk := by simpa using h
      obtain ⟨e1, e2⟩ := ih h1
      constructor
      · simp only [List.flatten_cons, List.take_succ_cons, List.drop_succ_cons]
        rw [e1]
        simp [List.append_assoc]
      · simp only [List.set_cons_succ, List.flatten_cons, List.take_succ_cons,
          List.drop_succ_cons]
        rw [e2]
        simp [List.append_assoc]

theorem after_add {env : Env} {T : List Int} (j n : Nat) (c0 : Config) :
    after env T (j + n) c0 = (after env T j c0).bind (after env T n) := by
  induction j generalizing c0 with
  | zero => simp [after]
  | succ j ih =>
    rw [show j + 1 + n = (j + n) + 1 by omega]
    simp only [after]
    cases step env T c0 with
    | next c1 => exact ih c1
    | ret b c1 => rfl
    | abort e => rfl

/-- A property of the stream kept by every primitive that writes the stream is
kept by the inner loop of `GIR_MergeMemOperands`. -/
theorem mergeLoop_mf (P : MachineFunction → Prop)
    (hset : ∀ mf p mi, P mf → P (mf.setInst p mi))
    (InsnID : Int) (L : List Int) (c c1 : Config)
    (h : mergeMemOperandsLoop InsnID L c = .ok c1) (hP : P c.MF) : P c1.MF := by
  induction L generalizing c with
  | nil => simp [mergeMemOperandsLoop] at h
  | cons v rest ih =>
    simp only [mergeMemOperandsLoop, bind, Except.bind, pure, Except.pure] at h
    repeat' split at h
    all_goals first
      | cases h
      | skip
    · exact hP
    · exact ih _ h (hset _ _ _ hP)

/-- A property of the stream kept by every primitive that writes the stream is
kept by every case of the `switch`. -/
theorem execCase_mf {env : Env} {T : List Int} {op : Opcode} {c : Config} {a : Action}
    (P : MachineFunction → Prop)
    (hset : ∀ mf p mi, P mf → P (mf.setInst p mi))
    (hbuild : ∀ mf b root dl opc, P mf → P (mf.buildMI b root dl opc).2)
    (herase : ∀ mf b p, P mf → P (mf.eraseFromParent b p))
    (hc1 : ∀ mf p i rc, P mf → P (env.constrainOperandRegToRegClass mf p i rc))
    (hc2 : ∀ mf p, P mf → P (env.constrainSelectedInstRegOperands mf p))
    (h : execCase env T op c = .ok a) (hP : P c.MF) : P a.config.MF := by
  cases op
  case GIR_MergeMemOperands =>
    simp only [execCase, case_GIR_MergeMemOperands, bind, Except.bind, pure, Except.pure] at h
    repeat' split at h
    all_goals cases h
    simp_all only [fetch_eq_ok, Action.config]
    exact mergeLoop_mf P hset _ _ { c with CurrentIdx := c.CurrentIdx + 1 } _
      ‹mergeMemOperandsLoop _ _ _ = Except.ok _› hP
  all_goals first
      | (rw [((execCase_facts h).2.1 rfl).1]; exact hP)
      | (simp only [execCase, case_GIR_MutateOpcode, case_GIR_BuildMI, case_GIR_Copy,
          case_GIR_CopySubReg,
          case_GIR_AddImplicitDef, case_GIR_AddImplicitUse, case_GIR_AddRegister,
          case_GIR_AddImm, case_GIR_ComplexRenderer, case_GIR_CopyConstantAsSImm,
          case_GIR_ConstrainOperandRC, case_GIR_ConstrainSelectedInstOperands,
          case_GIR_EraseFromParent, case_GIR_Done, addOperands,
          bind, Except.bind, pure, Except.pure, throw, throwThe, MonadExceptOf.throw] at h
         repeat' split at h
         all_goals cases h
         all_goals simp only [Action.config]
         all_goals simp_all only [fetch_eq_ok])

/-- A property of the stream kept by every primitive that writes the stream is
kept by every loop iteration, whether it goes on or returns. -/
theorem step_mf {env : Env} {T : List Int} {c : Config}
    (P : MachineFunction → Prop)
    (hset : ∀ mf p mi, P mf → P (mf.setInst p mi))
    (hbuild : ∀ mf b root dl opc, P mf → P (mf.buildMI b root dl opc).2)
    (herase : ∀ mf b p, P mf → P (mf.eraseFromParent b p))
    (hc1 : ∀ mf p i rc, P mf → P (env.constrainOperandRegToRegClass mf p i rc))
    (hc2 : ∀ mf p, P mf → P (env.constrainSelectedInstRegOperands mf p))
    (hP : P c.MF) :
    (∀ c1, step env T c = .next c1 → P c1.MF) ∧
    (∀ b cf, step env T c = .ret b cf → P cf.MF) := by
  have key : ∀ a, execOpcode env T c = .ok a → P a.config.MF := by
    intro a ha
    obtain ⟨op, _, _, hc⟩ := execOpcode_ok ha
    exact execCase_mf P hset hbuild herase hc1 hc2 hc hP
  constructor
  · intro c1 hs
    rcases step_next_cases hs with h | ⟨c2, s, t, h, _, rfl⟩
    · exact key _ h
    · exact key _ h
  · intro b cf hs
    rcases step_ret_cases hs with ⟨_, h⟩ | ⟨_, h, _⟩
    · exact key _ h
    · exact key _ h

theorem mem_flatten_set {L : List (List Nat)} {b : Nat} {y : List Nat} {x : Nat}
    (h : x ∈ (L.set b y).flatten) : x ∈ y ∨ x ∈ L.flatten := by
  obtain ⟨l, hl, hx⟩ := List.mem_flatten.mp h
  rcases List.mem_or_eq_of_mem_set hl with h1 | h1
  · exact Or.inr (List.mem_flatten.mpr ⟨l, h1, hx⟩)
  · subst h1; exact Or.inl hx

theorem getD_subset_flatten {L : List (List Nat)} {b x : Nat} (h : x ∈ L.getD b []) :
    x ∈ L.flatten := by
  rw [List.getD_eq_getElem?_getD] at h
  cases hb : L[b]? with
  | none => rw [hb] at h; cases h
  | some blk =>
    rw [hb] at h
    exact List.mem_flatten.mpr ⟨blk, (List.getElem?_eq_some_iff.mp hb).2 ▸ List.getElem_mem _, h⟩

theorem mem_insertBefore {q r x : Nat} {blk : List Nat} (h : x ∈ insertBefore q r blk) :
    x = q ∨ x ∈ blk := by
  induction blk with
  | nil => cases h
  | cons a t ih =>
    unfold insertBefore at h
    split at h
    · rcases List.mem_cons.mp h with h1 | h1
      · exact Or.inl h1
      · exact Or.inr h1
    · rcases List.mem_cons.mp h with h1 | h1
      · exact Or.inr (List.mem_cons.mpr (Or.inl h1))
      · rcases ih h1 with h2 | h2
        · exact Or.inl h2
        · exact Or.inr (List.mem_cons.mpr (Or.inr h2))

theorem unlinked_setInst {mf : MachineFunction} {q : Nat} (p : Nat) (mi : MachineInstr)
    (h : mf.Unlinked q) : (mf.setInst p mi).Unlinked q := by
  obtain ⟨h1, h2⟩ := h
  exact ⟨by simpa [MachineFunction.setInst] using h1, h2⟩

theorem unlinked_buildMI {mf : MachineFunction} {q : Nat} (b root dl opc : Nat)
    (h : mf.Unlinked q) : (mf.buildMI b root dl opc).2.Unlinked q := by
  obtain ⟨h1, h2⟩ := h
  refine ⟨by simp [MachineFunction.buildMI]; omega, ?_⟩
  intro hx
  rcases mem_flatten_set hx with h3 | h3
  · rcases mem_insertBefore h3 with h4 | h4
    · omega
    · exact h2 (getD_subset_flatten h4)
  · exact h2 h3

theorem unlinked_eraseFromParent {mf : MachineFunction} {q : Nat} (b p : Nat)
    (h : mf.Unlinked q) : (mf.eraseFromParent b p).Unlinked q := by
  obtain ⟨h1, h2⟩ := h
  refine ⟨by simpa [MachineFunction.eraseFromParent] using h1, ?_⟩
  intro hx
  rcases mem_flatten_set hx with h3 | h3
  · exact h2 (getD_subset_flatten (List.mem_of_mem_erase h3))
  · exact h2 h3

/-- Erasing an instruction from the first block that holds it erases its first
occurrence in the stream. -/
theorem flatten_erase_first (L : List (List Nat)) (q : Nat)
    (h : L.findIdx (fun x => x.contains q) < L.length) :
    (L.set (L.findIdx (fun x => x.contains q))
      ((L.getD (L.findIdx (fun x => x.contains q)) []).erase q)).flatten =
      L.flatten.erase q := by
  induction L with
  | nil => simp at h
  | cons a t ih =>
    by_cases ha : a.contains q = true
    · have hq : q ∈ a := by simpa using ha
      simp only [List.findIdx_cons, ha, cond_true, List.set_cons_zero, List.flatten_cons,
        List.getD_cons_zero]
      rw [List.erase_append_left _ hq]
    · have hq : q ∉ a := by simpa using ha
      have ha1 : a.contains q = false := by simpa using ha
      have hlt : t.findIdx (fun x => x.contains q) < t.length := by
        simp only [List.findIdx_cons, ha1, cond_false, List.length_cons] at h
        omega
      simp only [List.findIdx_cons, ha1, cond_false, List.set_cons_succ, List.flatten_cons,
        List.getD_cons_succ]
      rw [ih hlt, List.erase_append_right _ hq]

theorem weight_pos (N i : Nat) : 0 < weight N i := by
  unfold weight
  positivity

theorem weight_lt {N i j : Nat} (hi : i < N) (hij : i < j) : 2 * weight N j ≤ weight N i := by
  unfold weight
  have h1 : N - j ≤ N - i - 1 := by omega
  have h2 : 2 ^ (N - j) ≤ 2 ^ (N - i - 1) := Nat.pow_le_pow_right (by decide) h1
  have h3 : 2 ^ (N - i) = 2 * 2 ^ (N - i - 1) := by
    rw [← pow_succ']
    congr 1
    omega
  omega

/-- Every case that does not halt reads inside the table and moves
`CurrentIdx` forward. -/
theorem exec_idx_advance {env : Env} {T : List Int} {c : Config} {a : Action}
    (h : execOpcode env T c = .ok a) :
    c.CurrentIdx < T.length ∧ c.CurrentIdx < a.config.CurrentIdx := by
  obtain ⟨op, hop, _, hc⟩ := execOpcode_ok h
  have hlt : c.CurrentIdx < T.length := by
    rw [opcodeAt_eq] at hop
    exact (List.getElem?_eq_some_iff.mp hop).1
  refine ⟨hlt, ?_⟩
  by_cases hm : op = .GIR_MergeMemOperands
  · subst hm
    simp only [execCase, case_GIR_MergeMemOperands, bind, Except.bind, pure, Except.pure] at hc
    repeat' split at hc
    all_goals cases hc
    simp_all only [fetch_eq_ok, Action.config]
    obtain ⟨ids, rest, _, _, hw⟩ :=
      mergeLoop_width _ _ _ _ ‹mergeMemOperandsLoop _ _ _ = Except.ok _›
    rw [hw]
    simp only [afterTag]
    omega
  · have := (execCase_facts hc).2.2.2.2.1 hm
    rw [this]
    simp only [afterTag]
    omega

/-- What `GIM_Try` does, with the table entry it reads. -/
theorem try_step {env : Env} {T : List Int} {c c1 : Config}
    (hop : opcodeAt T c = some .GIM_Try) (h : execOpcode env T c = .ok (.next c1)) :
    ∃ t, T[c.CurrentIdx + 1]? = some t ∧
      c1 = { c with
        CurrentIdx := c.CurrentIdx + 2
        OnFailResumeAt := c.OnFailResumeAt ++ [toSizeT t] } := by
  obtain ⟨op, hop1, _, hc⟩ := execOpcode_ok h
  rw [hop] at hop1; cases hop1
  simp only [execCase, case_GIM_Try] at hc
  obtain ⟨⟨v, c2⟩, hf, hc⟩ := bind_eq_ok.mp hc
  rw [fetch_eq_ok] at hf
  obtain ⟨hv, rfl⟩ := hf
  simp only [pure, Except.pure, Except.ok.injEq, Action.next.injEq] at hc
  subst hc
  exact ⟨v, hv, rfl⟩

/-- An iteration that goes on lowers the termination measure, provided that a
`GIM_Try` executed by it has a resume target greater than its own index. -/
theorem step_runMeasure {env : Env} {T : List Int} {c c1 : Config}
    (hfwd : opcodeAt T c = some .GIM_Try →
      ∀ t, T[c.CurrentIdx + 1]? = some t → c.CurrentIdx < toSizeT t)
    (hs : step env T c = .next c1) :
    runMeasure T.length c1 < runMeasure T.length c := by
  rcases step_next_cases hs with hx | ⟨c2, s, t, hx, hst, rfl⟩
  · obtain ⟨hlt, hadv⟩ := exec_idx_advance hx
    simp only [Action.config] at hadv
    obtain ⟨op, hop, hf⟩ := execOpcode_facts hx
    by_cases ht : op = .GIM_Try
    · subst ht
      obtain ⟨t, ht, rfl⟩ := try_step hop hx
      have hlt2 : c.CurrentIdx + 1 < T.length := (List.getElem?_eq_some_iff.mp ht).1
      have h1 := hfwd hop t ht
      have w1 := @weight_lt T.length c.CurrentIdx (toSizeT t) hlt h1
      have w2 := @weight_lt T.length c.CurrentIdx (c.CurrentIdx + 1) hlt (by omega)
      have w3 := @weight_lt T.length (c.CurrentIdx + 1) (c.CurrentIdx + 2) hlt2 (by omega)
      have w4 := weight_pos T.length (c.CurrentIdx + 2)
      simp only [runMeasure, List.map_append, List.sum_append, List.map_cons, List.map_nil,
        List.sum_cons, List.sum_nil]
      omega
    · have hstack : c1.OnFailResumeAt = c.OnFailResumeAt := hf.1 ht
      have w1 := @weight_lt T.length c.CurrentIdx c1.CurrentIdx hlt hadv
      have w2 := weight_pos T.length c1.CurrentIdx
      simp only [runMeasure, hstack]
      omega
  · have hstack : c2.OnFailResumeAt = c.OnFailResumeAt := (reject_frame hx).1
    have w := weight_pos T.length c.CurrentIdx
    rw [hst] at hstack
    simp only [runMeasure, ← hstack, List.map_append, List.sum_append, List.map_cons,
      List.map_nil, List.sum_cons, List.sum_nil]
    omega

/-- Termination: when every `GIM_Try` that the run from `c` executes has a
resume target greater than its own index, the run ends within `n + 1` iterations,
`n` bounding the termination measure of `c`. -/
theorem run_terminates_within (env : Env) (T : List Int) (n : Nat) (c : Config)
    (hfwd : ∀ k c1, after env T k c = some c1 → opcodeAt T c1 = some .GIM_Try →
      ∀ t, T[c1.CurrentIdx + 1]? = some t → c1.CurrentIdx < toSizeT t)
    (hn : runMeasure T.length c ≤ n) : ∃ r, run env T (n + 1) c = some r := by
  induction n generalizing c with
  | zero =>
    cases hs : step env T c with
    | next c1 =>
      have := step_runMeasure (hfwd 0 c rfl) hs
      omega
    | ret b cf => exact ⟨.returned b cf, by simp [run, hs]⟩
    | abort e => exact ⟨.aborted e, by simp [run, hs]⟩
  | succ n ih =>
    cases hs : step env T c with
    | next c1 =>
      have hlt := step_runMeasure (hfwd 0 c rfl) hs
      have hfwd1 : ∀ k c2, after env T k c1 = some c2 → opcodeAt T c2 = some .GIM_Try →
          ∀ t, T[c2.CurrentIdx + 1]? = some t → c2.CurrentIdx < toSizeT t := by
        intro k c2 hk
        apply hfwd (k + 1) c2
        simp only [after, hs]
        exact hk
      obtain ⟨r, hr⟩ := ih c1 hfwd1 (by omega)
      exact ⟨r, by rw [run, hs]; exact hr⟩
    | ret b cf => exact ⟨.returned b cf, by simp [run, hs]⟩
    | abort e => exact ⟨.aborted e, by simp [run, hs]⟩

/-- More fuel does not change the result of a run that has ended. -/
theorem run_mono {env : Env} {T : List Int} {fuel : Nat} {c : Config} {r : Result}
    (h : run env T fuel c = some r) (n : Nat) : run env T (fuel + n) c = some r := by
  induction fuel generalizing c with
  | zero => cases h
  | succ f ih =>
    rw [show f + 1 + n = (f + n) + 1 by omega]
    rw [run] at h ⊢
    cases hs : step env T c with
    | next c1 =>
      rw [hs] at h
      exact ih h
    | ret b cf => rw [hs] at h; exact h
    | abort e => rw [hs] at h; exact h

theorem Env.eq_of_sameAnswers {e1 e2 : Env} (h : e1.SameAnswers e2) : e1 = e2 := by
  obtain ⟨h1, h2, h3, h4, h5, h6, h7, h8, h9, h10, h11, h12, h13, h14, h15, h16, h17⟩ := h
  cases e1
  cases e2
  simp only at h1 h2 h3 h4 h5 h6 h7 h8 h9 h10 h11 h12 h13 h14 h15 h16 h17
  simp only [Env.mk.injEq]
  refine ⟨h1, h2, h3, h4, h5, funext h6, ?_, ?_, funext h9, funext h10, ?_, ?_, ?_, ?_, ?_,
    h16, h17⟩
  · funext mf r; exact h7 mf r
  · funext mf r; exact h8 mf r
  · funext mf r; exact h11 mf r
  · funext mf mo v; exact h12 mf mo v
  · funext mf p; exact h13 mf p
  · funext mf p i rc; exact h14 mf p i rc
  · funext mf p; exact h15 mf p

/-- The result of a run that has ended does not depend on the fuel. -/
theorem run_unique {env : Env} {T : List Int} {c : Config} {f1 f2 : Nat} {r1 r2 : Result}
    (h1 : run env T f1 c = some r1) (h2 : run env T f2 c = some r2) : r1 = r2 := by
  rcases Nat.le_total f1 f2 with h | h
  · obtain ⟨d, rfl⟩ := Nat.exists_eq_add_of_le h
    rw [run_mono h1 d] at h2
    exact Option.some.inj h2
  · obtain ⟨d, rfl⟩ := Nat.exists_eq_add_of_le h
    rw [run_mono h2 d] at h1
    exact (Option.some.inj h1).symm

/-- The static condition on the table gives the condition on the run: a
`GIM_Try` at an index `p` whose target exceeds `p`. -/
theorem forward_of_static {T : List Int} (hT : Int64Table T)
    (hfwd : ∀ (p : Nat) (t : Int), T[p]? = some Opcode.GIM_Try.tag → T[p + 1]? = some t →
      (p : Int) < t)
    (c : Config) (hop : opcodeAt T c = some .GIM_Try) (t : Int)
    (ht : T[c.CurrentIdx + 1]? = some t) : c.CurrentIdx < toSizeT t := by
  have h := hfwd c.CurrentIdx t (opcodeAt_eq.mp hop) ht
  have h64 : IsInt64 t := hT t ((List.getElem?_eq_some_iff.mp ht).2 ▸ List.getElem_mem _)
  rw [toSizeT_of_nonneg h64 (by omega)]
  omega

theorem runMeasure_initial (N : Nat) (OutMIs : List (Option Nat)) (State : MatcherState)
    (MF : MachineFunction) : runMeasure N (initial OutMIs State MF) = 2 ^ N := by
  simp [runMeasure, initial, weight]

/-- A bitset contains another one exactly when masking with it gives it back. -/
theorem land_eq_iff_subset (a e : Nat) :
    (a &&& e) = e ↔ ∀ i, e.testBit i = true → a.testBit i = true := by
  constructor
  · intro h i hi
    have := congrArg (fun n => n.testBit i) h
    simp only [Nat.testBit_and, hi, Bool.and_true] at this
    exact this
  · intro h
    apply Nat.eq_of_testBit_eq
    intro i
    rw [Nat.testBit_and]
    cases he : e.testBit i
    · simp
    · simp [h i he]

/-- The case `GIM_CheckFeatures` once its table entry and the expected bitset
are known. -/
theorem checkFeatures_eq (env : Env) {T : List Int} {c : Config} {ID : Int} {expected : Nat}
    (h1 : T[c.CurrentIdx + 1]? = some ID)
    (ha : arrayAt env.FeatureBitsets ID = .ok expected) :
    case_GIM_CheckFeatures env T (afterTag c) =
      if (env.AvailableFeatures &&& expected) ≠ expected then
        .ok (.reject { c with CurrentIdx := c.CurrentIdx + 2 })
      else .ok (.next { c with CurrentIdx := c.CurrentIdx + 2 }) := by
  simp only [case_GIM_CheckFeatures, fetch, afterTag, h1, bind, Except.bind, pure,
    Except.pure, ha]


/-- The case `GIM_CheckComplexPattern` once its table entries, the matched
operand and the callback are known. -/
theorem checkComplexPattern_eq (env : Env) {T : List Int} {c : Config}
    {InsnID OpIdx RendererID ComplexPredicateID : Int} {q : Nat} {mi : MachineInstr}
    {callback : MachineFunction → MachineOperand → ComplexRendererFn} {MO : MachineOperand}
    (h1 : T[c.CurrentIdx + 1]? = some InsnID) (h2 : T[c.CurrentIdx + 2]? = some OpIdx)
    (h3 : T[c.CurrentIdx + 3]? = some RendererID)
    (h4 : T[c.CurrentIdx + 4]? = some ComplexPredicateID)
    (hg : getDefinedMI c InsnID = .ok (q, mi))
    (hcb : arrayAt env.ComplexPredicates ComplexPredicateID = .ok callback)
    (ho : getOperand mi OpIdx = .ok MO)
    (hR : toSizeT RendererID < c.State.Renderers.length) :
    case_GIM_CheckComplexPattern env T (afterTag c) =
      if (callback c.MF MO).isNone then
        .ok (.reject { c with
          CurrentIdx := c.CurrentIdx + 5
          State := { c.State with
            Renderers := c.State.Renderers.set (toSizeT RendererID) (callback c.MF MO) } })
      else
        .ok (.next { c with
          CurrentIdx := c.CurrentIdx + 5
          State := { c.State with
            Renderers := c.State.Renderers.set (toSizeT RendererID) (callback c.MF MO) } }) := by
  have e2 : T[c.CurrentIdx + 1 + 1]? = some OpIdx := h2
  have e3 : T[c.CurrentIdx + 1 + 1 + 1]? = some RendererID := h3
  have e4 : T[c.CurrentIdx + 1 + 1 + 1 + 1]? = some ComplexPredicateID := h4
  have hgd : ∀ n, getDefinedMI { c with CurrentIdx := n } InsnID = getDefinedMI c InsnID :=
    fun _ => rfl
  have hR1 : ¬ ¬ toSizeT RendererID < c.State.Renderers.length := fun h => h hR
  simp only [case_GIM_CheckComplexPattern, fetch, afterTag, h1, e2, e3, e4, bind, Except.bind,
    pure, Except.pure, throw, throwThe, MonadExceptOf.throw, hgd, hg, hcb, ho, if_neg hR1]

/-- The case `GIR_CopyConstantAsSImm` once its table entries, the output and
the matched instruction are known. -/
theorem copyConstantAsSImm_eq (env : Env) {T : List Int} {c : Config}
    {NewInsnID OldInsnID : Int} {q p : Nat} {out mi : MachineInstr}
    (h1 : T[c.CurrentIdx + 1]? = some NewInsnID) (h2 : T[c.CurrentIdx + 2]? = some OldInsnID)
    (hout : getOutMI c NewInsnID = .ok (q, out))
    (hold : getMI c OldInsnID = .ok (p, mi)) :
    case_GIR_CopyConstantAsSImm env T (afterTag c) =
      if mi.Opcode ≠ env.G_CONSTANT then .error .expectedGConstant
      else
        match getOperand mi 1 with
        | .error e => .error e
        | .ok (.cimm bits val) =>
          .ok (.next (addOperands { c with CurrentIdx := c.CurrentIdx + 3 } q out
            [.imm (getSExtValue bits val)]))
        | .ok (.imm v) =>
          .ok (.next (addOperands { c with CurrentIdx := c.CurrentIdx + 3 } q out [.imm v]))
        | .ok _ => .error .expectedImmOrCImm := by
  have e2 : T[c.CurrentIdx + 1 + 1]? = some OldInsnID := h2
  have hg1 : ∀ n, getOutMI { c with CurrentIdx := n } NewInsnID = getOutMI c NewInsnID :=
    fun _ => rfl
  have hg2 : ∀ n, getMI { c with CurrentIdx := n } OldInsnID = getMI c OldInsnID :=
    fun _ => rfl
  simp only [case_GIR_CopyConstantAsSImm, fetch, afterTag, h1, e2, bind, Except.bind,
    pure, Except.pure, throw, throwThe, MonadExceptOf.throw, hg1, hg2, hout, hold]
  by_cases hopc : mi.Opcode = env.G_CONSTANT
  · simp only [hopc, ne_eq, not_true_eq_false, if_false]
    cases getOperand mi 1 with
    | error e => rfl
    | ok MO => cases MO <;> rfl
  · simp only [ne_eq, hopc, not_false_eq_true, if_true]

/-- Reading a matched instruction depends on `State.MIs` and on the stored
instructions only. -/
theorem getMI_congr {c d : Config} (hS : d.State = c.State) (hI : d.MF.Insts = c.MF.Insts)
    (id : Int) : getMI d id = getMI c id := by
  simp only [getMI, MachineFunction.deref, hS, hI]

/-- A matched instruction read after the output instruction `q` got a new
memory-operand list: the same pointer, and the same instruction unless it is
`q` itself. -/
theorem getMI_after_set {c cfg : Config} {q : Nat} {out : MachineInstr} {cur : List Nat}
    (hS : cfg.State = c.State)
    (hI : cfg.MF.Insts = c.MF.Insts.set q (some { out with MemRefs := cur }))
    {id : Int} {p : Nat} {mi : MachineInstr} (h : getMI c id = .ok (p, mi)) :
    getMI cfg id = .ok (p, if p = q then { out with MemRefs := cur } else mi) := by
  have h1 := getMI_ok h
  simp only at h1
  have hlt : p < c.MF.Insts.length := by
    rcases Nat.lt_or_ge p c.MF.Insts.length with hl | hl
    · exact hl
    · rw [List.getElem?_eq_none hl] at h1; cases h1.2
  simp only [getMI, vectorAt, hS, h1.1, bind, Except.bind, pure, Except.pure,
    MachineFunction.deref, hI]
  by_cases hp : p = q
  · subst hp
    rw [List.getElem?_set_self hlt]
    simp
  · rw [List.getElem?_set_ne (Ne.symm hp), h1.2]
    simp [hp]

/-- The output instruction read after it got a new memory-operand list. -/
theorem getOutMI_after_set {c cfg : Config} {q : Nat} {out : MachineInstr} {cur : List Nat}
    {InsnID : Int} (hO : cfg.OutMIs = c.OutMIs)
    (hI : cfg.MF.Insts = c.MF.Insts.set q (some { out with MemRefs := cur }))
    (h : getOutMI c InsnID = .ok (q, out)) :
    getOutMI cfg InsnID = .ok (q, { out with MemRefs := cur }) := by
  have h1 := getOutMI_ok h
  simp only at h1
  have h2 : c.MF.Insts[q]? = some (some out) := by
    unfold getOutMI at h
    obtain ⟨q1, hq, h⟩ := bind_eq_ok.mp h
    obtain ⟨mi, hm, h⟩ := bind_eq_ok.mp h
    cases h
    unfold MachineFunction.deref at hm
    split at hm
    · cases hm; assumption
    · cases hm
  have hlt : q < c.MF.Insts.length := by
    rcases Nat.lt_or_ge q c.MF.Insts.length with hl | hl
    · exact hl
    · rw [List.getElem?_eq_none hl] at h2; cases h2
  simp only [getOutMI, assertOutMI, vectorAt, hO, h1, bind, Except.bind, pure, Except.pure,
    MachineFunction.deref, hI, List.getElem?_set_self hlt]

/-- The inner loop of `GIR_MergeMemOperands` on a sentinel-terminated list of
readable sources: it stops right behind the sentinel, and the output
instruction `q` holds the list built in turn; nothing else changes. -/
theorem mergeLoop_result (InsnID : Int) (c : Config) (q : Nat) (out : MachineInstr)
    (hout : getOutMI c InsnID = .ok (q, out)) (rest : List Int) (ids : List Int) :
    ∀ (cur : List Nat) (cfg : Config),
    GIU_MergeMemOperands_EndOfList ∉ ids →
    (∀ id ∈ ids, ∃ v, getMI c id = .ok v) →
    cfg.State = c.State → cfg.OutMIs = c.OutMIs →
    cfg.MF.Insts = c.MF.Insts.set q (some { out with MemRefs := cur }) →
    cfg.MF.Blocks = c.MF.Blocks →
    ∃ c1, mergeMemOperandsLoop InsnID (ids ++ GIU_MergeMemOperands_EndOfList :: rest) cfg
        = .ok c1 ∧
      c1.CurrentIdx = cfg.CurrentIdx + ids.length + 1 ∧
      c1.OnFailResumeAt = cfg.OnFailResumeAt ∧ c1.State = c.State ∧ c1.OutMIs = c.OutMIs ∧
      c1.MF.Insts =
        c.MF.Insts.set q (some { out with MemRefs := mergedInTurn c q cur ids }) ∧
      c1.MF.Blocks = c.MF.Blocks := by
  induction ids with
  | nil =>
    intro cur cfg _ _ hS hO hI hB
    refine ⟨{ cfg with CurrentIdx := cfg.CurrentIdx + 1 }, ?_, ?_, rfl, hS, hO, ?_, hB⟩
    · simp [mergeMemOperandsLoop, pure, Except.pure]
    · simp
    · simpa [mergedInTurn] using hI
  | cons id ids ih =>
    intro cur cfg hids hsrc hS hO hI hB
    have hid : id ≠ GIU_MergeMemOperands_EndOfList := by
      intro h; exact hids (h ▸ List.mem_cons_self _ _)
    have hids1 : GIU_MergeMemOperands_EndOfList ∉ ids := by
      intro h; exact hids (List.mem_cons_of_mem _ h)
    obtain ⟨⟨p, mi⟩, hg⟩ := hsrc id (List.mem_cons_self _ _)
    have hg1 := @getMI_after_set c { cfg with CurrentIdx := cfg.CurrentIdx + 1 } q out cur
      hS hI id p mi hg
    have ho1 := @getOutMI_after_set c { cfg with CurrentIdx := cfg.CurrentIdx + 1 } q out cur
      InsnID hO hI hout
    have hstep : mergeMemOperandsLoop InsnID
        ((id :: ids) ++ GIU_MergeMemOperands_EndOfList :: rest) cfg =
        mergeMemOperandsLoop InsnID (ids ++ GIU_MergeMemOperands_EndOfList :: rest)
          { cfg with
            CurrentIdx := cfg.CurrentIdx + 1
            MF := cfg.MF.setInst q
              { out with MemRefs := cur ++
                  (if p = q then { out with MemRefs := cur } else mi).MemRefs } } := by
      simp only [List.cons_append, mergeMemOperandsLoop, if_neg hid, hg1, ho1, bind,
        Except.bind]
      rfl
    have hsrcs : (if p = q then { out with MemRefs := cur } else mi).MemRefs =
        (if p = q then cur else mi.MemRefs) := by
      split <;> rfl
    rw [hstep, hsrcs]
    obtain ⟨c1, h1, h2, h3, h4, h5, h6, h7⟩ :=
      ih (cur ++ (if p = q then cur else mi.MemRefs))
        { cfg with
          CurrentIdx := cfg.CurrentIdx + 1
          MF := cfg.MF.setInst q
            { out with MemRefs := cur ++ (if p = q then cur else mi.MemRefs) } }
        hids1 (fun i hi => hsrc i (List.mem_cons_of_mem _ hi)) hS hO
        (by simp [MachineFunction.setInst, hI]) hB
    refine ⟨c1, h1, ?_, h3, h4, h5, ?_, h7⟩
    · simp only [h2, List.length_cons]; omega
    · rw [h6]; simp only [mergedInTurn, hg]

/-- Writing back what is stored changes nothing. -/
theorem set_self_of_getElem? {α : Type} {l : List α} {i : Nat} {x : α}
    (h : l[i]? = some x) : l.set i x = l := by
  induction l generalizing i with
  | nil => rfl
  | cons a t ih =>
    cases i with
    | zero => simp at h; simp [h]
    | succ n => simp at h; simp [ih h]

/-- When no source is the output instruction, the list built in turn is the
list of the claim: all sources read at entry. -/
theorem mergedInTurn_eq_atEntry (c : Config) (q : Nat) (ids : List Int) :
    ∀ cur : List Nat,
    (∀ id ∈ ids, ∀ p mi, getMI c id = .ok (p, mi) → p ≠ q) →
    mergedInTurn c q cur ids = mergedAtEntry c cur ids := by
  induction ids with
  | nil => intro cur _; simp [mergedInTurn, mergedAtEntry]
  | cons id ids ih =>
    intro cur h
    rw [mergedInTurn, ih _ (fun i hi => h i (List.mem_cons_of_mem _ hi))]
    have : (match getMI c id with
        | .ok (p, mi) => if p = q then cur else mi.MemRefs
        | .error _ => []) = memOperandsOf c id := by
      unfold memOperandsOf
      cases hg : getMI c id with
      | error e => rfl
      | ok v =>
        obtain ⟨p, mi⟩ := v
        simp [h id (List.mem_cons_self _ _) p mi hg]
    rw [this]
    simp [mergedAtEntry, List.append_assoc]

/-- Closed form of `GIR_MergeMemOperands` on a well-formed encoding. -/
theorem mergeMemOperands_eq (env : Env) (T : List Int) (c : Config) (InsnID : Int)
    (ids rest : List Int) (q : Nat) (out : MachineInstr)
    (hne : c.CurrentIdx ≠ 4294967295)
    (h0 : T[c.CurrentIdx]? = some Opcode.GIR_MergeMemOperands.tag)
    (hT : T.drop (c.CurrentIdx + 1) =
      InsnID :: (ids ++ GIU_MergeMemOperands_EndOfList :: rest))
    (hids : GIU_MergeMemOperands_EndOfList ∉ ids)
    (hout : getOutMI c InsnID = .ok (q, out))
    (hsrc : ∀ id ∈ ids, ∃ v, getMI c id = .ok v) :
    ∃ c1, execOpcode env T c = .ok (.next c1) ∧
      c1.CurrentIdx = c.CurrentIdx + ids.length + 3 ∧
      T.drop c1.CurrentIdx = rest ∧
      c1.OnFailResumeAt = c.OnFailResumeAt ∧ c1.State = c.State ∧ c1.OutMIs = c.OutMIs ∧
      c1.MF.Insts =
        c.MF.Insts.set q (some { out with MemRefs := mergedInTurn c q out.MemRefs ids }) ∧
      c1.MF.Blocks = c.MF.Blocks := by
  have h1 : T[c.CurrentIdx + 1]? = some InsnID := getElem?_of_drop_eq hT
  have hT2 : T.drop (c.CurrentIdx + 1 + 1) = ids ++ GIU_MergeMemOperands_EndOfList :: rest := by
    have := @drop_add_of_drop_eq T (c.CurrentIdx + 1) [InsnID]
      (ids ++ GIU_MergeMemOperands_EndOfList :: rest) (by simpa using hT)
    simpa using this
  have hq : assertOutMI c InsnID = .ok q := by
    unfold getOutMI at hout
    obtain ⟨q1, hq, h⟩ := bind_eq_ok.mp hout
    obtain ⟨mi, _, h⟩ := bind_eq_ok.mp h
    cases h
    exact hq
  have h2 : c.MF.Insts[q]? = some (some out) := by
    unfold getOutMI at hout
    obtain ⟨q1, hq, h⟩ := bind_eq_ok.mp hout
    obtain ⟨mi, hm, h⟩ := bind_eq_ok.mp h
    cases h
    unfold MachineFunction.deref at hm
    split at hm
    · cases hm; assumption
    · cases hm
  obtain ⟨c1, e1, e2, e3, e4, e5, e6, e7⟩ :=
    mergeLoop_result InsnID c q out hout rest ids out.MemRefs
      { c with CurrentIdx := c.CurrentIdx + 1 + 1 } hids hsrc rfl rfl
      (by
        show c.MF.Insts = c.MF.Insts.set q (some { out with MemRefs := out.MemRefs })
        exact (set_self_of_getElem? h2).symm) rfl
  have hq1 : assertOutMI { c with CurrentIdx := c.CurrentIdx + 1 + 1 } InsnID = .ok q := hq
  refine ⟨c1, ?_, ?_, ?_, e3, e4, e5, e6, e7⟩
  · rw [exec_at .GIR_MergeMemOperands h0 hne]
    simp only [execCase, case_GIR_MergeMemOperands, fetch, afterTag, h1, bind, Except.bind,
      pure, Except.pure, hq1, hT2, e1]
  · rw [e2]; simp only; omega
  · rw [e2]
    have := @drop_add_of_drop_eq T (c.CurrentIdx + 1 + 1)
      (ids ++ [GIU_MergeMemOperands_EndOfList]) rest (by simpa using hT2)
    simpa [Nat.add_assoc] using this

theorem sentinelIndex_append (ids rest : List Int)
    (h : GIU_MergeMemOperands_EndOfList ∉ ids) :
    sentinelIndex (ids ++ GIU_MergeMemOperands_EndOfList :: rest) = some ids.length := by
  induction ids with
  | nil => simp [sentinelIndex]
  | cons v vs ih =>
    have hv : v ≠ GIU_MergeMemOperands_EndOfList := by
      intro hv; exact h (hv ▸ List.mem_cons_self _ _)
    have hvs : GIU_MergeMemOperands_EndOfList ∉ vs := by
      intro hvs; exact h (List.mem_cons_of_mem _ hvs)
    simp [sentinelIndex, hv, ih hvs]

/-- The successors of an opcode that is neither `GIM_Try` nor
`GIR_MergeMemOperands`. -/
theorem successors_plain {T : List Int} {p : Nat} {op : Opcode}
    (h : T[p]? = some op.tag) (ht : op ≠ .GIM_Try) (hm : op ≠ .GIR_MergeMemOperands) :
    successors T p = [p + 1 + op.arity] := by
  simp only [successors, h, decodeOpcode_tag]

/-- The index at which `GIR_MergeMemOperands` leaves `CurrentIdx`. -/
theorem merge_idx {env : Env} {T : List Int} {c : Config} {a : Action}
    (hc : execCase env T .GIR_MergeMemOperands (afterTag c) = .ok a) :
    ∃ ids rest, T.drop (c.CurrentIdx + 2) = ids ++ GIU_MergeMemOperands_EndOfList :: rest ∧
      GIU_MergeMemOperands_EndOfList ∉ ids ∧
      a.config.CurrentIdx = c.CurrentIdx + 2 + ids.length + 1 := by
  simp only [execCase, case_GIR_MergeMemOperands] at hc
  obtain ⟨⟨InsnID, c1⟩, hf, hc⟩ := bind_eq_ok.mp hc
  rw [fetch_eq_ok] at hf
  obtain ⟨_, hc1⟩ := hf
  simp only at hc1
  obtain ⟨q, _, hc⟩ := bind_eq_ok.mp hc
  obtain ⟨c2, hl, hc⟩ := bind_eq_ok.mp hc
  simp only [pure, Except.pure, Except.ok.injEq] at hc
  subst hc
  obtain ⟨ids, rest, hL, hni, hw⟩ := mergeLoop_width _ _ _ _ hl
  subst hc1
  simp only [afterTag] at hL hw
  exact ⟨ids, rest, hL, hni, by simp only [Action.config, hw]⟩

/-- The loop goes on at opcode positions only, and stacks opcode positions
only. -/
theorem step_opcodeIndex {env : Env} {T : List Int} {c c1 : Config}
    (h : OpcodeIndex T c.CurrentIdx ∧ ∀ t ∈ c.OnFailResumeAt, OpcodeIndex T t)
    (hs : step env T c = .next c1) :
    OpcodeIndex T c1.CurrentIdx ∧ ∀ t ∈ c1.OnFailResumeAt, OpcodeIndex T t := by
  obtain ⟨hp, hst⟩ := h
  rcases step_next_cases hs with hx | ⟨c2, s, t, hx, hstk, rfl⟩
  · obtain ⟨op, hop, _, hc⟩ := execOpcode_ok hx
    have hT : T[c.CurrentIdx]? = some op.tag := opcodeAt_eq.mp hop
    have hf := execCase_facts hc
    by_cases ht : op = .GIM_Try
    · subst ht
      obtain ⟨t, htv, rfl⟩ := try_step hop hx
      have hsucc : successors T c.CurrentIdx = [c.CurrentIdx + 2, toSizeT t] := by
        simp only [successors, hT, decodeOpcode_tag, htv]
      refine ⟨.step hp (by rw [hsucc]; simp), ?_⟩
      intro u hu
      rcases List.mem_append.mp hu with hu | hu
      · exact hst u hu
      · simp only [List.mem_singleton] at hu
        subst hu
        exact .step hp (by rw [hsucc]; simp)
    · have hstack : c1.OnFailResumeAt = c.OnFailResumeAt := hf.1 ht
      refine ⟨?_, fun u hu => hst u (hstack ▸ hu)⟩
      by_cases hm : op = .GIR_MergeMemOperands
      · subst hm
        obtain ⟨ids, rest, hL, hni, hw⟩ := merge_idx hc
        simp only [Action.config] at hw
        have hsucc : successors T c.CurrentIdx = [c.CurrentIdx + 2 + ids.length + 1] := by
          simp only [successors, hT, decodeOpcode_tag, hL, sentinelIndex_append ids rest hni]
        exact .step hp (by rw [hsucc, hw]; simp)
      · have hidx : c1.CurrentIdx = c.CurrentIdx + 1 + op.arity := by
          have := hf.2.2.2.2.1 hm
          simpa [Action.config, afterTag] using this
        exact .step hp (by rw [successors_plain hT ht hm, hidx]; simp)
  · have hstack : c2.OnFailResumeAt = c.OnFailResumeAt := (reject_frame hx).1
    rw [hstk] at hstack
    refine ⟨hst t (by rw [← hstack]; simp), fun u hu => hst u (by rw [← hstack]; simp [hu])⟩

/-- Every `GIM_Try` that a run executes sits at an opcode position: a table
whose checkpoints at opcode positions point forward has forward checkpoints
in every run. -/
theorem forward_of_opcodeIndex {env : Env} {T : List Int} (hT : Int64Table T)
    (hfwd : ∀ (p : Nat) (t : Int), OpcodeIndex T p → T[p]? = some Opcode.GIM_Try.tag →
      T[p + 1]? = some t → (p : Int) < t)
    (OutMIs : List (Option Nat)) (State : MatcherState) (MF : MachineFunction)
    (k : Nat) (c : Config) (hk : after env T k (initial OutMIs State MF) = some c)
    (hop : opcodeAt T c = some .GIM_Try) (t : Int)
    (ht : T[c.CurrentIdx + 1]? = some t) : c.CurrentIdx < toSizeT t := by
  have hinv : OpcodeIndex T c.CurrentIdx ∧ ∀ u ∈ c.OnFailResumeAt, OpcodeIndex T u :=
    @after_invariant env T
      (fun c => OpcodeIndex T c.CurrentIdx ∧ ∀ u ∈ c.OnFailResumeAt, OpcodeIndex T u)
      (fun _ _ h hs => step_opcodeIndex h hs) k (initial OutMIs State MF) c
      ⟨.entry, by simp [initial]⟩ hk
  have h := hfwd c.CurrentIdx t hinv.1 (opcodeAt_eq.mp hop) ht
  have h64 : IsInt64 t := hT t ((List.getElem?_eq_some_iff.mp ht).2 ▸ List.getElem_mem _)
  rw [toSizeT_of_nonneg h64 (by omega)]
  omega

/-- A set of indices that holds 0 and the successors of its members holds
every opcode position. -/
theorem opcodeIndex_mem_of_closed {T : List Int} (S : List Nat) (h0 : 0 ∈ S)
    (hcl : ∀ p ∈ S, ∀ q ∈ successors T p, q ∈ S) {p : Nat} (h : OpcodeIndex T p) : p ∈ S := by
  induction h with
  | entry => exact h0
  | step _ hq ih => exact hcl _ ih _ hq

/-- The scenario table once its constant check has passed: the seven
iterations, for a target whose constraining of the new instruction leaves that
instruction and the root as they are. -/
theorem incTable_success (env : Env) (chk : Opcode) (ADD INC p b : Nat) (MF : MachineFunction)
    (R : List ComplexRendererFn) (ms : List (Option Nat)) (op0 op1 : MachineOperand)
    (mem : List Nat) (dl : Nat)
    (hroot : MF.Insts[p]? = some (some ⟨ADD, [op0, op1], mem, dl⟩))
    (hpar : MF.getParent p = some b)
    (hINC : INC < env.NumOpcodes) (hINC32 : INC < 2 ^ 32)
    (hcon : ∀ mf q, (env.constrainSelectedInstRegOperands mf q).Insts[p]? = mf.Insts[p]? ∧
      (env.constrainSelectedInstRegOperands mf q).getParent p = mf.getParent p)
    (s2 : step env (incTable chk ADD INC) ⟨3, [], ⟨R, some p :: ms⟩, [], MF⟩ =
      .next ⟨7, [], ⟨R, some p :: ms⟩, [], MF⟩) :
    run env (incTable chk ADD INC) 7 ⟨0, [], ⟨R, some p :: ms⟩, [], MF⟩ =
      some (.returned true ⟨19, [], ⟨R, some p :: ms⟩, [some MF.Insts.length],
        ((env.constrainSelectedInstRegOperands
          ((MF.buildMI b p dl INC).2.setInst MF.Insts.length ⟨INC, [op0], [], dl⟩)
          MF.Insts.length).eraseFromParent b p)⟩) := by
  have hplt : p < MF.Insts.length := by
    by_contra hcon2
    rw [List.getElem?_eq_none (by omega)] at hroot
    cases hroot
  have hpq : p ≠ MF.Insts.length := by omega
  have s1 : step env (incTable chk ADD INC) ⟨0, [], ⟨R, some p :: ms⟩, [], MF⟩ =
      .next ⟨3, [], ⟨R, some p :: ms⟩, [], MF⟩ := by
    apply step_of_next
    rw [exec_at .GIM_CheckOpcode rfl (by simp)]
    simp [execCase, case_GIM_CheckOpcode, fetch, afterTag, incTable, getMI, vectorAt,
      MachineFunction.deref, toSizeT_zero, hroot, bind, Except.bind, pure, Except.pure]
  have s3 : step env (incTable chk ADD INC) ⟨7, [], ⟨R, some p :: ms⟩, [], MF⟩ =
      .next ⟨10, [], ⟨R, some p :: ms⟩, [some MF.Insts.length],
        (MF.buildMI b p dl INC).2⟩ := by
    apply step_of_next
    rw [exec_at .GIR_BuildMI rfl (by simp)]
    simp [execCase, case_GIR_BuildMI, fetch, afterTag, incTable, getMI, vectorAt,
      MachineFunction.deref, toSizeT_zero, TII_get, toUnsigned_natCast hINC32, hINC,
      hroot, hpar, bind, Except.bind, pure, Except.pure, MachineFunction.buildMI]
  have s4 : step env (incTable chk ADD INC) ⟨10, [], ⟨R, some p :: ms⟩, [some MF.Insts.length],
        (MF.buildMI b p dl INC).2⟩ =
      .next ⟨14, [], ⟨R, some p :: ms⟩, [some MF.Insts.length],
        (MF.buildMI b p dl INC).2.setInst MF.Insts.length ⟨INC, [op0], [], dl⟩⟩ := by
    apply step_of_next
    rw [exec_at .GIR_Copy rfl (by simp)]
    simp [execCase, case_GIR_Copy, fetch, afterTag, incTable, getMI, getOutMI, assertOutMI,
      vectorAt, MachineFunction.deref, toSizeT_zero, toUnsigned_zero, getOperand, addOperands,
      hroot, bind, Except.bind, pure, Except.pure, MachineFunction.buildMI,
      List.getElem?_append_left hplt]
  have hdn : ((MF.buildMI b p dl INC).2.setInst MF.Insts.length ⟨INC, [op0], [], dl⟩).deref
      MF.Insts.length = .ok ⟨INC, [op0], [], dl⟩ := by
    simp [MachineFunction.deref, MachineFunction.buildMI, MachineFunction.setInst]
  have s5 : step env (incTable chk ADD INC) ⟨14, [], ⟨R, some p :: ms⟩, [some MF.Insts.length],
        (MF.buildMI b p dl INC).2.setInst MF.Insts.length ⟨INC, [op0], [], dl⟩⟩ =
      .next ⟨16, [], ⟨R, some p :: ms⟩, [some MF.Insts.length],
        env.constrainSelectedInstRegOperands
          ((MF.buildMI b p dl INC).2.setInst MF.Insts.length ⟨INC, [op0], [], dl⟩)
          MF.Insts.length⟩ := by
    generalize (MF.buildMI b p dl INC).2.setInst MF.Insts.length ⟨INC, [op0], [], dl⟩ = mf
      at hdn
    apply step_of_next
    rw [exec_at .GIR_ConstrainSelectedInstOperands rfl (by simp)]
    simp [execCase, case_GIR_ConstrainSelectedInstOperands, fetch, afterTag, incTable,
      getOutMI, assertOutMI, vectorAt, toSizeT_zero, hdn, bind, Except.bind, pure, Except.pure]
  have s6 : step env (incTable chk ADD INC) ⟨16, [], ⟨R, some p :: ms⟩, [some MF.Insts.length],
        env.constrainSelectedInstRegOperands
          ((MF.buildMI b p dl INC).2.setInst MF.Insts.length ⟨INC, [op0], [], dl⟩)
          MF.Insts.length⟩ =
      .next ⟨18, [], ⟨R, some p :: ms⟩, [some MF.Insts.length],
        ((env.constrainSelectedInstRegOperands
          ((MF.buildMI b p dl INC).2.setInst MF.Insts.length ⟨INC, [op0], [], dl⟩)
          MF.Insts.length).eraseFromParent b p)⟩ := by
    apply step_of_next
    rw [exec_at .GIR_EraseFromParent rfl (by simp)]
    obtain ⟨e1, e2⟩ := hcon
      ((MF.buildMI b p dl INC).2.setInst MF.Insts.length ⟨INC, [op0], [], dl⟩) MF.Insts.length
    have hd : (env.constrainSelectedInstRegOperands
        ((MF.buildMI b p dl INC).2.setInst MF.Insts.length ⟨INC, [op0], [], dl⟩)
        MF.Insts.length).deref p = .ok ⟨ADD, [op0, op1], mem, dl⟩ := by
      unfold MachineFunction.deref
      rw [e1]
      simp [MachineFunction.buildMI, MachineFunction.setInst,
        List.getElem?_set_ne (Ne.symm hpq), List.getElem?_append_left hplt, hroot]
    have hg : (env.constrainSelectedInstRegOperands
        ((MF.buildMI b p dl INC).2.setInst MF.Insts.length ⟨INC, [op0], [], dl⟩)
        MF.Insts.length).getParent p = some b := by
      rw [e2, getParent_setInst, getParent_buildMI _ _ _ _ _ _ hpq, hpar]
    generalize env.constrainSelectedInstRegOperands
      ((MF.buildMI b p dl INC).2.setInst MF.Insts.length ⟨INC, [op0], [], dl⟩)
      MF.Insts.length = mf at hd hg
    simp [execCase, case_GIR_EraseFromParent, fetch, afterTag, incTable,
      vectorAt, toSizeT_zero, hd, hg, bind, Except.bind, pure, Except.pure]
  have s7 : step env (incTable chk ADD INC) ⟨18, [], ⟨R, some p :: ms⟩, [some MF.Insts.length],
        ((env.constrainSelectedInstRegOperands
          ((MF.buildMI b p dl INC).2.setInst MF.Insts.length ⟨INC, [op0], [], dl⟩)
          MF.Insts.length).eraseFromParent b p)⟩ =
      .ret true ⟨19, [], ⟨R, some p :: ms⟩, [some MF.Insts.length],
        ((env.constrainSelectedInstRegOperands
          ((MF.buildMI b p dl INC).2.setInst MF.Insts.length ⟨INC, [op0], [], dl⟩)
          MF.Insts.length).eraseFromParent b p)⟩ := by
    apply step_of_done
    rw [exec_at .GIR_Done rfl (by simp)]
    rfl
  simp only [run, s1, s2, s3, s4, s5, s6, s7]

/-- `GIM_CheckLiteralInt` in the scenario table rejects an operand 1 that is no
constant-integer operand, whatever its value. -/
theorem incTable_check_other (env : Env) (ADD INC p : Nat) (MF : MachineFunction)
    (R : List ComplexRendererFn) (ms : List (Option Nat)) (op0 op1 : MachineOperand)
    (mem : List Nat) (dl : Nat)
    (hroot : MF.Insts[p]? = some (some ⟨ADD, [op0, op1], mem, dl⟩))
    (hop : ∀ bits k, op1 ≠ .cimm bits k) :
    execOpcode env (incTable .GIM_CheckLiteralInt ADD INC) ⟨3, [], ⟨R, some p :: ms⟩, [], MF⟩ =
      .ok (.reject ⟨7, [], ⟨R, some p :: ms⟩, [], MF⟩) := by
  rw [exec_at .GIM_CheckLiteralInt rfl (by simp)]
  cases op1 with
  | cimm bits k => exact absurd rfl (hop bits k)
  | _ =>
    simp [execCase, case_GIM_CheckLiteralInt, fetch, afterTag, incTable, getDefinedMI,
      vectorAt, MachineFunction.deref, toSizeT_zero, toSizeT_one, toUnsigned_one, getOperand,
      hroot, bind, Except.bind, pure, Except.pure]

/-! # The claims -/

/-- C1: `executeMatchTable` returns true only at `GIR_Done` and false only at
a rejection (by `GIM_RecordInsn`, a `GIM_Check*` or `GIM_Reject`) that finds
the checkpoint stack `OnFailResumeAt` empty; an emission opcode never makes
the call return and never changes the checkpoint stack. -/
theorem C1_return_only_at_done_or_unguarded_rejection
    (env : Env) (T : List Int) (OutMIs : List (Option Nat)) (State : MatcherState)
    (MF : MachineFunction) (fuel : Nat) (b : Bool) (cf : Config)
    (h : executeMatchTable env OutMIs State T MF fuel = some (.returned b cf)) :
    (∃ k c op, after env T k (initial OutMIs State MF) = some c ∧ opcodeAt T c = some op ∧
        ((b = true ∧ op = .GIR_Done ∧ execOpcode env T c = .ok (.done cf)) ∨
         (b = false ∧ op.canReject = true ∧ execOpcode env T c = .ok (.reject cf) ∧
            cf.OnFailResumeAt = []))) ∧
    (∀ c op, opcodeAt T c = some op → op.isEmission = true →
        (∀ b1 c1, step env T c ≠ .ret b1 c1) ∧
        (∀ c1, step env T c = .next c1 → c1.OnFailResumeAt = c.OnFailResumeAt)) := by
  constructor
  · obtain ⟨k, c, _, hk, hs⟩ := run_returned h
    rcases step_ret_cases hs with ⟨hb, hx⟩ | ⟨hb, hx, hst⟩
    · obtain ⟨op, hop, hf⟩ := execOpcode_facts hx
      exact ⟨k, c, op, hk, hop, Or.inl ⟨hb, kind_of_done hf, hx⟩⟩
    · obtain ⟨op, hop, hf⟩ := execOpcode_facts hx
      exact ⟨k, c, op, hk, hop, Or.inr ⟨hb, kind_of_reject hf, hx, hst⟩⟩
  · intro c op hop hem
    rcases emission_step env hop hem with ⟨e, he⟩ | ⟨c1, _, hs, hst⟩
    · constructor
      · intro b1 c1 hc; rw [he] at hc; cases hc
      · intro c1 hc; rw [he] at hc; cases hc
    · constructor
      · intro b1 c2 hc; rw [hs] at hc; cases hc
      · intro c2 hc; rw [hs] at hc; cases hc; exact hst

/-- Witness of C1: the sample table on the candidate `ADD vreg, 1` returns
true, and it does so at `GIR_Done`. -/
theorem C1_witness :
    executeMatchTable sampleEnv [] sampleState sampleTable (sampleMF 1) 7 =
      some (.returned true
        ⟨19, [], sampleState, [some 2],
          ⟨[some ⟨40, [.reg 5000 true false 0, .cimm 32 7], [], 0⟩, none,
            some ⟨sampleINC, [.reg 5000 false false 0], [], 3⟩], [[0, 2]]⟩⟩) ∧
    ∃ k c op, after sampleEnv sampleTable k (initial [] sampleState (sampleMF 1)) = some c ∧
      opcodeAt sampleTable c = some op ∧ op = .GIR_Done := by
  have h : executeMatchTable sampleEnv [] sampleState sampleTable (sampleMF 1) 7 =
      some (.returned true
        ⟨19, [], sampleState, [some 2],
          ⟨[some ⟨40, [.reg 5000 true false 0, .cimm 32 7], [], 0⟩, none,
            some ⟨sampleINC, [.reg 5000 false false 0], [], 3⟩], [[0, 2]]⟩⟩) := by decide
  refine ⟨h, ?_⟩
  obtain ⟨k, c, op, hk, hop, hcase⟩ :=
    (C1_return_only_at_done_or_unguarded_rejection _ _ _ _ _ _ _ _ h).1
  rcases hcase with ⟨_, hd, _⟩ | ⟨hb, _⟩
  · exact ⟨k, c, op, hk, hop, hd⟩
  · cases hb

/-- C2: when a rejection is triggered with an empty checkpoint stack the call
returns false; with a non-empty stack the top entry `t` is removed, nothing
else is removed, `CurrentIdx` becomes `t` and the loop goes on there. -/
theorem C2_rejection_handling
    (env : Env) (T : List Int) (c c1 : Config)
    (h : execOpcode env T c = .ok (.reject c1)) :
    (c1.OnFailResumeAt = [] →
      step env T c = .ret false c1 ∧ ∀ fuel, run env T (fuel + 1) c = some (.returned false c1)) ∧
    (∀ s t, c1.OnFailResumeAt = s ++ [t] →
      step env T c = .next { c1 with CurrentIdx := t, OnFailResumeAt := s } ∧
      opcodeAt T { c1 with CurrentIdx := t, OnFailResumeAt := s } = (T[t]?).bind decodeOpcode ∧
      ∀ fuel, run env T (fuel + 1) c =
        run env T fuel { c1 with CurrentIdx := t, OnFailResumeAt := s }) := by
  constructor
  · intro hs
    have := step_of_reject_nil h hs
    exact ⟨this, fun fuel => by rw [run, this]⟩
  · intro s t hs
    have := step_of_reject_snoc h hs
    refine ⟨this, ?_, fun fuel => by rw [run, this]⟩
    unfold opcodeAt
    cases T[t]? <;> rfl


/-- Witness of C2: a failing constant check with checkpoint stack `[18]`
resumes at index 18 with an empty stack. -/
theorem C2_witness :
    execOpcode sampleEnv sampleTable ⟨3, [18], sampleState, [], sampleMF 2⟩ =
      .ok (.reject ⟨7, [18], sampleState, [], sampleMF 2⟩) ∧
    step sampleEnv sampleTable ⟨3, [18], sampleState, [], sampleMF 2⟩ =
      .next ⟨18, [], sampleState, [], sampleMF 2⟩ :=
  ⟨rfl,
   ((C2_rejection_handling sampleEnv sampleTable ⟨3, [18], sampleState, [], sampleMF 2⟩
      ⟨7, [18], sampleState, [], sampleMF 2⟩ rfl).2 [] 18 rfl).1⟩

/-- C7: a rejection that resumes at a checkpoint changes only `CurrentIdx`
and the checkpoint stack: `State.MIs`, `State.Renderers`, `OutMIs` and the
instruction stream after the rewind are those at the moment the rejection was
triggered, and `State.MIs`, `OutMIs` and the stream are those before the
rejecting opcode. -/
theorem C7_rewind_restores_only_the_instruction_pointer
    (env : Env) (T : List Int) (c c1 : Config)
    (h : execOpcode env T c = .ok (.reject c1)) (hne : c1.OnFailResumeAt ≠ []) :
    ∃ c2, step env T c = .next c2 ∧
      c2.State = c1.State ∧ c2.OutMIs = c1.OutMIs ∧ c2.MF = c1.MF ∧
      c2.State.MIs = c.State.MIs ∧ c2.OutMIs = c.OutMIs ∧ c2.MF = c.MF ∧
      (opcodeAt T c ≠ some .GIM_CheckComplexPattern →
        c2.State.Renderers = c.State.Renderers) := by
  obtain ⟨s, t, hst⟩ := exists_snoc_of_ne_nil hne
  obtain ⟨_, h2, h3, h4, h5⟩ := reject_frame h
  exact ⟨_, step_of_reject_snoc h hst, rfl, rfl, rfl, h2, h3, h4, h5⟩

/-- Witness of C7: the rewind of the sample run keeps the slot bound before
the failing check. -/
theorem C7_witness :
    execOpcode sampleEnv sampleTable ⟨3, [18], sampleState, [], sampleMF 2⟩ =
      .ok (.reject ⟨7, [18], sampleState, [], sampleMF 2⟩) ∧
    ∃ c2, step sampleEnv sampleTable ⟨3, [18], sampleState, [], sampleMF 2⟩ = .next c2 ∧
      c2.State = sampleState := by
  refine ⟨rfl, ?_⟩
  obtain ⟨c2, h1, h2, _⟩ :=
    C7_rewind_restores_only_the_instruction_pointer sampleEnv sampleTable
      ⟨3, [18], sampleState, [], sampleMF 2⟩ ⟨7, [18], sampleState, [], sampleMF 2⟩
      rfl (by decide)
  exact ⟨c2, h1, h2⟩

/-- C9: `GIM_Try`, `GIM_RecordInsn`, the `GIM_Check*` opcodes and
`GIM_Reject` never modify the instruction stream or `OutMIs`; hence when
`executeMatchTable` returns false and every opcode executed was a `GIM_*`
opcode, the stream and `OutMIs` are exactly as at entry. -/
theorem C9_failure_without_emission_leaves_stream_untouched
    (env : Env) (T : List Int) (OutMIs : List (Option Nat)) (State : MatcherState)
    (MF : MachineFunction) (fuel : Nat) (cf : Config)
    (h : executeMatchTable env OutMIs State T MF fuel = some (.returned false cf))
    (hno : ∀ k c op, after env T k (initial OutMIs State MF) = some c →
      opcodeAt T c = some op → op.isGIM = true) :
    (cf.MF = MF ∧ cf.OutMIs = OutMIs) ∧
    (∀ c op a, opcodeAt T c = some op → op.isGIM = true → execOpcode env T c = .ok a →
      a.config.MF = c.MF ∧ a.config.OutMIs = c.OutMIs) := by
  have inv : ∀ k c, after env T k (initial OutMIs State MF) = some c →
      c.MF = MF ∧ c.OutMIs = OutMIs := by
    intro k
    induction k with
    | zero => intro c hc; cases hc; exact ⟨rfl, rfl⟩
    | succ k ih =>
      intro c hc
      obtain ⟨c1, h1, h2⟩ := after_succ_iff.mp hc
      obtain ⟨e1, e2⟩ := ih c1 h1
      obtain ⟨op, hop, _⟩ : ∃ op, opcodeAt T c1 = some op ∧ True := by
        rcases step_next_cases h2 with hx | ⟨_, _, _, hx, _⟩
        · obtain ⟨op, hop, _⟩ := execOpcode_facts hx; exact ⟨op, hop, trivial⟩
        · obtain ⟨op, hop, _⟩ := execOpcode_facts hx; exact ⟨op, hop, trivial⟩
      obtain ⟨f1, f2⟩ := (gim_step_frame env hop (hno k c1 op h1 hop)).1 c h2
      exact ⟨f1.trans e1, f2.trans e2⟩
  constructor
  · obtain ⟨k, c, _, hk, hs⟩ := run_returned h
    obtain ⟨e1, e2⟩ := inv k c hk
    obtain ⟨op, hop, _⟩ : ∃ op, opcodeAt T c = some op ∧ True := by
      rcases step_ret_cases hs with ⟨_, hx⟩ | ⟨_, hx, _⟩
      · obtain ⟨op, hop, _⟩ := execOpcode_facts hx; exact ⟨op, hop, trivial⟩
      · obtain ⟨op, hop, _⟩ := execOpcode_facts hx; exact ⟨op, hop, trivial⟩
    obtain ⟨f1, f2⟩ := (gim_step_frame env hop (hno k c op hk hop)).2 _ _ hs
    exact ⟨f1.trans e1, f2.trans e2⟩
  · intro c op a hop hgim ha
    obtain ⟨op1, hop1, hf⟩ := execOpcode_facts ha
    rw [hop] at hop1; cases hop1
    exact hf.2.1 hgim


/-- Witness of C9: on the candidate `ADD vreg, 2` the sample table fails in
its second check, before any emission, and leaves stream and `OutMIs` alone. -/
theorem C9_witness :
    executeMatchTable sampleEnv [] sampleState sampleTable (sampleMF 2) 2 =
      some (.returned false ⟨7, [], sampleState, [], sampleMF 2⟩) ∧
    (⟨7, [], sampleState, [], sampleMF 2⟩ : Config).MF = sampleMF 2 ∧
    (⟨7, [], sampleState, [], sampleMF 2⟩ : Config).OutMIs = [] := by
  have h : executeMatchTable sampleEnv [] sampleState sampleTable (sampleMF 2) 2 =
      some (.returned false ⟨7, [], sampleState, [], sampleMF 2⟩) := by decide
  have s0 : step sampleEnv sampleTable (initial [] sampleState (sampleMF 2)) =
      .next ⟨3, [], sampleState, [], sampleMF 2⟩ := by decide
  have s1 : step sampleEnv sampleTable ⟨3, [], sampleState, [], sampleMF 2⟩ =
      .ret false ⟨7, [], sampleState, [], sampleMF 2⟩ := by decide
  refine ⟨h, ?_⟩
  refine (C9_failure_without_emission_leaves_stream_untouched sampleEnv sampleTable []
    sampleState (sampleMF 2) 2 _ h ?_).1
  intro k c op hk hop
  match k with
  | 0 =>
    cases hk
    have : opcodeAt sampleTable (initial [] sampleState (sampleMF 2)) =
        some .GIM_CheckOpcode := by decide
    rw [this] at hop; cases hop; rfl
  | 1 =>
    simp only [after, s0, Option.some.injEq] at hk
    subst hk
    have : opcodeAt sampleTable ⟨3, [], sampleState, [], sampleMF 2⟩ =
        some .GIM_CheckLiteralInt := by decide
    rw [this] at hop; cases hop; rfl
  | k + 2 =>
    simp only [after, s0, s1] at hk
    cases hk


/-- C10: slot 0 of `State.MIs` holds the root from entry to every state the
call reaches and to its return; a `GIM_RecordInsn` whose `NewInsnID` is 0
halts on the assertion `Refusing to modify MIs[0]` whatever the state and
the other operands are (it never counts as a rejection). -/
theorem C10_slot_zero_is_immutable
    (env : Env) (T : List Int) (hT : Int64Table T) (OutMIs : List (Option Nat))
    (State : MatcherState) (MF : MachineFunction) :
    (∀ k c, after env T k (initial OutMIs State MF) = some c →
      c.State.MIs[0]? = State.MIs[0]?) ∧
    (∀ fuel b cf, executeMatchTable env OutMIs State T MF fuel = some (.returned b cf) →
      cf.State.MIs[0]? = State.MIs[0]?) ∧
    (∀ c InsnID OpIdx, c.CurrentIdx ≠ 4294967295 →
      T[c.CurrentIdx]? = some Opcode.GIM_RecordInsn.tag →
      T[c.CurrentIdx + 1]? = some 0 → T[c.CurrentIdx + 2]? = some InsnID →
      T[c.CurrentIdx + 3]? = some OpIdx →
      step env T c = .abort .refusingToModifyRoot ∧
      ∀ fuel, run env T (fuel + 1) c = some (.aborted .refusingToModifyRoot)) := by
  have hstep : ∀ c c1, step env T c = .next c1 → c1.State.MIs[0]? = c.State.MIs[0]? := by
    intro c c1 hs
    rcases step_next_cases hs with hx | ⟨c2, s, t, hx, _, rfl⟩
    · exact step_root hT hx
    · exact step_root hT hx
  have inv : ∀ k c, after env T k (initial OutMIs State MF) = some c →
      c.State.MIs[0]? = State.MIs[0]? := by
    intro k c hk
    exact after_invariant (fun c => c.State.MIs[0]? = State.MIs[0]?)
      (fun c c1 hc hs => (hstep c c1 hs).trans hc) rfl hk
  refine ⟨inv, ?_, ?_⟩
  · intro fuel b cf h
    obtain ⟨k, c, _, hk, hs⟩ := run_returned h
    have hc := inv k c hk
    rcases step_ret_cases hs with ⟨_, hx⟩ | ⟨_, hx, _⟩
    · exact (step_root hT hx).trans hc
    · exact (step_root hT hx).trans hc
  · intro c InsnID OpIdx hne h0 h1 h2 h3
    have hop : opcodeAt T c = some .GIM_RecordInsn := opcodeAt_eq.mpr h0
    have hx : execOpcode env T c = .error .refusingToModifyRoot := by
      rw [execOpcode_of_opcodeAt hop hne]
      simp [execCase, case_GIM_RecordInsn, fetch, afterTag, h1, h2, h3, bind, Except.bind,
        throw, throwThe, MonadExceptOf.throw]
    have hs := step_of_error hx
    exact ⟨hs, fun fuel => by rw [run, hs]⟩

/-- Witness of C10: a table that starts with `GIM_RecordInsn 0 0 0` halts on
the assertion, and slot 0 of the sample run is the root after one iteration. -/
theorem C10_witness :
    Int64Table [Opcode.GIM_RecordInsn.tag, 0, 0, 0, Opcode.GIR_Done.tag] ∧
    step sampleEnv [Opcode.GIM_RecordInsn.tag, 0, 0, 0, Opcode.GIR_Done.tag]
      (initial [] sampleState (sampleMF 1)) = .abort .refusingToModifyRoot :=
  ⟨by decide,
   ((C10_slot_zero_is_immutable sampleEnv
      [Opcode.GIM_RecordInsn.tag, 0, 0, 0, Opcode.GIR_Done.tag] (by decide) []
      sampleState (sampleMF 1)).2.2 (initial [] sampleState (sampleMF 1)) 0 0
      (by decide) rfl rfl rfl rfl).1⟩


/-- C5: nested try-blocks unwind LIFO.  If the `GIM_Try` opcodes of a run
from an empty checkpoint stack pushed `ts = [t1, ..., tn]` with no rejection in
between, then over any continuation without `GIM_Try` the rejections resume at
`tn`, ..., `t1` in that order, each removing exactly the top entry, and a
rejection makes the call return false only after all `n` have resumed: the
rejection events form an initial segment of
`[resume tn, ..., resume t1, giveUp]`. -/
theorem C5_nested_try_blocks_unwind_LIFO
    (env : Env) (T : List Int) (c0 c1 : Config) (k1 k2 : Nat) (ts : List Nat)
    (h0 : c0.OnFailResumeAt = [])
    (hk1 : after env T k1 c0 = some c1)
    (hpush : events env T k1 c0 = ts.map Event.push)
    (hnoTry : ∀ t, Event.push t ∉ events env T k2 c1) :
    c1.OnFailResumeAt = ts ∧
    (∃ m, events env T k2 c1 =
      (ts.reverse.map Event.resume ++ [Event.giveUp]).take m) ∧
    (∀ c2, after env T k2 c1 = some c2 →
      c2.OnFailResumeAt = ts.take (ts.length - (events env T k2 c1).length)) ∧
    (Event.giveUp ∈ events env T k2 c1 →
      events env T k2 c1 = ts.reverse.map Event.resume ++ [Event.giveUp]) := by
  have hst : c1.OnFailResumeAt = ts := by
    rw [stack_after_pushes hk1 hpush, h0]; rfl
  obtain ⟨⟨m, hm⟩, h2⟩ := events_without_push hnoTry
  rw [hst] at hm h2
  refine ⟨hst, ⟨m, hm⟩, h2, ?_⟩
  intro hg
  rw [hm] at hg ⊢
  apply take_eq_self_of_last_mem _ hg
  simp

/-- Witness of C5: two nested `GIM_Try` (targets 6 and 5) followed by three
`GIM_Reject`: the rejections resume at 5, then at 6, and the third gives up. -/
theorem C5_witness :
    (initial [] sampleState (sampleMF 1)).OnFailResumeAt = [] ∧
    after sampleEnv [0, 6, 0, 5, 14, 14, 14] 2 (initial [] sampleState (sampleMF 1)) =
      some ⟨4, [6, 5], sampleState, [], sampleMF 1⟩ ∧
    events sampleEnv [0, 6, 0, 5, 14, 14, 14] 2 (initial [] sampleState (sampleMF 1)) =
      [6, 5].map Event.push ∧
    events sampleEnv [0, 6, 0, 5, 14, 14, 14] 3 ⟨4, [6, 5], sampleState, [], sampleMF 1⟩ =
      [Event.resume 5, Event.resume 6, Event.giveUp] := by
  have hev : events sampleEnv [0, 6, 0, 5, 14, 14, 14] 3
      ⟨4, [6, 5], sampleState, [], sampleMF 1⟩ =
      [Event.resume 5, Event.resume 6, Event.giveUp] := by decide
  refine ⟨rfl, by decide, by decide, ?_⟩
  exact (C5_nested_try_blocks_unwind_LIFO sampleEnv [0, 6, 0, 5, 14, 14, 14]
    (initial [] sampleState (sampleMF 1)) ⟨4, [6, 5], sampleState, [], sampleMF 1⟩ 2 3 [6, 5]
    rfl (by decide) (by decide) (by rw [hev]; simp)).2.2.2 (by rw [hev]; decide)


/-- Counterexample to C8 as stated: in `captureTable` the capture into
renderer slot 0 happens inside the try-block, the following `GIM_Reject`
resumes at the checkpoint 8 of that try-block, and slot 0 still holds the
captured renderer instead of the empty renderer it held before the capture. -/
theorem C8_counterexample :
    after sampleEnv captureTable 1 (initial [] sampleState (sampleMF 1)) =
      some ⟨2, [8], sampleState, [], sampleMF 1⟩ ∧
    opcodeAt captureTable ⟨2, [8], sampleState, [], sampleMF 1⟩ =
      some .GIM_CheckComplexPattern ∧
    step sampleEnv captureTable ⟨2, [8], sampleState, [], sampleMF 1⟩ =
      .next ⟨7, [8], ⟨[some [.reg 5000 false false 0]], [some 1]⟩, [], sampleMF 1⟩ ∧
    step sampleEnv captureTable
        ⟨7, [8], ⟨[some [.reg 5000 false false 0]], [some 1]⟩, [], sampleMF 1⟩ =
      .next ⟨8, [], ⟨[some [.reg 5000 false false 0]], [some 1]⟩, [], sampleMF 1⟩ ∧
    (⟨[some [.reg 5000 false false 0]], [some 1]⟩ : MatcherState).Renderers[0]? ≠
      sampleState.Renderers[0]? := by
  refine ⟨by decide, by decide, by decide, by decide, by decide⟩

/-- C8 (amended): a renderer capture is not undone by a rewind.  After a
successful `GIM_CheckComplexPattern` has stored a renderer in
`State.Renderers[RendererID]`, every later state of the run, reached through
any number of rejections that resume at a checkpoint, still holds that renderer
in the slot and has the same `State.Renderers`, as long as no other
`GIM_CheckComplexPattern` ran in between. -/
theorem C8_capture_survives_rewind
    (env : Env) (T : List Int) (c c1 c2 : Config) (k : Nat)
    (hop : opcodeAt T c = some .GIM_CheckComplexPattern)
    (hcap : execOpcode env T c = .ok (.next c1))
    (hk : after env T k c1 = some c2)
    (hno : ∀ j cj, j < k → after env T j c1 = some cj →
      opcodeAt T cj ≠ some .GIM_CheckComplexPattern) :
    c2.State.Renderers = c1.State.Renderers ∧
    ∃ r, c1.State.Renderers[toSizeT (T.getD (c.CurrentIdx + 3) 0)]? = some (some r) ∧
      c2.State.Renderers[toSizeT (T.getD (c.CurrentIdx + 3) 0)]? = some (some r) := by
  have hsame : c2.State.Renderers = c1.State.Renderers := by
    induction k generalizing c2 with
    | zero => cases hk; rfl
    | succ k ih =>
      obtain ⟨c3, h3, hs⟩ := after_succ_iff.mp hk
      have e1 := ih c3 h3 (fun j cj hj hcj => hno j cj (by omega) hcj)
      have e2 := step_renderers (hno k c3 (by omega) h3) hs
      exact e2.trans e1
  obtain ⟨r, hr⟩ := complexPattern_capture hop hcap
  exact ⟨hsame, r, hr, by rw [hsame]; exact hr⟩

/-- Witness of C8 (amended): in `captureTable` the renderer captured into slot
0 is still there after the rewind to index 8. -/
theorem C8_witness :
    opcodeAt captureTable ⟨2, [8], sampleState, [], sampleMF 1⟩ =
      some .GIM_CheckComplexPattern ∧
    after sampleEnv captureTable 1
        ⟨7, [8], ⟨[some [.reg 5000 false false 0]], [some 1]⟩, [], sampleMF 1⟩ =
      some ⟨8, [], ⟨[some [.reg 5000 false false 0]], [some 1]⟩, [], sampleMF 1⟩ ∧
    (⟨8, [], ⟨[some [.reg 5000 false false 0]], [some 1]⟩, [], sampleMF 1⟩ :
      Config).State.Renderers = [some [.reg 5000 false false 0]] := by
  refine ⟨by decide, by decide, ?_⟩
  exact (C8_capture_survives_rewind sampleEnv captureTable
    ⟨2, [8], sampleState, [], sampleMF 1⟩
    ⟨7, [8], ⟨[some [.reg 5000 false false 0]], [some 1]⟩, [], sampleMF 1⟩
    ⟨8, [], ⟨[some [.reg 5000 false false 0]], [some 1]⟩, [], sampleMF 1⟩ 1
    (by decide) rfl (by decide)
    (fun j cj hj hcj => by
      have hj0 : j = 0 := by omega
      subst hj0
      cases hcj
      decide)).1


/-- C4: in a table `[GIM_Try Tgt; guarded checks; emissions; GIR_Done;
alternative]` whose alternative starts at index `Tgt`, when a guarded check
fails (the checks before it having passed) the loop goes on at index `Tgt`,
on the first entry of the alternative, with an empty checkpoint stack and with
the stream and `OutMIs` as at entry; the call then returns whatever the
alternative returns, and if that is true, `OutMIs` is its content at entry
followed only by builders created by opcodes of the alternative. -/
theorem C4_failed_try_block_resumes_at_its_target
    (env : Env) (guarded emits : List Insn) (alt T : List Int) (Tgt : Nat)
    (OutMIs : List (Option Nat)) (State : MatcherState) (MF : MachineFunction)
    (hT : T = [Opcode.GIM_Try.tag, (Tgt : Int)] ++ encodeAll guarded ++ encodeAll emits ++
      [Opcode.GIR_Done.tag] ++ alt)
    (hTgt : Tgt = 2 + (encodeAll guarded).length + (encodeAll emits).length + 1)
    (hsize : T.length < 2 ^ 64)
    (hguard : ∀ i ∈ guarded, i.WellFormed ∧ i.op.canReject = true)
    (j : Nat) (c c1 : Config) (hj : j < guarded.length)
    (hc : after env T (j + 1) (initial OutMIs State MF) = some c)
    (hpass : ∀ i ci, 1 ≤ i → i ≤ j → after env T i (initial OutMIs State MF) = some ci →
      ∃ cn, execOpcode env T ci = .ok (.next cn))
    (hfail : execOpcode env T c = .ok (.reject c1)) :
    ∃ c2, step env T c = .next c2 ∧ c2.CurrentIdx = Tgt ∧ T.drop c2.CurrentIdx = alt ∧
      c2.OnFailResumeAt = [] ∧ c2.MF = MF ∧ c2.OutMIs = OutMIs ∧
      (∀ n, executeMatchTable env OutMIs State T MF (j + 2 + n) = run env T n c2) ∧
      (∀ n cf, run env T n c2 = some (.returned true cf) →
        ∃ k, k < n ∧ cf.OutMIs = OutMIs ++ builtDuring env T c2 0 k) := by
  -- the first iteration is the `GIM_Try`
  have hop0 : opcodeAt T (initial OutMIs State MF) = some .GIM_Try := by
    rw [opcodeAt_eq, hT]; rfl
  have hlt : Tgt < 2 ^ 64 := by
    have : Tgt ≤ T.length := by
      rw [hT, hTgt]
      simp only [List.length_append, List.length_cons, List.length_nil]
      omega
    omega
  rw [after] at hc
  cases hs0 : step env T (initial OutMIs State MF) with
  | ret b cr => rw [hs0] at hc; cases hc
  | abort e => rw [hs0] at hc; cases hc
  | next cA =>
    rw [hs0] at hc
    simp only at hc
    have hx0 : execOpcode env T (initial OutMIs State MF) = .ok (.next cA) := by
      rcases step_next_cases hs0 with hx | ⟨c3, s, t, hx, _, _⟩
      · exact hx
      · exact absurd hx (execOpcode_try_not_reject hop0)
    have hA := try_push hop0 hx0
    have hget : T.getD ((initial OutMIs State MF).CurrentIdx + 1) 0 = (Tgt : Int) := by
      rw [hT]; rfl
    rw [hget, toSizeT_natCast hlt] at hA
    -- the guarded checks are straight-line code from `cA`
    have hdA : T.drop cA.CurrentIdx = encodeAll guarded ++
        (encodeAll emits ++ [Opcode.GIR_Done.tag] ++ alt) := by
      rw [hA, hT]
      simp [initial]
    have hafter : ∀ i ci, after env T i cA = some ci →
        after env T (i + 1) (initial OutMIs State MF) = some ci := by
      intro i ci hci
      rw [after, hs0]
      exact hci
    obtain ⟨_, hst, hmf, hout⟩ := straight_pass env guarded _ cA hdA hguard j c (by omega) hc
      (fun i ci hi hci => hpass (i + 1) ci (by omega) (by omega) (hafter i ci hci))
    obtain ⟨r1, _, r3, r4, _⟩ := reject_frame hfail
    have hstack : c1.OnFailResumeAt = [] ++ [Tgt] := by
      rw [r1, hst, hA]; rfl
    have hstep := step_of_reject_snoc hfail hstack
    refine ⟨_, hstep, rfl, ?_, rfl, ?_, ?_, ?_, ?_⟩
    · simp only
      rw [hT, hTgt]
      apply List.drop_left'
      simp only [List.length_append, List.length_cons, List.length_nil]
    · simp only
      rw [r4, hmf, hA]; rfl
    · simp only
      rw [r3, hout, hA]; rfl
    · intro n
      have h2 : after env T (j + 2) (initial OutMIs State MF) = some _ :=
        after_succ_iff.mpr ⟨c, hafter j c hc, hstep⟩
      exact run_of_after h2 n
    · intro n cf hrun
      obtain ⟨k, ck, hk, hak, hsk⟩ := run_returned hrun
      rcases step_ret_cases hsk with ⟨_, hx⟩ | ⟨hb, _⟩
      · obtain ⟨op, hop, hf⟩ := execOpcode_facts hx
        have hd := kind_of_done hf
        subst hd
        have e1 := exec_outMIs hx
        have e2 := outMIs_after env hak
        simp only [Action.config, builtAt, hop, List.append_nil] at e1
        refine ⟨k, hk, ?_⟩
        rw [e1, e2]
        simp only
        rw [r3, hout, hA]; rfl
      · cases hb


/-- Witness of C4: in `tryTable` on the candidate `ADD vreg, 2` the second
guarded check fails, the loop resumes at index 21 with `OutMIs` still empty,
and the call returns true through the alternative. -/
theorem C4_witness :
    tryTable = [Opcode.GIM_Try.tag, ((21 : Nat) : Int)] ++ encodeAll sampleChecks ++
      encodeAll sampleEmits ++ [Opcode.GIR_Done.tag] ++ [Opcode.GIR_Done.tag] ∧
    after sampleEnv tryTable 2 (initial [] sampleState (sampleMF 2)) =
      some ⟨5, [21], sampleState, [], sampleMF 2⟩ ∧
    execOpcode sampleEnv tryTable ⟨5, [21], sampleState, [], sampleMF 2⟩ =
      .ok (.reject ⟨9, [21], sampleState, [], sampleMF 2⟩) ∧
    (∃ c2, step sampleEnv tryTable ⟨5, [21], sampleState, [], sampleMF 2⟩ = .next c2 ∧
      c2.CurrentIdx = 21 ∧ c2.OutMIs = [] ∧
      executeMatchTable sampleEnv [] sampleState tryTable (sampleMF 2) 4 =
        run sampleEnv tryTable 1 c2) ∧
    executeMatchTable sampleEnv [] sampleState tryTable (sampleMF 2) 4 =
      some (.returned true ⟨22, [], sampleState, [], sampleMF 2⟩) := by
  have hT : tryTable = [Opcode.GIM_Try.tag, ((21 : Nat) : Int)] ++ encodeAll sampleChecks ++
      encodeAll sampleEmits ++ [Opcode.GIR_Done.tag] ++ [Opcode.GIR_Done.tag] := by decide
  have hg : ∀ i ∈ sampleChecks, i.WellFormed ∧ i.op.canReject = true := by
    intro i hi
    simp only [sampleChecks, List.mem_cons, List.mem_singleton, List.not_mem_nil, or_false] at hi
    rcases hi with rfl | rfl <;> exact ⟨rfl, rfl⟩
  have s1 : after sampleEnv tryTable 1 (initial [] sampleState (sampleMF 2)) = some _ := rfl
  refine ⟨hT, by decide, rfl, ?_, by decide⟩
  obtain ⟨c2, h1, h2, _, _, _, h6, h7, _⟩ :=
    C4_failed_try_block_resumes_at_its_target sampleEnv sampleChecks sampleEmits
      [Opcode.GIR_Done.tag] tryTable 21 [] sampleState (sampleMF 2) hT (by decide) (by decide)
      hg 1 ⟨5, [21], sampleState, [], sampleMF 2⟩ ⟨9, [21], sampleState, [], sampleMF 2⟩
      (by decide) (by decide)
      (by
        intro i ci h1 h2 hci
        have hi : i = 1 := by omega
        subst hi
        rw [s1] at hci
        cases hci
        exact ⟨_, rfl⟩)
      rfl
  exact ⟨c2, h1, h2, h6, h7 1⟩


/-- C11: a `GIM_RecordInsn` whose `NewInsnID` (as a `size_t`) is greater than
the length of `State.MIs` never binds: the iteration does not fall through,
any rejection or return leaves `State.MIs` as it is, and when the operand is a
virtual register (so that there is something to bind) the interpreter halts
on the assertion `Expected to store MIs in order`. -/
theorem C11_binding_beyond_the_next_slot_is_never_accepted
    (env : Env) (T : List Int) (c : Config) (NewInsnID InsnID OpIdx : Int)
    (hne : c.CurrentIdx ≠ 4294967295)
    (h0 : T[c.CurrentIdx]? = some Opcode.GIM_RecordInsn.tag)
    (h1 : T[c.CurrentIdx + 1]? = some NewInsnID) (h2 : T[c.CurrentIdx + 2]? = some InsnID)
    (h3 : T[c.CurrentIdx + 3]? = some OpIdx)
    (hgap : c.State.MIs.length < toSizeT NewInsnID) :
    (∀ c1, execOpcode env T c ≠ .ok (.next c1)) ∧
    (∀ c1, step env T c = .next c1 → c1.State.MIs = c.State.MIs) ∧
    (∀ b c1, step env T c = .ret b c1 → b = false ∧ c1.State.MIs = c.State.MIs) ∧
    (∀ q mi r d i s, getMI c InsnID = .ok (q, mi) →
      getOperand mi OpIdx = .ok (.reg r d i s) → env.isPhysicalRegister r = false →
      NewInsnID ≠ 0 → step env T c = .abort .storeOutOfOrder) := by
  have hx : execOpcode env T c = case_GIM_RecordInsn env T (afterTag c) :=
    exec_at .GIM_RecordInsn h0 hne
  rw [recordInsn_eq env h1 h2 h3] at hx
  have hlt : ¬ toSizeT NewInsnID < c.State.MIs.length := by omega
  have heq : ¬ toSizeT NewInsnID = c.State.MIs.length := by omega
  have key : ∀ a, execOpcode env T c = .ok a →
      a = .reject { c with CurrentIdx := c.CurrentIdx + 4 } := by
    intro a ha
    rw [hx] at ha
    by_cases hz : NewInsnID = 0
    · rw [if_pos hz] at ha; cases ha
    · rw [if_neg hz] at ha
      repeat' split at ha
      all_goals cases ha
      all_goals rfl
  refine ⟨?_, ?_, ?_, ?_⟩
  · intro c1 h
    have := key _ h
    cases this
  · intro c1 hs
    rcases step_next_cases hs with h | ⟨c2, s, t, h, _, rfl⟩
    · have := key _ h; cases this
    · have := key _ h
      cases this
      rfl
  · intro b c1 hs
    rcases step_ret_cases hs with ⟨_, h⟩ | ⟨hb, h, _⟩
    · have := key _ h; cases this
    · have := key _ h
      cases this
      exact ⟨hb, rfl⟩
  · intro q mi r d i s hg ho hp hz
    apply step_of_error
    rw [hx, if_neg hz, hg]
    simp only [ho, hp, if_neg hlt, if_neg heq]
    rfl

/-- Witness of C11: with one slot bound, `GIM_RecordInsn 5 0 0` on a virtual
register operand halts on the assertion. -/
theorem C11_witness :
    (initial [] sampleState (sampleMF 1)).State.MIs.length < toSizeT 5 ∧
    step sampleEnv [Opcode.GIM_RecordInsn.tag, 5, 0, 0, Opcode.GIR_Done.tag]
      (initial [] sampleState (sampleMF 1)) = .abort .storeOutOfOrder :=
  ⟨by decide,
   (C11_binding_beyond_the_next_slot_is_never_accepted sampleEnv
      [Opcode.GIM_RecordInsn.tag, 5, 0, 0, Opcode.GIR_Done.tag]
      (initial [] sampleState (sampleMF 1)) 5 0 0 (by decide) rfl rfl rfl rfl
      (by decide)).2.2.2 1 _ 5000 false false 0 rfl rfl rfl (by decide)⟩

/-- C12: a `GIM_RecordInsn` with `NewInsnID` other than 0 and valid `InsnID` and
`OpIdx` whose operand is not a register, or is a physical register, invokes
rejection handling: it returns false when the checkpoint stack is empty and
resumes at the top checkpoint otherwise; it does not halt, and `State.MIs`
(like everything but `CurrentIdx` and the stack) is left as it is. -/
theorem C12_bind_instruction_rejects_unbindable_operand
    (env : Env) (T : List Int) (c : Config) (NewInsnID InsnID OpIdx : Int)
    (q : Nat) (mi : MachineInstr) (MO : MachineOperand)
    (hne : c.CurrentIdx ≠ 4294967295)
    (h0 : T[c.CurrentIdx]? = some Opcode.GIM_RecordInsn.tag)
    (h1 : T[c.CurrentIdx + 1]? = some NewInsnID) (h2 : T[c.CurrentIdx + 2]? = some InsnID)
    (h3 : T[c.CurrentIdx + 3]? = some OpIdx)
    (hz : NewInsnID ≠ 0)
    (hg : getMI c InsnID = .ok (q, mi)) (ho : getOperand mi OpIdx = .ok MO)
    (hbad : (∀ r d i s, MO ≠ .reg r d i s) ∨
      (∃ r d i s, MO = .reg r d i s ∧ env.isPhysicalRegister r = true)) :
    execOpcode env T c = .ok (.reject { c with CurrentIdx := c.CurrentIdx + 4 }) ∧
    (c.OnFailResumeAt = [] →
      step env T c = .ret false { c with CurrentIdx := c.CurrentIdx + 4 }) ∧
    (∀ s t, c.OnFailResumeAt = s ++ [t] →
      step env T c = .next { c with CurrentIdx := t, OnFailResumeAt := s }) ∧
    (∀ e, step env T c ≠ .abort e) := by
  have hx : execOpcode env T c =
      .ok (.reject { c with CurrentIdx := c.CurrentIdx + 4 }) := by
    have hx : execOpcode env T c = case_GIM_RecordInsn env T (afterTag c) :=
      exec_at .GIM_RecordInsn h0 hne
    rw [hx, recordInsn_eq env h1 h2 h3, if_neg hz, hg]
    simp only [ho]
    rcases hbad with hnr | ⟨r, d, i, s, rfl, hp⟩
    · cases MO with
      | reg r d i s => exact absurd rfl (hnr r d i s)
      | _ => rfl
    · simp only [hp, if_true]
  have h1' : c.OnFailResumeAt = [] →
      step env T c = .ret false { c with CurrentIdx := c.CurrentIdx + 4 } :=
    fun hs => @step_of_reject_nil env T c { c with CurrentIdx := c.CurrentIdx + 4 } hx hs
  have h2' : ∀ s t, c.OnFailResumeAt = s ++ [t] →
      step env T c = .next { c with CurrentIdx := t, OnFailResumeAt := s } :=
    fun s t hs =>
      @step_of_reject_snoc env T c { c with CurrentIdx := c.CurrentIdx + 4 } s t hx hs
  refine ⟨hx, h1', h2', ?_⟩
  intro e he
  by_cases hs : c.OnFailResumeAt = []
  · rw [h1' hs] at he; cases he
  · obtain ⟨s, t, hst⟩ := exists_snoc_of_ne_nil hs
    rw [h2' s t hst] at he; cases he

/-- Witness of C12: `GIM_RecordInsn 1 0 1` on the sample root, whose operand 1
is a constant, returns false with no checkpoint. -/
theorem C12_witness :
    step sampleEnv [Opcode.GIM_RecordInsn.tag, 1, 0, 1, Opcode.GIR_Done.tag]
      (initial [] sampleState (sampleMF 1)) =
      .ret false { initial [] sampleState (sampleMF 1) with CurrentIdx := 4 } :=
  (C12_bind_instruction_rejects_unbindable_operand sampleEnv
    [Opcode.GIM_RecordInsn.tag, 1, 0, 1, Opcode.GIR_Done.tag]
    (initial [] sampleState (sampleMF 1)) 1 0 1 1
    ⟨sampleADD, [.reg 5000 false false 0, .cimm 32 1], [], 3⟩ (.cimm 32 1)
    (by decide) rfl rfl rfl rfl (by decide) rfl rfl
    (Or.inl (fun _ _ _ _ h => by cases h))).2.1 rfl

/-- C13: a `GIM_RecordInsn` with `0 < NewInsnID <= |MIs|` whose operand is a
virtual register `r` falls through: afterwards `MIs[NewInsnID]` is
`MRI.getVRegDef(r)`, every other slot is unchanged, `|MIs|` has grown by one
when `NewInsnID = |MIs|` and is unchanged when `NewInsnID < |MIs|`, the
checkpoint stack is unchanged and `CurrentIdx` has advanced by 4. -/
theorem C13_bind_instruction_result
    (env : Env) (T : List Int) (c : Config) (NewInsnID InsnID OpIdx : Int)
    (q : Nat) (mi : MachineInstr) (r : Nat) (d i : Bool) (s : Nat)
    (hne : c.CurrentIdx ≠ 4294967295)
    (h0 : T[c.CurrentIdx]? = some Opcode.GIM_RecordInsn.tag)
    (h1 : T[c.CurrentIdx + 1]? = some NewInsnID) (h2 : T[c.CurrentIdx + 2]? = some InsnID)
    (h3 : T[c.CurrentIdx + 3]? = some OpIdx)
    (h64 : IsInt64 NewInsnID) (hpos : 0 < NewInsnID)
    (hle : NewInsnID ≤ (c.State.MIs.length : Int))
    (hg : getMI c InsnID = .ok (q, mi)) (ho : getOperand mi OpIdx = .ok (.reg r d i s))
    (hv : env.isPhysicalRegister r = false) :
    ∃ c1, step env T c = .next c1 ∧
      c1.State.MIs[NewInsnID.toNat]? = some (env.getVRegDef c.MF r) ∧
      (∀ j, j ≠ NewInsnID.toNat → c1.State.MIs[j]? = c.State.MIs[j]?) ∧
      (NewInsnID = (c.State.MIs.length : Int) →
        c1.State.MIs.length = c.State.MIs.length + 1) ∧
      (NewInsnID < (c.State.MIs.length : Int) →
        c1.State.MIs.length = c.State.MIs.length) ∧
      c1.OnFailResumeAt = c.OnFailResumeAt ∧ c1.CurrentIdx = c.CurrentIdx + 4 ∧
      c1.State.Renderers = c.State.Renderers ∧ c1.OutMIs = c.OutMIs ∧ c1.MF = c.MF := by
  have hz : NewInsnID ≠ 0 := by omega
  have hn : toSizeT NewInsnID = NewInsnID.toNat := toSizeT_of_nonneg h64 (by omega)
  have hx : execOpcode env T c = case_GIM_RecordInsn env T (afterTag c) :=
    exec_at .GIM_RecordInsn h0 hne
  rw [recordInsn_eq env h1 h2 h3, if_neg hz, hg] at hx
  simp only [ho, hv, hn] at hx
  by_cases hlt : NewInsnID.toNat < c.State.MIs.length
  · rw [if_pos hlt] at hx
    refine ⟨_, step_of_next hx, ?_, ?_, ?_, ?_, rfl, rfl, rfl, rfl, rfl⟩
    · exact List.getElem?_set_self hlt
    · intro j hj
      exact List.getElem?_set_ne (Ne.symm hj)
    · intro he; omega
    · intro _; simp
  · have heq : NewInsnID.toNat = c.State.MIs.length := by omega
    simp only [Bool.false_eq_true, if_false, if_neg hlt, if_pos heq] at hx
    refine ⟨_, step_of_next hx, ?_, ?_, ?_, ?_, rfl, rfl, rfl, rfl, rfl⟩
    · simp only [heq]
      simp
    · intro j hj
      by_cases hjl : j < c.State.MIs.length
      · exact List.getElem?_append_left hjl
      · have : c.State.MIs.length < j := by omega
        simp only
        rw [List.getElem?_eq_none (by simp; omega), List.getElem?_eq_none (by omega)]
    · intro _; simp
    · intro he; omega

/-- Witness of C13: `GIM_RecordInsn 1 0 0` on the sample root binds slot 1 to
the instruction defining the virtual register 5000. -/
theorem C13_witness :
    ∃ c1, step sampleEnv [Opcode.GIM_RecordInsn.tag, 1, 0, 0, Opcode.GIR_Done.tag]
        (initial [] sampleState (sampleMF 1)) = .next c1 ∧
      c1.State.MIs[1]? = some (some 0) ∧ c1.State.MIs.length = 2 ∧ c1.CurrentIdx = 4 := by
  obtain ⟨c1, hs, hb, _, hl, _, _, hi, _⟩ :=
    C13_bind_instruction_result sampleEnv
      [Opcode.GIM_RecordInsn.tag, 1, 0, 0, Opcode.GIR_Done.tag]
      (initial [] sampleState (sampleMF 1)) 1 0 0 1
      ⟨sampleADD, [.reg 5000 false false 0, .cimm 32 1], [], 3⟩ 5000 false false 0
      (by decide) rfl rfl rfl rfl (by decide) (by decide) (by decide) rfl rfl rfl
  exact ⟨c1, hs, hb, hl rfl, hi⟩

/-- C14: `OutMIs` is append-only in ID order. In a run from `c0`, `OutMIs` after
any number of iterations is the initial `OutMIs` followed by the created
entries; and at an iteration that does not halt: an opcode other than
`GIR_BuildMI` and `GIR_MutateOpcode` leaves `OutMIs` as it is; `GIR_BuildMI`
and `GIR_MutateOpcode` append exactly one entry and their new ID (as a
`size_t`) equals the previous length, so the entry sits at index ID; each
opcode that adds operands to or constrains an output has an output ID below
`|OutMIs|` (naming a defined entry) and leaves `OutMIs` as it is. -/
theorem C14_outputs_are_appended_in_ID_order
    (env : Env) (T : List Int) (k : Nat) (c0 c : Config) (op : Opcode) (a : Action)
    (hk : after env T k c0 = some c)
    (hop : T[c.CurrentIdx]? = some op.tag)
    (h : execOpcode env T c = .ok a) :
    (∃ created, c.OutMIs = c0.OutMIs ++ created) ∧
    (op ≠ .GIR_BuildMI → op ≠ .GIR_MutateOpcode → a.config.OutMIs = c.OutMIs) ∧
    (op = .GIR_BuildMI → ∃ ID e, T[c.CurrentIdx + 1]? = some ID ∧
      toSizeT ID = c.OutMIs.length ∧ a.config.OutMIs = c.OutMIs ++ [e] ∧
      a.config.OutMIs[toSizeT ID]? = some e) ∧
    (op = .GIR_MutateOpcode → ∃ ID e, T[c.CurrentIdx + 2]? = some ID ∧
      toSizeT ID = c.OutMIs.length ∧ a.config.OutMIs = c.OutMIs ++ [e] ∧
      a.config.OutMIs[toSizeT ID]? = some e) ∧
    (op.usesOutput = true → ∃ ID q, T[c.CurrentIdx + 1]? = some ID ∧
      toSizeT ID < c.OutMIs.length ∧ c.OutMIs[toSizeT ID]? = some (some q) ∧
      a.config.OutMIs = c.OutMIs) := by
  obtain ⟨op1, hop1, _, hc⟩ := execOpcode_ok h
  rw [opcodeAt_eq.mpr hop] at hop1
  cases hop1
  obtain ⟨f1, f2, f3⟩ := execCase_outMIs hc
  obtain ⟨g1, g2, g3⟩ := execCase_outID hc
  refine ⟨⟨_, outMIs_after env hk⟩, f1, ?_, ?_, ?_⟩
  · intro e
    obtain ⟨ID, hID, hlen⟩ := g1 e
    refine ⟨ID, _, hID, hlen, f2 e, ?_⟩
    rw [f2 e, hlen]
    simp [afterTag]
  · intro e
    obtain ⟨ID, hID, hlen⟩ := g2 e
    refine ⟨ID, _, hID, hlen, f3 e, ?_⟩
    rw [f3 e, hlen]
    simp [afterTag]
  · intro e
    obtain ⟨ID, q, hID, hq⟩ := g3 e
    have hq1 : c.OutMIs[toSizeT ID]? = some (some q) := hq
    refine ⟨ID, q, hID, ?_, hq1, ?_⟩
    · exact (List.getElem?_eq_some_iff.mp hq1).1
    · apply f1 <;> intro e1 <;> subst e1 <;> cases e

/-- Witness of C14: on the sample, `GIR_BuildMI 0 INC` creates output 0 and
`GIR_BuildMI 1 INC` halts. -/
theorem C14_witness :
    (∃ e, (Action.next { initial [] sampleState (sampleMF 1) with
        CurrentIdx := 3, OutMIs := [some 2]
        MF := ((sampleMF 1).buildMI 0 1 3 sampleINC).2 }).config.OutMIs = [] ++ [e]) ∧
    step sampleEnv [Opcode.GIR_BuildMI.tag, 1, 200, Opcode.GIR_Done.tag]
      (initial [] sampleState (sampleMF 1)) = .abort .storeOutOfOrder :=
  ⟨by
    obtain ⟨ID, e, _, _, h, _⟩ :=
      (C14_outputs_are_appended_in_ID_order sampleEnv
        [Opcode.GIR_BuildMI.tag, 0, 200, Opcode.GIR_Done.tag] 0
        (initial [] sampleState (sampleMF 1)) (initial [] sampleState (sampleMF 1))
        .GIR_BuildMI _ rfl rfl rfl).2.2.1 rfl
    exact ⟨e, h⟩,
   by decide⟩

/-- C18: an unrecognized opcode tag is fatal. If the value read at `CurrentIdx`
in a configuration reached by the run is the tag of no opcode, the iteration
halts (on `Unexpected command`, unless the assertion on `CurrentIdx` fires
first), whatever the checkpoint stack holds: rejection handling is not invoked,
and the run halts and returns neither true nor false for any amount of fuel. -/
theorem C18_unrecognized_opcode_tag_is_fatal
    (env : Env) (T : List Int) (k : Nat) (c0 c : Config) (v : Int)
    (hk : after env T k c0 = some c)
    (hv : T[c.CurrentIdx]? = some v) (hun : ∀ op : Opcode, v ≠ op.tag) :
    ∃ e, step env T c = .abort e ∧
      (c.CurrentIdx ≠ 4294967295 → e = .unexpectedCommand) ∧
      (∀ a, execOpcode env T c ≠ .ok a) ∧
      (∀ n, run env T (k + 1 + n) c0 = some (.aborted e)) ∧
      (∀ fuel b cf, run env T fuel c0 ≠ some (.returned b cf)) := by
  have hd := decodeOpcode_eq_none hun
  have hx : ∃ e, execOpcode env T c = .error e ∧
      (c.CurrentIdx ≠ 4294967295 → e = .unexpectedCommand) := by
    by_cases hne : c.CurrentIdx = 4294967295
    · refine ⟨.invalidIndex, ?_, fun h => absurd hne h⟩
      unfold execOpcode
      simp only [bind, Except.bind, throw, throwThe, MonadExceptOf.throw, if_pos hne]
    · refine ⟨.unexpectedCommand, ?_, fun _ => rfl⟩
      unfold execOpcode
      simp only [bind, Except.bind, pure, Except.pure, throw, throwThe, MonadExceptOf.throw,
        if_neg hne, fetch, hv, hd]
  obtain ⟨e, hx, he⟩ := hx
  have hs := @step_of_error env T c e hx
  refine ⟨e, hs, he, ?_, fun n => run_of_abort hk hs n,
    fun fuel b cf => run_not_returned_of_abort hk hs fuel b cf⟩
  intro a ha
  rw [hx] at ha
  cases ha

/-- Witness of C18: the value 77 at index 2, reached with a checkpoint on the
stack, halts the run. -/
theorem C18_witness :
    run sampleEnv [Opcode.GIM_Try.tag, 3, 77, Opcode.GIR_Done.tag] 2
      (initial [] sampleState (sampleMF 1)) = some (.aborted .unexpectedCommand) := by
  obtain ⟨e, _, he, _, hr, _⟩ :=
    C18_unrecognized_opcode_tag_is_fatal sampleEnv
      [Opcode.GIM_Try.tag, 3, 77, Opcode.GIR_Done.tag] 1
      (initial [] sampleState (sampleMF 1)) ⟨2, [3], sampleState, [], sampleMF 1⟩ 77
      (by decide) rfl (fun op => by cases op <;> decide)
  have := hr 0
  rw [he (by decide)] at this
  exact this

/-- Counterexample to C19 as stated: `GIM_CheckLiteralInt 0 0 1` inspects
operand 0 of the sample root, a register operand (neither Imm nor CImm); the
call does not halt but returns false through rejection handling. -/
theorem C19_counterexample :
    getOperand ⟨sampleADD, [.reg 5000 false false 0, .cimm 32 1], [], 3⟩ 0 =
      .ok (.reg 5000 false false 0) ∧
    executeMatchTable sampleEnv [] sampleState
      [Opcode.GIM_CheckLiteralInt.tag, 0, 0, 1, Opcode.GIR_Done.tag] (sampleMF 1) 1 =
      some (.returned false ⟨4, [], sampleState, [], sampleMF 1⟩) := by
  refine ⟨rfl, by decide⟩

/-- C19 (amended): the two constant checks differ on an operand of the wrong
kind. `GIM_CheckImmPredicate` on a `G_CONSTANT` whose operand 1 is neither Imm
nor CImm halts on `Expected Imm or CImm operand`. `GIM_CheckLiteralInt` on an
operand that is not CImm (an Imm operand included) does not halt: it invokes
rejection handling, returning false with an empty checkpoint stack and resuming
at the top checkpoint otherwise. -/
theorem C19_constant_check_on_wrong_operand_kind
    (env : Env) (T : List Int) (c : Config) (InsnID X Y : Int)
    (q : Nat) (mi : MachineInstr) (MO : MachineOperand)
    (hne : c.CurrentIdx ≠ 4294967295)
    (h1 : T[c.CurrentIdx + 1]? = some InsnID) (h2 : T[c.CurrentIdx + 2]? = some X)
    (hg : getDefinedMI c InsnID = .ok (q, mi))
    (hnc : ∀ b v, MO ≠ .cimm b v) :
    (T[c.CurrentIdx]? = some Opcode.GIM_CheckImmPredicate.tag →
      mi.Opcode = env.G_CONSTANT → X > GIPFP_Invalid → getOperand mi 1 = .ok MO →
      (∀ v, MO ≠ .imm v) →
      step env T c = .abort .expectedImmOrCImm) ∧
    (T[c.CurrentIdx]? = some Opcode.GIM_CheckLiteralInt.tag →
      T[c.CurrentIdx + 3]? = some Y → getOperand mi X = .ok MO →
      execOpcode env T c = .ok (.reject { c with CurrentIdx := c.CurrentIdx + 4 }) ∧
      (c.OnFailResumeAt = [] →
        step env T c = .ret false { c with CurrentIdx := c.CurrentIdx + 4 }) ∧
      (∀ s t, c.OnFailResumeAt = s ++ [t] →
        step env T c = .next { c with CurrentIdx := t, OnFailResumeAt := s })) := by
  have e2 : T[c.CurrentIdx + 1 + 1]? = some X := h2
  have hgd : ∀ n, getDefinedMI { c with CurrentIdx := n } InsnID = getDefinedMI c InsnID :=
    fun _ => rfl
  constructor
  · intro h0 hopc hpred ho hni
    apply step_of_error
    have hx : execOpcode env T c = case_GIM_CheckImmPredicate env T (afterTag c) :=
      exec_at .GIM_CheckImmPredicate h0 hne
    rw [hx]
    simp only [case_GIM_CheckImmPredicate, fetch, afterTag, h1, e2, bind, Except.bind, pure,
      Except.pure, throw, throwThe, MonadExceptOf.throw, hgd, hg, hopc, ho]
    have hp : ¬ ¬ X > GIPFP_Invalid := fun h => h hpred
    simp only [ne_eq, not_true_eq_false, if_false, if_neg hp]
  · intro h0 h3 ho
    have e3 : T[c.CurrentIdx + 1 + 1 + 1]? = some Y := h3
    have hx : execOpcode env T c =
        .ok (.reject { c with CurrentIdx := c.CurrentIdx + 4 }) := by
      have hx : execOpcode env T c = case_GIM_CheckLiteralInt T (afterTag c) :=
        exec_at .GIM_CheckLiteralInt h0 hne
      rw [hx]
      simp only [case_GIM_CheckLiteralInt, fetch, afterTag, h1, e2, e3, bind, Except.bind, pure,
        Except.pure, hgd, hg, ho]
    exact ⟨hx,
      fun hs => @step_of_reject_nil env T c { c with CurrentIdx := c.CurrentIdx + 4 } hx hs,
      fun s t hs =>
        @step_of_reject_snoc env T c { c with CurrentIdx := c.CurrentIdx + 4 } s t hx hs⟩

/-- Witness of C19 (amended): on a `G_CONSTANT` whose operand 1 is a register,
`GIM_CheckImmPredicate` halts. -/
theorem C19_witness :
    step sampleEnv [Opcode.GIM_CheckImmPredicate.tag, 0, 1, Opcode.GIR_Done.tag]
      ⟨0, [], ⟨[], [some 0]⟩, [],
        ⟨[some ⟨40, [.reg 5000 true false 0, .reg 5001 false false 0], [], 0⟩], [[0]]⟩⟩ =
      .abort .expectedImmOrCImm :=
  (C19_constant_check_on_wrong_operand_kind sampleEnv
    [Opcode.GIM_CheckImmPredicate.tag, 0, 1, Opcode.GIR_Done.tag]
    ⟨0, [], ⟨[], [some 0]⟩, [],
      ⟨[some ⟨40, [.reg 5000 true false 0, .reg 5001 false false 0], [], 0⟩], [[0]]⟩⟩
    0 1 0 0 ⟨40, [.reg 5000 true false 0, .reg 5001 false false 0], [], 0⟩
    (.reg 5001 false false 0) (by decide) rfl rfl rfl
    (fun _ _ h => by cases h)).1 rfl rfl (by decide) rfl (fun _ h => by cases h)

/-- C15: `GIR_BuildMI InsnID Opcode` with `InsnID = |OutMIs|` (and a live,
linked root and an existing opcode) creates exactly one new instruction with
the given opcode, no operands and the root's debug location, links it into the
root's block immediately before the root `MIs[0]`, appends a handle to it as
`OutMIs[InsnID]`, and leaves every other instruction, every other block,
`State.MIs`, `State.Renderers` and the checkpoint stack unchanged. -/
theorem C15_build_inserts_before_root
    (env : Env) (T : List Int) (c : Config) (InsnID Opc : Int)
    (root : Nat) (mi : MachineInstr) (b : Nat)
    (hne : c.CurrentIdx ≠ 4294967295)
    (h0 : T[c.CurrentIdx]? = some Opcode.GIR_BuildMI.tag)
    (h1 : T[c.CurrentIdx + 1]? = some InsnID) (h2 : T[c.CurrentIdx + 2]? = some Opc)
    (hid : toSizeT InsnID = c.OutMIs.length)
    (hroot : getMI c 0 = .ok (root, mi))
    (hpar : c.MF.getParent root = some b)
    (hopc : toUnsigned Opc < env.NumOpcodes) :
    ∃ c1, step env T c = .next c1 ∧
      c.State.MIs[0]? = some (some root) ∧
      c1.MF.Insts = c.MF.Insts ++ [some ⟨toUnsigned Opc, [], [], mi.DebugLoc⟩] ∧
      c1.OutMIs = c.OutMIs ++ [some c.MF.Insts.length] ∧
      c1.OutMIs[toSizeT InsnID]? = some (some c.MF.Insts.length) ∧
      (∃ pre post, c.MF.Blocks[b]? = some (pre ++ root :: post) ∧ root ∉ pre ∧
        c1.MF.Blocks = c.MF.Blocks.set b (pre ++ c.MF.Insts.length :: root :: post)) ∧
      (∃ pre post, c.MF.stream = pre ++ root :: post ∧
        c1.MF.stream = pre ++ c.MF.Insts.length :: root :: post) ∧
      c1.State = c.State ∧ c1.OnFailResumeAt = c.OnFailResumeAt ∧
      c1.CurrentIdx = c.CurrentIdx + 3 := by
  have e2 : T[c.CurrentIdx + 1 + 1]? = some Opc := h2
  have hg : ∀ n, getMI { c with CurrentIdx := n } 0 = getMI c 0 := fun _ => rfl
  have hx : execOpcode env T c = case_GIR_BuildMI env T (afterTag c) :=
    exec_at .GIR_BuildMI h0 hne
  have hid1 : ¬ toSizeT InsnID ≠ c.OutMIs.length := fun h => h hid
  simp only [case_GIR_BuildMI, fetch, afterTag, h1, e2, bind, Except.bind, pure, Except.pure,
    throw, throwThe, MonadExceptOf.throw, if_neg hid1, hg, hroot, hpar, TII_get, if_pos hopc,
    MachineFunction.buildMI] at hx
  obtain ⟨blk, hblk, hmem, hgetD, _⟩ := getParent_some hpar
  obtain ⟨pre, post, e1, e3, e4⟩ := insertBefore_split c.MF.Insts.length root hmem
  obtain ⟨f1, f2⟩ := flatten_set (pre ++ c.MF.Insts.length :: root :: post) hblk
  refine ⟨_, step_of_next hx, ?_, rfl, rfl, ?_, ⟨pre, post, ?_, e3, ?_⟩,
    ⟨(c.MF.Blocks.take b).flatten ++ pre, post ++ (c.MF.Blocks.drop (b + 1)).flatten, ?_, ?_⟩,
    rfl, rfl, rfl⟩
  · simpa [toSizeT_zero] using (getMI_ok hroot).1
  · simp [hid]
  · rw [hblk, e1]
  · simp only [hgetD, e4]
  · unfold MachineFunction.stream
    rw [f1, e1]
    simp [List.append_assoc]
  · unfold MachineFunction.stream
    simp only [hgetD, e4]
    rw [f2]
    simp [List.append_assoc]

/-- Witness of C15: `GIR_BuildMI 0 INC` on the sample stream links the new
instruction 2 before the root 1. -/
theorem C15_witness :
    ∃ c1, step sampleEnv [Opcode.GIR_BuildMI.tag, 0, 200, Opcode.GIR_Done.tag]
        (initial [] sampleState (sampleMF 1)) = .next c1 ∧
      c1.MF.stream = [0, 2, 1] ∧ c1.OutMIs = [some 2] := by
  obtain ⟨c1, hs, _, _, ho, _, _, ⟨pre, post, e1, e2⟩, _⟩ :=
    C15_build_inserts_before_root sampleEnv
      [Opcode.GIR_BuildMI.tag, 0, 200, Opcode.GIR_Done.tag]
      (initial [] sampleState (sampleMF 1)) 0 200 1
      ⟨sampleADD, [.reg 5000 false false 0, .cimm 32 1], [], 3⟩ 0
      (by decide) rfl rfl rfl (by decide) rfl (by decide) (by decide)
  refine ⟨c1, hs, ?_, ho⟩
  have hst : (initial [] sampleState (sampleMF 1)).MF.stream = [0, 1] := by decide
  rw [hst] at e1
  have hpre : pre = [0] ∧ post = [] := by
    rcases pre with _ | ⟨x, _ | ⟨y, pre⟩⟩
    · simp at e1
    · simp at e1
      obtain ⟨rfl, e⟩ := e1
      exact ⟨rfl, e⟩
    · simp at e1
  obtain ⟨rfl, rfl⟩ := hpre
  exact e2

/-- C16: `GIR_MutateOpcode OldInsnID NewInsnID NewOpcode` with
`NewInsnID = |OutMIs|` (and a live, linked `MIs[OldInsnID]` and an existing
opcode) rewrites in place: `OutMIs[NewInsnID]` becomes a handle to the very
instruction `MIs[OldInsnID]`, whose opcode is now `NewOpcode` while its
operands, memory operands and debug location are unchanged; every other
instruction, the blocks and so the stream are unchanged: no instruction is
added or removed. -/
theorem C16_mutate_rewrites_in_place
    (env : Env) (T : List Int) (c : Config) (OldInsnID NewInsnID NewOpcode : Int)
    (q : Nat) (mi : MachineInstr) (b : Nat)
    (hne : c.CurrentIdx ≠ 4294967295)
    (h0 : T[c.CurrentIdx]? = some Opcode.GIR_MutateOpcode.tag)
    (h1 : T[c.CurrentIdx + 1]? = some OldInsnID)
    (h2 : T[c.CurrentIdx + 2]? = some NewInsnID)
    (h3 : T[c.CurrentIdx + 3]? = some NewOpcode)
    (hid : toSizeT NewInsnID = c.OutMIs.length)
    (hold : getMI c OldInsnID = .ok (q, mi))
    (hpar : c.MF.getParent q = some b)
    (hopc : toUnsigned NewOpcode < env.NumOpcodes) :
    ∃ c1, step env T c = .next c1 ∧
      c.State.MIs[toSizeT OldInsnID]? = some (some q) ∧
      c1.OutMIs = c.OutMIs ++ [some q] ∧
      c1.OutMIs[toSizeT NewInsnID]? = some (some q) ∧
      c.MF.Insts[q]? = some (some mi) ∧
      c1.MF.Insts[q]? = some (some { mi with Opcode := toUnsigned NewOpcode }) ∧
      (∀ p, p ≠ q → c1.MF.Insts[p]? = c.MF.Insts[p]?) ∧
      c1.MF.Insts.length = c.MF.Insts.length ∧
      c1.MF.Blocks = c.MF.Blocks ∧ c1.MF.stream = c.MF.stream ∧
      c1.State = c.State ∧ c1.OnFailResumeAt = c.OnFailResumeAt ∧
      c1.CurrentIdx = c.CurrentIdx + 4 := by
  have e2 : T[c.CurrentIdx + 1 + 1]? = some NewInsnID := h2
  have e3 : T[c.CurrentIdx + 1 + 1 + 1]? = some NewOpcode := h3
  have hg : ∀ n, getMI { c with CurrentIdx := n } OldInsnID = getMI c OldInsnID :=
    fun _ => rfl
  have hx : execOpcode env T c = case_GIR_MutateOpcode env T (afterTag c) :=
    exec_at .GIR_MutateOpcode h0 hne
  have hid1 : ¬ toSizeT NewInsnID ≠ c.OutMIs.length := fun h => h hid
  simp only [case_GIR_MutateOpcode, fetch, afterTag, h1, e2, e3, bind, Except.bind, pure,
    Except.pure, throw, throwThe, MonadExceptOf.throw, if_neg hid1, hg, hold, hpar, TII_get,
    if_pos hopc, Option.isNone_some, Bool.false_eq_true, if_false,
    MachineFunction.setInst] at hx
  obtain ⟨hm, hl⟩ := getMI_ok hold
  have hq : q < c.MF.Insts.length := (List.getElem?_eq_some_iff.mp hl).1
  refine ⟨_, step_of_next hx, hm, rfl, ?_, hl, ?_, ?_, ?_, rfl, rfl, rfl, rfl, rfl⟩
  · simp [hid]
  · exact List.getElem?_set_self hq
  · intro p hp
    exact List.getElem?_set_ne (Ne.symm hp)
  · simp

/-- Witness of C16: `GIR_MutateOpcode 0 0 INC` turns the sample root into an
`INC` with the operands of the `ADD`, in place. -/
theorem C16_witness :
    ∃ c1, step sampleEnv [Opcode.GIR_MutateOpcode.tag, 0, 0, 200, Opcode.GIR_Done.tag]
        (initial [] sampleState (sampleMF 1)) = .next c1 ∧
      c1.OutMIs = [some 1] ∧
      c1.MF.Insts[1]? =
        some (some ⟨200, [.reg 5000 false false 0, .cimm 32 1], [], 3⟩) ∧
      c1.MF.stream = [0, 1] := by
  obtain ⟨c1, hs, _, ho, _, _, hi, _, _, _, hst, _⟩ :=
    C16_mutate_rewrites_in_place sampleEnv
      [Opcode.GIR_MutateOpcode.tag, 0, 0, 200, Opcode.GIR_Done.tag]
      (initial [] sampleState (sampleMF 1)) 0 0 200 1
      ⟨sampleADD, [.reg 5000 false false 0, .cimm 32 1], [], 3⟩ 0
      (by decide) rfl rfl rfl rfl (by decide) rfl (by decide) (by decide)
  exact ⟨c1, hs, ho, hi, hst⟩

/-- C17: `GIR_EraseFromParent InsnID` on a live, linked `MIs[InsnID]`, in a
stream that links every instruction once, removes exactly that instruction:
afterwards it is absent from the stream (and deleted), the stream is the old
one without it, every other instruction being present in the same relative
order and unchanged, and `OutMIs`, the checkpoint stack and `State` are
unchanged. So, with constrain callbacks that never link an unlinked
instruction back, after a run that returns true the instruction named by an
executed erase opcode is not in the stream. -/
theorem C17_erase_removes_exactly_the_matched_instruction
    (env : Env) (T : List Int) (j : Nat) (c0 c : Config) (InsnID : Int)
    (q : Nat) (mi : MachineInstr) (b : Nat)
    (hj : after env T j c0 = some c)
    (hne : c.CurrentIdx ≠ 4294967295)
    (h0 : T[c.CurrentIdx]? = some Opcode.GIR_EraseFromParent.tag)
    (h1 : T[c.CurrentIdx + 1]? = some InsnID)
    (hm : c.State.MIs[toSizeT InsnID]? = some (some q))
    (hlive : c.MF.Insts[q]? = some (some mi))
    (hpar : c.MF.getParent q = some b)
    (hnd : c.MF.stream.Nodup)
    (hc1 : ∀ mf p i rc, mf.Unlinked q →
      (env.constrainOperandRegToRegClass mf p i rc).Unlinked q)
    (hc2 : ∀ mf p, mf.Unlinked q → (env.constrainSelectedInstRegOperands mf p).Unlinked q) :
    ∃ c1, step env T c = .next c1 ∧
      q ∈ c.MF.stream ∧ q ∉ c1.MF.stream ∧
      c1.MF.stream = c.MF.stream.filter (fun p => p != q) ∧
      c1.MF.Insts[q]? = some none ∧
      (∀ p, p ≠ q → c1.MF.Insts[p]? = c.MF.Insts[p]?) ∧
      c1.OutMIs = c.OutMIs ∧ c1.OnFailResumeAt = c.OnFailResumeAt ∧ c1.State = c.State ∧
      c1.CurrentIdx = c.CurrentIdx + 2 ∧
      (∀ fuel cf, run env T fuel c0 = some (.returned true cf) → q ∉ cf.MF.stream) := by
  have hx : execOpcode env T c = case_GIR_EraseFromParent T (afterTag c) :=
    exec_at .GIR_EraseFromParent h0 hne
  simp only [case_GIR_EraseFromParent, fetch, afterTag, h1, bind, Except.bind, pure,
    Except.pure, throw, throwThe, MonadExceptOf.throw, vectorAt, hm, MachineFunction.deref,
    hlive, hpar] at hx
  have hs := step_of_next hx
  obtain ⟨blk, hblk, hmem, hgetD, hb⟩ := getParent_some hpar
  have hq : q < c.MF.Insts.length := (List.getElem?_eq_some_iff.mp hlive).1
  have hblt : b < c.MF.Blocks.length := (List.getElem?_eq_some_iff.mp hblk).1
  have hin : q ∈ c.MF.stream :=
    List.mem_flatten.mpr ⟨blk, (List.getElem?_eq_some_iff.mp hblk).2 ▸ List.getElem_mem _, hmem⟩
  have hst : (c.MF.eraseFromParent b q).stream = c.MF.stream.erase q := by
    unfold MachineFunction.stream MachineFunction.eraseFromParent
    simp only
    rw [hb]
    exact flatten_erase_first c.MF.Blocks q (hb ▸ hblt)
  have hout : q ∉ (c.MF.eraseFromParent b q).stream := by
    rw [hst]
    intro hmem1
    exact ((List.Nodup.mem_erase_iff hnd).mp hmem1).1 rfl
  have hun : (c.MF.eraseFromParent b q).Unlinked q :=
    ⟨by simpa [MachineFunction.eraseFromParent] using hq, hout⟩
  refine ⟨_, hs, hin, hout, ?_, ?_, ?_, rfl, rfl, rfl, rfl, ?_⟩
  · rw [hst]
    exact List.Nodup.erase_eq_filter hnd q
  · exact List.getElem?_set_self hq
  · intro p hp
    exact List.getElem?_set_ne (Ne.symm hp)
  · intro fuel cf hr
    obtain ⟨k, ck, _, hk, hret⟩ := run_returned hr
    have inv : ∀ c2 : Config, c2.MF.Unlinked q →
        (∀ c3, step env T c2 = .next c3 → c3.MF.Unlinked q) ∧
        (∀ r c3, step env T c2 = .ret r c3 → c3.MF.Unlinked q) := fun c2 h2 =>
      step_mf (fun mf => mf.Unlinked q) (fun _ p mi h => unlinked_setInst p mi h)
        (fun _ b root dl opc h => unlinked_buildMI b root dl opc h)
        (fun _ b p h => unlinked_eraseFromParent b p h) hc1 hc2 h2
    rcases Nat.lt_trichotomy k j with hlt | heq | hgt
    · obtain ⟨d, rfl⟩ : ∃ d, j = k + (d + 1) := ⟨j - k - 1, by omega⟩
      rw [after_add, hk] at hj
      simp only [Option.bind, after, hret] at hj
      cases hj
    · subst heq
      rw [hk] at hj; cases hj
      rw [hs] at hret; cases hret
    · obtain ⟨d, rfl⟩ : ∃ d, k = j + (d + 1) := ⟨k - j - 1, by omega⟩
      rw [after_add, hj] at hk
      simp only [Option.bind, after, hs] at hk
      have hck : ck.MF.Unlinked q :=
        after_invariant (fun c2 => c2.MF.Unlinked q)
          (fun c2 c3 h2 h3 => (inv c2 h2).1 c3 h3) hun hk
      exact ((inv ck hck).2 true cf hret).2

/-- Witness of C17: the sample table erases the root 1; the run returns true
and the root is not in the stream. -/
theorem C17_witness :
    ∃ cf, run sampleEnv sampleTable 7 (initial [] sampleState (sampleMF 1)) =
      some (.returned true cf) ∧ 1 ∉ cf.MF.stream := by
  obtain ⟨c1, _, _, _, _, _, _, _, _, _, _, hrun⟩ :=
    C17_erase_removes_exactly_the_matched_instruction sampleEnv sampleTable 5
      (initial [] sampleState (sampleMF 1))
      ⟨16, [], sampleState, [some 2],
        ⟨[some ⟨40, [.reg 5000 true false 0, .cimm 32 7], [], 0⟩,
          some ⟨sampleADD, [.reg 5000 false false 0, .cimm 32 1], [], 3⟩,
          some ⟨sampleINC, [.reg 5000 false false 0], [], 3⟩], [[0, 2, 1]]⟩⟩
      0 1 ⟨sampleADD, [.reg 5000 false false 0, .cimm 32 1], [], 3⟩ 0
      (by decide) (by decide) rfl rfl rfl rfl (by decide) (by decide)
      (fun _ _ _ _ h => h) (fun _ _ h => h)
  have h7 : run sampleEnv sampleTable 7 (initial [] sampleState (sampleMF 1)) =
      some (.returned true ⟨19, [], sampleState, [some 2],
        ⟨[some ⟨40, [.reg 5000 true false 0, .cimm 32 7], [], 0⟩, none,
          some ⟨sampleINC, [.reg 5000 false false 0], [], 3⟩], [[0, 2]]⟩⟩) := by decide
  exact ⟨_, h7, hrun 7 _ h7⟩

/-- Counterexample to C20 as stated: the table `GIM_Try 0, GIM_Reject` pushes
the checkpoint 0, rejects, resumes at index 0 with an empty stack, and so on:
after two iterations the run is back in its initial configuration, and the call
returns for no amount of fuel. -/
theorem C20_counterexample :
    after sampleEnv [Opcode.GIM_Try.tag, 0, Opcode.GIM_Reject.tag] 2
      (initial [] sampleState (sampleMF 1)) = some (initial [] sampleState (sampleMF 1)) ∧
    ∀ fuel, executeMatchTable sampleEnv [] sampleState
      [Opcode.GIM_Try.tag, 0, Opcode.GIM_Reject.tag] (sampleMF 1) fuel = none := by
  have h2 : after sampleEnv [Opcode.GIM_Try.tag, 0, Opcode.GIM_Reject.tag] 2
      (initial [] sampleState (sampleMF 1)) = some (initial [] sampleState (sampleMF 1)) := by
    decide
  refine ⟨h2, ?_⟩
  have key : ∀ n, run sampleEnv [Opcode.GIM_Try.tag, 0, Opcode.GIM_Reject.tag] n
        (initial [] sampleState (sampleMF 1)) = none ∧
      run sampleEnv [Opcode.GIM_Try.tag, 0, Opcode.GIM_Reject.tag] (n + 1)
        (initial [] sampleState (sampleMF 1)) = none := by
    intro n
    induction n with
    | zero => exact ⟨rfl, by decide⟩
    | succ n ih =>
      refine ⟨ih.2, ?_⟩
      rw [show n + 1 + 1 = 2 + n by omega, run_of_after h2]
      exact ih.1
  intro fuel
  exact (key fuel).1

/-- C20 (amended): the interpreter runs to completion on tables whose
checkpoints point forward. If every `GIM_Try` executed during the run is
followed by a resume target (as stored on the stack) greater than its own
index, then, whatever the initial state and the oracles answer,
`executeMatchTable` ends after finitely many opcode iterations: it returns true
or false or halts on a violation, and more fuel does not change the result. -/
theorem C20_run_with_forward_checkpoints_terminates
    (env : Env) (OutMIs : List (Option Nat)) (State : MatcherState) (T : List Int)
    (MF : MachineFunction)
    (hfwd : ∀ k c, after env T k (initial OutMIs State MF) = some c →
      opcodeAt T c = some .GIM_Try →
      ∀ t, T[c.CurrentIdx + 1]? = some t → c.CurrentIdx < toSizeT t) :
    ∃ fuel r, executeMatchTable env OutMIs State T MF fuel = some r ∧
      (∀ n, executeMatchTable env OutMIs State T MF (fuel + n) = some r) ∧
      ((∃ b cf, r = .returned b cf) ∨ (∃ e, r = .aborted e)) := by
  obtain ⟨r, hr⟩ := run_terminates_within env T (runMeasure T.length (initial OutMIs State MF))
    (initial OutMIs State MF) hfwd (Nat.le_refl _)
  refine ⟨_, r, hr, fun n => run_mono hr n, ?_⟩
  cases r with
  | returned b cf => exact Or.inl ⟨b, cf, rfl⟩
  | aborted e => exact Or.inr ⟨e, rfl⟩

/-- Witness of C20 (amended): the table `GIM_Try 3, GIM_Reject, GIR_Done`, whose
only checkpoint points forward, ends. -/
theorem C20_witness :
    ∃ fuel r, executeMatchTable sampleEnv [] sampleState
      [Opcode.GIM_Try.tag, 3, Opcode.GIM_Reject.tag, Opcode.GIR_Done.tag] (sampleMF 1) fuel =
        some r := by
  obtain ⟨fuel, r, hr, _⟩ :=
    C20_run_with_forward_checkpoints_terminates sampleEnv [] sampleState
      [Opcode.GIM_Try.tag, 3, Opcode.GIM_Reject.tag, Opcode.GIR_Done.tag] (sampleMF 1)
      (by
        intro k c _ hop t ht
        rw [opcodeAt_eq] at hop
        generalize c.CurrentIdx = p at hop ht
        rcases p with _ | _ | _ | _ | p
        · simp at ht
          subst ht
          decide
        all_goals simp [Opcode.tag] at hop)
  exact ⟨fuel, r, hr⟩

/-- C28: determinism. Two runs of `executeMatchTable` on the same table that
start from equal fresh per-call state (`MIs = [root]`, empty `OutMIs`, empty
checkpoint stack), equal instruction streams and targets that give equal
answers end alike, whatever fuel each is given: they return the same value with
equal `OutMIs` (and equal final state), or halt for the same reason. -/
theorem C28_runs_from_equal_inputs_end_alike
    (env1 env2 : Env) (T : List Int) (Renderers : List ComplexRendererFn) (root : Nat)
    (MF : MachineFunction) (fuel1 fuel2 : Nat) (r1 r2 : Result)
    (henv : env1.SameAnswers env2)
    (h1 : executeMatchTable env1 [] ⟨Renderers, [some root]⟩ T MF fuel1 = some r1)
    (h2 : executeMatchTable env2 [] ⟨Renderers, [some root]⟩ T MF fuel2 = some r2) :
    r1 = r2 ∧
    (∀ b1 c1 b2 c2, r1 = .returned b1 c1 → r2 = .returned b2 c2 →
      b1 = b2 ∧ c1.OutMIs = c2.OutMIs ∧ c1.MF = c2.MF) ∧
    (∀ b1 c1, r1 = .returned b1 c1 → ∀ e, r2 ≠ .aborted e) := by
  have he := Env.eq_of_sameAnswers henv
  subst he
  have hr : r1 = r2 := run_unique h1 h2
  subst hr
  refine ⟨rfl, ?_, ?_⟩
  · intro b1 c1 b2 c2 e1 e2
    rw [e1] at e2
    cases e2
    exact ⟨rfl, rfl, rfl⟩
  · intro b1 c1 e1 e e2
    rw [e1] at e2
    cases e2

/-- Witness of C28: the sample table run with fuel 7 and with fuel 20. -/
theorem C28_witness :
    executeMatchTable sampleEnv [] ⟨[none], [some 1]⟩ sampleTable (sampleMF 1) 7 =
      executeMatchTable sampleEnv [] ⟨[none], [some 1]⟩ sampleTable (sampleMF 1) 20 := by
  have h7 : executeMatchTable sampleEnv [] ⟨[none], [some 1]⟩ sampleTable (sampleMF 1) 7 =
      some (.returned true ⟨19, [], sampleState, [some 2],
        ⟨[some ⟨40, [.reg 5000 true false 0, .cimm 32 7], [], 0⟩, none,
          some ⟨sampleINC, [.reg 5000 false false 0], [], 3⟩], [[0, 2]]⟩⟩) := by decide
  have h20 : executeMatchTable sampleEnv [] ⟨[none], [some 1]⟩ sampleTable (sampleMF 1) 20 =
      some (.returned true ⟨19, [], sampleState, [some 2],
        ⟨[some ⟨40, [.reg 5000 true false 0, .cimm 32 7], [], 0⟩, none,
          some ⟨sampleINC, [.reg 5000 false false 0], [], 3⟩], [[0, 2]]⟩⟩) := by decide
  have h := (C28_runs_from_equal_inputs_end_alike sampleEnv sampleEnv sampleTable [none] 1
    (sampleMF 1) 7 20 _ _
    ⟨rfl, rfl, rfl, rfl, rfl, fun _ => rfl, fun _ _ => rfl, fun _ _ => rfl, fun _ => rfl,
      fun _ => rfl, fun _ _ => rfl, fun _ _ _ => rfl, fun _ _ => rfl, fun _ _ _ _ => rfl,
      fun _ _ => rfl, rfl, rfl⟩ h7 h20).1
  exact h7.trans ((congrArg some h).trans h20.symm)

/-- C29: failure is not atomic once an emission opcode ran. With an empty
checkpoint stack, the table `GIR_EraseFromParent 0, GIM_Reject` returns false
on the sample candidate after the root has been removed from the stream; and
the table `GIR_MutateOpcode 0 0 INC, GIM_CheckOpcode 0 ADD` returns false after
the opcode of the root has been rewritten. -/
theorem C29_failure_after_emission_is_not_atomic :
    (∃ cf, executeMatchTable sampleEnv [] sampleState
        [Opcode.GIR_EraseFromParent.tag, 0, Opcode.GIM_Reject.tag] (sampleMF 1) 2 =
        some (.returned false cf) ∧
      cf.MF.stream = [0] ∧ (sampleMF 1).stream = [0, 1] ∧ cf.MF.stream ≠ (sampleMF 1).stream) ∧
    (∃ cf, executeMatchTable sampleEnv [] sampleState
        [Opcode.GIR_MutateOpcode.tag, 0, 0, 200, Opcode.GIM_CheckOpcode.tag, 0, 100]
        (sampleMF 1) 2 = some (.returned false cf) ∧
      cf.MF.Insts[1]? = some (some ⟨sampleINC, [.reg 5000 false false 0, .cimm 32 1], [], 3⟩) ∧
      (sampleMF 1).Insts[1]? =
        some (some ⟨sampleADD, [.reg 5000 false false 0, .cimm 32 1], [], 3⟩) ∧
      cf.MF ≠ sampleMF 1) := by
  refine ⟨⟨⟨3, [], sampleState, [],
      ⟨[some ⟨40, [.reg 5000 true false 0, .cimm 32 7], [], 0⟩, none], [[0]]⟩⟩,
      by decide, by decide, by decide, by decide⟩,
    ⟨⟨7, [], sampleState, [some 1],
      ⟨[some ⟨40, [.reg 5000 true false 0, .cimm 32 7], [], 0⟩,
        some ⟨sampleINC, [.reg 5000 false false 0, .cimm 32 1], [], 3⟩], [[0, 1]]⟩⟩,
      by decide, by decide, by decide, by decide⟩⟩

/-- C31: `GIM_CheckFeatures ExpectedBitsetID` with a valid ID falls through to
the next opcode, `CurrentIdx` advanced by 2 and nothing else changed, if and
only if every feature bit set in `MatcherInfo.FeatureBitsets[ExpectedBitsetID]`
is set in `AvailableFeatures`; otherwise it invokes rejection handling, in that
same state. In particular an empty expected bitset passes. -/
theorem C31_check_features_passes_iff_features_available
    (env : Env) (T : List Int) (c : Config) (ExpectedBitsetID : Int) (expected : Nat)
    (hne : c.CurrentIdx ≠ 4294967295)
    (h0 : T[c.CurrentIdx]? = some Opcode.GIM_CheckFeatures.tag)
    (h1 : T[c.CurrentIdx + 1]? = some ExpectedBitsetID)
    (ha : arrayAt env.FeatureBitsets ExpectedBitsetID = .ok expected) :
    (execOpcode env T c = .ok (.next { c with CurrentIdx := c.CurrentIdx + 2 }) ↔
      ∀ i, expected.testBit i = true → env.AvailableFeatures.testBit i = true) ∧
    (execOpcode env T c = .ok (.reject { c with CurrentIdx := c.CurrentIdx + 2 }) ↔
      ¬ ∀ i, expected.testBit i = true → env.AvailableFeatures.testBit i = true) ∧
    ((∀ i, expected.testBit i = true → env.AvailableFeatures.testBit i = true) →
      step env T c = .next { c with CurrentIdx := c.CurrentIdx + 2 }) ∧
    (expected = 0 →
      execOpcode env T c = .ok (.next { c with CurrentIdx := c.CurrentIdx + 2 })) := by
  have hx : execOpcode env T c = case_GIM_CheckFeatures env T (afterTag c) :=
    exec_at .GIM_CheckFeatures h0 hne
  rw [checkFeatures_eq env h1 ha] at hx
  have hb := land_eq_iff_subset env.AvailableFeatures expected
  have hpass : (∀ i, expected.testBit i = true → env.AvailableFeatures.testBit i = true) →
      execOpcode env T c = .ok (.next { c with CurrentIdx := c.CurrentIdx + 2 }) := by
    intro h
    rw [hx, if_neg (fun hh => hh (hb.mpr h))]
  have hfail : (¬ ∀ i, expected.testBit i = true → env.AvailableFeatures.testBit i = true) →
      execOpcode env T c = .ok (.reject { c with CurrentIdx := c.CurrentIdx + 2 }) := by
    intro h
    rw [hx, if_pos (fun hh => h (hb.mp hh))]
  refine ⟨⟨?_, hpass⟩, ⟨?_, hfail⟩, fun h => step_of_next (hpass h), ?_⟩
  · intro h
    by_contra hn
    rw [hfail hn] at h
    cases h
  · intro h hall
    rw [hpass hall] at h
    cases h
  · intro hz
    apply hpass
    intro i hi
    rw [hz] at hi
    simp at hi

/-- Witness of C31: on the sample target (available features 7) the bitset 5
passes. -/
theorem C31_witness :
    step sampleEnv [Opcode.GIM_CheckFeatures.tag, 1, Opcode.GIR_Done.tag]
      (initial [] sampleState (sampleMF 1)) =
      .next { initial [] sampleState (sampleMF 1) with CurrentIdx := 2 } :=
  (C31_check_features_passes_iff_features_available sampleEnv
    [Opcode.GIM_CheckFeatures.tag, 1, Opcode.GIR_Done.tag]
    (initial [] sampleState (sampleMF 1)) 1 5 (by decide) rfl rfl rfl).2.2.1
    ((land_eq_iff_subset 7 5).mp (by decide))

/-- C32: `GIM_CheckComplexPattern` overwrites the renderer slot whether or not
the check succeeds. With valid IDs, after the opcode
`State.Renderers[RendererID]` holds the value returned by the callback and no
other slot of `Renderers` (and nothing else but `CurrentIdx`) has changed; when
the value is empty the previous content of the slot is lost and rejection
handling is invoked in that state, otherwise the opcode falls through. -/
theorem C32_complex_pattern_overwrites_the_renderer_slot
    (env : Env) (T : List Int) (c : Config)
    (InsnID OpIdx RendererID ComplexPredicateID : Int) (q : Nat) (mi : MachineInstr)
    (callback : MachineFunction → MachineOperand → ComplexRendererFn) (MO : MachineOperand)
    (hne : c.CurrentIdx ≠ 4294967295)
    (h0 : T[c.CurrentIdx]? = some Opcode.GIM_CheckComplexPattern.tag)
    (h1 : T[c.CurrentIdx + 1]? = some InsnID) (h2 : T[c.CurrentIdx + 2]? = some OpIdx)
    (h3 : T[c.CurrentIdx + 3]? = some RendererID)
    (h4 : T[c.CurrentIdx + 4]? = some ComplexPredicateID)
    (hg : getDefinedMI c InsnID = .ok (q, mi))
    (hcb : arrayAt env.ComplexPredicates ComplexPredicateID = .ok callback)
    (ho : getOperand mi OpIdx = .ok MO)
    (hR : toSizeT RendererID < c.State.Renderers.length) :
    ∃ c1, c1 = { c with
        CurrentIdx := c.CurrentIdx + 5
        State := { c.State with
          Renderers := c.State.Renderers.set (toSizeT RendererID) (callback c.MF MO) } } ∧
      c1.State.Renderers[toSizeT RendererID]? = some (callback c.MF MO) ∧
      (∀ j, j ≠ toSizeT RendererID → c1.State.Renderers[j]? = c.State.Renderers[j]?) ∧
      c1.State.Renderers.length = c.State.Renderers.length ∧
      (callback c.MF MO = none →
        execOpcode env T c = .ok (.reject c1) ∧
        c1.State.Renderers[toSizeT RendererID]? = some none ∧
        (c.OnFailResumeAt = [] → step env T c = .ret false c1) ∧
        (∀ s t, c.OnFailResumeAt = s ++ [t] →
          step env T c = .next { c1 with CurrentIdx := t, OnFailResumeAt := s })) ∧
      (callback c.MF MO ≠ none →
        execOpcode env T c = .ok (.next c1) ∧ step env T c = .next c1) := by
  have hx : execOpcode env T c = case_GIM_CheckComplexPattern env T (afterTag c) :=
    exec_at .GIM_CheckComplexPattern h0 hne
  rw [checkComplexPattern_eq env h1 h2 h3 h4 hg hcb ho hR] at hx
  refine ⟨_, rfl, List.getElem?_set_self hR, fun j hj => List.getElem?_set_ne (Ne.symm hj),
    by simp, ?_, ?_⟩
  · intro hnone
    have hx1 := hx
    rw [hnone] at hx1
    simp only [Option.isNone_none, if_true] at hx1
    rw [hnone]
    exact ⟨hx1, List.getElem?_set_self hR,
      fun hs => @step_of_reject_nil env T c _ hx1 hs,
      fun s t hs => @step_of_reject_snoc env T c _ s t hx1 hs⟩
  · intro hsome
    have hn : (callback c.MF MO).isNone = false := by
      cases hcm : callback c.MF MO with
      | none => exact absurd hcm hsome
      | some r => rfl
    rw [hn] at hx
    simp only [Bool.false_eq_true, if_false] at hx
    exact ⟨hx, step_of_next hx⟩

/-- Witness of C32: the sample complex pattern refuses the constant operand 1
of the root, and the renderer slot 0, which held a renderer, is emptied. -/
theorem C32_witness :
    step sampleEnv [Opcode.GIM_CheckComplexPattern.tag, 0, 1, 0, 0, Opcode.GIR_Done.tag]
      ⟨0, [], ⟨[some [.imm 5]], [some 1]⟩, [], sampleMF 1⟩ =
      .ret false ⟨5, [], ⟨[none], [some 1]⟩, [], sampleMF 1⟩ := by
  obtain ⟨c1, hc1, _, _, _, hrej, _⟩ :=
    C32_complex_pattern_overwrites_the_renderer_slot sampleEnv
      [Opcode.GIM_CheckComplexPattern.tag, 0, 1, 0, 0, Opcode.GIR_Done.tag]
      ⟨0, [], ⟨[some [.imm 5]], [some 1]⟩, [], sampleMF 1⟩ 0 1 0 0 1
      ⟨sampleADD, [.reg 5000 false false 0, .cimm 32 1], [], 3⟩
      (fun _ mo => match mo with
        | .reg _ _ _ _ => some [mo]
        | _ => none)
      (.cimm 32 1) (by decide) rfl rfl rfl rfl rfl rfl rfl rfl (by decide)
  have h := (hrej rfl).2.2.1 rfl
  rw [h, hc1]
  rfl

/-- C33: `GIR_CopyConstantAsSImm NewInsnID OldInsnID` with a defined, live
output `OutMIs[NewInsnID]` and a live `MIs[OldInsnID]`. If `MIs[OldInsnID]` is
a `G_CONSTANT` whose operand 1 is a CImm, one immediate operand with the
constant sign-extended to 64 bits is appended to the output; if operand 1 is
an Imm, a copy of it is appended; in both cases nothing else changes but
`CurrentIdx`, which advances by 3. If operand 1 is of another kind, or
`MIs[OldInsnID]` is not a `G_CONSTANT`, the interpreter halts. -/
theorem C33_copy_constant_as_signed_immediate
    (env : Env) (T : List Int) (c : Config) (NewInsnID OldInsnID : Int)
    (q p : Nat) (out mi : MachineInstr)
    (hne : c.CurrentIdx ≠ 4294967295)
    (h0 : T[c.CurrentIdx]? = some Opcode.GIR_CopyConstantAsSImm.tag)
    (h1 : T[c.CurrentIdx + 1]? = some NewInsnID) (h2 : T[c.CurrentIdx + 2]? = some OldInsnID)
    (hout : getOutMI c NewInsnID = .ok (q, out))
    (hold : getMI c OldInsnID = .ok (p, mi)) :
    (∀ bits val, mi.Opcode = env.G_CONSTANT → getOperand mi 1 = .ok (.cimm bits val) →
      step env T c = .next { c with
        CurrentIdx := c.CurrentIdx + 3
        MF := c.MF.setInst q
          { out with Operands := out.Operands ++ [.imm (getSExtValue bits val)] } }) ∧
    (∀ v, mi.Opcode = env.G_CONSTANT → getOperand mi 1 = .ok (.imm v) →
      step env T c = .next { c with
        CurrentIdx := c.CurrentIdx + 3
        MF := c.MF.setInst q { out with Operands := out.Operands ++ [.imm v] } }) ∧
    (∀ MO, mi.Opcode = env.G_CONSTANT → getOperand mi 1 = .ok MO →
      (∀ bits val, MO ≠ .cimm bits val) → (∀ v, MO ≠ .imm v) →
      step env T c = .abort .expectedImmOrCImm) ∧
    (mi.Opcode ≠ env.G_CONSTANT → step env T c = .abort .expectedGConstant) ∧
    (∀ mo, ((c.MF.setInst q { out with Operands := out.Operands ++ [mo] }).Insts[q]? =
        some (some { out with Operands := out.Operands ++ [mo] })) ∧
      (∀ j, j ≠ q →
        (c.MF.setInst q { out with Operands := out.Operands ++ [mo] }).Insts[j]? =
          c.MF.Insts[j]?) ∧
      (c.MF.setInst q { out with Operands := out.Operands ++ [mo] }).Blocks = c.MF.Blocks) := by
  have hx : execOpcode env T c = case_GIR_CopyConstantAsSImm env T (afterTag c) :=
    exec_at .GIR_CopyConstantAsSImm h0 hne
  rw [copyConstantAsSImm_eq env h1 h2 hout hold] at hx
  have hq : q < c.MF.Insts.length := by
    unfold getOutMI at hout
    obtain ⟨q1, _, h⟩ := bind_eq_ok.mp hout
    obtain ⟨mi1, hd, h⟩ := bind_eq_ok.mp h
    cases h
    unfold MachineFunction.deref at hd
    split at hd
    · rename_i hi
      exact (List.getElem?_eq_some_iff.mp hi).1
    · cases hd
  refine ⟨?_, ?_, ?_, ?_, ?_⟩
  · intro bits val hopc ho
    apply step_of_next
    rw [hx, if_neg (fun h => h hopc), ho]
    rfl
  · intro v hopc ho
    apply step_of_next
    rw [hx, if_neg (fun h => h hopc), ho]
    rfl
  · intro MO hopc ho hnc hni
    apply step_of_error
    rw [hx, if_neg (fun h => h hopc), ho]
    cases MO with
    | cimm bits val => exact absurd rfl (hnc bits val)
    | imm v => exact absurd rfl (hni v)
    | _ => rfl
  · intro hopc
    apply step_of_error
    rw [hx, if_pos hopc]
  · intro mo
    refine ⟨List.getElem?_set_self hq, fun j hj => List.getElem?_set_ne (Ne.symm hj), rfl⟩

/-- Witness of C33: the 8-bit constant 255 of a `G_CONSTANT` is appended to the
output as the immediate -1. -/
theorem C33_witness :
    step sampleEnv [Opcode.GIR_CopyConstantAsSImm.tag, 0, 1, Opcode.GIR_Done.tag]
      ⟨0, [], ⟨[], [some 1, some 0]⟩, [some 1],
        ⟨[some ⟨40, [.reg 5000 true false 0, .cimm 8 255], [], 0⟩,
          some ⟨sampleINC, [.reg 5000 false false 0], [], 3⟩], [[0, 1]]⟩⟩ =
      .next ⟨3, [], ⟨[], [some 1, some 0]⟩, [some 1],
        ⟨[some ⟨40, [.reg 5000 true false 0, .cimm 8 255], [], 0⟩,
          some ⟨sampleINC, [.reg 5000 false false 0, .imm (-1)], [], 3⟩], [[0, 1]]⟩⟩ :=
  (C33_copy_constant_as_signed_immediate sampleEnv
    [Opcode.GIR_CopyConstantAsSImm.tag, 0, 1, Opcode.GIR_Done.tag]
    ⟨0, [], ⟨[], [some 1, some 0]⟩, [some 1],
      ⟨[some ⟨40, [.reg 5000 true false 0, .cimm 8 255], [], 0⟩,
        some ⟨sampleINC, [.reg 5000 false false 0], [], 3⟩], [[0, 1]]⟩⟩
    0 1 1 0 ⟨sampleINC, [.reg 5000 false false 0], [], 3⟩
    ⟨40, [.reg 5000 true false 0, .cimm 8 255], [], 0⟩
    (by decide) rfl rfl rfl rfl rfl).1 8 255 rfl rfl

/-- C34 (amended): `GIR_MergeMemOperands InsnID id1 ... idk EndOfList` on a
defined, live output instruction and readable sources.  The step goes on with
`CurrentIdx` just past the first sentinel after `InsnID`.  The output
instruction `OutMIs[InsnID]` keeps everything but its memory-operand list,
which becomes its previous list followed by the lists of `MIs[id1]`, ...,
`MIs[idk]` in table order, each in its own order, where a source that is the
output instruction itself contributes the list built so far.  Nothing else
changes, and with `k = 0` the whole instruction stream is unchanged.  When no
source is the output instruction, the new list is the previous list followed
by the lists the sources had on entry, as the claim says. -/
theorem C34_merge_mem_operands_appends_sources_in_table_order
    (env : Env) (T : List Int) (c : Config) (InsnID : Int)
    (ids rest : List Int) (q : Nat) (out : MachineInstr)
    (hne : c.CurrentIdx ≠ 4294967295)
    (h0 : T[c.CurrentIdx]? = some Opcode.GIR_MergeMemOperands.tag)
    (hT : T.drop (c.CurrentIdx + 1) =
      InsnID :: (ids ++ GIU_MergeMemOperands_EndOfList :: rest))
    (hids : GIU_MergeMemOperands_EndOfList ∉ ids)
    (hout : getOutMI c InsnID = .ok (q, out))
    (hsrc : ∀ id ∈ ids, ∃ v, getMI c id = .ok v) :
    ∃ c1, step env T c = .next c1 ∧
      c1.CurrentIdx = c.CurrentIdx + ids.length + 3 ∧
      T.drop c1.CurrentIdx = rest ∧
      getOutMI c1 InsnID =
        .ok (q, { out with MemRefs := mergedInTurn c q out.MemRefs ids }) ∧
      ((∀ id ∈ ids, ∀ p mi, getMI c id = .ok (p, mi) → p ≠ q) →
        mergedInTurn c q out.MemRefs ids = mergedAtEntry c out.MemRefs ids) ∧
      (ids = [] → c1.MF = c.MF) ∧
      (∀ j : Nat, j ≠ q → c1.MF.Insts[j]? = c.MF.Insts[j]?) ∧
      c1.MF.Blocks = c.MF.Blocks ∧
      c1.OnFailResumeAt = c.OnFailResumeAt ∧ c1.State = c.State ∧ c1.OutMIs = c.OutMIs := by
  obtain ⟨c1, e0, e1, e2, e3, e4, e5, e6, e7⟩ :=
    mergeMemOperands_eq env T c InsnID ids rest q out hne h0 hT hids hout hsrc
  have hlive : c.MF.Insts[q]? = some (some out) := by
    unfold getOutMI at hout
    obtain ⟨q1, hq, h⟩ := bind_eq_ok.mp hout
    obtain ⟨mi, hm, h⟩ := bind_eq_ok.mp h
    cases h
    unfold MachineFunction.deref at hm
    split at hm
    · cases hm; assumption
    · cases hm
  refine ⟨c1, step_of_next e0, e1, e2, getOutMI_after_set e5 e6 hout,
    mergedInTurn_eq_atEntry c q ids out.MemRefs, ?_, ?_, e7, e3, e4, e5⟩
  · intro hnil
    subst hnil
    have hI : c1.MF.Insts = c.MF.Insts := by
      rw [e6]
      exact set_self_of_getElem? hlive
    cases hc : c1.MF with
    | mk I B =>
      cases hd : c.MF with
      | mk I2 B2 =>
        rw [hc, hd] at hI e7
        simp only at hI e7
        rw [hI, e7]
  · intro j hj
    rw [e6, List.getElem?_set_ne (Ne.symm hj)]

/-- The amended C34 at work: output instruction 0 with memory operand `10`,
sources `MIs[0]` (operands `20, 21`) and `MIs[1]` (operand `30`). -/
theorem C34_witness :
    ∃ c1, step sampleEnv [Opcode.GIR_MergeMemOperands.tag, 0, 0, 1, -1, Opcode.GIR_Done.tag]
        ⟨0, [], ⟨[], [some 1, some 2]⟩, [some 0],
          ⟨[some ⟨200, [], [10], 3⟩, some ⟨100, [], [20, 21], 0⟩, some ⟨101, [], [30], 0⟩],
            [[0, 1, 2]]⟩⟩ = .next c1 ∧
      c1.CurrentIdx = 5 ∧
      getOutMI c1 0 = .ok (0, ⟨200, [], [10, 20, 21, 30], 3⟩) := by
  obtain ⟨c1, h1, h2, _, h3, _⟩ :=
    C34_merge_mem_operands_appends_sources_in_table_order sampleEnv
      [Opcode.GIR_MergeMemOperands.tag, 0, 0, 1, -1, Opcode.GIR_Done.tag]
      ⟨0, [], ⟨[], [some 1, some 2]⟩, [some 0],
        ⟨[some ⟨200, [], [10], 3⟩, some ⟨100, [], [20, 21], 0⟩, some ⟨101, [], [30], 0⟩],
          [[0, 1, 2]]⟩⟩
      0 [0, 1] [Opcode.GIR_Done.tag] 0 ⟨200, [], [10], 3⟩
      (by decide) rfl rfl (by decide) rfl
      (by
        intro id hid
        simp only [List.mem_cons, List.mem_singleton, List.not_mem_nil, or_false] at hid
        rcases hid with rfl | rfl
        · exact ⟨_, rfl⟩
        · exact ⟨_, rfl⟩)
  exact ⟨c1, h1, h2, h3⟩

/-- C34 does not hold as stated when a source is the output instruction.
`GIR_MutateOpcode 0 0 200` makes `OutMIs[0]` the matched instruction `MIs[0]`,
whose memory-operand list is `[7]`; `GIR_MergeMemOperands 0 0 0 EndOfList`
then leaves it with `[7, 7, 7, 7]`, while the previous list followed by the
lists the two sources had before the opcode is `[7, 7, 7]`. -/
theorem C34_counterexample :
    after sampleEnv
        [Opcode.GIR_MutateOpcode.tag, 0, 0, 200,
         Opcode.GIR_MergeMemOperands.tag, 0, 0, 0, -1, Opcode.GIR_Done.tag] 1
        (initial [] ⟨[], [some 0]⟩ ⟨[some ⟨100, [], [7], 0⟩], [[0]]⟩) =
      some ⟨4, [], ⟨[], [some 0]⟩, [some 0], ⟨[some ⟨200, [], [7], 0⟩], [[0]]⟩⟩ ∧
    step sampleEnv
        [Opcode.GIR_MutateOpcode.tag, 0, 0, 200,
         Opcode.GIR_MergeMemOperands.tag, 0, 0, 0, -1, Opcode.GIR_Done.tag]
        ⟨4, [], ⟨[], [some 0]⟩, [some 0], ⟨[some ⟨200, [], [7], 0⟩], [[0]]⟩⟩ =
      .next ⟨9, [], ⟨[], [some 0]⟩, [some 0], ⟨[some ⟨200, [], [7, 7, 7, 7], 0⟩], [[0]]⟩⟩ ∧
    mergedAtEntry ⟨4, [], ⟨[], [some 0]⟩, [some 0], ⟨[some ⟨200, [], [7], 0⟩], [[0]]⟩⟩
        [7] [0, 0] = [7, 7, 7] := by
  refine ⟨by decide, by decide, by decide⟩

/-- C30: termination with forward-only checkpoints. For a table of `int64_t`
values in which every opcode position `p` holding the `GIM_Try` tag is followed
by a value greater than `p` (operand slots that happen to hold the value of the
tag do not count), `executeMatchTable` ends within `2 ^ |T| + 1` opcode
iterations for every initial state and every target: it returns true or false
or halts on a table violation (a read past the end of the table is one), and
more fuel does not change the result. -/
theorem C30_forward_only_table_terminates
    (env : Env) (OutMIs : List (Option Nat)) (State : MatcherState) (T : List Int)
    (MF : MachineFunction) (hT : Int64Table T)
    (hfwd : ∀ (p : Nat) (t : Int), OpcodeIndex T p → T[p]? = some Opcode.GIM_Try.tag →
      T[p + 1]? = some t → (p : Int) < t) :
    ∃ r, executeMatchTable env OutMIs State T MF (2 ^ T.length + 1) = some r ∧
      (∀ n, executeMatchTable env OutMIs State T MF (2 ^ T.length + 1 + n) = some r) ∧
      ((∃ b cf, r = .returned b cf) ∨ (∃ e, r = .aborted e)) := by
  obtain ⟨r, hr⟩ := run_terminates_within env T (2 ^ T.length) (initial OutMIs State MF)
    (fun k c hk hop t ht => forward_of_opcodeIndex hT hfwd OutMIs State MF k c hk hop t ht)
    (Nat.le_of_eq (runMeasure_initial _ _ _ _))
  refine ⟨r, hr, fun n => run_mono hr n, ?_⟩
  cases r with
  | returned b cf => exact Or.inl ⟨b, cf, rfl⟩
  | aborted e => exact Or.inr ⟨e, rfl⟩

/-- Witness of C30: the table `tryTable`, the sample table guarded by a
try-block with the forward target 21, ends for the sample target and stream.
Its opcode positions are 0, 2, 5, 9, 12, 16, 18, 20, 21 and 22; the operand
slot at index 6, which holds the value of the `GIM_Try` tag, is none. -/
theorem C30_witness :
    ∃ r, executeMatchTable sampleEnv [] sampleState tryTable (sampleMF 1)
      (2 ^ tryTable.length + 1) = some r := by
  obtain ⟨r, hr, _⟩ :=
    C30_forward_only_table_terminates sampleEnv [] sampleState tryTable (sampleMF 1)
      (by decide)
      (by
        intro p t hp h0 h1
        have hm := opcodeIndex_mem_of_closed [0, 2, 5, 9, 12, 16, 18, 20, 21, 22]
          (by decide) (by decide) hp
        simp only [List.mem_cons, List.mem_singleton, List.not_mem_nil, or_false] at hm
        rcases hm with rfl | rfl | rfl | rfl | rfl | rfl | rfl | rfl | rfl | rfl
        · have : t = 21 := by
            have h2 : tryTable[0 + 1]? = some 21 := by decide
            rw [h2] at h1
            exact (Option.some.inj h1).symm
          subst this
          decide
        all_goals exact absurd h0 (by decide))
  exact ⟨r, hr⟩

/-- C6 (amended): the table `[GIM_CheckOpcode 0 ADD; constant check of operand
1 of MIs[0] against 1; GIR_BuildMI 0 INC; GIR_Copy 0 0 0;
GIR_ConstrainSelectedInstOperands 0; GIR_EraseFromParent 0; GIR_Done]`, the
constant check being `GIM_CheckLiteralInt` or `GIM_CheckConstantInt`, run on a
root `ADD op0, op1`, for a target whose `constrainSelectedInstRegOperands`
leaves the root where it is.  If operand 1 is the constant-integer operand 1
(for `GIM_CheckLiteralInt`), or `isOperandImmEqual` accepts it (for
`GIM_CheckConstantInt`), the call returns true and `OutMIs` holds exactly one
builder; the instruction it hands to `constrainSelectedInstRegOperands` has
opcode `INC` and the single operand `op0` copied from operand 0 of the root;
the final stream is the constrained one with the root erased, and the new
instruction is in it as the target has left it.  If operand 1 is anything
else, be it another constant-integer operand (such as 2) or an operand of
another kind (such as the plain immediate 1), or `isOperandImmEqual` refuses
it, the call returns false and the instruction stream, the per-call state and
`OutMIs` are as at entry, whatever the target. -/
theorem C6_add_of_constant_one_becomes_inc
    (env : Env) (chk : Opcode) (ADD INC p b : Nat) (MF : MachineFunction)
    (R : List ComplexRendererFn) (op0 op1 : MachineOperand) (mem : List Nat) (dl : Nat)
    (hroot : MF.Insts[p]? = some (some ⟨ADD, [op0, op1], mem, dl⟩))
    (hpar : MF.getParent p = some b)
    (hINC : INC < env.NumOpcodes) (hINC32 : INC < 2 ^ 32) :
    ((∀ mf q, (env.constrainSelectedInstRegOperands mf q).Insts[p]? = mf.Insts[p]? ∧
        (env.constrainSelectedInstRegOperands mf q).getParent p = mf.getParent p) →
      ((chk = .GIM_CheckLiteralInt ∧ ∃ bits, op1 = .cimm bits 1) ∨
        (chk = .GIM_CheckConstantInt ∧ env.isOperandImmEqual MF op1 1 = true)) →
      ∃ cf built, executeMatchTable env [] ⟨R, [some p]⟩ (incTable chk ADD INC) MF 7 =
          some (.returned true cf) ∧
        cf.OutMIs = [some MF.Insts.length] ∧
        built = (MF.buildMI b p dl INC).2.setInst MF.Insts.length ⟨INC, [op0], [], dl⟩ ∧
        built.Insts[MF.Insts.length]? = some (some ⟨INC, [op0], [], dl⟩) ∧
        cf.MF = (env.constrainSelectedInstRegOperands built MF.Insts.length).eraseFromParent
          b p ∧
        cf.MF.Insts[MF.Insts.length]? =
          (env.constrainSelectedInstRegOperands built MF.Insts.length).Insts[MF.Insts.length]? ∧
        cf.MF.Insts[p]? = some none) ∧
    (((chk = .GIM_CheckLiteralInt ∧ ∀ bits, op1 ≠ .cimm bits 1) ∨
      (chk = .GIM_CheckConstantInt ∧ env.isOperandImmEqual MF op1 1 = false)) →
      ∃ cf, executeMatchTable env [] ⟨R, [some p]⟩ (incTable chk ADD INC) MF 2 =
          some (.returned false cf) ∧
        cf.MF = MF ∧ cf.OutMIs = [] ∧ cf.State = ⟨R, [some p]⟩) := by
  have hplt : p < MF.Insts.length := by
    by_contra hcon2
    rw [List.getElem?_eq_none (by omega)] at hroot
    cases hroot
  obtain ⟨hlit, hcst⟩ := incTable_check env chk ADD INC p MF R [] op0 op1 mem dl hroot
  constructor
  · intro hcon hone
    have s2 : step env (incTable chk ADD INC) ⟨3, [], ⟨R, [some p]⟩, [], MF⟩ =
        .next ⟨7, [], ⟨R, [some p]⟩, [], MF⟩ := by
      apply step_of_next
      rcases hone with ⟨hc, bits, hop⟩ | ⟨hc, hora⟩
      · rw [hlit hc bits 1 hop, if_pos rfl]
      · rw [hcst hc, if_pos hora]
    obtain ⟨e1, _⟩ := hcon
      ((MF.buildMI b p dl INC).2.setInst MF.Insts.length ⟨INC, [op0], [], dl⟩) MF.Insts.length
    refine ⟨_, _, incTable_success env chk ADD INC p b MF R [] op0 op1 mem dl hroot hpar hINC
      hINC32 hcon s2, rfl, rfl, ?_, rfl, ?_, ?_⟩
    · simp [MachineFunction.setInst, MachineFunction.buildMI]
    · simp only [MachineFunction.eraseFromParent]
      rw [List.getElem?_set_ne (Nat.ne_of_lt hplt)]
    · simp only [MachineFunction.eraseFromParent]
      apply List.getElem?_set_self
      by_contra hlen
      rw [List.getElem?_eq_none (by omega)] at e1
      simp [MachineFunction.setInst, MachineFunction.buildMI,
        List.getElem?_set_ne (Nat.ne_of_lt hplt).symm, List.getElem?_append_left hplt,
        hroot] at e1
  · intro hother
    have s2 : step env (incTable chk ADD INC) ⟨3, [], ⟨R, [some p]⟩, [], MF⟩ =
        .ret false ⟨7, [], ⟨R, [some p]⟩, [], MF⟩ := by
      apply step_of_reject_nil _ rfl
      rcases hother with ⟨hc, hop⟩ | ⟨hc, hora⟩
      · by_cases hk : ∃ bits k, op1 = .cimm bits k
        · obtain ⟨bits, k, hop1⟩ := hk
          have hk1 : k ≠ 1 := fun h => hop bits (h ▸ hop1)
          rw [hlit hc bits k hop1, if_neg hk1]
        · subst hc
          exact incTable_check_other env ADD INC p MF R [] op0 op1 mem dl hroot
            (fun bits k h => hk ⟨bits, k, h⟩)
      · rw [hcst hc, if_neg (by simp [hora])]
    exact ⟨_, incTable_failure env chk ADD INC p MF R [] op0 op1 mem dl hroot s2, rfl, rfl, rfl⟩

/-- Witness of C6 (amended): the sample target, whose
`constrainSelectedInstRegOperands` finds the operands constrained, and the
sample stream with `ADD = 100` at pointer 1 and `INC = 200`, for the
constant-integer operands 1 and 2: with 1 the stream ends up holding
`INC vreg5000` at pointer 2 and nothing at pointer 1. -/
theorem C6_witness :
    sampleTable = incTable .GIM_CheckLiteralInt sampleADD sampleINC ∧
    (∃ cf, executeMatchTable sampleEnv [] ⟨[none], [some 1]⟩
        (incTable .GIM_CheckLiteralInt sampleADD sampleINC) (sampleMF 1) 7 =
          some (.returned true cf) ∧
      cf.OutMIs = [some 2] ∧
      cf.MF.Insts[2]? = some (some ⟨sampleINC, [.reg 5000 false false 0], [], 3⟩) ∧
      cf.MF.Insts[1]? = some none) ∧
    (∃ cf, executeMatchTable sampleEnv [] ⟨[none], [some 1]⟩
        (incTable .GIM_CheckLiteralInt sampleADD sampleINC) (sampleMF 2) 2 =
          some (.returned false cf) ∧
      cf.MF = sampleMF 2 ∧ cf.OutMIs = [] ∧ cf.State = ⟨[none], [some 1]⟩) := by
  refine ⟨by decide, ?_, ?_⟩
  · obtain ⟨cf, built, h1, h2, h3, h4, _, h6, h7⟩ :=
      (C6_add_of_constant_one_becomes_inc sampleEnv .GIM_CheckLiteralInt sampleADD sampleINC
        1 0 (sampleMF 1) [none] (.reg 5000 false false 0) (.cimm 32 1) [] 3 rfl (by decide)
        (by decide) (by decide)).1 (fun _ _ => ⟨rfl, rfl⟩) (Or.inl ⟨rfl, 32, rfl⟩)
    exact ⟨cf, h1, h2, h6.trans h4, h7⟩
  · exact (C6_add_of_constant_one_becomes_inc sampleEnv .GIM_CheckLiteralInt sampleADD
      sampleINC 1 0 (sampleMF 2) [none] (.reg 5000 false false 0) (.cimm 32 2) [] 3 rfl
      (by decide) (by decide) (by decide)).2 (Or.inl ⟨rfl, fun bits h => by cases h⟩)

/-- C6 does not hold as stated for a plain immediate operand: on the candidate
`ADD vreg5000, imm 1`, whose operand 1 is an immediate (not a constant-integer)
operand of value 1, `GIM_CheckLiteralInt 0 1 1` rejects, and the call returns
false at the second iteration with the stream unchanged. -/
theorem C6_counterexample :
    executeMatchTable sampleEnv [] ⟨[none], [some 1]⟩
        (incTable .GIM_CheckLiteralInt sampleADD sampleINC)
        ⟨[some ⟨40, [.reg 5000 true false 0, .cimm 32 7], [], 0⟩,
          some ⟨sampleADD, [.reg 5000 false false 0, .imm 1], [], 3⟩], [[0, 1]]⟩ 7 =
      some (.returned false ⟨7, [], ⟨[none], [some 1]⟩, [],
        ⟨[some ⟨40, [.reg 5000 true false 0, .cimm 32 7], [], 0⟩,
          some ⟨sampleADD, [.reg 5000 false false 0, .imm 1], [], 3⟩], [[0, 1]]⟩⟩) := by
  decide

end GISel

namespace LoopPredication

theorem toSigned_of_lt {w a : Nat} (h : a % 2 ^ w < 2 ^ (w - 1)) :
    toSigned w a = (a % 2 ^ w : Nat) := by
  simp [toSigned, h]

/-- Below the guard limit the increment does not wrap. -/
theorem add_one_of_ult {w X g : Nat} (h : ult w X g = true) :
    add w X 1 = X % 2 ^ w + 1 ∧ add w X 1 ≤ g % 2 ^ w := by
  simp only [ult, decide_eq_true_eq] at h
  have hg : g % 2 ^ w < 2 ^ w := Nat.mod_lt _ (by positivity)
  have h1 : (X + 1) % 2 ^ w = (X % 2 ^ w + 1) % 2 ^ w := (Nat.mod_add_mod X (2 ^ w) 1).symm
  have h2 : (X % 2 ^ w + 1) % 2 ^ w = X % 2 ^ w + 1 := Nat.mod_eq_of_lt (by omega)
  unfold add
  rw [h1, h2]
  exact ⟨rfl, by omega⟩

theorem add_mod_self (w X Step : Nat) : add w X Step % 2 ^ w = add w X Step := by
  unfold add
  exact Nat.mod_mod _ _

/-- The induction of the file header: under `G(Start)` and `M`, the guard holds
in every iteration that the backedge condition lets the loop reach. -/
theorem guard_of_M {w : Nat} {G B : Nat → Bool} {Start Step : Nat}
    (hS : Start < 2 ^ w) (h0 : G Start = true) (hM : M w G B Step) (n : Nat)
    (hB : ∀ k, 1 ≤ k → k ≤ n → B (I w Start Step k) = true) :
    G (I w Start Step n) = true ∧ I w Start Step n < 2 ^ w := by
  induction n with
  | zero => exact ⟨h0, hS⟩
  | succ n ih =>
    obtain ⟨hg, hlt⟩ := ih (fun k h1 h2 => hB k h1 (by omega))
    have hb := hB (n + 1) (by omega) (Nat.le_refl _)
    simp only [I] at hb ⊢
    exact ⟨hM _ hlt hg hb, Nat.mod_lt _ (by positivity)⟩

theorem I_eq (w Start Step n : Nat) (hS : Start < 2 ^ w) :
    I w Start Step n = (Start + n * Step) % 2 ^ w := by
  induction n with
  | zero => simp [I, Nat.mod_eq_of_lt hS]
  | succ n ih =>
    simp only [I, add, ih]
    rw [Nat.mod_add_mod]
    congr 1
    ring

theorem toSigned_mod (w a : Nat) : toSigned w (a % 2 ^ w) = toSigned w a := by
  simp [toSigned, Nat.mod_mod]

/-- With a guard that holds and keeps holding, the loop runs as without guard. -/
theorem doWhile_of_M {w : Nat} {G B : Nat → Bool} {Step : Nat} (hM : M w G B Step)
    (fuel i n : Nat) (hi : i < 2 ^ w) (hG : G i = true) :
    doWhile w G B Step fuel i n = doWhile w (fun _ => true) B Step fuel i n := by
  induction fuel generalizing i n with
  | zero => rfl
  | succ fuel ih =>
    simp only [doWhile, hG, if_true]
    by_cases hb : B (add w i Step) = true
    · simp only [hb, if_true]
      exact ih _ _ (Nat.mod_lt _ (by positivity)) (hM i hi hG hb)
    · simp [hb]

theorem doWhile_true_ne_deoptimized (w : Nat) (B : Nat → Bool) (Step fuel i n m : Nat) :
    doWhile w (fun _ => true) B Step fuel i n ≠ .deoptimized m := by
  induction fuel generalizing i n with
  | zero => simp [doWhile]
  | succ fuel ih =>
    simp only [doWhile, if_true]
    by_cases hb : B (add w i Step) = true
    · simp only [hb, if_true]
      exact ih _ _
    · simp [hb]

/-- C21: unsigned latch. For every width `w` and all values `X`, `guardLimit`,
`latchLimit` read as `w`-bit values: if `latchLimit u<= guardLimit`, then
`X u< guardLimit` and `(X + 1) u< latchLimit` imply `(X + 1) u< guardLimit`,
`X + 1` being computed modulo `2 ^ w`. So the condition that
`widenICmpRangeCheck` builds for an unsigned latch,
`i.start u< guardLimit && latchLimit u<= guardLimit`, implies the first
iteration check and the invariant `M` of the unsigned latch. -/
theorem C21_unsigned_latch_limit_check_implies_M
    (w X guardLimit latchLimit Start : Nat) :
    (ule w latchLimit guardLimit = true → ult w X guardLimit = true →
      ult w (add w X 1) latchLimit = true → ult w (add w X 1) guardLimit = true) ∧
    (widenedCondition w .ICMP_ULT Start latchLimit guardLimit = true →
      ult w Start guardLimit = true ∧ ule w latchLimit guardLimit = true ∧
      M w (fun Y => ult w Y guardLimit) (fun Y => ult w Y latchLimit) 1) := by
  have key : ∀ Y, ule w latchLimit guardLimit = true → ult w Y guardLimit = true →
      ult w (add w Y 1) latchLimit = true → ult w (add w Y 1) guardLimit = true := by
    intro Y h1 _ h3
    simp only [ule, ult, decide_eq_true_eq] at h1 h3 ⊢
    omega
  refine ⟨key X, ?_⟩
  intro h
  simp only [widenedCondition, Predicate.eval, LimitCheckPred, Predicate.isSigned,
    Bool.and_eq_true, Bool.false_eq_true, if_false] at h
  exact ⟨h.1, h.2, fun Y _ hg hb => key Y h.2 hg hb⟩

/-- Witness of C21: on 8-bit values with latch limit 10 and guard limit 12. -/
theorem C21_witness :
    ult 8 (add 8 8 1) 12 = true ∧
    M 8 (fun Y => ult 8 Y 12) (fun Y => ult 8 Y 10) 1 :=
  ⟨(C21_unsigned_latch_limit_check_implies_M 8 8 12 10 0).1 (by decide) (by decide)
      (by decide),
   ((C21_unsigned_latch_limit_check_implies_M 8 8 12 10 0).2 (by decide)).2.2⟩

/-- C22: signed latch. For every width `w` and all values `X`, `guardLimit`,
`latchLimit` read as `w`-bit values: if `latchLimit s<= guardLimit`, then
`X u< guardLimit` and `(X + 1) s< latchLimit` imply `(X + 1) u< guardLimit`,
`X + 1` being computed modulo `2 ^ w`; without the condition on the limits, an
`X` with `X u< guardLimit` for which `(X + 1) u< guardLimit` fails is
`guardLimit - 1`. So the condition that `widenICmpRangeCheck` builds for a
signed latch, `i.start u< guardLimit && latchLimit s<= guardLimit`, implies the
first iteration check and the invariant `M` of the signed latch. -/
theorem C22_signed_latch_limit_check_implies_M
    (w X guardLimit latchLimit Start : Nat) :
    (sle w latchLimit guardLimit = true → ult w X guardLimit = true →
      slt w (add w X 1) latchLimit = true → ult w (add w X 1) guardLimit = true) ∧
    (ult w X guardLimit = true → ult w (add w X 1) guardLimit = false →
      X % 2 ^ w + 1 = guardLimit % 2 ^ w ∧ add w X 1 = guardLimit % 2 ^ w) ∧
    (widenedCondition w .ICMP_SLT Start latchLimit guardLimit = true →
      ult w Start guardLimit = true ∧ sle w latchLimit guardLimit = true ∧
      M w (fun Y => ult w Y guardLimit) (fun Y => slt w Y latchLimit) 1) := by
  have only : ∀ Y, ult w Y guardLimit = true → ult w (add w Y 1) guardLimit = false →
      Y % 2 ^ w + 1 = guardLimit % 2 ^ w ∧ add w Y 1 = guardLimit % 2 ^ w := by
    intro Y h1 h2
    obtain ⟨e1, e2⟩ := add_one_of_ult h1
    have e3 := add_mod_self w Y 1
    simp only [ult, decide_eq_true_eq, decide_eq_false_iff_not] at h1 h2
    omega
  have key : ∀ Y, sle w latchLimit guardLimit = true → ult w Y guardLimit = true →
      slt w (add w Y 1) latchLimit = true → ult w (add w Y 1) guardLimit = true := by
    intro Y h1 h2 h3
    by_contra hc
    have hc1 : ult w (add w Y 1) guardLimit = false := by simpa using hc
    obtain ⟨_, e⟩ := only Y h2 hc1
    have hs : toSigned w (add w Y 1) = toSigned w guardLimit := by
      rw [e, toSigned_mod]
    simp only [sle, slt, decide_eq_true_eq] at h1 h3
    omega
  refine ⟨key X, only X, ?_⟩
  intro h
  simp only [widenedCondition, Predicate.eval, LimitCheckPred, Predicate.isSigned,
    Bool.and_eq_true, if_true] at h
  exact ⟨h.1, h.2, fun Y _ hg hb => key Y h.2 hg hb⟩

/-- Witness of C22: on 8-bit values with the negative latch limit 200 (-56)
and guard limit 12. -/
theorem C22_witness :
    M 8 (fun Y => ult 8 Y 12) (fun Y => slt 8 Y 200) 1 ∧
    (11 % 2 ^ 8 + 1 = 12 % 2 ^ 8 ∧ add 8 11 1 = 12 % 2 ^ 8) :=
  ⟨((C22_signed_latch_limit_check_implies_M 8 11 12 200 0).2.2 (by decide)).2.2,
   (C22_signed_latch_limit_check_implies_M 8 11 12 200 0).2.1 (by decide) (by decide)⟩

/-- C23: guard widening is sound by induction. For predicates `B` and `G` on
`w`-bit integers and `w`-bit `Start`: if `G(Start)` and
`M = forall X . (G(X) && B(X + Step)) => G(X + Step)` hold, then `G` holds of
`Start + n * Step` for every `n` such that the backedge condition held of
`Start + k * Step` for `1 <= k <= n`; these are the values of `I`, the
induction variable. So the loop of the header never fails its guard `G(I)`,
and it runs exactly as the loop guarded by a loop-invariant condition that is
true. -/
theorem C23_guard_widening_is_sound_by_induction
    (w : Nat) (G B : Nat → Bool) (Start Step : Nat)
    (hS : Start < 2 ^ w) (h0 : G Start = true) (hM : M w G B Step) :
    (∀ n, (∀ k, 1 ≤ k → k ≤ n → B ((Start + k * Step) % 2 ^ w) = true) →
      G ((Start + n * Step) % 2 ^ w) = true) ∧
    (∀ n, I w Start Step n = (Start + n * Step) % 2 ^ w) ∧
    (∀ fuel n, program w G B Start Step fuel ≠ .deoptimized n) ∧
    (∀ widened : Bool, widened = true →
      ∀ fuel, program w (fun _ => widened) B Start Step fuel =
        program w G B Start Step fuel) := by
  have hI : ∀ n, I w Start Step n = (Start + n * Step) % 2 ^ w := fun n => I_eq w Start Step n hS
  refine ⟨?_, hI, ?_, ?_⟩
  · intro n hB
    rw [← hI]
    exact (guard_of_M hS h0 hM n (fun k h1 h2 => by rw [hI]; exact hB k h1 h2)).1
  · intro fuel n
    unfold program
    split
    · rw [doWhile_of_M hM fuel Start 0 hS h0]
      exact doWhile_true_ne_deoptimized w B Step fuel Start 0 n
    · simp
  · intro widened hw fuel
    subst hw
    unfold program
    split
    · rw [doWhile_of_M hM fuel Start 0 hS h0]
    · rfl

/-- Witness of C23: the loop `for (i = 0; ++i u< 4;) guard(i u< 5)` on 3-bit
values does not fail its guard. -/
theorem C23_witness :
    program 3 (fun Y => ult 3 Y 5) (fun Y => ult 3 Y 4) 0 1 10 ≠ .deoptimized 2 :=
  (C23_guard_widening_is_sound_by_induction 3 (fun Y => ult 3 Y 5) (fun Y => ult 3 Y 4) 0 1
    (by decide) (by decide) (by decide)).2.2.1 10 2

/-- What `parseLoopICmp` answers: both expressions are computable and, after
the exchange that puts a loop-invariant left operand on the right, the left
expression is an add recurrence of the loop. -/
theorem parseLoopICmp_eq_some {P : Pass} {Pred : Predicate} {LHS RHS : Value}
    {RC : LoopICmp} (h : parseLoopICmp P Pred LHS RHS = some RC) :
    P.SE.getSCEV LHS ≠ .CouldNotCompute ∧ P.SE.getSCEV RHS ≠ .CouldNotCompute ∧
    RC.IV.L = P.L ∧
    (P.SE.isLoopInvariant (P.SE.getSCEV LHS) P.L = false →
      RC.Pred = Pred ∧ P.SE.getSCEV LHS = .AddRecExpr RC.IV.Start RC.IV.Step RC.IV.L ∧
      RC.Limit = P.SE.getSCEV RHS) ∧
    (P.SE.isLoopInvariant (P.SE.getSCEV LHS) P.L = true →
      RC.Pred = getSwappedPredicate Pred ∧
      P.SE.getSCEV RHS = .AddRecExpr RC.IV.Start RC.IV.Step RC.IV.L ∧
      RC.Limit = P.SE.getSCEV LHS) := by
  unfold parseLoopICmp at h
  simp only at h
  split at h
  · cases h
  · rename_i h1
    split at h
    · cases h
    · rename_i h2
      refine ⟨h1, h2, ?_⟩
      by_cases hinv : P.SE.isLoopInvariant (P.SE.getSCEV LHS) P.L = true
      · simp only [hinv, if_true] at h
        split at h
        · rename_i S T L hS
          split at h
          · cases h
          · rename_i hL
            cases h
            simp only [ne_eq, Decidable.not_not] at hL
            exact ⟨hL, by simp [hinv], fun _ => ⟨rfl, hS, rfl⟩⟩
        · cases h
      · simp only [hinv] at h
        split at h
        · rename_i S T L hS
          split at h
          · cases h
          · rename_i hL
            cases h
            simp only [ne_eq, Decidable.not_not] at hL
            simp only [Bool.not_eq_true] at hinv
            exact ⟨hL, fun _ => ⟨rfl, hS, rfl⟩, by simp [hinv]⟩
        · cases h

/-- The condition `widenICmpRangeCheck` returns for a widenable range check,
with what it emits on the way. -/
theorem widenICmpRangeCheck_of_widenable {P : Pass} {ICI : ICmpInst} {RC : LoopICmp}
    (Expander : SCEVExpander) (Builder : IRBuilder)
    (hp : parseLoopICmp P ICI.Pred ICI.Op0 ICI.Op1 = some RC) (hw : Widenable P RC)
    (hone : RC.IV.Step.isOne = true) :
    widenICmpRangeCheck P ICI Expander Builder =
      .ok (some (widenedCheck P Expander Builder.NextId RC),
        { Expander with
          Expanded := Expander.Expanded ++
            [RC.IV.Start, RC.Limit, P.LatchCheck.Limit, RC.Limit] },
        { Builder with
          NextId := Builder.NextId + 3
          Inserted := Builder.Inserted ++
            [(Builder.InsertPt, .ICmp Builder.NextId .ICMP_ULT
                (Expander.expandCodeFor RC.IV.Start) (Expander.expandCodeFor RC.Limit)),
             (Builder.InsertPt, .ICmp (Builder.NextId + 1)
                (if P.LatchCheck.Pred.isSigned then .ICMP_SLE else .ICMP_ULE)
                (Expander.expandCodeFor P.LatchCheck.Limit)
                (Expander.expandCodeFor RC.Limit)),
             (Builder.InsertPt, widenedCheck P Expander Builder.NextId RC)] }) := by
  obtain ⟨h1, h2, h3, h4, h5⟩ := hw
  simp [widenICmpRangeCheck, hp, h1, h2, h3, h4, h5, hone, expandCheck, SCEVExpander.expand,
    IRBuilder.CreateICmp, IRBuilder.CreateAnd, widenedCheck, LimitCheckPred]

/-- A range check that is not widenable makes `widenICmpRangeCheck` return
`None` with the expander and the builder as they were. -/
theorem widenICmpRangeCheck_of_not_widenable {P : Pass} {ICI : ICmpInst}
    (Expander : SCEVExpander) (Builder : IRBuilder)
    (hone : ∀ IV, P.SE.getPostIncExpr IV = P.LatchCheck.IV → IV.Step.isOne = true)
    (hn : ∀ RC, parseLoopICmp P ICI.Pred ICI.Op0 ICI.Op1 = some RC → ¬ Widenable P RC) :
    widenICmpRangeCheck P ICI Expander Builder = .ok (none, Expander, Builder) := by
  unfold widenICmpRangeCheck
  cases hp : parseLoopICmp P ICI.Pred ICI.Op0 ICI.Op1 with
  | none => rfl
  | some RC =>
    have hnw := hn RC hp
    simp only
    by_cases h1 : RC.Pred = .ICMP_ULT
    · by_cases h2 : P.SE.getPostIncExpr RC.IV = P.LatchCheck.IV
      · have h3 := hone RC.IV h2
        have h4 : ¬ (CanExpand P RC.IV.Start = true ∧ CanExpand P P.LatchCheck.Limit = true ∧
            CanExpand P RC.Limit = true) := fun h => hnw ⟨h1, h2, h⟩
        have h5 : (!CanExpand P RC.IV.Start || !CanExpand P P.LatchCheck.Limit ||
            !CanExpand P RC.Limit) = true := by
          revert h4
          cases CanExpand P RC.IV.Start <;> cases CanExpand P P.LatchCheck.Limit <;>
            cases CanExpand P RC.Limit <;> simp
        simp [h1, h2, h3, h5]
      · have h2a : P.LatchCheck.IV ≠ P.SE.getPostIncExpr RC.IV := fun h => h2 h.symm
        simp [h1, h2a]
    · simp [h1]

/-- C35: `widenICmpRangeCheck` on a pass whose latch induction variable is the
post-increment form only of induction variables with step one (so that the
`must be one` assertion holds).  It returns a condition only when the range
check parses, has predicate `ULT` once the induction variable is on the left,
the post-increment form of its induction variable is the latch induction
variable, and the IV start, the latch limit and the guard limit are all
loop-invariant and safe to expand.  The returned condition is then exactly
`(start u< guardLimit) AND (latchLimit P guardLimit)` on the expanded values,
`P` being `SLE` for a signed latch predicate and `ULE` otherwise, and four
expansions and three instructions are emitted.  In every other case it returns
`None` and leaves the expander and the builder as they were. -/
theorem C35_widenICmpRangeCheck_returns_the_widened_condition
    (P : Pass) (ICI : ICmpInst) (Expander : SCEVExpander) (Builder : IRBuilder)
    (hone : ∀ IV, P.SE.getPostIncExpr IV = P.LatchCheck.IV → IV.Step.isOne = true) :
    (∀ V E B, widenICmpRangeCheck P ICI Expander Builder = .ok (some V, E, B) →
      ∃ RC, parseLoopICmp P ICI.Pred ICI.Op0 ICI.Op1 = some RC ∧
        RC.Pred = .ICMP_ULT ∧ P.SE.getPostIncExpr RC.IV = P.LatchCheck.IV ∧
        CanExpand P RC.IV.Start = true ∧ CanExpand P P.LatchCheck.Limit = true ∧
        CanExpand P RC.Limit = true ∧
        V = .And (Builder.NextId + 2)
          (.ICmp Builder.NextId .ICMP_ULT (Expander.expandCodeFor RC.IV.Start)
            (Expander.expandCodeFor RC.Limit))
          (.ICmp (Builder.NextId + 1)
            (if P.LatchCheck.Pred.isSigned then .ICMP_SLE else .ICMP_ULE)
            (Expander.expandCodeFor P.LatchCheck.Limit)
            (Expander.expandCodeFor RC.Limit))) ∧
    (∀ RC, parseLoopICmp P ICI.Pred ICI.Op0 ICI.Op1 = some RC → Widenable P RC →
      ∃ E B, widenICmpRangeCheck P ICI Expander Builder =
          .ok (some (widenedCheck P Expander Builder.NextId RC), E, B) ∧
        E.expandCodeFor = Expander.expandCodeFor ∧
        E.Expanded = Expander.Expanded ++
          [RC.IV.Start, RC.Limit, P.LatchCheck.Limit, RC.Limit] ∧
        B.NextId = Builder.NextId + 3 ∧ B.Inserted.length = Builder.Inserted.length + 3) ∧
    ((∀ RC, parseLoopICmp P ICI.Pred ICI.Op0 ICI.Op1 = some RC → ¬ Widenable P RC) →
      widenICmpRangeCheck P ICI Expander Builder = .ok (none, Expander, Builder)) ∧
    (∀ RC, parseLoopICmp P ICI.Pred ICI.Op0 ICI.Op1 = some RC →
      RC.IV.L = P.L ∧
      (P.SE.isLoopInvariant (P.SE.getSCEV ICI.Op0) P.L = false →
        RC.Pred = ICI.Pred ∧
        P.SE.getSCEV ICI.Op0 = .AddRecExpr RC.IV.Start RC.IV.Step RC.IV.L ∧
        RC.Limit = P.SE.getSCEV ICI.Op1) ∧
      (P.SE.isLoopInvariant (P.SE.getSCEV ICI.Op0) P.L = true →
        RC.Pred = getSwappedPredicate ICI.Pred ∧
        P.SE.getSCEV ICI.Op1 = .AddRecExpr RC.IV.Start RC.IV.Step RC.IV.L ∧
        RC.Limit = P.SE.getSCEV ICI.Op0)) := by
  have h2 : ∀ RC, parseLoopICmp P ICI.Pred ICI.Op0 ICI.Op1 = some RC → Widenable P RC →
      widenICmpRangeCheck P ICI Expander Builder = .ok (some (widenedCheck P Expander
        Builder.NextId RC), _, _) :=
    fun RC hp hw => widenICmpRangeCheck_of_widenable Expander Builder hp hw (hone RC.IV hw.2.1)
  refine ⟨?_, ?_, widenICmpRangeCheck_of_not_widenable Expander Builder hone, ?_⟩
  · intro V E B h
    cases hp : parseLoopICmp P ICI.Pred ICI.Op0 ICI.Op1 with
    | none =>
      rw [widenICmpRangeCheck_of_not_widenable Expander Builder hone
        (fun RC hRC => by rw [hp] at hRC; cases hRC)] at h
      cases h
    | some RC =>
      by_cases hw : Widenable P RC
      · rw [h2 RC hp hw] at h
        simp only [Except.ok.injEq, Prod.mk.injEq, Option.some.injEq] at h
        obtain ⟨h1, h3, h4, h5, h6⟩ := hw
        exact ⟨RC, rfl, h1, h3, h4, h5, h6, h.1.symm⟩
      · rw [widenICmpRangeCheck_of_not_widenable Expander Builder hone
          (fun RC1 hRC => by rw [hp] at hRC; cases hRC; exact hw)] at h
        cases h
  · intro RC hp hw
    exact ⟨_, _, h2 RC hp hw, rfl, rfl, rfl, by simp⟩
  · intro RC hp
    exact (parseLoopICmp_eq_some hp).2.2

/-- C35 at work: with the latch check `++i s< %3` on `i = {0,+,1}`, the range
check `i u< %4` is widened to `(0 u< %4) AND (%3 s<= %4)`. -/
theorem C35_witness :
    ∃ E B, widenICmpRangeCheck samplePass ⟨.ICMP_ULT, .Other 1, .Other 4⟩ sampleExpander
        ⟨.PreheaderTerminator, 10, []⟩ =
      .ok (some (.And 12 (.ICmp 10 .ICMP_ULT (.Other 100) (.Other 4))
        (.ICmp 11 .ICMP_SLE (.Other 3) (.Other 4))), E, B) ∧
      E.Expanded = [.Constant 0, .Unknown 4, .Unknown 3, .Unknown 4] ∧ B.NextId = 13 := by
  obtain ⟨E, B, h1, _, h2, h3, _⟩ :=
    (C35_widenICmpRangeCheck_returns_the_widened_condition samplePass
      ⟨.ICMP_ULT, .Other 1, .Other 4⟩ sampleExpander ⟨.PreheaderTerminator, 10, []⟩
      (by
        intro IV h
        have hs : IV.Step = .Constant 1 := by
          have := congrArg SCEVAddRecExpr.Step h
          simp only [samplePass, sampleSE] at this
          split at this <;> exact this
        rw [hs]; rfl)).2.1
      ⟨.ICMP_ULT, ⟨.Constant 0, .Constant 1, 7⟩, .Unknown 4⟩ rfl (by decide)
  exact ⟨E, B, h1, h2, h3⟩

/-- One turn of the loop: the body, then the loop test. -/
theorem doWhile_of_body {P : Pass} {v : Value} {W W1 : List Value} {st st1 : WidenState}
    (h : widenGuardConditions.body P v W st = .ok (W1, st1)) :
    widenGuardConditions.doWhile P v W st = widenGuardConditions.loopTest P W1 st1 := by
  rw [widenGuardConditions.doWhile]
  split
  · rename_i e he
    rw [h] at he; cases he
  · rename_i st2 he
    rw [h] at he
    simp only [Except.ok.injEq, Prod.mk.injEq] at he
    obtain ⟨h1, h2⟩ := he
    subst h1; subst h2
    rfl
  · rename_i c w st2 he
    rw [h] at he
    simp only [Except.ok.injEq, Prod.mk.injEq] at he
    obtain ⟨h1, h2⟩ := he
    subst h1; subst h2
    rfl

theorem entries_append (P : Pass) (X : SCEVExpander) (A B : List Value) :
    ∀ n, entries P X n (A ++ B) =
      entries P X n A ++ entries P X (n + 3 * A.countP (widens P)) B := by
  induction A with
  | nil => intro n; simp [entries]
  | cons a A ih =>
    intro n
    show entry P X n a :: entries P X (if widens P a then n + 3 else n) (A ++ B) = _
    rw [ih]
    by_cases ha : widens P a = true
    · have e : n + 3 + 3 * List.countP (widens P) A =
          n + 3 * (List.countP (widens P) A + 1) := by omega
      simp only [ha, if_true, entries, List.countP_cons_of_pos _ _ ha, e, List.cons_append]
    · simp only [ha, entries, List.countP_cons_of_neg _ _ ha, List.cons_append]
      rfl

theorem entries_length (P : Pass) (X : SCEVExpander) (A : List Value) :
    ∀ n, (entries P X n A).length = A.length := by
  induction A with
  | nil => intro n; rfl
  | cons a A ih => intro n; simp [entries, ih]

/-- An `icmp` leaf is widened exactly when its range check parses and is
widenable; its entry is then the widened condition. -/
theorem widens_icmp {P : Pass} {id : Nat} {Pred : Predicate} {Op0 Op1 : Value}
    (h : widens P (.ICmp id Pred Op0 Op1) = true) (X : SCEVExpander) (n : Nat) :
    ∃ RC, parseLoopICmp P Pred Op0 Op1 = some RC ∧ Widenable P RC ∧
      entry P X n (.ICmp id Pred Op0 Op1) = widenedCheck P X n RC := by
  cases hp : parseLoopICmp P Pred Op0 Op1 with
  | none => simp [widens, hp] at h
  | some RC =>
    simp only [widens, hp, decide_eq_true_eq] at h
    exact ⟨RC, rfl, h, by simp [entry, hp, h]⟩

/-- The entry of a leaf that is not widened is the leaf itself. -/
theorem entry_of_not_widens {P : Pass} {v : Value} (h : widens P v = false)
    (X : SCEVExpander) (n : Nat) : entry P X n v = v := by
  cases v with
  | Other id => rfl
  | And id l r => rfl
  | ICmp id Pred Op0 Op1 =>
    cases hp : parseLoopICmp P Pred Op0 Op1 with
    | none => simp [entry, hp]
    | some RC =>
      simp only [widens, hp, decide_eq_false_iff_not] at h
      simp [entry, hp, h]

theorem not_widenable_of_not_widens {P : Pass} {id : Nat} {Pred : Predicate} {Op0 Op1 : Value}
    (h : widens P (.ICmp id Pred Op0 Op1) = false) :
    ∀ RC, parseLoopICmp P Pred Op0 Op1 = some RC → ¬ Widenable P RC := by
  intro RC hp
  simpa [widens, hp] using h

/-- The widened condition depends on the expander through its answers only. -/
theorem widenedCheck_congr (P : Pass) {X Y : SCEVExpander}
    (h : X.expandCodeFor = Y.expandCodeFor) (n : Nat) (RC : LoopICmp) :
    widenedCheck P X n RC = widenedCheck P Y n RC := by
  simp [widenedCheck, h]

/-- The invariant holds when the loop is entered. -/
theorem LoopInvariant.initial (P : Pass) (X : SCEVExpander) (n : Nat)
    (Inserted : List (InsertPoint × Value)) :
    LoopInvariant P X n Inserted ⟨[], [], 0, X, ⟨.PreheaderTerminator, n, Inserted⟩⟩ :=
  { nodup := List.nodup_nil
    checks := rfl
    numWidened := rfl
    nextId := rfl
    expandCodeFor := rfl
    insertPt := rfl
    nothing := fun _ => ⟨rfl, rfl⟩ }

/-- Visiting an `and` operator keeps the invariant. -/
theorem LoopInvariant.push_and {P : Pass} {X : SCEVExpander} {n : Nat}
    {Inserted : List (InsertPoint × Value)} {st : WidenState}
    (h : LoopInvariant P X n Inserted st) {v : Value} (hv : v ∉ st.Visited)
    (ha : v.isAnd = true) :
    LoopInvariant P X n Inserted { st with Visited := st.Visited ++ [v] } := by
  have hf : (st.Visited ++ [v]).filter (fun v => !v.isAnd) =
      st.Visited.filter (fun v => !v.isAnd) := by
    simp [List.filter_append, ha]
  exact
    { nodup := by
        have := List.Nodup.concat hv h.nodup
        simpa using this
      checks := by simp only [hf]; exact h.checks
      numWidened := by simp only [hf]; exact h.numWidened
      nextId := by simp only [hf]; exact h.nextId
      expandCodeFor := h.expandCodeFor
      insertPt := h.insertPt
      nothing := by simp only [hf]; exact h.nothing }

/-- Visiting a leaf keeps the invariant, when its entry is pushed and the
counters advance as the leaf is widened or not. -/
theorem LoopInvariant.push_leaf {P : Pass} {X : SCEVExpander} {n : Nat}
    {Inserted : List (InsertPoint × Value)} {st st1 : WidenState}
    (h : LoopInvariant P X n Inserted st) {v : Value} (hv : v ∉ st.Visited)
    (ha : v.isAnd = false)
    (h1 : st1.Visited = st.Visited ++ [v])
    (h2 : st1.Checks = st.Checks ++ [entry P X st.Builder.NextId v])
    (h3 : st1.NumWidened =
      if widens P v then (st.NumWidened + 1) % 2 ^ 32 else st.NumWidened)
    (h4 : st1.Builder.NextId = if widens P v then st.Builder.NextId + 3 else st.Builder.NextId)
    (h5 : st1.Expander.expandCodeFor = st.Expander.expandCodeFor)
    (h6 : st1.Builder.InsertPt = st.Builder.InsertPt)
    (h7 : widens P v = false →
      st1.Expander.Expanded = st.Expander.Expanded ∧
      st1.Builder.Inserted = st.Builder.Inserted) :
    LoopInvariant P X n Inserted st1 := by
  have hf : st1.Visited.filter (fun v => !v.isAnd) =
      st.Visited.filter (fun v => !v.isAnd) ++ [v] := by
    rw [h1]; simp [List.filter_append, ha]
  have hc : (st1.Visited.filter (fun v => !v.isAnd)).countP (widens P) =
      (st.Visited.filter (fun v => !v.isAnd)).countP (widens P) +
        (if widens P v then 1 else 0) := by
    rw [hf, List.countP_append]
    simp [List.countP_cons]
  refine
    { nodup := ?_, checks := ?_, numWidened := ?_, nextId := ?_, expandCodeFor := ?_
      insertPt := ?_, nothing := ?_ }
  · rw [h1]
    have := List.Nodup.concat hv h.nodup
    simpa using this
  · rw [h2, hf, entries_append, h.checks, h.nextId]
    simp [entries]
  · rw [h3, hc, h.numWidened]
    by_cases hw : widens P v = true
    · simp only [hw, if_true]
      omega
    · simp only [hw]
      simp
  · rw [h4, hc, h.nextId]
    by_cases hw : widens P v = true
    · simp only [hw, if_true]
      omega
    · simp only [hw]
      simp
  · rw [h5]; exact h.expandCodeFor
  · rw [h6]; exact h.insertPt
  · intro h0
    rw [hc] at h0
    have hw : widens P v = false := by
      by_cases hw : widens P v = true
      · simp [hw] at h0
      · simpa using hw
    have hk : (st.Visited.filter (fun v => !v.isAnd)).countP (widens P) = 0 := by omega
    obtain ⟨e1, e2⟩ := h7 hw
    obtain ⟨e3, e4⟩ := h.nothing hk
    exact ⟨e1.trans e3, e2.trans e4⟩

/-- The body of the loop on a leaf that was not visited before: the leaf is
visited and its entry pushed; the invariant is kept. -/
theorem body_leaf {P : Pass} {X : SCEVExpander} {n : Nat}
    {Inserted : List (InsertPoint × Value)} {st : WidenState}
    (hone : ∀ IV, P.SE.getPostIncExpr IV = P.LatchCheck.IV → IV.Step.isOne = true)
    (h : LoopInvariant P X n Inserted st) {v : Value} (hv : v ∉ st.Visited)
    (ha : v.isAnd = false) (W : List Value) :
    ∃ st1, widenGuardConditions.body P v W st = .ok (W, st1) ∧
      st1.Visited = st.Visited ++ [v] ∧ LoopInvariant P X n Inserted st1 := by
  cases v with
  | And id l r => cases ha
  | Other id =>
    refine ⟨{ st with
      Visited := st.Visited ++ [.Other id], Checks := st.Checks ++ [.Other id] }, ?_, rfl, ?_⟩
    · simp [widenGuardConditions.body, hv]
    · exact h.push_leaf hv ha rfl rfl rfl rfl rfl rfl (fun _ => ⟨rfl, rfl⟩)
  | ICmp id Pred Op0 Op1 =>
    by_cases hw : widens P (.ICmp id Pred Op0 Op1) = true
    · obtain ⟨RC, hp, hW, he⟩ := widens_icmp hw X st.Builder.NextId
      have hr : ∃ E B, widenICmpRangeCheck P ⟨Pred, Op0, Op1⟩ st.Expander st.Builder =
            .ok (some (widenedCheck P st.Expander st.Builder.NextId RC), E, B) ∧
          E.expandCodeFor = st.Expander.expandCodeFor ∧
          B.NextId = st.Builder.NextId + 3 ∧ B.InsertPt = st.Builder.InsertPt :=
        ⟨_, _, @widenICmpRangeCheck_of_widenable P ⟨Pred, Op0, Op1⟩ RC st.Expander st.Builder
          hp hW (hone RC.IV hW.2.1), rfl, rfl, rfl⟩
      obtain ⟨E, B, hr, hE, hB, hB2⟩ := hr
      refine ⟨{ Visited := st.Visited ++ [.ICmp id Pred Op0 Op1]
                Checks := st.Checks ++ [widenedCheck P st.Expander st.Builder.NextId RC]
                NumWidened := (st.NumWidened + 1) % 2 ^ 32
                Expander := E
                Builder := B }, ?_, rfl, ?_⟩
      · simp only [widenGuardConditions.body, hv, if_false, hr]
      · refine h.push_leaf hv ha rfl ?_ ?_ ?_ hE hB2 ?_
        · simp only [he, widenedCheck_congr P h.expandCodeFor]
        · simp [hw]
        · simp [hw, hB]
        · intro h0; rw [hw] at h0; cases h0
    · have hw1 : widens P (.ICmp id Pred Op0 Op1) = false := by simpa using hw
      have hr := @widenICmpRangeCheck_of_not_widenable P ⟨Pred, Op0, Op1⟩ st.Expander
        st.Builder hone (not_widenable_of_not_widens hw1)
      refine ⟨{ st with
                Visited := st.Visited ++ [.ICmp id Pred Op0 Op1]
                Checks := st.Checks ++ [.ICmp id Pred Op0 Op1] }, ?_, rfl, ?_⟩
      · simp only [widenGuardConditions.body, hv, if_false, hr]
      · refine h.push_leaf hv ha rfl ?_ ?_ ?_ rfl rfl ?_
        · simp only [entry_of_not_widens hw1]
        · simp [hw1]
        · simp [hw1]
        · intro _; exact ⟨rfl, rfl⟩

/-- The loop deals with the top of the worklist and all it pushes for it as
`visitedAfter` says, keeps the invariant, and goes on with the loop test on
the rest of the worklist. -/
theorem doWhile_spec {P : Pass} {X : SCEVExpander} {n : Nat}
    {Inserted : List (InsertPoint × Value)}
    (hone : ∀ IV, P.SE.getPostIncExpr IV = P.LatchCheck.IV → IV.Step.isOne = true)
    (v : Value) :
    ∀ (W : List Value) (st : WidenState), LoopInvariant P X n Inserted st →
      ∃ st1, LoopInvariant P X n Inserted st1 ∧
        st1.Visited = visitedAfter v st.Visited ∧
        widenGuardConditions.doWhile P v W st = widenGuardConditions.loopTest P W st1 := by
  induction v with
  | Other id =>
    intro W st h
    by_cases hv : Value.Other id ∈ st.Visited
    · refine ⟨st, h, by simp [visitedAfter, hv], ?_⟩
      exact doWhile_of_body (by simp [widenGuardConditions.body, hv])
    · obtain ⟨st1, hb, h1, h2⟩ := body_leaf hone h hv rfl W
      exact ⟨st1, h2, by simp [visitedAfter, hv, h1], doWhile_of_body hb⟩
  | ICmp id Pred Op0 Op1 _ _ =>
    intro W st h
    by_cases hv : Value.ICmp id Pred Op0 Op1 ∈ st.Visited
    · refine ⟨st, h, by simp [visitedAfter, hv], ?_⟩
      exact doWhile_of_body (by simp [widenGuardConditions.body, hv])
    · obtain ⟨st1, hb, h1, h2⟩ := body_leaf hone h hv rfl W
      exact ⟨st1, h2, by simp [visitedAfter, hv, h1], doWhile_of_body hb⟩
  | And id l r ihl ihr =>
    intro W st h
    by_cases hv : Value.And id l r ∈ st.Visited
    · refine ⟨st, h, by simp [visitedAfter, hv], ?_⟩
      exact doWhile_of_body (by simp [widenGuardConditions.body, hv])
    · have hb : widenGuardConditions.body P (.And id l r) W st =
          .ok (r :: l :: W, { st with Visited := st.Visited ++ [.And id l r] }) := by
        simp [widenGuardConditions.body, hv]
      obtain ⟨st2, i2, v2, e2⟩ := ihr (l :: W) _ (h.push_and hv rfl)
      obtain ⟨st3, i3, v3, e3⟩ := ihl W st2 i2
      refine ⟨st3, i3, ?_, ?_⟩
      · rw [v3, v2]; simp [visitedAfter, hv]
      · rw [doWhile_of_body hb]
        show widenGuardConditions.doWhile P r (l :: W) _ = _
        rw [e2]
        exact e3

/-! ### The visited values -/

theorem visitedAfter_subset (v : Value) : ∀ Vs, Vs ⊆ visitedAfter v Vs := by
  induction v with
  | Other id =>
    intro Vs u hu
    unfold visitedAfter
    split
    · exact hu
    · exact List.mem_append_left _ hu
  | ICmp id Pred Op0 Op1 _ _ =>
    intro Vs u hu
    unfold visitedAfter
    split
    · exact hu
    · exact List.mem_append_left _ hu
  | And id l r ihl ihr =>
    intro Vs u hu
    unfold visitedAfter
    split
    · exact hu
    · exact ihl _ (ihr _ (List.mem_append_left _ hu))

theorem isAnd_of_mem_leaves (v : Value) : ∀ u ∈ leaves v, u.isAnd = false := by
  induction v with
  | Other id => intro u hu; simp [leaves] at hu; subst hu; rfl
  | ICmp id Pred Op0 Op1 _ _ => intro u hu; simp [leaves] at hu; subst hu; rfl
  | And id l r ihl ihr =>
    intro u hu
    simp only [leaves, List.mem_append] at hu
    rcases hu with hu | hu
    · exact ihr u hu
    · exact ihl u hu

/-- A leaf visited for a worklist entry is a leaf of that entry. -/
theorem mem_leaves_of_mem_visitedAfter (v : Value) :
    ∀ Vs u, u ∈ visitedAfter v Vs → u.isAnd = false → u ∈ Vs ∨ u ∈ leaves v := by
  induction v with
  | Other id =>
    intro Vs u hu _
    unfold visitedAfter at hu
    split at hu
    · exact .inl hu
    · rcases List.mem_append.mp hu with h | h
      · exact .inl h
      · exact .inr (by simpa [leaves] using h)
  | ICmp id Pred Op0 Op1 _ _ =>
    intro Vs u hu _
    unfold visitedAfter at hu
    split at hu
    · exact .inl hu
    · rcases List.mem_append.mp hu with h | h
      · exact .inl h
      · exact .inr (by simpa [leaves] using h)
  | And id l r ihl ihr =>
    intro Vs u hu ha
    unfold visitedAfter at hu
    split at hu
    · exact .inl hu
    · rcases ihl _ u hu ha with h | h
      · rcases ihr _ u h ha with h1 | h1
        · rcases List.mem_append.mp h1 with h2 | h2
          · exact .inl h2
          · simp only [List.mem_singleton] at h2
            subst h2
            cases ha
        · exact .inr (by simp [leaves, h1])
      · exact .inr (by simp [leaves, h])

/-- Every leaf of a worklist entry is visited when the loop has dealt with the
entry.  `A` holds the `and` operators whose operands are still on the
worklist: each is larger than the entry, so the entry is none of them. -/
theorem visitedAfter_complete (v : Value) :
    ∀ (Vs A : List Value),
      (∀ u ∈ Vs, u ∈ A ∨ ∀ x ∈ leaves u, x ∈ Vs) →
      (∀ a ∈ A, v.size < a.size) →
      (∀ u ∈ visitedAfter v Vs, u ∈ A ∨ ∀ x ∈ leaves u, x ∈ visitedAfter v Vs) ∧
      (∀ x ∈ leaves v, x ∈ visitedAfter v Vs) := by
  induction v with
  | Other id =>
    intro Vs A hI _
    unfold visitedAfter
    split
    · rename_i hv
      exact ⟨hI, by intro x hx; simp [leaves] at hx; subst hx; exact hv⟩
    · constructor
      · intro u hu
        rcases List.mem_append.mp hu with h | h
        · rcases hI u h with h1 | h1
          · exact .inl h1
          · exact .inr (fun x hx => List.mem_append_left _ (h1 x hx))
        · simp only [List.mem_singleton] at h
          subst h
          exact .inr (by intro x hx; simp [leaves] at hx; subst hx; simp)
      · intro x hx; simp [leaves] at hx; subst hx; simp
  | ICmp id Pred Op0 Op1 _ _ =>
    intro Vs A hI _
    unfold visitedAfter
    split
    · rename_i hv
      exact ⟨hI, by intro x hx; simp [leaves] at hx; subst hx; exact hv⟩
    · constructor
      · intro u hu
        rcases List.mem_append.mp hu with h | h
        · rcases hI u h with h1 | h1
          · exact .inl h1
          · exact .inr (fun x hx => List.mem_append_left _ (h1 x hx))
        · simp only [List.mem_singleton] at h
          subst h
          exact .inr (by intro x hx; simp [leaves] at hx; subst hx; simp)
      · intro x hx; simp [leaves] at hx; subst hx; simp
  | And id l r ihl ihr =>
    intro Vs A hI hA
    unfold visitedAfter
    split
    · rename_i hv
      refine ⟨hI, ?_⟩
      rcases hI _ hv with h1 | h1
      · exact absurd (hA _ h1) (Nat.lt_irrefl _)
      · exact h1
    · have hI1 : ∀ u ∈ Vs ++ [Value.And id l r],
          u ∈ Value.And id l r :: A ∨ ∀ x ∈ leaves u, x ∈ Vs ++ [Value.And id l r] := by
        intro u hu
        rcases List.mem_append.mp hu with h | h
        · rcases hI u h with h1 | h1
          · exact .inl (List.mem_cons_of_mem _ h1)
          · exact .inr (fun x hx => List.mem_append_left _ (h1 x hx))
        · simp only [List.mem_singleton] at h
          subst h
          exact .inl (List.mem_cons_self _ _)
      have hAr : ∀ a ∈ Value.And id l r :: A, r.size < a.size := by
        intro a ha
        rcases List.mem_cons.mp ha with h | h
        · subst h; simp only [Value.size]; omega
        · have := hA a h; simp only [Value.size] at this; omega
      have hAl : ∀ a ∈ Value.And id l r :: A, l.size < a.size := by
        intro a ha
        rcases List.mem_cons.mp ha with h | h
        · subst h; simp only [Value.size]; omega
        · have := hA a h; simp only [Value.size] at this; omega
      obtain ⟨i2, c2⟩ := ihr _ _ hI1 hAr
      obtain ⟨i3, c3⟩ := ihl _ _ i2 hAl
      have hall : ∀ x ∈ leaves (Value.And id l r),
          x ∈ visitedAfter l (visitedAfter r (Vs ++ [Value.And id l r])) := by
        intro x hx
        simp only [leaves, List.mem_append] at hx
        rcases hx with h | h
        · exact visitedAfter_subset l _ (c2 x h)
        · exact c3 x h
      refine ⟨?_, hall⟩
      intro u hu
      rcases i3 u hu with h | h
      · rcases List.mem_cons.mp h with h1 | h1
        · subst h1; exact .inr hall
        · exact .inl h1
      · exact .inr h

/-- The distinct leaves are the leaves, each once. -/
theorem distinctLeaves_spec (Condition : Value) (hnodup : (visitedAfter Condition []).Nodup) :
    (distinctLeaves Condition).Nodup ∧
    (∀ v, v ∈ distinctLeaves Condition ↔ v ∈ leaves Condition) ∧
    (distinctLeaves Condition).length ≤ (leaves Condition).length := by
  have hmem : ∀ v, v ∈ distinctLeaves Condition ↔ v ∈ leaves Condition := by
    intro v
    unfold distinctLeaves
    rw [List.mem_filter]
    constructor
    · rintro ⟨h1, h2⟩
      have h3 : v.isAnd = false := by simpa using h2
      rcases mem_leaves_of_mem_visitedAfter Condition [] v h1 h3 with h | h
      · cases h
      · exact h
    · intro h
      exact ⟨(visitedAfter_complete Condition [] [] (by simp) (by simp)).2 v h,
        by simp [isAnd_of_mem_leaves Condition v h]⟩
  have hn : (distinctLeaves Condition).Nodup := hnodup.filter _
  exact ⟨hn, hmem, (List.subperm_of_subset hn (fun v hv => (hmem v).mp hv)).length_le⟩

/-! ### The new condition -/

theorem conjoin_some (Checks : List Value) :
    ∀ (Builder : IRBuilder) (LastCheck : Value),
      (widenGuardConditions.conjoin Builder (some LastCheck) Checks).1 =
        some (conjunctionFrom Builder.NextId LastCheck Checks) := by
  induction Checks with
  | nil => intro B a; rfl
  | cons c cs ih =>
    intro B a
    rw [widenGuardConditions.conjoin, ih]
    rfl

theorem conjoin_none (Builder : IRBuilder) (Checks : List Value) :
    (widenGuardConditions.conjoin Builder none Checks).1 =
      conjunction Builder.NextId Checks := by
  cases Checks with
  | nil => rfl
  | cons c cs =>
    rw [widenGuardConditions.conjoin, conjoin_some]
    rfl

/-- Only `icmp` leaves are widened, and the entries are as the claim says:
the leaf itself, or the widened condition of its range check. -/
theorem entries_forall2 (P : Pass) (X : SCEVExpander) (Ls : List Value) :
    ∀ n, List.Forall₂
      (fun leaf check =>
        (widens P leaf = false ∧ check = leaf) ∨
        (widens P leaf = true ∧ ∃ id Pred Op0 Op1 RC m,
          leaf = .ICmp id Pred Op0 Op1 ∧ parseLoopICmp P Pred Op0 Op1 = some RC ∧
          Widenable P RC ∧ check = widenedCheck P X m RC))
      Ls (entries P X n Ls) := by
  induction Ls with
  | nil => intro n; exact .nil
  | cons v vs ih =>
    intro n
    refine .cons ?_ (ih _)
    by_cases hw : widens P v = true
    · right
      cases v with
      | Other id => cases hw
      | And id l r => cases hw
      | ICmp id Pred Op0 Op1 =>
        obtain ⟨RC, hp, hW, he⟩ := widens_icmp hw X n
        exact ⟨hw, id, Pred, Op0, Op1, RC, n, rfl, hp, hW, he⟩
    · have hw1 : widens P v = false := by simpa using hw
      exact .inl ⟨hw1, entry_of_not_widens hw1 X n⟩

/-- The sample pass meets the assumption on the step of the latch induction
variable. -/
theorem samplePass_step_one :
    ∀ IV, samplePass.SE.getPostIncExpr IV = samplePass.LatchCheck.IV →
      IV.Step.isOne = true := by
  intro IV h
  have hs : IV.Step = .Constant 1 := by
    have := congrArg SCEVAddRecExpr.Step h
    simp only [samplePass, sampleSE] at this
    split at this <;> exact this
  rw [hs]; rfl

/-- What `widenGuardConditions` returns, in terms of the distinct leaves of
the guard condition. -/
theorem widenGuardConditions_spec (P : Pass) (Guard : IntrinsicInst) (Expander : SCEVExpander)
    (NextId : Nat) (Inserted : List (InsertPoint × Value))
    (hone : ∀ IV, P.SE.getPostIncExpr IV = P.LatchCheck.IV → IV.Step.isOne = true)
    (hsize : (leaves Guard.Operand0).length < 2 ^ 32) :
    (distinctLeaves Guard.Operand0).Nodup ∧
    (∀ v, v ∈ distinctLeaves Guard.Operand0 ↔ v ∈ leaves Guard.Operand0) ∧
    (((distinctLeaves Guard.Operand0).countP (widens P) = 0 ∧
      ∃ E B, widenGuardConditions P Guard Expander NextId Inserted = .ok (false, Guard, E, B) ∧
        E.Expanded = Expander.Expanded ∧ B.Inserted = Inserted) ∨
     ((distinctLeaves Guard.Operand0).countP (widens P) ≠ 0 ∧
      ∃ V E B, widenGuardConditions P Guard Expander NextId Inserted =
          .ok (true, { Guard with Operand0 := V }, E, B) ∧
        conjunction (NextId + 3 * (distinctLeaves Guard.Operand0).countP (widens P))
          (entries P Expander NextId (distinctLeaves Guard.Operand0)) = some V)) := by
  obtain ⟨st, hI, hV, hd⟩ := doWhile_spec hone Guard.Operand0 []
    ⟨[], [], 0, Expander, ⟨.PreheaderTerminator, NextId, Inserted⟩⟩
    (LoopInvariant.initial P Expander NextId Inserted)
  simp only at hV
  have hnd : (visitedAfter Guard.Operand0 []).Nodup := hV ▸ hI.nodup
  obtain ⟨h1, h2, h3⟩ := distinctLeaves_spec Guard.Operand0 hnd
  have hL : st.Visited.filter (fun v => !v.isAnd) = distinctLeaves Guard.Operand0 := by
    rw [hV]; rfl
  have hk : (distinctLeaves Guard.Operand0).countP (widens P) < 2 ^ 32 :=
    Nat.lt_of_le_of_lt (Nat.le_trans (List.countP_le_length _) h3) hsize
  have hN : st.NumWidened = (distinctLeaves Guard.Operand0).countP (widens P) := by
    rw [hI.numWidened, hL]
    exact Nat.mod_eq_of_lt hk
  have hdo : widenGuardConditions.doWhile P Guard.Operand0 []
      ⟨[], [], 0, Expander, ⟨.PreheaderTerminator, NextId, Inserted⟩⟩ = .ok st := hd
  refine ⟨h1, h2, ?_⟩
  by_cases hz : (distinctLeaves Guard.Operand0).countP (widens P) = 0
  · left
    refine ⟨hz, st.Expander, st.Builder, ?_, ?_⟩
    · simp only [widenGuardConditions, hdo, hN, hz, if_true]
    · exact hI.nothing (hL ▸ hz)
  · right
    have hc : (widenGuardConditions.conjoin { st.Builder with InsertPt := .Guard } none
        st.Checks).1 =
        conjunction (NextId + 3 * (distinctLeaves Guard.Operand0).countP (widens P))
          (entries P Expander NextId (distinctLeaves Guard.Operand0)) := by
      rw [conjoin_none, hI.checks, hL]
      show conjunction st.Builder.NextId _ = _
      rw [hI.nextId, hL]
    have hne : entries P Expander NextId (distinctLeaves Guard.Operand0) ≠ [] := by
      intro he
      have hl := entries_length P Expander (distinctLeaves Guard.Operand0) NextId
      rw [he] at hl
      have : (distinctLeaves Guard.Operand0).countP (widens P) ≤ 0 := by
        have := @List.countP_le_length _ (widens P) (distinctLeaves Guard.Operand0)
        simp only [List.length_nil] at hl
        omega
      omega
    obtain ⟨V, hVc⟩ : ∃ V, conjunction
        (NextId + 3 * (distinctLeaves Guard.Operand0).countP (widens P))
        (entries P Expander NextId (distinctLeaves Guard.Operand0)) = some V := by
      cases he : entries P Expander NextId (distinctLeaves Guard.Operand0) with
      | nil => exact absurd he hne
      | cons c cs => exact ⟨_, rfl⟩
    refine ⟨hz, V, st.Expander,
      (widenGuardConditions.conjoin { st.Builder with InsertPt := .Guard } none st.Checks).2,
      ?_, hVc⟩
    have hpair : widenGuardConditions.conjoin { st.Builder with InsertPt := .Guard } none
        st.Checks = (some V,
          (widenGuardConditions.conjoin { st.Builder with InsertPt := .Guard } none
            st.Checks).2) := by
      rw [← hVc, ← hc]
    have hN0 : st.NumWidened ≠ 0 := by rw [hN]; exact hz
    simp only [widenGuardConditions, hdo, hN0, if_false]
    rw [hpair]

/-- A leaf is widened, in the words of the claim, exactly when
`widenICmpRangeCheck` returns a condition for it. -/
theorem widens_iff_returns {P : Pass}
    (hone : ∀ IV, P.SE.getPostIncExpr IV = P.LatchCheck.IV → IV.Step.isOne = true)
    (id : Nat) (Pred : Predicate) (Op0 Op1 : Value) (X : SCEVExpander) (B : IRBuilder) :
    widens P (.ICmp id Pred Op0 Op1) = true ↔
      ∃ V E B1, widenICmpRangeCheck P ⟨Pred, Op0, Op1⟩ X B = .ok (some V, E, B1) := by
  constructor
  · intro hw
    obtain ⟨RC, hp, hW, _⟩ := widens_icmp hw X B.NextId
    exact ⟨_, _, _, @widenICmpRangeCheck_of_widenable P ⟨Pred, Op0, Op1⟩ RC X B hp hW
      (hone RC.IV hW.2.1)⟩
  · rintro ⟨V, E, B1, h⟩
    by_cases hw : widens P (.ICmp id Pred Op0 Op1) = true
    · exact hw
    · have hw1 : widens P (.ICmp id Pred Op0 Op1) = false := by simpa using hw
      rw [@widenICmpRangeCheck_of_not_widenable P ⟨Pred, Op0, Op1⟩ X B hone
        (not_widenable_of_not_widens hw1)] at h
      cases h

/-- C36: `widenGuardConditions` on a guard whose condition has fewer than
`2^32` leaves (`NumWidened` is an `unsigned`), for a pass whose `must be one`
assertion holds.  It returns, and it returns true if and only if at least one
`icmp` leaf of the AND-tree of the guard condition is widened.  When it returns
false the guard is left unchanged and nothing was emitted.  When it returns
true the new condition operand is the conjunction of one entry per distinct
non-AND leaf of the tree: the distinct leaves have no repetition and are
exactly the leaves of the tree, and the entry of a leaf is its widened
condition if it is widened and the leaf itself otherwise.  A leaf is widened
exactly when `widenICmpRangeCheck` returns a condition for it. -/
theorem C36_widenGuardConditions_conjoins_one_entry_per_distinct_leaf
    (P : Pass) (Guard : IntrinsicInst) (Expander : SCEVExpander)
    (NextId : Nat) (Inserted : List (InsertPoint × Value))
    (hone : ∀ IV, P.SE.getPostIncExpr IV = P.LatchCheck.IV → IV.Step.isOne = true)
    (hsize : (leaves Guard.Operand0).length < 2 ^ 32) :
    ∃ changed G E B,
      widenGuardConditions P Guard Expander NextId Inserted = .ok (changed, G, E, B) ∧
      (changed = true ↔ ∃ v ∈ leaves Guard.Operand0, widens P v = true) ∧
      (changed = false → G = Guard ∧ E.Expanded = Expander.Expanded ∧ B.Inserted = Inserted) ∧
      (changed = true →
        conjunction (NextId + 3 * (distinctLeaves Guard.Operand0).countP (widens P))
          (entries P Expander NextId (distinctLeaves Guard.Operand0)) = some G.Operand0) ∧
      (distinctLeaves Guard.Operand0).Nodup ∧
      (∀ v, v ∈ distinctLeaves Guard.Operand0 ↔ v ∈ leaves Guard.Operand0) ∧
      List.Forall₂
        (fun leaf check =>
          (widens P leaf = false ∧ check = leaf) ∨
          (widens P leaf = true ∧ ∃ id Pred Op0 Op1 RC m,
            leaf = .ICmp id Pred Op0 Op1 ∧ parseLoopICmp P Pred Op0 Op1 = some RC ∧
            Widenable P RC ∧ check = widenedCheck P Expander m RC))
        (distinctLeaves Guard.Operand0)
        (entries P Expander NextId (distinctLeaves Guard.Operand0)) ∧
      (∀ (id : Nat) (Pred : Predicate) (Op0 Op1 : Value) (X : SCEVExpander) (B0 : IRBuilder),
        widens P (.ICmp id Pred Op0 Op1) = true ↔
          ∃ V E1 B1, widenICmpRangeCheck P ⟨Pred, Op0, Op1⟩ X B0 = .ok (some V, E1, B1)) := by
  obtain ⟨h1, h2, h3⟩ := widenGuardConditions_spec P Guard Expander NextId Inserted hone hsize
  have hany : (∃ v ∈ leaves Guard.Operand0, widens P v = true) ↔
      (distinctLeaves Guard.Operand0).countP (widens P) ≠ 0 := by
    rw [Nat.ne_zero_iff_zero_lt, List.countP_pos_iff]
    constructor
    · rintro ⟨v, hv, hw⟩; exact ⟨v, (h2 v).mpr hv, hw⟩
    · rintro ⟨v, hv, hw⟩; exact ⟨v, (h2 v).mp hv, hw⟩
  rcases h3 with ⟨hz, E, B, hr, hE, hB⟩ | ⟨hz, V, E, B, hr, hV⟩
  · refine ⟨false, Guard, E, B, hr, ?_, fun _ => ⟨rfl, hE, hB⟩, ?_, h1, h2,
      entries_forall2 P Expander _ NextId, widens_iff_returns hone⟩
    · constructor
      · intro h; cases h
      · intro h; exact absurd hz (hany.mp h)
    · intro h; cases h
  · refine ⟨true, { Guard with Operand0 := V }, E, B, hr, ?_, ?_, fun _ => hV, h1, h2,
      entries_forall2 P Expander _ NextId, widens_iff_returns hone⟩
    · exact ⟨fun _ => hany.mpr hz, fun _ => rfl⟩
    · intro h; cases h

/-- C36 at work: in the guard condition `(%c & %70) & (%70 & %c)` with the
range check `%c = i u< %4`, the two shared leaves give one entry each, and the
new condition is `((0 u< %4) & (%3 s<= %4)) & %70`. -/
theorem C36_witness :
    ∃ G E B, widenGuardConditions samplePass ⟨sampleCondition⟩ sampleExpander 10 [] =
        .ok (true, G, E, B) ∧
      G.Operand0 = .And 13
        (.And 12 (.ICmp 10 .ICMP_ULT (.Other 100) (.Other 4))
          (.ICmp 11 .ICMP_SLE (.Other 3) (.Other 4)))
        (.Other 70) := by
  obtain ⟨changed, G, E, B, h, hc, _, hG, _⟩ :=
    C36_widenGuardConditions_conjoins_one_entry_per_distinct_leaf samplePass ⟨sampleCondition⟩
      sampleExpander 10 [] samplePass_step_one (by decide)
  have hch : changed = true :=
    hc.mpr ⟨.ICmp 60 .ICMP_ULT (.Other 1) (.Other 4), by decide, by decide⟩
  subst hch
  have e : conjunction (10 + 3 * (distinctLeaves sampleCondition).countP (widens samplePass))
      (entries samplePass sampleExpander 10 (distinctLeaves sampleCondition)) =
      some (.And 13
        (.And 12 (.ICmp 10 .ICMP_ULT (.Other 100) (.Other 4))
          (.ICmp 11 .ICMP_SLE (.Other 3) (.Other 4)))
        (.Other 70)) := by decide
  exact ⟨G, E, B, h, Option.some.inj ((hG rfl).symm.trans e)⟩

end LoopPredication

namespace csv

theorem happens_before_loop_iff (a b : ThreadClock) (i n : Nat) :
    happens_before_loop a b i n = true ↔ ∀ j, i ≤ j → j < i + n → a.get j ≤ b.get j := by
  induction n generalizing i with
  | zero =>
    simp only [happens_before_loop, true_iff]
    intro j h1 h2
    omega
  | succ n ih =>
    simp only [happens_before_loop]
    by_cases h : a.get i > b.get i
    · simp only [h, if_true, Bool.false_eq_true, false_iff]
      intro hall
      have := hall i (Nat.le_refl _) (by omega)
      omega
    · simp only [h, if_false, ih]
      constructor
      · intro hall j h1 h2
        by_cases hj : j = i
        · subst hj; omega
        · exact hall j (by omega) (by omega)
      · intro hall j h1 h2
        exact hall j (by omega) (by omega)

theorem get_of_size_le (c : ThreadClock) {j : Nat} (h : c.size ≤ j) : c.get j = 0 := by
  unfold ThreadClock.get ThreadClock.size at *
  rw [List.getD_eq_getElem?_getD, List.getElem?_eq_none h]
  rfl

/-- The loop of `__happens_before` compares all entries. -/
theorem happens_before_iff (a b : ThreadClock) :
    __happens_before a b = true ↔ ∀ i, a.get i ≤ b.get i := by
  unfold __happens_before
  rw [happens_before_loop_iff]
  constructor
  · intro h i
    by_cases hi : i < max a.size b.size
    · exact h i (Nat.zero_le _) (by omega)
    · rw [get_of_size_le a (by omega), get_of_size_le b (by omega)]
  · intro h j _ _
    exact h j

/-- C24, what the code computes: `__happens_before(a, b)` returns true if and
only if `a[i] <= b[i]` for every index `i` (entries beyond a clock's size
reading as 0); no entry has to be strictly smaller. -/
theorem C24_happens_before_is_pointwise_le (a b : ThreadClock) :
    __happens_before a b = true ↔ ∀ i, a.get i ≤ b.get i :=
  happens_before_iff a b

/-- Counterexample to C24 as stated: `__happens_before` is reflexive. For the
clock `[1]` compared with itself it returns true although no entry of the first
clock is smaller than the entry of the second; and it returns true of every
clock compared with itself. -/
theorem C24_counterexample :
    __happens_before ⟨[1]⟩ ⟨[1]⟩ = true ∧
    (¬ ∃ j, (⟨[1]⟩ : ThreadClock).get j < (⟨[1]⟩ : ThreadClock).get j) ∧
    (∀ a : ThreadClock, __happens_before a a = true) := by
  refine ⟨by decide, ?_, ?_⟩
  · rintro ⟨j, hj⟩
    exact Nat.lt_irrefl _ hj
  · intro a
    rw [happens_before_iff]
    intro i
    exact Nat.le_refl _

end csv

namespace XRay

theorem trailingFunctionEnters_append_one (Memory : List Record) (r : Record) :
    trailingFunctionEnters (Memory ++ [r]) =
      if r.isFunctionEnter then trailingFunctionEnters Memory + 1 else 0 := by
  unfold trailingFunctionEnters
  rw [List.reverse_append, List.reverse_singleton, List.singleton_append, List.takeWhile_cons]
  split <;> simp

theorem trailingFunctionEnters_append_two (Memory : List Record) (a r : Record)
    (h : r.isFunctionEnter = false) : trailingFunctionEnters (Memory ++ [a, r]) = 0 := by
  have : Memory ++ [a, r] = (Memory ++ [a]) ++ [r] := by simp
  rw [this, trailingFunctionEnters_append_one, h]
  rfl

theorem applyAll_append_one (ops : List WriteOp) (op : WriteOp) (s : FDRState) :
    applyAll (ops ++ [op]) s = op.apply (applyAll ops s) := by
  simp [applyAll, List.foldl_append]

/-- The counter against the operations and the records, the operations being
given latest first. -/
theorem counter_invariant (rs : List WriteOp) (s0 : FDRState)
    (h0 : s0.TLD.NumConsecutiveFnEnters = 0) (hm : s0.Memory = []) :
    (applyAll rs.reverse s0).TLD.NumConsecutiveFnEnters = trailingEntries rs % 256 ∧
    trailingEntries rs ≤ trailingFunctionEnters (applyAll rs.reverse s0).Memory ∧
    ((∀ f d, WriteOp.writeFunctionRecord f d .LOG_ARGS_ENTRY ∉ rs) →
      trailingFunctionEnters (applyAll rs.reverse s0).Memory = trailingEntries rs) := by
  induction rs with
  | nil =>
    simp [applyAll, h0, hm, trailingEntries, trailingFunctionEnters]
  | cons op rs ih =>
    obtain ⟨i1, i2, i3⟩ := ih
    rw [List.reverse_cons, applyAll_append_one]
    generalize applyAll rs.reverse s0 = s at i1 i2 i3
    have hno : (∀ f d, WriteOp.writeFunctionRecord f d .LOG_ARGS_ENTRY ∉ op :: rs) →
        ∀ f d, WriteOp.writeFunctionRecord f d .LOG_ARGS_ENTRY ∉ rs :=
      fun h f d hmem => h f d (List.mem_cons_of_mem _ hmem)
    cases op with
    | writeFunctionRecord FuncId TSCDelta EntryType =>
      cases EntryType with
      | ENTRY =>
        simp only [WriteOp.apply, writeFunctionRecord, trailingEntries,
          trailingFunctionEnters_append_one, Record.isFunctionEnter, if_true]
        refine ⟨?_, by omega, fun h => by rw [i3 (hno h)]⟩
        rw [i1]
        omega
      | LOG_ARGS_ENTRY =>
        simp only [WriteOp.apply, writeFunctionRecord, trailingEntries,
          trailingFunctionEnters_append_one, Record.isFunctionEnter, if_true]
        refine ⟨by simp, Nat.zero_le _, fun h => ?_⟩
        exact absurd (List.mem_cons_self _ _) (h FuncId TSCDelta)
      | EXIT =>
        simp only [WriteOp.apply, writeFunctionRecord, trailingEntries,
          trailingFunctionEnters_append_one, Record.isFunctionEnter]
        simp
      | TAIL =>
        simp only [WriteOp.apply, writeFunctionRecord, trailingEntries]
        split <;> simp [trailingFunctionEnters_append_one, Record.isFunctionEnter]
      | CUSTOM_EVENT =>
        simp only [WriteOp.apply, writeFunctionRecord, trailingEntries]
        exact ⟨i1, i2, fun h => i3 (hno h)⟩
    | writeNewBufferPreamble Tid TS =>
      simp only [WriteOp.apply, writeNewBufferPreamble, trailingEntries]
      rw [trailingFunctionEnters_append_two _ _ (.WalltimeMarker _ _) rfl]
      simp
    | writeNewCPUIdMetadata CPU TSC =>
      simp only [WriteOp.apply, writeNewCPUIdMetadata, trailingEntries,
        trailingFunctionEnters_append_one, Record.isFunctionEnter]
      simp
    | writeEOBMetadata =>
      simp only [WriteOp.apply, writeEOBMetadata, trailingEntries,
        trailingFunctionEnters_append_one, Record.isFunctionEnter]
      simp
    | writeTSCWrapMetadata TSC =>
      simp only [WriteOp.apply, writeTSCWrapMetadata, trailingEntries,
        trailingFunctionEnters_append_one, Record.isFunctionEnter]
      simp

/-- The `uint64_t` difference, as computed by the code, is the difference of
the integers modulo `2 ^ 64`. -/
theorem delta_eq {TSC LastTSC : Nat} (h1 : TSC < 2 ^ 64) (h2 : LastTSC < 2 ^ 64) :
    ((TSC + 2 ^ 64 - LastTSC) % 2 ^ 64 : Nat) = (((TSC : Int) - LastTSC) % 2 ^ 64).toNat := by
  omega

/-- The test of `endBufferIfFull` holds exactly when the write pointer is at
the start of the buffer. -/
theorem endBuffer_test_iff {RecordPtr BufferStart : Nat} (h1 : RecordPtr < 2 ^ 64)
    (h2 : BufferStart < 2 ^ 64) :
    (((RecordPtr + MetadataRecSize : Nat) : Int) - BufferStart) % 2 ^ 64 = MetadataRecSize ↔
      RecordPtr = BufferStart := by
  unfold MetadataRecSize
  omega

/-- C25: `writeCurrentCPUTSC(TLD, TSC, CPU)` on the thread-local data. If `CPU`
differs from `TLD.CurrentCPU`, it writes exactly one `NewCPUId` metadata record
carrying `CPU` and the full `TSC` and returns 0. Otherwise, with
`Delta = (TSC - TLD.LastTSC) mod 2 ^ 64`: it writes nothing, changes nothing
and returns `Delta` when `Delta <= 2 ^ 32 - 1`, and it writes exactly one
`TSCWrap` metadata record carrying the full `TSC` and returns 0 when
`Delta > 2 ^ 32 - 1`. -/
theorem C25_writeCurrentCPUTSC_result
    (s : FDRState) (TSC CPU : Nat) (hTSC : TSC < 2 ^ 64) (hLast : s.TLD.LastTSC < 2 ^ 64) :
    (CPU ≠ s.TLD.CurrentCPU →
      (writeCurrentCPUTSC s TSC CPU).1 = 0 ∧
      (writeCurrentCPUTSC s TSC CPU).2.Memory = s.Memory ++ [.NewCPUId CPU TSC] ∧
      (writeCurrentCPUTSC s TSC CPU).2.TLD.RecordPtr = s.TLD.RecordPtr + MetadataRecSize) ∧
    (CPU = s.TLD.CurrentCPU → ((TSC : Int) - s.TLD.LastTSC) % 2 ^ 64 ≤ 2 ^ 32 - 1 →
      writeCurrentCPUTSC s TSC CPU =
        ((((TSC : Int) - s.TLD.LastTSC) % 2 ^ 64).toNat, s)) ∧
    (CPU = s.TLD.CurrentCPU → ((TSC : Int) - s.TLD.LastTSC) % 2 ^ 64 > 2 ^ 32 - 1 →
      (writeCurrentCPUTSC s TSC CPU).1 = 0 ∧
      (writeCurrentCPUTSC s TSC CPU).2.Memory = s.Memory ++ [.TSCWrap TSC] ∧
      (writeCurrentCPUTSC s TSC CPU).2.TLD.RecordPtr = s.TLD.RecordPtr + MetadataRecSize) := by
  have hd := delta_eq hTSC hLast
  refine ⟨?_, ?_, ?_⟩
  · intro h
    rw [writeCurrentCPUTSC, if_pos h]
    exact ⟨rfl, rfl, rfl⟩
  · intro h hle
    have hle1 : (TSC + 2 ^ 64 - s.TLD.LastTSC) % 2 ^ 64 ≤ 4294967295 := by omega
    have hne : ¬ CPU ≠ s.TLD.CurrentCPU := fun hh => hh h
    simp only [writeCurrentCPUTSC, if_neg hne, if_pos hle1, ← hd]
    congr 1
    omega
  · intro h hgt
    have hgt1 : ¬ (TSC + 2 ^ 64 - s.TLD.LastTSC) % 2 ^ 64 ≤ 4294967295 := by omega
    have hne : ¬ CPU ≠ s.TLD.CurrentCPU := fun hh => hh h
    have e : writeCurrentCPUTSC s TSC CPU = (0, writeTSCWrapMetadata TSC s) := by
      rw [writeCurrentCPUTSC, if_neg hne]
      exact if_neg hgt1
    rw [e]
    exact ⟨rfl, rfl, rfl⟩

/-- Witness of C25: on CPU 3 with last TSC 100, a TSC of 250 gives the delta
150 and writes nothing. -/
theorem C25_witness :
    writeCurrentCPUTSC
      ⟨{ ThreadLocalData.fresh ⟨4096, 64⟩ 4096 with CurrentCPU := 3, LastTSC := 100 }, []⟩
      250 3 =
      (150, ⟨{ ThreadLocalData.fresh ⟨4096, 64⟩ 4096 with CurrentCPU := 3, LastTSC := 100 }, []⟩) :=
  (C25_writeCurrentCPUTSC_result
    ⟨{ ThreadLocalData.fresh ⟨4096, 64⟩ 4096 with CurrentCPU := 3, LastTSC := 100 }, []⟩
    250 3 (by decide) (by decide)).2.1 rfl (by decide)

/-- C26, what the code does: for addresses below `2 ^ 64`, `endBufferIfFull`
changes nothing unless `RecordPtr` is at the start of the buffer, whatever
`Buffer.Size` is; when `RecordPtr` is at the start of the buffer and the
release succeeds, it writes the end-of-buffer record, releases the buffer and
sets `RecordPtr` to null. -/
theorem C26_endBufferIfFull_tests_for_the_buffer_start
    (queue : Nat → BufferQueue) (s : FDRState)
    (hp : s.TLD.RecordPtr < 2 ^ 64) (hb : s.TLD.Buffer.Buffer < 2 ^ 64) :
    (s.TLD.RecordPtr ≠ s.TLD.Buffer.Buffer → endBufferIfFull queue s = some s) ∧
    (s.TLD.RecordPtr = s.TLD.Buffer.Buffer → ∀ bq B, s.TLD.LocalBQ = some bq →
      (queue bq).releaseBuffer s.TLD.Buffer = (true, B) →
      endBufferIfFull queue s =
        some { TLD := { s.TLD with
                 Buffer := B, RecordPtr := 0, NumConsecutiveFnEnters := 0, NumTailCalls := 0 }
               Memory := s.Memory ++ [.EndOfBuffer] }) := by
  have ht := endBuffer_test_iff hp hb
  constructor
  · intro h
    have hn := fun hh => h (ht.mp hh)
    simp only [endBufferIfFull, if_neg hn]
  · intro h bq B hq hr
    simp only [endBufferIfFull, if_pos (ht.mpr h), writeEOBMetadata, hq,
      releaseThreadLocalBuffer, hr]
    rfl

/-- Witness of C26, what the code does: a buffer of 64 bytes whose write
pointer is 16 bytes in is left alone. -/
theorem C26_witness :
    endBufferIfFull (fun _ => ⟨fun _ => (true, ⟨0, 0⟩)⟩)
      ⟨{ ThreadLocalData.fresh ⟨4096, 64⟩ 4112 with LocalBQ := some 0 }, [.EndOfBuffer]⟩ =
      some ⟨{ ThreadLocalData.fresh ⟨4096, 64⟩ 4112 with LocalBQ := some 0 }, [.EndOfBuffer]⟩ :=
  (C26_endBufferIfFull_tests_for_the_buffer_start (fun _ => ⟨fun _ => (true, ⟨0, 0⟩)⟩)
    ⟨{ ThreadLocalData.fresh ⟨4096, 64⟩ 4112 with LocalBQ := some 0 }, [.EndOfBuffer]⟩
    (by decide) (by decide)).1 (by decide)

/-- Counterexample to C26: in a buffer of 64 bytes at address 4096, with the
write pointer at 4144 the space left is exactly one `MetadataRecord`
(`RecordPtr + MetadataRecSize = BufferStart + Buffer.Size`), yet
`endBufferIfFull` changes nothing; with the write pointer at 4096, where all
64 bytes are left, it writes the end-of-buffer record, releases the buffer and
sets `RecordPtr` to null. -/
theorem C26_counterexample :
    (4144 + MetadataRecSize = 4096 + 64 ∧
      endBufferIfFull (fun _ => ⟨fun _ => (true, ⟨0, 0⟩)⟩)
        ⟨{ ThreadLocalData.fresh ⟨4096, 64⟩ 4144 with LocalBQ := some 0 }, []⟩ =
        some ⟨{ ThreadLocalData.fresh ⟨4096, 64⟩ 4144 with LocalBQ := some 0 }, []⟩) ∧
    (4096 + MetadataRecSize < 4096 + 64 ∧
      endBufferIfFull (fun _ => ⟨fun _ => (true, ⟨0, 0⟩)⟩)
        ⟨{ ThreadLocalData.fresh ⟨4096, 64⟩ 4096 with LocalBQ := some 0 }, []⟩ =
        some ⟨{ ThreadLocalData.fresh ⟨0, 0⟩ 0 with LocalBQ := some 0 }, [.EndOfBuffer]⟩) := by
  refine ⟨⟨by decide, by decide⟩, by decide, by decide⟩

/-- The mask `~(0x0F << 28)` as a 32-bit pattern. -/
theorem funcIdMask_eq : ((2 ^ 32 - 1) ^^^ ((0x0F <<< 28) % 2 ^ 32) : Nat) = 2 ^ 28 - 1 := by
  decide

/-- Masking with `~(0x0F << 28)` is reduction modulo `2 ^ 28`. -/
theorem maskFuncId_eq (FuncId : Int) : maskFuncId FuncId = (FuncId % 2 ^ 28).toNat := by
  unfold maskFuncId
  rw [funcIdMask_eq, Nat.and_pow_two_sub_one_eq_mod, Nat.mod_mod]
  omega

/-- C37: `writeFunctionRecord` keeps only 28 bits of the function id.  The mask
`~(0x0F << 28)` is `0x0FFFFFFF`; the value stored in the `FuncId` field is the
32-bit two's-complement pattern of `FuncId` with its top four bits cleared,
that is `FuncId mod 2^28`; and every entry type that writes a record writes
this value, together with `TSCDelta`, as the last record. -/
theorem C37_function_record_keeps_28_bits_of_the_function_id
    (FuncId : Int) (TSCDelta : Nat) (EntryType : XRayEntryType) (s : FDRState) :
    ((2 ^ 32 - 1) ^^^ ((0x0F <<< 28) % 2 ^ 32) : Nat) = 0x0FFFFFFF ∧
    maskFuncId FuncId = (FuncId % 2 ^ 28).toNat ∧
    maskFuncId FuncId = (FuncId % 2 ^ 32).toNat % 2 ^ 28 ∧
    (∀ i : Nat, (maskFuncId FuncId).testBit i =
      (decide (i < 28) && ((FuncId % 2 ^ 32).toNat).testBit i)) ∧
    maskFuncId FuncId < 2 ^ 28 ∧
    (EntryType ≠ .CUSTOM_EVENT →
      ∃ kind, (writeFunctionRecord FuncId TSCDelta EntryType s).Memory =
        s.Memory ++ [.Function kind ((FuncId % 2 ^ 28).toNat) TSCDelta]) := by
  have h1 := maskFuncId_eq FuncId
  have h2 : maskFuncId FuncId = (FuncId % 2 ^ 32).toNat % 2 ^ 28 := by
    rw [h1]; omega
  refine ⟨by decide, h1, h2, ?_, ?_, ?_⟩
  · intro i
    rw [h2, Nat.testBit_mod_two_pow]
  · rw [h2]; exact Nat.mod_lt _ (by decide)
  · intro hE
    rw [← h1]
    cases EntryType with
    | ENTRY => exact ⟨_, rfl⟩
    | LOG_ARGS_ENTRY => exact ⟨_, rfl⟩
    | EXIT => exact ⟨_, rfl⟩
    | TAIL =>
      simp only [writeFunctionRecord]
      split <;> exact ⟨_, rfl⟩
    | CUSTOM_EVENT => exact absurd rfl hE

/-- C37 at work: the function id `-1` (all 32 bits set) is stored as
`0x0FFFFFFF`, and `0x12345678` as `0x02345678`. -/
theorem C37_witness :
    (writeFunctionRecord (-1) 5 .ENTRY (FDRState.mk (ThreadLocalData.fresh ⟨4096, 64⟩ 4096) [])).Memory =
      [.Function .FunctionEnter 0x0FFFFFFF 5] ∧
    maskFuncId 0x12345678 = 0x02345678 := by
  have h := (C37_function_record_keeps_28_bits_of_the_function_id 0x12345678 0 .ENTRY
    (FDRState.mk (ThreadLocalData.fresh ⟨4096, 64⟩ 4096) [])).2.1
  exact ⟨by decide, h.trans (by decide)⟩

/-- C27 does not hold as stated.  After 256 calls of `writeFunctionRecord` for
`ENTRY` on a fresh buffer, 256 `FunctionEnter` records immediately precede the
write pointer, but `NumConsecutiveFnEnters`, a `uint8_t` that is incremented
without a guard, is 0 again.  (Apart from that, a call for `LOG_ARGS_ENTRY`
writes a `FunctionEnter` record and resets the counter on purpose: after the
single such call the counter is 0 and one `FunctionEnter` record precedes the
pointer.) -/
theorem C27_counterexample :
    (applyAll (List.replicate 256 (.writeFunctionRecord 1 0 .ENTRY))
      ⟨ThreadLocalData.fresh ⟨4096, 4096⟩ 4096, []⟩).TLD.NumConsecutiveFnEnters = 0 ∧
    trailingFunctionEnters (applyAll (List.replicate 256 (.writeFunctionRecord 1 0 .ENTRY))
      ⟨ThreadLocalData.fresh ⟨4096, 4096⟩ 4096, []⟩).Memory = 256 ∧
    (applyAll [.writeFunctionRecord 1 0 .LOG_ARGS_ENTRY]
      ⟨ThreadLocalData.fresh ⟨4096, 64⟩ 4096, []⟩).TLD.NumConsecutiveFnEnters = 0 ∧
    trailingFunctionEnters (applyAll [.writeFunctionRecord 1 0 .LOG_ARGS_ENTRY]
      ⟨ThreadLocalData.fresh ⟨4096, 64⟩ 4096, []⟩).Memory = 1 := by
  have h := counter_invariant (List.replicate 256 (.writeFunctionRecord 1 0 .ENTRY))
    ⟨ThreadLocalData.fresh ⟨4096, 4096⟩ 4096, []⟩ rfl rfl
  rw [List.reverse_replicate] at h
  have ht : ∀ n, trailingEntries (List.replicate n (.writeFunctionRecord 1 0 .ENTRY)) = n := by
    intro n
    induction n with
    | zero => rfl
    | succ n ih => simp [List.replicate_succ, trailingEntries, ih]
  obtain ⟨h1, _, h3⟩ := h
  refine ⟨?_, ?_, by decide, by decide⟩
  · rw [h1, ht]
  · rw [h3 (fun f d hmem => by
      have := List.eq_of_mem_replicate hmem
      cases this), ht]

/-- C27: what `NumConsecutiveFnEnters` holds after any sequence of
record-writing operations on a fresh buffer.  The `uint8_t` counter holds the
low eight bits of the number of `writeFunctionRecord` calls for `ENTRY` made
since the last operation that wrote a record otherwise (a call for
`LOG_ARGS_ENTRY`, which resets the counter on purpose, included).  That number
never exceeds the number of `FunctionEnter` records immediately preceding the
write pointer and is equal to it when the sequence has no call for
`LOG_ARGS_ENTRY`.  So the counter is the number of `FunctionEnter` records
immediately preceding the write pointer, as the claim says, when no
`LOG_ARGS_ENTRY` record was written and fewer than 256 such records precede the
pointer; from 256 on it has lost count. -/
theorem C27_counter_counts_trailing_plain_entries
    (ops : List WriteOp) (B : Buffer) (RecordPtr : Nat) :
    (applyAll ops ⟨ThreadLocalData.fresh B RecordPtr, []⟩).TLD.NumConsecutiveFnEnters =
      trailingEntries ops.reverse % 256 ∧
    (applyAll ops ⟨ThreadLocalData.fresh B RecordPtr, []⟩).TLD.NumConsecutiveFnEnters ≤
      trailingFunctionEnters (applyAll ops ⟨ThreadLocalData.fresh B RecordPtr, []⟩).Memory ∧
    trailingEntries ops.reverse ≤
      trailingFunctionEnters (applyAll ops ⟨ThreadLocalData.fresh B RecordPtr, []⟩).Memory ∧
    ((∀ f d, WriteOp.writeFunctionRecord f d .LOG_ARGS_ENTRY ∉ ops) →
      trailingFunctionEnters (applyAll ops ⟨ThreadLocalData.fresh B RecordPtr, []⟩).Memory =
        trailingEntries ops.reverse) ∧
    ((∀ f d, WriteOp.writeFunctionRecord f d .LOG_ARGS_ENTRY ∉ ops) →
      trailingFunctionEnters
        (applyAll ops ⟨ThreadLocalData.fresh B RecordPtr, []⟩).Memory < 256 →
      (applyAll ops ⟨ThreadLocalData.fresh B RecordPtr, []⟩).TLD.NumConsecutiveFnEnters =
        trailingFunctionEnters
          (applyAll ops ⟨ThreadLocalData.fresh B RecordPtr, []⟩).Memory) := by
  have h := counter_invariant ops.reverse ⟨ThreadLocalData.fresh B RecordPtr, []⟩ rfl rfl
  rw [List.reverse_reverse] at h
  obtain ⟨h1, h2, h3⟩ := h
  have h4 : (∀ f d, WriteOp.writeFunctionRecord f d .LOG_ARGS_ENTRY ∉ ops) →
      trailingFunctionEnters (applyAll ops ⟨ThreadLocalData.fresh B RecordPtr, []⟩).Memory =
        trailingEntries ops.reverse :=
    fun hno => h3 (fun f d hmem => hno f d (List.mem_reverse.mp hmem))
  refine ⟨h1, ?_, h2, h4, ?_⟩
  · rw [h1]
    exact Nat.le_trans (Nat.mod_le _ _) h2
  · intro hno hlt
    rw [h1, h4 hno]
    rw [h4 hno] at hlt
    exact Nat.mod_eq_of_lt hlt

end XRay
